import Mathlib

/-!
# crow: shard bank, container and fp16 codec

A shallow embedding of the Go sources of `qrv0/crow` and theorems about it.

Conventions of the embedding.

* A byte is a natural number below 256; a byte slice is a `List Nat` (`Bytes`).
* `uint8`, `uint16`, `uint32` values are natural numbers; every conversion the source performs
  (`byte(..)`, `uint16(..)`, `uint32(..)`) is an explicit `% 2 ^ w`.
* Go's `int` is 64 bits wide.  Lengths and offsets of slices that are held in memory are natural
  numbers.  A product of sizes read from a header, which no slice in memory bounds, is the `int`
  product `mulInt` (modulo `2^64`, signed), and `make` tests it (`makeLen`).
* `float32` data is kept as its bit pattern where the source only moves it around, and is turned
  into a value by a map `F : Nat → α` (the meaning of `math.Float32frombits`) where the source
  computes with it.  `α` is a type with the operations the source uses (a zero, `+`, `-`, `*`,
  `/`, unary minus, and the order where the source compares).  Nothing is assumed of these
  operations, so a theorem stated for every such `α` holds for the rounded float32 and float64
  arithmetic, every operation rounded on its own (the build for amd64 does not fuse a product
  with a sum); where the source compares, `α` stands for the float values other than NaN.
  Examples are evaluated on `F32` and `F64` (finite values, round to nearest even); examples
  whose statement does not depend on rounding also use the exact values `f32fix` (integers in
  units of `2^-150`) or rational numbers.  `f32val` is the exact rational value of a finite bit
  pattern.
* A Go function returning `(.., error)` returns `Except Err _`; `Err.error` is a returned error,
  `Err.panic` a run-time panic (index out of range, integer division by zero).
* An index or slice expression is checked against the length of the slice.  Go checks a slice
  expression against the capacity, so where the embedding reports `Err.panic` for `p[a:b]` with
  `b > len(p)` the program panics or, with spare capacity, goes on with the bytes that follow.
  A run of the embedding that ends in `Except.ok` or `Err.error` made no such access.
-/

namespace Crow

/-! ## Results, bytes, little-endian fields -/

/-- What a call can end with other than its result: a returned `error` or a run-time panic.
The message is the format string of the source without its arguments (`"scope not found"` for
`fmt.Errorf("scope %d not found", scope)`). -/
inductive Err where
  | error (msg : String)
  | panic (msg : String)
  deriving DecidableEq, Repr

abbrev Res := Except Err

instance instDecidableEqExcept {ε α : Type} [DecidableEq ε] [DecidableEq α] :
    DecidableEq (Except ε α) := fun a b =>
  match a, b with
  | .ok x, .ok y => if h : x = y then isTrue (by rw [h]) else isFalse (fun h2 => h (by cases h2; rfl))
  | .error x, .error y =>
    if h : x = y then isTrue (by rw [h]) else isFalse (fun h2 => h (by cases h2; rfl))
  | .ok _, .error _ => isFalse (fun h => by cases h)
  | .error _, .ok _ => isFalse (fun h => by cases h)

abbrev Bytes := List Nat

/-- Every element is a byte. -/
def isBytes (p : Bytes) : Prop := ∀ b ∈ p, b < 256

instance (p : Bytes) : Decidable (isBytes p) := by unfold isBytes; infer_instance

/-- Go's `p[a:b]`, used where the source has checked `a <= b <= len(p)`. -/
def slice (p : Bytes) (a b : Nat) : Bytes := (p.drop a).take (b - a)

/-- The byte `p[i]`, used where the source has checked `i < len(p)`. -/
def byteAt (p : Bytes) (i : Nat) : Nat := p.getD i 0

/-- Value of `binary.LittleEndian.Uint16(p[off:])`. -/
def le16 (p : Bytes) (off : Nat) : Nat := byteAt p off + 256 * byteAt p (off + 1)

/-- Value of `binary.LittleEndian.Uint32(p[off:])`. -/
def le32 (p : Bytes) (off : Nat) : Nat :=
  byteAt p off + 256 * byteAt p (off + 1) + 65536 * byteAt p (off + 2)
    + 16777216 * byteAt p (off + 3)

/-- Value of `binary.LittleEndian.Uint64(p[off:])`. -/
def le64 (p : Bytes) (off : Nat) : Nat := le32 p off + 4294967296 * le32 p (off + 4)

/-- Bytes written for a `uint16` by `binary.Write(.., binary.LittleEndian, ..)`. -/
def putU16 (v : Nat) : Bytes := [v % 256, v / 256 % 256]

/-- Bytes written for a `uint32` by `binary.LittleEndian.PutUint32` and `binary.Write`. -/
def putU32 (v : Nat) : Bytes := [v % 256, v / 256 % 256, v / 65536 % 256, v / 16777216 % 256]

/-- Bytes written for a `uint64` by `binary.Write(.., binary.LittleEndian, ..)`. -/
def putU64 (v : Nat) : Bytes := putU32 (v % 4294967296) ++ putU32 (v / 4294967296 % 4294967296)

/-- Go's `int32(u)` for a `uint32` value `u`. -/
def toInt32 (u : Nat) : Int := if u < 2 ^ 31 then (u : Int) else (u : Int) - 2 ^ 32

/-- Go's product `a*b` of two non-negative `int` values on a 64-bit platform: the product
modulo `2^64`, read as a signed 64-bit number. -/
def mulInt (a b : Nat) : Int :=
  if a * b % 2 ^ 64 < 2 ^ 63 then ((a * b % 2 ^ 64 : Nat) : Int)
  else ((a * b % 2 ^ 64 : Nat) : Int) - 2 ^ 64

/-- The largest length of a `[]float32` that `make` grants: `maxAlloc / 4` for the
`maxAlloc = 2^48` bytes of the 64-bit runtime (48 address bits). -/
def maxLenF32 : Nat := 2 ^ 46

/-- The length check of `make([]float32, n)` for an `int` value `n`: a negative length and a
length above `maxLenF32` are the panic "makeslice: len out of range"; an allocation within the
limit is taken to succeed. -/
def makeLen (n : Int) : Res Nat :=
  if n < 0 ∨ n > (maxLenF32 : Int) then .error (.panic "makeslice: len out of range")
  else .ok n.toNat

/-- Bit pattern of an `int32` (the inverse of `toInt32`), as `binary.Write` stores it. -/
def ofInt32 (i : Int) : Nat := (i % 2 ^ 32).toNat

/-! ## fp16 codec -/

/-- `internal/convert.fp32to16` on the bit pattern `u = math.Float32bits(f)` of its argument:
the two little-endian bytes of the half-precision pattern. -/
def fp32to16 (u : Nat) : Bytes :=
  let sign := (u >>> 31) &&& 0x1
  let exp := (u >>> 23) &&& 0xFF
  let mant := u &&& 0x7FFFFF
  let h : Nat :=
    if exp = 0 then (sign <<< 15) % 2 ^ 16
    else if exp = 0xFF then ((sign <<< 15) ||| (0x1F <<< 10)) % 2 ^ 16
    else
      let e : Int := (exp : Int) - 127 + 15
      if e ≤ 0 then (sign <<< 15) % 2 ^ 16
      else if e ≥ 0x1F then ((sign <<< 15) ||| (0x1F <<< 10)) % 2 ^ 16
      else
        ((sign <<< 15) ||| (((e % 2 ^ 32).toNat &&& 0x1F) <<< 10)
          ||| ((mant >>> 13) &&& 0x3FF)) % 2 ^ 16
  [(h &&& 0xFF) % 256, (h >>> 8) % 256]

/-- The renormalising loop of `fp16to32`, `for (m2 & (1<<23)) == 0 { m2 <<= 1; e2-- }`, on
`uint32` values, run for at most `fuel` iterations; `none` when the budget is used up. -/
def normLoop : Nat → Nat → Nat → Option (Nat × Nat)
  | fuel, m2, e2 =>
    if m2 &&& (1 <<< 23) ≠ 0 then some (m2, e2)
    else
      match fuel with
      | 0 => none
      | f + 1 => normLoop f ((m2 <<< 1) % 2 ^ 32) ((e2 + (2 ^ 32 - 1)) % 2 ^ 32)

/-- Bit pattern of the float32 that `fp16to32` returns for the half-precision pattern `h`.
The loop is given 32 iterations, more than a 10-bit mantissa can need (`normLoop_fuel`). -/
def fp16to32bits (h : Nat) : Nat :=
  let s := (h >>> 15) &&& 0x1
  let e := (h >>> 10) &&& 0x1F
  let m := h &&& 0x3FF
  if e = 0 then
    if m = 0 then (s <<< 31) % 2 ^ 32
    else
      match normLoop 32 ((m <<< 13) % 2 ^ 32) (127 - 15 + 1) with
      | some (m2, e2) =>
        ((s <<< 31) ||| (e2 <<< 23) ||| (m2 &&& ((1 <<< 23) - 1))) % 2 ^ 32
      | none => 0
  else if e = 0x1F then ((s <<< 31) ||| (0xFF <<< 23) ||| (m <<< 13)) % 2 ^ 32
  else
    let e2 := (e + 2 ^ 32 - 15 + 127) % 2 ^ 32
    ((s <<< 31) ||| (e2 <<< 23) ||| (m <<< 13)) % 2 ^ 32

/-- The `uint16` read back from two stored bytes, `uint16(p[off]) | uint16(p[off+1])<<8`. -/
def readHalf (p : Bytes) (off : Nat) : Nat :=
  (byteAt p off ||| (byteAt p (off + 1) <<< 8)) % 2 ^ 16

/-- Encode a float32 bit pattern to half precision and decode it again. -/
def fp16RoundTrip (u : Nat) : Nat := fp16to32bits (readHalf (fp32to16 u) 0)

/-- A float32 bit pattern is finite when its exponent field is not 255. -/
def f32finite (u : Nat) : Prop := u / 2 ^ 23 % 256 ≠ 255

instance (u : Nat) : Decidable (f32finite u) := by unfold f32finite; infer_instance

/-- Magnitude of the float32 with bit pattern `u`, in units of `2^-150`: with exponent field `e`
and mantissa `m` it is `2 * m` when `e = 0` (a subnormal, `m * 2^-149`) and
`(2^23 + m) * 2^e` otherwise (`(1 + m/2^23) * 2^(e-127)`). -/
def f32mag (u : Nat) : Nat :=
  if u / 2 ^ 23 % 256 = 0 then 2 * (u % 2 ^ 23) else (2 ^ 23 + u % 2 ^ 23) * 2 ^ (u / 2 ^ 23 % 256)

/-- Exact value of the finite float32 with bit pattern `u`: the magnitude `f32mag u * 2^-150`
with the sign of bit 31.  (On exponent field 255, an infinity or NaN, the same formula is used
and has no meaning.) -/
def f32val (u : Nat) : ℚ :=
  if u / 2 ^ 31 % 2 = 1 then -((f32mag u : ℚ) / 2 ^ 150) else (f32mag u : ℚ) / 2 ^ 150

/-! ## Shard bank -/

/-- Header of a framed shard (`ShardHeader`); `Typ` is the field `Type`. -/
structure ShardHeader where
  Typ : Nat
  Scope : Nat
  Comp : Nat
  Usize : Nat
  Csize : Nat
  deriving DecidableEq, Repr

/-- One record of the bank index (`BankRec`). -/
structure BankRec where
  Offset : Nat
  Hdr : ShardHeader
  deriving DecidableEq, Repr

/-- Framing of one shard, `packShard(t, scope, payload)`: the 12-byte header
`type:u8, scope:u16, comp:u8 = 0, usize:u32, csize:u32` followed by the payload. -/
def packShard (t scope : Nat) (payload : Bytes) : Bytes :=
  [t, (scope &&& 0xFF) % 256, (scope >>> 8) % 256, 0]
    ++ putU32 (payload.length % 2 ^ 32) ++ putU32 (payload.length % 2 ^ 32) ++ payload

/-- The loop of `IndexShardBank` from offset `off` on.  Every iteration moves `off` forward by
at least 12, so `fuel = len(bank) + 1` iterations are never used up (`indexLoop_fuel`). -/
def indexLoop (bank : Bytes) : Nat → Nat → List BankRec
  | 0, _ => []
  | fuel + 1, off =>
    if off + 12 ≤ bank.length then
      let h : ShardHeader :=
        { Typ := byteAt bank (off + 0)
          Scope := (byteAt bank (off + 1) ||| (byteAt bank (off + 2) <<< 8)) % 2 ^ 16
          Comp := byteAt bank (off + 3)
          Usize := le32 bank (off + 4)
          Csize := le32 bank (off + 8) }
      let off := off + 12
      if off + h.Csize > bank.length then []
      else { Offset := off, Hdr := h } :: indexLoop bank fuel (off + h.Csize)
    else []

/-- `IndexShardBank(bank)`; its error result is always nil. -/
def IndexShardBank (bank : Bytes) : Res (List BankRec) :=
  .ok (indexLoop bank (bank.length + 1) 0)

/-- The 12 header bytes of a shard header in the bank layout
`type:u8, scope:u16, comp:u8, usize:u32, csize:u32` (little-endian). -/
def headerBytes (h : ShardHeader) : Bytes :=
  [h.Typ, h.Scope % 256, h.Scope / 256 % 256, h.Comp] ++ putU32 h.Usize ++ putU32 h.Csize

/-- A record re-framed from the bank: its header followed by `bank[Offset : Offset+Csize]`. -/
def frameRecord (bank : Bytes) (r : BankRec) : Bytes :=
  headerBytes r.Hdr ++ slice bank r.Offset (r.Offset + r.Hdr.Csize)

/-- A shard as `ConvertLayer` hands it to `packShard`: type, scope and payload. -/
structure Shard where
  Typ : Nat
  Scope : Nat
  Data : Bytes
  deriving DecidableEq, Repr

/-- The bank made of the framings of a list of shards, in order. -/
def bankOf (shards : List Shard) : Bytes :=
  (shards.map (fun s => packShard s.Typ s.Scope s.Data)).flatten

/-- The records expected for a list of shards framed from offset `off` on. -/
def recordsOf : List Shard → Nat → List BankRec
  | [], _ => []
  | s :: rest, off =>
    { Offset := off + 12
      Hdr := { Typ := s.Typ, Scope := s.Scope, Comp := 0,
               Usize := s.Data.length, Csize := s.Data.length } }
      :: recordsOf rest (off + 12 + s.Data.length)

/-! ## Container writer and reader (`internal/fileformat`) -/

/-- The external compressors: `zstdEncode`, `zstdDecode`, `lz4Encode`, `lz4Decode`. -/
structure Codec where
  zstdEncode : Bytes → Res Bytes
  zstdDecode : Bytes → Res Bytes
  lz4Encode : Bytes → Res Bytes
  lz4Decode : Bytes → Res Bytes

/-- One section handed to `Writer.AddSection`. -/
structure Section where
  TypeID : Nat
  Data : Bytes
  Flags : Nat
  deriving DecidableEq, Repr

/-- One record of the table of contents (`tocEntry`, and `rec` in `Writer.Write`). -/
structure TocEntry where
  TypeID : Nat
  Offset : Nat
  Size : Nat
  Flags : Nat
  deriving DecidableEq, Repr

def magic : Bytes := [67, 65, 87, 83, 70, 0, 0, 0]

def FlagCompZSTD : Nat := 1 <<< 0

def FlagCompLZ4 : Nat := 1 <<< 1

/-- `alignUp(x, a)`. -/
def alignUp (x a : Nat) : Nat :=
  let r := x % a
  if r = 0 then x else x + (a - r)

/-- A file being written: its content and the position of the next write. -/
structure File where
  data : Bytes
  pos : Nat
  deriving DecidableEq, Repr

/-- `f.Write(b)`: the bytes replace the content at the current position; a position past the
end leaves a gap of zero bytes, and an empty write changes nothing. -/
def File.write (f : File) (b : Bytes) : File :=
  if b.length = 0 then f
  else
    { data := (f.data ++ List.replicate (f.pos - f.data.length) 0).take f.pos ++ b
                ++ f.data.drop (f.pos + b.length)
      pos := f.pos + b.length }

/-- `f.Seek(off, io.SeekStart)`. -/
def File.seek (f : File) (off : Nat) : File := { f with pos := off }

/-- The stored payload of one section in `Writer.Write`: compressed as its flags ask. -/
def encodeSection (c : Codec) (s : Section) : Res Bytes :=
  if s.Flags &&& FlagCompZSTD ≠ 0 then c.zstdEncode s.Data
  else if s.Flags &&& FlagCompLZ4 ≠ 0 then c.lz4Encode s.Data
  else .ok s.Data

/-- The first loop of `Writer.Write`: the stored payloads of all sections, or the first
compressor error. -/
def preparePayloads (c : Codec) : List Section → Res (List Bytes)
  | [] => .ok []
  | s :: rest => do
    let data ← encodeSection c s
    let ps ← preparePayloads c rest
    pure (data :: ps)

/-- The loop of `Writer.Write` that fills `recs`, started at `offset`:
`recs[i] = rec(TypeID, offset, len(data), Flags); offset = alignUp(offset+len(data), 4096)`. -/
def tocLoop : List Section → List Bytes → Nat → List TocEntry
  | s :: rest, data :: ps, offset =>
    { TypeID := s.TypeID, Offset := offset, Size := data.length, Flags := s.Flags }
      :: tocLoop rest ps (alignUp (offset + data.length) 4096)
  | _, _, _ => []

/-- The table of contents `Writer.Write` computes for `num` sections with the given stored
payloads. -/
def tocOf (sections : List Section) (payloads : List Bytes) : List TocEntry :=
  tocLoop sections payloads (alignUp (8 + 12 + 24 * sections.length) 4096)

/-- The 24 bytes `binary.Write` stores for one TOC record. -/
def tocEntryBytes (r : TocEntry) : Bytes :=
  putU32 r.TypeID ++ putU64 r.Offset ++ putU64 r.Size ++ putU32 r.Flags

/-- The loop of `Writer.Write` that seeks to each section offset and writes the payload. -/
def writeSections : List TocEntry → List Bytes → File → File
  | r :: recs, p :: ps, f => writeSections recs ps ((f.seek r.Offset).write p)
  | _, _, f => f

/-- `Writer.Write`: the content of the file written for the sections added so far.  File
operations are taken to succeed; an empty writer panics on `recs[0]`. -/
def Writer.Write (c : Codec) (sections : List Section) : Res Bytes := do
  let payloads ← preparePayloads c sections
  let f : File := { data := [], pos := 0 }
  let f := f.write magic
  let f := f.write (putU32 1 ++ putU32 (sections.length % 2 ^ 32) ++ putU32 0)
  let recs := tocOf sections payloads
  let f := f.write (recs.map tocEntryBytes).flatten
  let cur := f.pos
  match recs with
  | [] => throw (.panic "index out of range")
  | r0 :: _ =>
    let first := r0.Offset
    let f := if cur < first then f.write (List.replicate (first - cur) 0) else f
    let f := writeSections recs payloads f
    pure f.data

/-- An open container (`Reader`): the file content and the parsed TOC. -/
structure Reader where
  file : Bytes
  TOC : List TocEntry
  deriving DecidableEq, Repr

/-- The loop of `OpenCAWSF` reading `num` TOC records of 24 bytes from offset `off`. -/
def readToc (file : Bytes) : Nat → Nat → Res (List TocEntry)
  | 0, _ => .ok []
  | num + 1, off =>
    if off + 24 > file.length then .error (.error "unexpected EOF")
    else do
      let rest ← readToc file num (off + 24)
      pure ({ TypeID := le32 file off, Offset := le64 file (off + 4),
              Size := le64 file (off + 12), Flags := le32 file (off + 20) } :: rest)

/-- `OpenCAWSF` on a file with the given content. -/
def OpenCAWSF (file : Bytes) : Res Reader :=
  if file.length < 8 then .error (.error "unexpected EOF")
  else if slice file 0 8 ≠ magic then .error (.error "not a CAWSF file")
  else if file.length < 20 then .error (.error "unexpected EOF")
  else do
    let num := le32 file 12
    let toc ← readToc file num 20
    pure { file := file, TOC := toc }

/-- `r.f.ReadAt(buf, off)` for a buffer of `size` bytes: an empty buffer reads nothing, a
negative `int64` offset or a read past the end is an error. -/
def readAt (file : Bytes) (size off : Nat) : Res Bytes :=
  if off ≥ 2 ^ 63 then .error (.error "negative offset")
  else if size = 0 then .ok []
  else if off + size ≤ file.length then .ok (slice file off (off + size))
  else .error (.error "EOF")

/-- `Reader.SectionUncompressed` over the remaining TOC entries. -/
def sectionUncompressedLoop (c : Codec) (file : Bytes) (typeID : Nat) :
    List TocEntry → Res Bytes
  | [] => .error (.error "section not found")
  | e :: rest =>
    if e.TypeID ≠ typeID then sectionUncompressedLoop c file typeID rest
    else do
      let buf ← readAt file e.Size e.Offset
      if e.Flags &&& FlagCompZSTD ≠ 0 then c.zstdDecode buf
      else if e.Flags &&& FlagCompLZ4 ≠ 0 then c.lz4Decode buf
      else pure buf

/-- `Reader.SectionUncompressed(typeID)`. -/
def Reader.SectionUncompressed (c : Codec) (r : Reader) (typeID : Nat) : Res Bytes :=
  sectionUncompressedLoop c r.file typeID r.TOC

/-- Each decoder inverts its encoder, and the encoders do not fail. -/
def Codec.inverts (c : Codec) : Prop :=
  (∀ x, ∃ y, c.zstdEncode x = .ok y ∧ c.zstdDecode y = .ok x) ∧
  (∀ x, ∃ y, c.lz4Encode x = .ok y ∧ c.lz4Decode y = .ok x)

/-- A codec that stores data unchanged (a stand-in for the external compressors). -/
def Codec.store : Codec :=
  { zstdEncode := fun x => .ok x, zstdDecode := fun x => .ok x,
    lz4Encode := fun x => .ok x, lz4Decode := fun x => .ok x }

/-! ## Shard decoders (`internal/cawsf/reconstruct.go`) -/

/-- The loop `for i := 0; i < n; i++ { body }` over a state, stopping at the first error. -/
def loopM {σ : Type} (n : Nat) (body : Nat → σ → Res σ) (init : σ) : Res σ :=
  (List.range n).foldlM (fun s i => body i s) init

/-- The assignment `l[i] = v`; out of range is a panic. -/
def setAt {α : Type} (l : List α) (i : Nat) (v : α) : Res (List α) :=
  if i < l.length then .ok (l.set i v) else .error (.panic "index out of range")

/-- The read `l[i]`; out of range is a panic. -/
def getAt {α : Type} (l : List α) (i : Nat) : Res α :=
  match l[i]? with
  | some v => .ok v
  | none => .error (.panic "index out of range")

/-- The update `l[i] += v`; out of range is a panic. -/
def addAt {α : Type} [Add α] (l : List α) (i : Nat) (v : α) : Res (List α) :=
  match l[i]? with
  | some a => .ok (l.set i (a + v))
  | none => .error (.panic "index out of range")

/-- The result of `copy(mat, flat[:min(need, len(flat))])` on a zeroed `mat` of length `need`
(the length is checked where `mat` is made, see `finishR` and `finishPool`). -/
def copyInto {α : Type} [Zero α] (need : Nat) (flat : List α) : List α :=
  flat.take need ++ List.replicate (need - flat.length) 0

/-- `decompressShard(comp, data)`: 0 raw, 1 zstd, 2 lz4. -/
def decompressShard (c : Codec) (comp : Nat) (data : Bytes) : Res Bytes :=
  if comp = 0 then .ok data
  else if comp = 1 then c.zstdDecode data
  else if comp = 2 then c.lz4Decode data
  else .error (.error "unknown shard comp")

/-- One shared codebook (`CodebookEntry`). -/
structure CodebookEntry (α : Type) where
  ID : Nat
  D : Nat
  M : Nat
  K : Nat
  Data : List α

/-- `CodebookPool`: the map `Entries` as its list of insertions, the latest first. -/
structure CodebookPool (α : Type) where
  Entries : List (Nat × CodebookEntry α)

/-- The map read `pool.Entries[id]`. -/
def CodebookPool.find {α : Type} (pool : CodebookPool α) (id : Nat) : Option (CodebookEntry α) :=
  pool.Entries.lookup id

/-- The map write `pool.Entries[id] = e`. -/
def CodebookPool.insert {α : Type} (pool : CodebookPool α) (id : Nat) (e : CodebookEntry α) :
    CodebookPool α :=
  { Entries := (id, e) :: pool.Entries }

/-- The loop of `ParseCodebookPool` over the `cnt` entries still to be read from offset `off`. -/
def parseEntries {α : Type} (F : Nat → α) (b : Bytes) :
    Nat → Nat → CodebookPool α → Res (CodebookPool α)
  | 0, _, pool => .ok pool
  | cnt + 1, off, pool =>
    if off + 12 > b.length then .error (.error "codebooks: short entry header")
    else
      let id := le16 b off
      let d := le16 b (off + 2)
      let m := le16 b (off + 4)
      let k := le16 b (off + 6)
      let size := le32 b (off + 8)
      let off := off + 12
      if off + size > b.length then .error (.error "codebooks: short data")
      else
        let dataBytes := slice b off (off + size)
        let off := off + size
        if size % 4 ≠ 0 then .error (.error "codebooks: size not multiple of 4")
        else
          let vals := (List.range (size / 4)).map (fun j => F (le32 dataBytes (j * 4)))
          parseEntries F b cnt off (pool.insert id { ID := id, D := d, M := m, K := k, Data := vals })

/-- `ParseCodebookPool(b)`. -/
def ParseCodebookPool {α : Type} (F : Nat → α) (b : Bytes) : Res (CodebookPool α) :=
  if b.length = 0 then .ok { Entries := [] }
  else if b.length < 2 then .error (.error "codebooks: short header")
  else parseEntries F b (le16 b 0) 2 { Entries := [] }

/-- The loop of `readFP16WithShape` over the `n` values still to be read from offset `off`. -/
def readFP16Loop {α : Type} (F : Nat → α) (p : Bytes) : Nat → Nat → Res (List α)
  | 0, _ => .ok []
  | n + 1, off =>
    if off + 2 > p.length then .error (.error "short fp16 data")
    else do
      let rest ← readFP16Loop F p n (off + 2)
      pure (F (fp16to32bits (readHalf p off)) :: rest)

/-- `readFP16WithShape(p)`: `(rows, cols, out)`.  The array `out = make([]float32, rows*cols)`
is made before any value is read. -/
def readFP16WithShape {α : Type} (F : Nat → α) (p : Bytes) : Res (Nat × Nat × List α) :=
  if p.length < 8 then .error (.error "short fp16 payload")
  else do
    let rows := le32 p 0
    let cols := le32 p 4
    let n ← makeLen (mulInt rows cols)
    let out ← readFP16Loop F p n 8
    pure (rows, cols, out)

/-- The first loop of `decodeS`: `n` index pairs from offset `pos`. -/
def decodeSIdx (p : Bytes) : Nat → Nat → Res (List (Int × Int))
  | 0, _ => .ok []
  | n + 1, pos =>
    if pos + 8 > p.length then .error (.error "short S indices")
    else do
      let rest ← decodeSIdx p n (pos + 8)
      pure ((toInt32 (le32 p pos), toInt32 (le32 p (pos + 4))) :: rest)

/-- The second loop of `decodeS`: `n` values from offset `pos`. -/
def decodeSVals {α : Type} (F : Nat → α) (p : Bytes) : Nat → Nat → Res (List α)
  | 0, _ => .ok []
  | n + 1, pos =>
    if pos + 4 > p.length then .error (.error "short S values")
    else do
      let rest ← decodeSVals F p n (pos + 4)
      pure (F (le32 p pos) :: rest)

/-- `decodeS(p)`: `(rows, cols, idx, vals)`. -/
def decodeS {α : Type} (F : Nat → α) (p : Bytes) :
    Res (Nat × Nat × List (Int × Int) × List α) :=
  if p.length < 12 then .error (.error "short S payload")
  else do
    let rows := le32 p 0
    let cols := le32 p 4
    let n := le32 p 8
    let idx ← decodeSIdx p n 12
    let vals ← decodeSVals F p n (12 + 8 * n)
    pure (rows, cols, idx, vals)

/-- The last lines of `decodeR`: `need := rows*cols`, `flat = flat[:min(need, len(flat))]`,
`mat = make([]float32, need)`, `copy(mat, flat)`.  A negative `need` fails at the slice
expression, a `need` above the limit at `make`. -/
def finishR {α : Type} [Zero α] (rows cols : Nat) (blocks : List α) : Res (List α) :=
  if mulInt rows cols < 0 then .error (.panic "slice bounds out of range")
  else do
    let need ← makeLen (mulInt rows cols)
    pure (copyInto need blocks)

/-- The last lines of `decodeRWithPool`: `need := rows*cols`, `mat := make([]float32, need)`,
`copy(mat, blocks[:min(need, len(blocks))])`. -/
def finishPool {α : Type} [Zero α] (rows cols : Nat) (blocks : List α) : Res (List α) := do
  let need ← makeLen (mulInt rows cols)
  pure (copyInto need blocks)

/-- The decode loops of `decodeR` over embedded codebook bytes `cb`, on
`blocks := make([]float32, n*d)`:
`blocks[r*d + i*dsub + j] = float32(cb[off:off+4])` with `off = (i*k + codes[r*m+i])*dsub*4 + j*4`. -/
def decodeBlocksEmbedded {α : Type} [Zero α] (F : Nat → α) (d m k n dsub : Nat)
    (cb codes : Bytes) : Res (List α) := do
  let len ← makeLen (mulInt n d)
  loopM m (fun i blocks =>
    loopM n (fun r blocks =>
      let idx := byteAt codes (r * m + i)
      let start := (i * k + idx) * dsub * 4
      loopM dsub (fun j blocks =>
        let off := start + j * 4
        if off + 4 > cb.length then .error (.panic "slice bounds out of range")
        else setAt blocks (r * d + i * dsub + j) (F (le32 cb off))) blocks) blocks)
    (List.replicate len 0)

/-- `decodeR(p)`: the pair `(rows, cols)` and either the matrix or the error (for a shared
payload the error is returned together with the shape read from the header). -/
def decodeR {α : Type} [Zero α] (F : Nat → α) (p : Bytes) : Nat × Nat × Res (List α) :=
  if p.length < 8 + 8 then (0, 0, .error (.error "short R payload"))
  else
    let rows := le32 p 0
    let cols := le32 p 4
    let d := le16 p 8
    let m := le16 p 10
    let k := le16 p 12
    if p.length < 18 then (0, 0, .error (.panic "slice bounds out of range"))
    else
      let n := le32 p 14
      if m = 0 then (0, 0, .error (.panic "integer divide by zero"))
      else
        let dsub := d / m
        if p.length ≥ 18 + 2 ∧ p.length - (18 + 2) = n * m then
          (rows, cols, .error (.error "R shard references shared codebook: external codebooks required"))
        else
          let cbSize := m * k * dsub * 4
          if 18 + cbSize > p.length then (0, 0, .error (.error "short codebooks"))
          else
            let cb := slice p 18 (18 + cbSize)
            let codes := p.drop (18 + cbSize)
            if codes.length ≠ n * m then (0, 0, .error (.error "codes size mismatch"))
            else
              match decodeBlocksEmbedded F d m k n dsub cb codes with
              | .error e => (0, 0, .error e)
              | .ok blocks =>
                match finishR rows cols blocks with
                | .error e => (0, 0, .error e)
                | .ok mat => (rows, cols, .ok mat)

/-- The decode loops of `decodeRWithPool` over the values `data` of a pool entry:
`blocks[r*d + i*dsub + j] = data[(i*k + codes[r*m+i])*dsub + j]`. -/
def decodeBlocksPool {α : Type} [Zero α] (d m k n dsub : Nat) (data : List α) (codes : Bytes) :
    Res (List α) := do
  let len ← makeLen (mulInt n d)
  loopM m (fun i blocks =>
    loopM n (fun r blocks =>
      let idx := byteAt codes (r * m + i)
      let start := (i * k + idx) * dsub
      loopM dsub (fun j blocks => do
        let v ← getAt data (start + j)
        setAt blocks (r * d + i * dsub + j) v) blocks) blocks)
    (List.replicate len 0)

/-- `decodeRWithPool(rows, cols, p, pool)`. -/
def decodeRWithPool {α : Type} [Zero α] (rows cols : Nat) (p : Bytes) (pool : CodebookPool α) :
    Res (List α) :=
  if p.length < 20 then .error (.error "short R payload (pool)")
  else
    let d := le16 p 8
    let m := le16 p 10
    let k := le16 p 12
    let n := le32 p 14
    let cbID := le16 p 18
    let codes := p.drop 20
    if codes.length ≠ n * m then .error (.error "codes size mismatch")
    else
      match pool.find cbID with
      | none => .error (.error "codebook id not found")
      | some entry =>
        if entry.M ≠ 0 ∧ entry.M ≠ m then .error (.error "codebook m mismatch")
        else if entry.K ≠ 0 ∧ entry.K ≠ k then .error (.error "codebook k mismatch")
        else if m = 0 then .error (.panic "integer divide by zero")
        else
          let dsub := d / m
          if entry.D ≠ 0 ∧ entry.D / m ≠ dsub then .error (.error "codebook d mismatch")
          else
            match decodeBlocksPool d m k n dsub entry.Data codes with
            | .error e => .error e
            | .ok blocks => finishPool rows cols blocks

/-! ## Reconstruction of a scope -/

/-- `addInPlace(dst, src)`: `for i := range src { dst[i] += src[i] }`. -/
def addInPlace {α : Type} [Add α] (dst src : List α) : Res (List α) :=
  loopM src.length (fun i dst =>
    match src[i]? with
    | some v => addAt dst i v
    | none => .error (.panic "index out of range")) dst

/-- The local variables of `ReconstructForScopeWithPool` that its loop over the records
updates; `L` and `D` are `none` while nil. -/
structure ReconState (α : Type) where
  L : Option (List α)
  D : Option (List α)
  R : List (List α)
  shapeRows : Nat
  shapeCols : Nat
  Sind : List (Int × Int)
  Sval : List α

/-- One iteration of the loop over `idx.Records` in `ReconstructForScopeWithPool`. -/
def reconStep {α : Type} [Zero α] (F : Nat → α) (c : Codec) (bank : Bytes)
    (pool : Option (CodebookPool α)) (scope : Nat) (st : ReconState α) (rec : BankRec) :
    Res (ReconState α) :=
  if rec.Hdr.Scope ≠ scope then .ok st
  else do
    let payloadRaw := slice bank rec.Offset (rec.Offset + rec.Hdr.Csize)
    let payload ← decompressShard c rec.Hdr.Comp payloadRaw
    match rec.Hdr.Typ with
    | 0 => do
      let (rows, cols, mat) ← readFP16WithShape F payload
      pure { st with shapeRows := rows, shapeCols := cols, L := some mat }
    | 3 => do
      let (rows, cols, mat) ← readFP16WithShape F payload
      pure { st with shapeRows := rows, shapeCols := cols, D := some mat }
    | 1 =>
      match decodeR F payload with
      | (rows, cols, .ok mat) =>
        pure { st with shapeRows := rows, shapeCols := cols, R := st.R ++ [mat] }
      | (_, _, .error (.panic msg)) => .error (.panic msg)
      | (rows, cols, .error (.error msg)) =>
        match pool with
        | some pool => do
          let mat2 ← decodeRWithPool rows cols payload pool
          pure { st with shapeRows := rows, shapeCols := cols, R := st.R ++ [mat2] }
        | none => .error (.error msg)
    | 2 => do
      let (r, c, sind, sval) ← decodeS F payload
      pure { st with shapeRows := r, shapeCols := c, Sind := sind, Sval := sval }
    | _ => pure st

/-- The S loop of `ReconstructForScopeWithPool`:
`data[int(ij[0])*shapeCols + int(ij[1])] += Sval[i]`. -/
def addSparse {α : Type} [Add α] (shapeCols : Nat) :
    List (Int × Int) → List α → List α → Res (List α)
  | [], _, data => .ok data
  | _ :: _, [], _ => .error (.panic "index out of range")
  | ij :: rest, v :: vals, data =>
    let flat : Int := ij.1 * shapeCols + ij.2
    if flat < 0 then .error (.panic "index out of range")
    else do
      let data ← addAt data flat.toNat v
      addSparse shapeCols rest vals data

/-- The statement `if src != nil { addInPlace(dst, src) }`. -/
def addInPlaceOpt {α : Type} [Add α] (dst : List α) (src : Option (List α)) : Res (List α) :=
  match src with
  | some l => addInPlace dst l
  | none => .ok dst

/-- The part of `ReconstructForScopeWithPool` after the loop over the records: the shape check
and `dst = L + D + sum of R + S`. -/
def reconAssemble {α : Type} [Zero α] [Add α] (st : ReconState α) : Res (Nat × Nat × List α) :=
  if st.shapeRows = 0 ∨ st.shapeCols = 0 then .error (.error "scope not found")
  else do
    let n ← makeLen (mulInt st.shapeRows st.shapeCols)
    let data : List α := List.replicate n 0
    let data ← addInPlaceOpt data st.L
    let data ← addInPlaceOpt data st.D
    let data ← st.R.foldlM (fun data rr => addInPlace data rr) data
    let data ← addSparse st.shapeCols st.Sind st.Sval data
    pure (st.shapeRows, st.shapeCols, data)

/-- `ReconstructForScopeWithPool(bank, pool, scope)`: `(rows, cols, data)`. -/
def ReconstructForScopeWithPool {α : Type} [Zero α] [Add α] (F : Nat → α) (c : Codec)
    (bank : Bytes) (pool : Option (CodebookPool α)) (scope : Nat) : Res (Nat × Nat × List α) := do
  let idx ← IndexShardBank bank
  let st ← idx.foldlM (reconStep F c bank pool scope)
    { L := none, D := none, R := [], shapeRows := 0, shapeCols := 0, Sind := [], Sval := [] }
  reconAssemble st

/-- `ReconstructForScope(bank, scope)`: no codebook pool. -/
def ReconstructForScope {α : Type} [Zero α] [Add α] (F : Nat → α) (c : Codec)
    (bank : Bytes) (scope : Nat) : Res (Nat × Nat × List α) :=
  ReconstructForScopeWithPool F c bank none scope

/-! ## Streaming matvec (`internal/cawsf/linear.go`) -/

/-- The acceleration hooks `gpu_Available`, `gpu_MatVecF32`, `gpu_RPQMatVecF32` and
`gpu_SparseAddF32`.  A hook gets `y` and returns whether it handled the call together with the
`y` it leaves behind. -/
structure Gpu (α : Type) where
  Available : Bool
  MatVecF32 : List α → List α → Nat → Nat → List α → Bool × List α
  RPQMatVecF32 : List α → List α → Nat → Nat → Nat → Nat → Bytes → List α → Bool × List α
  SparseAddF32 : List α → Nat → Nat → List Int → List Int → List α → List α → Bool × List α

/-- The hooks of a build without the `cuda` tag (`linear.go`, lines 11 to 16): nothing is
available and every hook reports "not handled" without touching `y`. -/
def Gpu.off {α : Type} : Gpu α :=
  { Available := false
    MatVecF32 := fun y _ _ _ _ => (false, y)
    RPQMatVecF32 := fun y _ _ _ _ _ _ _ => (false, y)
    SparseAddF32 := fun y _ _ _ _ _ _ => (false, y) }

/-- The inner loop of `matvecFP16Add` for one row, `cols - j` columns to go: the row sum and the
next offset, or `none` when the data ends early (the function then returns). -/
def fp16RowLoop {α : Type} [Add α] [Mul α] (F : Nat → α) (data : Bytes) (x : List α) :
    Nat → Nat → Nat → α → Res (Option (α × Nat))
  | 0, _, off, s => .ok (some (s, off))
  | n + 1, j, off, s =>
    if off + 2 > data.length then .ok none
    else
      match x[j]? with
      | none => .error (.panic "index out of range")
      | some xj =>
        fp16RowLoop F data x n (j + 1) (off + 2) (s + F (fp16to32bits (readHalf data off)) * xj)

/-- The outer loop of `matvecFP16Add`, `rows - i` rows to go. -/
def matvecFP16Loop {α : Type} [Zero α] [Add α] [Mul α] (F : Nat → α) (cols : Nat) (data : Bytes)
    (x : List α) : Nat → Nat → Nat → List α → Res (List α)
  | 0, _, _, y => .ok y
  | n + 1, i, off, y => do
    match ← fp16RowLoop F data x cols 0 off 0 with
    | none => pure y
    | some (s, off2) =>
      let y ← addAt y i s
      matvecFP16Loop F cols data x n (i + 1) off2 y

/-- `matvecFP16Add(y, rows, cols, data, x)`: the `y` it leaves behind. -/
def matvecFP16Add {α : Type} [Zero α] [Add α] [Mul α] (F : Nat → α) (y : List α)
    (rows cols : Nat) (data : Bytes) (x : List α) : Res (List α) :=
  matvecFP16Loop F cols data x rows 0 0 y

/-- The parsing loop of `applySAddOptimized`, `n` triplets to go from offset `off`: per triplet
it reads `ri`, `ci` (8 bytes) and then `val` (4 bytes).  `none` when the payload ends early
(the function then returns without touching `y`). -/
def applySParse {α : Type} (F : Nat → α) (payload : Bytes) :
    Nat → Nat → Option (List (Int × Int × α))
  | 0, _ => some []
  | n + 1, off =>
    if off + 8 > payload.length then none
    else
      let ri := toInt32 (le32 payload off)
      let ci := toInt32 (le32 payload (off + 4))
      let off := off + 8
      if off + 4 > payload.length then none
      else
        match applySParse F payload n (off + 4) with
        | none => none
        | some rest => some ((ri, ci, F (le32 payload off)) :: rest)

/-- The fallback loop of `applySAddOptimized`: `y[r] += val[i] * x[c]` for the triplets whose
`r` and `c` are in range. -/
def applySLoop {α : Type} [Add α] [Mul α] (rows cols : Nat) (x : List α) :
    List (Int × Int × α) → List α → Res (List α)
  | [], y => .ok y
  | (r, c, v) :: rest, y =>
    if r < 0 ∨ r ≥ rows ∨ c < 0 ∨ c ≥ cols then applySLoop rows cols x rest y
    else do
      let xc ← getAt x c.toNat
      let y ← addAt y r.toNat (v * xc)
      applySLoop rows cols x rest y

/-- `applySAddOptimized(y, rows, cols, payload, x)`: the `y` it leaves behind. -/
def applySAddOptimized {α : Type} [Add α] [Mul α] (F : Nat → α) (gpu : Gpu α) (y : List α)
    (rows cols : Nat) (payload : Bytes) (x : List α) : Res (List α) :=
  if payload.length < 12 then .ok y
  else
    let n := le32 payload 8
    match applySParse F payload n 12 with
    | none => .ok y
    | some trip =>
      let hooked := gpu.SparseAddF32 y rows cols (trip.map (fun t => t.1))
        (trip.map (fun t => t.2.1)) (trip.map (fun t => t.2.2)) x
      if hooked.1 then .ok hooked.2
      else applySLoop rows cols x trip hooked.2

/-- The block loops of `applyRAddOptimized` for a shared codebook with values `data`:
`y[row] += data[base+j] * x[col]` with `flatIdx = r*d + i*dsub + j`, `row = flatIdx / cols`,
`col = flatIdx % cols`, for the rows in range. -/
def applyRSharedLoop {α : Type} [Add α] [Mul α] (rows cols d m k n dsub : Nat) (data : List α)
    (codes : Bytes) (x : List α) (y : List α) : Res (List α) :=
  loopM n (fun r y =>
    let startFlat := r * d
    loopM m (fun i y =>
      let idx := byteAt codes (r * m + i)
      let base := (i * k + idx) * dsub
      loopM dsub (fun j y =>
        let flatIdx := startFlat + i * dsub + j
        if cols = 0 then .error (.panic "integer divide by zero")
        else
          let row := flatIdx / cols
          let col := flatIdx % cols
          if row < rows then do
            let v ← getAt data (base + j)
            let xc ← getAt x col
            addAt y row (v * xc)
          else pure y) y) y) y

/-- The block loops of `applyRAddOptimized` for embedded codebook bytes `cb`:
`v = float32(cb[off:off+4])`, then `y[row] += v * x[col]` for the rows in range. -/
def applyREmbeddedLoop {α : Type} [Add α] [Mul α] (F : Nat → α) (rows cols d m k n dsub : Nat)
    (cb codes : Bytes) (x : List α) (y : List α) : Res (List α) :=
  loopM n (fun r y =>
    let startFlat := r * d
    loopM m (fun i y =>
      let idx := byteAt codes (r * m + i)
      let base := (i * k + idx) * dsub * 4
      loopM dsub (fun j y =>
        let off := base + j * 4
        if off + 4 > cb.length then .error (.panic "slice bounds out of range")
        else
          let v := F (le32 cb off)
          let flatIdx := startFlat + i * dsub + j
          if cols = 0 then .error (.panic "integer divide by zero")
          else
            let row := flatIdx / cols
            let col := flatIdx % cols
            if row < rows then do
              let xc ← getAt x col
              addAt y row (v * xc)
            else pure y) y) y) y

/-- `applyRAddOptimized(y, rows, cols, payload, x, pool)`: the `y` it leaves behind. -/
def applyRAddOptimized {α : Type} [Add α] [Mul α] (F : Nat → α) (gpu : Gpu α) (y : List α)
    (rows cols : Nat) (payload : Bytes) (x : List α) (pool : Option (CodebookPool α)) :
    Res (List α) :=
  if payload.length < 18 then .error (.error "short R payload")
  else
    let d := le16 payload 8
    let m := le16 payload 10
    let k := le16 payload 12
    let n := le32 payload 14
    if m = 0 then .error (.panic "integer divide by zero")
    else
      let dsub := d / m
      if payload.length ≥ 20 ∧ payload.length - (18 + 2) = n * m then
        match pool with
        | none => .error (.error "shared codebooks referenced but pool is nil")
        | some pl =>
          match pl.find (le16 payload 18) with
          | none => .error (.error "codebook id not found")
          | some entry =>
            let hooked := gpu.RPQMatVecF32 y entry.Data d m k n (payload.drop 20) x
            if hooked.1 then .ok hooked.2
            else applyRSharedLoop rows cols d m k n dsub entry.Data (payload.drop 20) x hooked.2
      else
        let cbSize := m * k * dsub * 4
        if 18 + cbSize > payload.length then .error (.error "short codebooks")
        else
          let cb := slice payload 18 (18 + cbSize)
          let codes := payload.drop (18 + cbSize)
          if codes.length ≠ n * m then .error (.error "codes size mismatch")
          else applyREmbeddedLoop F rows cols d m k n dsub cb codes x y

/-- The first pass of `MultiplyScopeWithPool` (one record): the shape `(rows, cols, haveShape)`
read from any shard of the scope. -/
def shapeStep (bank : Bytes) (scope : Nat) (st : Nat × Nat × Bool) (rec : BankRec) :
    Res (Nat × Nat × Bool) :=
  if rec.Hdr.Scope ≠ scope then .ok st
  else
    let payload := slice bank rec.Offset (rec.Offset + rec.Hdr.Csize)
    match rec.Hdr.Typ with
    | 0 | 3 =>
      if payload.length < 8 then .error (.error "short payload")
      else .ok (le32 payload 0, le32 payload 4, true)
    | 1 =>
      if payload.length < 8 + 8 then .error (.error "short R payload")
      else .ok (le32 payload 0, le32 payload 4, true)
    | 2 =>
      if payload.length < 12 then .error (.error "short S payload")
      else .ok (le32 payload 0, le32 payload 4, true)
    | _ => .ok st

/-- The loop of `MultiplyScopeWithPool` that collects `Lf` and `Df` for the accelerated path
(one record): a shard whose payload gives an error is skipped, a panic in
`readFP16WithShape` ends the call. -/
def collectStep {α : Type} (F : Nat → α) (bank : Bytes) (scope rows cols : Nat)
    (st : List α × List α) (rec : BankRec) : Res (List α × List α) :=
  if rec.Hdr.Scope ≠ scope then .ok st
  else if rec.Hdr.Typ ≠ 0 ∧ rec.Hdr.Typ ≠ 3 then .ok st
  else
    let payload := slice bank rec.Offset (rec.Offset + rec.Hdr.Csize)
    match readFP16WithShape F payload with
    | .error (.panic msg) => .error (.panic msg)
    | .error (.error _) => .ok st
    | .ok (r2, c2, mat) =>
      if r2 ≠ rows ∨ c2 ≠ cols then .ok st
      else if rec.Hdr.Typ = 0 then .ok (mat, st.2)
      else .ok (st.1, mat)

/-- `gpuMatVec(y, rows, cols, Lf, Df, x)`: whether the backend was used, and `y`. -/
def gpuMatVec {α : Type} (gpu : Gpu α) (y : List α) (rows cols : Nat) (Lf Df x : List α) :
    Bool × List α :=
  if gpu.Available then
    let r1 := if Lf.length = rows * cols then gpu.MatVecF32 y Lf rows cols x else (false, y)
    let r2 := if Df.length = rows * cols then gpu.MatVecF32 r1.2 Df rows cols x else (false, r1.2)
    (r1.1 || r2.1, r2.2)
  else (false, y)

/-- The accelerated block of `MultiplyScopeWithPool`: `(lHandled, dHandled, y)`. -/
def cudaBlock {α : Type} (F : Nat → α) (gpu : Gpu α) (useCUDA : Bool) (bank : Bytes)
    (recs : List BankRec) (scope rows cols : Nat) (x y : List α) :
    Res (Bool × Bool × List α) :=
  if useCUDA then do
    let lf ← recs.foldlM (collectStep F bank scope rows cols) ([], [])
    if lf.1.length = rows * cols ∨ lf.2.length = rows * cols then
      let used := gpuMatVec gpu y rows cols lf.1 lf.2 x
      if used.1 then
        pure (decide (lf.1.length = rows * cols), decide (lf.2.length = rows * cols), used.2)
      else pure (false, false, used.2)
    else pure (false, false, y)
  else .ok (false, false, y)

/-- The last loop of `MultiplyScopeWithPool` (one record): the shard is applied to `y`. -/
def applyStep {α : Type} [Zero α] [Add α] [Mul α] (F : Nat → α) (gpu : Gpu α) (bank : Bytes)
    (pool : Option (CodebookPool α)) (scope rows cols : Nat) (x : List α)
    (lHandled dHandled : Bool) (y : List α) (rec : BankRec) : Res (List α) :=
  if rec.Hdr.Scope ≠ scope then .ok y
  else
    let payload := slice bank rec.Offset (rec.Offset + rec.Hdr.Csize)
    match rec.Hdr.Typ with
    | 0 =>
      if lHandled then .ok y
      else if payload.length < 8 then .error (.panic "slice bounds out of range")
      else matvecFP16Add F y rows cols (payload.drop 8) x
    | 3 =>
      if dHandled then .ok y
      else if payload.length < 8 then .error (.panic "slice bounds out of range")
      else matvecFP16Add F y rows cols (payload.drop 8) x
    | 1 => applyRAddOptimized F gpu y rows cols payload x pool
    | 2 => applySAddOptimized F gpu y rows cols payload x
    | _ => .ok y

/-- `MultiplyScopeWithPool(bank, pool, scope, x)`: `(y, rows, cols)`.  `useCUDA` is the test
`os.Getenv("CROW_CUDA") == "1"`. -/
def MultiplyScopeWithPool {α : Type} [Zero α] [Add α] [Mul α] (F : Nat → α) (gpu : Gpu α)
    (useCUDA : Bool) (bank : Bytes) (pool : Option (CodebookPool α)) (scope : Nat) (x : List α) :
    Res (List α × Nat × Nat) := do
  let idx ← IndexShardBank bank
  let shape ← idx.foldlM (shapeStep bank scope) (0, 0, false)
  let rows := shape.1
  let cols := shape.2.1
  if shape.2.2 = false then .error (.error "scope not found")
  else if x.length ≠ cols then .error (.error "input length != cols")
  else do
    let y : List α := List.replicate rows 0
    let acc ← cudaBlock F gpu useCUDA bank idx scope rows cols x y
    let y ← idx.foldlM (applyStep F gpu bank pool scope rows cols x acc.1 acc.2.1) acc.2.2
    pure (y, rows, cols)

/-! ## Codebook-pool rewriter (`cmd/crow/convert.go`) -/

/-- One element of `rInfos` in `rewriteRShardsWithSharedCodebooks`. -/
structure RInfo where
  idx : Nat
  scope : Nat
  rows : Nat
  cols : Nat
  d : Nat
  m : Nat
  k : Nat
  n : Nat
  cb : Bytes
  codes : Bytes
  deriving DecidableEq, Repr

/-- One element of `pool` in `rewriteRShardsWithSharedCodebooks` (`entry`). -/
structure PoolEntry where
  key : Nat
  data : Bytes
  id : Nat
  d : Nat
  m : Nat
  k : Nat
  deriving DecidableEq, Repr

/-- What the first loop of `rewriteRShardsWithSharedCodebooks` does with the blob at one index:
`skipped` leaves `rewritten[i]` nil (a blob shorter than 12 bytes), `kept` stores the blob
as it is, `rshard` appends to `rInfos`. -/
inductive Slot where
  | skipped
  | kept (blob : Bytes)
  | rshard (blob : Bytes) (info : RInfo)
  deriving DecidableEq, Repr

/-- One iteration of the first loop of `rewriteRShardsWithSharedCodebooks`. -/
def scanBlob (i : Nat) (blob : Bytes) : Res Slot :=
  if blob.length < 12 then .ok .skipped
  else if byteAt blob 0 ≠ 1 then .ok (.kept blob)
  else
    let csize := le32 blob 8
    if 12 + csize > blob.length then .error (.panic "slice bounds out of range")
    else
      let payload := slice blob 12 (12 + csize)
      if payload.length < 18 then .ok (.kept blob)
      else
        let rows := le32 payload 0
        let cols := le32 payload 4
        let d := le16 payload 8
        let m := le16 payload 10
        let k := le16 payload 12
        let n := le32 payload 14
        if m = 0 then .error (.panic "integer divide by zero")
        else
          let dsub := d / m
          let cbSz := m * k * dsub * 4
          if 18 + cbSz > payload.length then .ok (.kept blob)
          else
            .ok (.rshard blob
              { idx := i
                scope := (byteAt blob 1 ||| (byteAt blob 2 <<< 8)) % 2 ^ 16
                rows := rows, cols := cols, d := d, m := m, k := k, n := n
                cb := slice payload 18 (18 + cbSz)
                codes := payload.drop (18 + cbSz) })

/-- The first loop of `rewriteRShardsWithSharedCodebooks`, from index `i` on. -/
def scanAll : List Bytes → Nat → Res (List Slot)
  | [], _ => .ok []
  | blob :: rest, i => do
    let s ← scanBlob i blob
    let ss ← scanAll rest (i + 1)
    pure (s :: ss)

/-- The dedup step: the index of the first pool entry with the same hash and the same bytes,
or a new entry appended with `id = len(pool)`. -/
def assignId (hash : Bytes → Nat) (pool : List PoolEntry) (ri : RInfo) : List PoolEntry × Nat :=
  let key := hash ri.cb
  match pool.findIdx? (fun e => e.key = key ∧ e.data = ri.cb) with
  | some j => (pool, j)
  | none =>
    (pool ++ [{ key := key, data := ri.cb, id := pool.length, d := ri.d, m := ri.m, k := ri.k }],
      pool.length)

/-- The rewritten R payload: `rows, cols, d, m, k, n, cb_id` and the original codes. -/
def sharedPayload (ri : RInfo) (found : Nat) : Bytes :=
  putU32 (ri.rows % 2 ^ 32) ++ putU32 (ri.cols % 2 ^ 32) ++ putU16 (ri.d % 2 ^ 16)
    ++ putU16 (ri.m % 2 ^ 16) ++ putU16 (ri.k % 2 ^ 16) ++ putU32 (ri.n % 2 ^ 32)
    ++ putU16 (found % 2 ^ 16) ++ ri.codes

/-- The rewritten R shard: the first four header bytes of the blob, `usize = csize =` the new
payload length, and the new payload. -/
def rewriteBlob (blob : Bytes) (ri : RInfo) (found : Nat) : Bytes :=
  blob.take 4 ++ putU32 ((sharedPayload ri found).length % 2 ^ 32)
    ++ putU32 ((sharedPayload ri found).length % 2 ^ 32) ++ sharedPayload ri found

/-- The second loop of `rewriteRShardsWithSharedCodebooks`, in index order: the slots of
`rewritten` and the final pool. -/
def processSlots (hash : Bytes → Nat) :
    List Slot → List PoolEntry → List (Option Bytes) × List PoolEntry
  | [], pool => ([], pool)
  | .skipped :: rest, pool => (none :: (processSlots hash rest pool).1, (processSlots hash rest pool).2)
  | .kept b :: rest, pool => (some b :: (processSlots hash rest pool).1, (processSlots hash rest pool).2)
  | .rshard blob ri :: rest, pool =>
    (some (rewriteBlob blob ri (assignId hash pool ri).2)
        :: (processSlots hash rest (assignId hash pool ri).1).1,
      (processSlots hash rest (assignId hash pool ri).1).2)

/-- One entry of the CODEBOOKS section: `id, d, m, k, size` and the bytes. -/
def poolEntryBytes (e : PoolEntry) : Bytes :=
  putU16 (e.id % 2 ^ 16) ++ putU16 (e.d % 2 ^ 16) ++ putU16 (e.m % 2 ^ 16) ++ putU16 (e.k % 2 ^ 16)
    ++ putU32 (e.data.length % 2 ^ 32) ++ e.data

/-- The CODEBOOKS section: `count:u16` and the entries in id order. -/
def codebookBytes (pool : List PoolEntry) : Bytes :=
  putU16 (pool.length % 2 ^ 16) ++ (pool.map poolEntryBytes).flatten

/-- `rewriteRShardsWithSharedCodebooks(shards)`: `(rewritten, codebooks)`; `hash` is
`xxh3.Hash`. -/
def rewriteRShardsWithSharedCodebooks (hash : Bytes → Nat) (shards : List Bytes) :
    Res (List Bytes × Bytes) := do
  let slots ← scanAll shards 0
  let done := processSlots hash slots []
  pure (done.1.filterMap id, codebookBytes done.2)

/-! ## Vocabulary of the statements -/

/-- The decoded value at flat position `q` of the block sequence of an R shard with codebook
values `data`: block `q / d`, sub-vector `(q % d) / dsub`, offset `(q % d) % dsub`. -/
def blockVal {α : Type} [Zero α] (d m k dsub : Nat) (data : List α) (codes : Bytes) (q : Nat) : α :=
  data.getD (((q % d) / dsub * k + byteAt codes ((q / d) * m + (q % d) / dsub)) * dsub
    + (q % d) % dsub) 0

/-- What one shard of a scope decodes to: its type tag, the shape it declares, and the matrix of
an L, D or R shard or the triplets of an S shard. -/
structure Decoded (α : Type) where
  typ : Nat
  rows : Nat
  cols : Nat
  mat : List α
  idx : List (Int × Int)
  vals : List α

/-- A shard payload decoded by the decoder of its type (`readFP16WithShape` for L and D, `decodeR`
for R, `decodeS` for S); `none` when the decoder fails or the type is unknown. -/
def decodeShard {α : Type} [Zero α] (F : Nat → α) (typ : Nat) (payload : Bytes) :
    Option (Decoded α) :=
  if typ = 0 ∨ typ = 3 then
    match readFP16WithShape F payload with
    | .ok (r, c, mat) => some { typ := typ, rows := r, cols := c, mat := mat, idx := [], vals := [] }
    | .error _ => none
  else if typ = 1 then
    match decodeR F payload with
    | (r, c, .ok mat) => some { typ := typ, rows := r, cols := c, mat := mat, idx := [], vals := [] }
    | (_, _, .error _) => none
  else if typ = 2 then
    match decodeS F payload with
    | .ok (r, c, idx, vals) =>
      some { typ := typ, rows := r, cols := c, mat := [], idx := idx, vals := vals }
    | .error _ => none
  else none

/-- The uncompressed shards of a scope, decoded, in bank order (`none` for a shard that is
compressed or does not decode). -/
def scopeShards {α : Type} [Zero α] (F : Nat → α) (bank : Bytes) (scope : Nat)
    (recs : List BankRec) : List (Option (Decoded α)) :=
  (recs.filter (fun r => r.Hdr.Scope = scope)).map (fun r =>
    if r.Hdr.Comp = 0 then
      decodeShard F r.Hdr.Typ (slice bank r.Offset (r.Offset + r.Hdr.Csize))
    else none)

/-- The last shard of type `t` of a scope, if there is one. -/
def lastOfTyp {α : Type} (t : Nat) (comps : List (Decoded α)) : Option (Decoded α) :=
  (comps.filter (fun c => c.typ = t)).getLast?

/-- The terms `ReconstructForScopeWithPool` adds into entry `(i, j)` of `data`, in the order in
which it adds them: the entry of L, the entry of D, the entries of the R matrices in bank order,
and the values of S whose index is `(i, j)` in payload order.  L, D and S are the last shard of
their type; a component with no shard adds no term. -/
def termsAt {α : Type} [Zero α] (comps : List (Decoded α)) (cols i j : Nat) : List α :=
  (lastOfTyp 0 comps).toList.map (fun c => c.mat.getD (i * cols + j) 0)
    ++ (lastOfTyp 3 comps).toList.map (fun c => c.mat.getD (i * cols + j) 0)
    ++ (comps.filter (fun c => c.typ = 1)).map (fun c => c.mat.getD (i * cols + j) 0)
    ++ (((((lastOfTyp 2 comps).map (fun c => c.idx)).getD []).zip
          (((lastOfTyp 2 comps).map (fun c => c.vals)).getD [])).filter
        (fun t => t.1 = ((i : Int), (j : Int)))).map (fun t => t.2)

/-- The accumulation `s += v` over the terms `vs` in order, starting from zero. -/
def accumulate {α : Type} [Zero α] [Add α] (vs : List α) : α :=
  vs.foldl (fun s v => s + v) 0

/-- The state `ReconstructForScopeWithPool` has built after the shards `comps` of the scope. -/
def reconStateOf {α : Type} (comps : List (Decoded α)) : ReconState α :=
  { L := (lastOfTyp 0 comps).map (fun c => c.mat)
    D := (lastOfTyp 3 comps).map (fun c => c.mat)
    R := (comps.filter (fun c => c.typ = 1)).map (fun c => c.mat)
    shapeRows := (comps.getLast?.map (fun c => c.rows)).getD 0
    shapeCols := (comps.getLast?.map (fun c => c.cols)).getD 0
    Sind := ((lastOfTyp 2 comps).map (fun c => c.idx)).getD []
    Sval := ((lastOfTyp 2 comps).map (fun c => c.vals)).getD [] }

/-- The payload of a framed shard: what follows its 12-byte header. -/
def shardPayload (blob : Bytes) : Bytes := blob.drop 12

/-- The embedded codebook bytes of an R payload: `m*k*(d/m)*4` bytes after the 18-byte head. -/
def embeddedCodebook (p : Bytes) : Bytes :=
  slice p 18 (18 + le16 p 10 * le16 p 12 * (le16 p 8 / le16 p 10) * 4)

/-- A framed shard: bytes, a 12-byte header, and a payload of the declared `csize`. -/
def Framed (blob : Bytes) : Prop :=
  isBytes blob ∧ 12 ≤ blob.length ∧ blob.length = 12 + le32 blob 8

/-- A well-formed embedded R payload with the given `d` and `m`: `m >= 1` divides `d`, the
length is `18 + 4*m*k*(d/m) + n*m`, and every code is below `k`. -/
def EmbeddedR (d m : Nat) (p : Bytes) : Prop :=
  le16 p 8 = d ∧ le16 p 10 = m ∧ 1 ≤ m ∧ m ∣ d ∧
  p.length = 18 + m * le16 p 12 * (d / m) * 4 + le32 p 14 * m ∧
  ∀ c ∈ p.drop (18 + m * le16 p 12 * (d / m) * 4), c < le16 p 12

/-- The float32 values of codebook bytes, as `ParseCodebookPool` converts them. -/
def codebookValues {α : Type} (F : Nat → α) (data : Bytes) : List α :=
  (List.range (data.length / 4)).map (fun j => F (le32 data (j * 4)))

/-- The pool entry `ParseCodebookPool` builds for an entry of the rewriter's pool. -/
def entryOf {α : Type} (F : Nat → α) (e : PoolEntry) : CodebookEntry α :=
  { ID := e.id, D := e.d, M := e.m, K := e.k, Data := codebookValues F e.data }

/-- The `rInfos` element the rewriter builds for an embedded R shard at index `i`. -/
def infoOf (i : Nat) (blob : Bytes) : RInfo :=
  { idx := i
    scope := (byteAt blob 1 ||| (byteAt blob 2 <<< 8)) % 2 ^ 16
    rows := le32 (shardPayload blob) 0
    cols := le32 (shardPayload blob) 4
    d := le16 (shardPayload blob) 8
    m := le16 (shardPayload blob) 10
    k := le16 (shardPayload blob) 12
    n := le32 (shardPayload blob) 14
    cb := embeddedCodebook (shardPayload blob)
    codes := (shardPayload blob).drop
      (18 + le16 (shardPayload blob) 10 * le16 (shardPayload blob) 12
        * (le16 (shardPayload blob) 8 / le16 (shardPayload blob) 10) * 4) }

/-! ## Invariants of the loops -/

/-- The blocks hold the decoded value at every position of `W`. -/
def BlocksOn {α : Type} [Zero α] (N : Nat) (bv : Nat → α) (W : Nat → Prop) (b : List α) : Prop :=
  b.length = N ∧ ∀ q, W q → b.getD q 0 = bv q

/-- What the dedup loop keeps true of its pool: ids are positions, keys are the hashes of the
bytes, all entries have the common `d = m0 * dsub` and `m = m0` and bytes of the matching
size taken from `C`, and no bytes occur twice. -/
def PoolOk (hash : Bytes → Nat) (m0 dsub : Nat) (C : List Bytes) (pool : List PoolEntry) : Prop :=
  (∀ (j : Nat) (e : PoolEntry), pool[j]? = some e → e.id = j ∧ e.key = hash e.data ∧ e.d = m0 * dsub ∧ e.m = m0
    ∧ e.k < 2 ^ 16 ∧ e.data.length = m0 * e.k * dsub * 4 ∧ e.data ∈ C) ∧
  (pool.map (fun e => e.data)).Nodup

/-- An `rInfos` element with the common `d` and `m` and codebook bytes from `C`. -/
def InfoOk (m0 dsub : Nat) (C : List Bytes) (ri : RInfo) : Prop :=
  ri.d = m0 * dsub ∧ ri.m = m0 ∧ ri.k < 2 ^ 16 ∧ ri.cb.length = m0 * ri.k * dsub * 4 ∧ ri.cb ∈ C

/-- What the second loop leaves in `rewritten` for one slot, given the final pool `P`: an R
shard is rewritten with the id of a pool entry holding its codebook bytes and its `k`. -/
def SlotDone (P : List PoolEntry) (s : Slot) (o : Option Bytes) : Prop :=
  match s with
  | .skipped => o = none
  | .kept b => o = some b
  | .rshard blob ri =>
    ∃ found e, o = some (rewriteBlob blob ri found) ∧ P[found]? = some e ∧ e.data = ri.cb
      ∧ e.k = ri.k

/-! ## Concrete inputs -/

/-- Value of the float32 with bit pattern `u` in units of `2^-150`, an integer for every finite
pattern: `f32val u = f32fix u / 2^150`. -/
def f32fix (u : Nat) : Int :=
  if u / 2 ^ 31 % 2 = 1 then -(f32mag u : Int) else (f32mag u : Int)

/-- An L or D payload: `rows:u32, cols:u32` and the half-precision encodings of the values with
the given float32 bit patterns, as `ConvertLayer` writes it. -/
def f16Payload (rows cols : Nat) (bits : List Nat) : Bytes :=
  putU32 rows ++ putU32 cols ++ (bits.map fp32to16).flatten

/-- The matrix `L = [[1,2,3],[4,5,6]]` of `TestReconstructSmall_L_D_S`, as float32 bits. -/
def testL : List Nat :=
  [0x3F800000, 0x40000000, 0x40400000, 0x40800000, 0x40A00000, 0x40C00000]

/-- The matrix `D = [[0.5,0,0],[0,0.25,0]]` of `TestReconstructSmall_L_D_S`, as float32 bits. -/
def testD : List Nat := [0x3F000000, 0, 0, 0, 0x3E800000, 0]

/-- The S payload of `TestReconstructSmall_L_D_S`: `rows = 2, cols = 3, n = 2`, the pairs
`(0,1), (1,2)`, then the values `0.1` and `-0.2` as float32 bits. -/
def testS : Bytes :=
  putU32 2 ++ putU32 3 ++ putU32 2 ++ putU32 0 ++ putU32 1 ++ putU32 1 ++ putU32 2
    ++ putU32 0x3DCCCCCD ++ putU32 0xBE4CCCCD

/-- The bank of `TestReconstructSmall_L_D_S`: an L, a D and an S shard of scope 0. -/
def testBank : Bytes :=
  packShard 0 0 (f16Payload 2 3 testL) ++ packShard 3 0 (f16Payload 2 3 testD)
    ++ packShard 2 0 testS

/-- An embedded R payload: `rows, cols, d, m, k, n`, the codebook bytes and the codes. -/
def rPayload (rows cols d m k n : Nat) (cb codes : Bytes) : Bytes :=
  putU32 rows ++ putU32 cols ++ putU16 d ++ putU16 m ++ putU16 k ++ putU32 n ++ cb ++ codes

/-- A shared R payload: `rows, cols, d, m, k, n, cb_id` and the codes. -/
def rShared (rows cols d m k n cbID : Nat) (codes : Bytes) : Bytes :=
  putU32 rows ++ putU32 cols ++ putU16 d ++ putU16 m ++ putU16 k ++ putU32 n ++ putU16 cbID
    ++ codes

/-- The composition the shared-codebook path goes through for the shard at index `i`:
rewrite the shards, parse the CODEBOOKS bytes, decode the rewritten payload with the pool. -/
def decodeRewritten {α : Type} [Zero α] (F : Nat → α) (hash : Bytes → Nat) (shards : List Bytes)
    (rows cols i : Nat) : Res (List α) := do
  let out ← rewriteRShardsWithSharedCodebooks hash shards
  let pool ← ParseCodebookPool F out.2
  decodeRWithPool rows cols (shardPayload (out.1.getD i [])) pool

/-- A shared R payload with `rows = 1, cols = 2, d = 2, m = 1, k = 2, n = 1, cb_id = 0` and
the code `0`. -/
def testShared : Bytes := rShared 1 2 2 1 2 1 0 [0]

/-- Two framed embedded R shards with `d = 0, m = 1, n = 0` and empty codebooks, the first with
`k = 1` and the second with `k = 2`. -/
def shA : Bytes := packShard 1 0 (rPayload 1 1 0 1 1 0 [] [])

def shB : Bytes := packShard 1 1 (rPayload 1 1 0 1 2 0 [] [])

/-- A framed embedded R shard with `rows = cols = 2, d = 2, m = 1, k = 2, n = 2`, the codebook
`(1, 0), (0, 1)` (as the bit patterns 1 and 0) and the codes `0, 1`. -/
def shC : Bytes :=
  packShard 1 0 (rPayload 2 2 2 1 2 2 (putU32 1 ++ putU32 0 ++ putU32 0 ++ putU32 1) [0, 1])

/-- A framed embedded R shard that declares `rows = cols = 2^32 - 1`, with `d = 2, m = 1, k = 2,
n = 0`, the codebook of `shC` and no codes. -/
def shH : Bytes :=
  packShard 1 0
    (rPayload (2 ^ 32 - 1) (2 ^ 32 - 1) 2 1 2 0 (putU32 1 ++ putU32 0 ++ putU32 0 ++ putU32 1) [])

instance (blob : Bytes) : Decidable (Framed blob) := by unfold Framed; infer_instance

instance (d m : Nat) (p : Bytes) : Decidable (EmbeddedR d m p) := by
  unfold EmbeddedR; infer_instance

/-! ## Vocabulary for the dedup loop of the rewriter -/

/-- The distinct byte strings of a list in order of first appearance, after the ones in `acc`. -/
def firstSeen : List Bytes → List Bytes → List Bytes
  | acc, [] => acc
  | acc, c :: rest => if c ∈ acc then firstSeen acc rest else firstSeen (acc ++ [c]) rest

/-- Position of the first occurrence of `c` in a list of byte strings (the length of the list
when there is none). -/
def idxOf (c : Bytes) : List Bytes → Nat
  | [] => 0
  | x :: xs => if x = c then 0 else idxOf c xs + 1

/-- The codebook bytes of the slots the second loop of the rewriter works on, in order. -/
def slotCodebooks : List Slot → List Bytes
  | [] => []
  | .rshard _ ri :: rest => ri.cb :: slotCodebooks rest
  | _ :: rest => slotCodebooks rest

/-- The framed shards that the first loop of the rewriter puts into `rInfos`: R shards whose
payload has the 18-byte head and room for the `m*k*(d/m)*4` codebook bytes. -/
def Rewritable (blob : Bytes) : Prop :=
  byteAt blob 0 = 1 ∧ 18 ≤ (shardPayload blob).length ∧
  18 + le16 (shardPayload blob) 10 * le16 (shardPayload blob) 12
      * (le16 (shardPayload blob) 8 / le16 (shardPayload blob) 10) * 4
    ≤ (shardPayload blob).length

instance (blob : Bytes) : Decidable (Rewritable blob) := by unfold Rewritable; infer_instance

/-- The embedded codebook bytes of the shards the rewriter rewrites, in order. -/
def shardCodebooks : List Bytes → List Bytes
  | [] => []
  | blob :: rest =>
    if Rewritable blob then embeddedCodebook (shardPayload blob) :: shardCodebooks rest
    else shardCodebooks rest

/-- What the first loop of the rewriter makes of a framed shard. -/
def ScanRel (blob : Bytes) (s : Slot) : Prop :=
  (Rewritable blob ∧ ∃ i, s = Slot.rshard blob (infoOf i blob)) ∨
  (¬ Rewritable blob ∧ s = Slot.kept blob)

/-- What the rewriter returns for a framed shard, given the codebook bytes `U` of the pool:
a rewritable shard gets the header fields of its payload, the position of its codebook in
`U` and its codes; any other shard is returned as it is. -/
def RewriteRel (U : List Bytes) (blob new : Bytes) : Prop :=
  (Rewritable blob →
    new = rewriteBlob blob (infoOf 0 blob) (idxOf (embeddedCodebook (shardPayload blob)) U) ∧
    embeddedCodebook (shardPayload blob) ∈ U) ∧
  (¬ Rewritable blob → new = blob)

/-- What the dedup loop keeps true of its pool for any shards: keys are the hashes of the
bytes, ids are positions, and no bytes occur twice. -/
def PoolInv (hash : Bytes → Nat) (pool : List PoolEntry) : Prop :=
  (∀ e ∈ pool, e.key = hash e.data) ∧ pool.map (fun e => e.id) = List.range pool.length ∧
  (pool.map (fun e => e.data)).Nodup

/-- What the second loop leaves in `rewritten` for one slot, given the codebook bytes `U` of the
final pool: an R shard is rewritten with the position of its codebook bytes in `U`. -/
def SlotOut (U : List Bytes) (s : Slot) (o : Option Bytes) : Prop :=
  match s with
  | .skipped => o = none
  | .kept b => o = some b
  | .rshard blob ri => o = some (rewriteBlob blob ri (idxOf ri.cb U)) ∧ ri.cb ∈ U

/-- The `cb_id` field of a framed shared R shard. -/
def cbIdOf (blob : Bytes) : Nat := le16 (shardPayload blob) 18

/-- Two framed embedded R shards with the same 16 codebook bytes: the first with
`d = 4, m = 2, k = 1` (sub-vectors of 2 values), the second with `d = 4, m = 1, k = 1`
(one sub-vector of 4 values). -/
def shD : Bytes :=
  packShard 1 0 (rPayload 1 4 4 2 1 1 (putU32 1 ++ putU32 2 ++ putU32 3 ++ putU32 4) [0, 0])

def shE : Bytes :=
  packShard 1 1 (rPayload 1 4 4 1 1 1 (putU32 1 ++ putU32 2 ++ putU32 3 ++ putU32 4) [0])

/-- A framed R shard whose header has `m = 0`. -/
def shZ : Bytes := packShard 1 0 (rPayload 1 1 0 0 0 0 [] [])

/-- A framed embedded R shard with `d = m = k = 1`, `n = 0` and the codebook bytes of the
`uint32` value `i`. -/
def shN (i : Nat) : Bytes := packShard 1 0 (rPayload 1 1 1 1 1 0 (putU32 i) [])

/-- The 65536 shards `shN 0, ..., shN 65535`, with pairwise distinct codebooks. -/
def manyShards : List Bytes := (List.range 65536).map shN

/-- The pool entry that the shared-codebook path finds for the rewritten shard at index `i`:
rewrite the shards, parse the CODEBOOKS bytes, look the shard's `cb_id` up. -/
def entryRewritten {α : Type} (F : Nat → α) (hash : Bytes → Nat) (shards : List Bytes)
    (i : Nat) : Res (Option (Nat × Nat × Nat)) := do
  let out ← rewriteRShardsWithSharedCodebooks hash shards
  let pool ← ParseCodebookPool F out.2
  pure ((pool.find (cbIdOf (out.1.getD i []))).map (fun e => (e.D, e.M, e.K)))

/-- The shared R payload of `TestDecodeRWithPool`: `rows = cols = 2, d = 2, m = 1, k = 2,
n = 2, cb_id = 0` and the codes `0, 1`. -/
def testShared2 : Bytes := rShared 2 2 2 1 2 2 0 [0, 1]

/-! ## The route command (`cmd/crow/route.go`) -/

/-- The selection loop of `cmdRoute` over the rest of `order`, with the shards selected and the
cost accumulated so far: a shard is skipped when `budget > 0` and `total + c > budget`,
otherwise appended, and the loop ends once `len(selected) >= k`.  The type `α` stands for the
float64 values other than NaN with their order; `+` is the float64 addition, of which nothing
is assumed. -/
def routeLoop {α : Type} [LinearOrder α] [Zero α] [Add α] (k : Int) (budget : α)
    (costs : List α) (shardIDs : List Nat) : List Nat → List Nat → α → Res (List Nat × α)
  | [], selected, total => .ok (selected, total)
  | idx :: rest, selected, total =>
    match costs[idx]? with
    | none => .error (.panic "index out of range")
    | some c =>
      if budget > 0 ∧ total + c > budget then routeLoop k budget costs shardIDs rest selected total
      else
        match shardIDs[idx]? with
        | none => .error (.panic "index out of range")
        | some sid =>
          if ((selected ++ [sid]).length : Int) ≥ k then .ok (selected ++ [sid], total + c)
          else routeLoop k budget costs shardIDs rest (selected ++ [sid]) (total + c)

/-- The selection of `cmdRoute`: `selected := make([]int, 0, k)`, `total := 0.0` and the loop
over `order`; the result is `(selected, total)`.  `make` refuses a negative capacity and a
capacity above `2^45` (`maxAlloc / 8` for the 8-byte `int`) with the panic
"makeslice: cap out of range". -/
def selectShards {α : Type} [LinearOrder α] [Zero α] [Add α] (k : Int) (budget : α)
    (costs : List α) (shardIDs : List Nat) (order : List Nat) : Res (List Nat × α) :=
  if k < 0 ∨ k > 2 ^ 45 then .error (.panic "makeslice: cap out of range")
  else routeLoop k budget costs shardIDs order [] 0

/-- The running total of a list of indices: `total := 0.0` and `total += c` for every index in
turn, in the addition of `α`. -/
def costOf {α : Type} [Zero α] [Add α] (costs : List α) (acc : List Nat) : α :=
  acc.foldl (fun t i => t + costs.getD i 0) 0

/-- The greedy rule in the words of the spec, on the indices visited so far: an index is
accepted unless `budget > 0` and the running total of the accepted ones plus its own cost
exceeds the budget. -/
def greedyAccepted {α : Type} [LinearOrder α] [Zero α] [Add α] (budget : α) (costs : List α)
    (visited : List Nat) : List Nat :=
  visited.foldl (fun acc idx =>
    if budget > 0 ∧ costOf costs acc + costs.getD idx 0 > budget then acc else acc ++ [idx]) []

/-! ## Ranking (`rankByCosine`) -/

/-- The inner loop of `rankByCosine` for one key, from column `j` on:
`s += float64(key[j]) * float64(q[j])` for every `j` in the range of `q`, in the addition and
multiplication of `α` (of which nothing is assumed); a key shorter than `q` is an index out of
range. -/
def dotLoop {α : Type} [Zero α] [Add α] [Mul α] (key : List α) :
    List α → Nat → α → Res α
  | [], _, s => .ok s
  | qj :: rest, j, s =>
    match key[j]? with
    | none => .error (.panic "index out of range")
    | some kj => dotLoop key rest (j + 1) (s + kj * qj)

/-- The similarities `sims` of `rankByCosine`. -/
def simsOf {α : Type} [Zero α] [Add α] [Mul α] (keys : List (List α)) (q : List α) :
    Res (List α) :=
  keys.mapM (fun key => dotLoop key q 0 0)

/-- The inner loop of the selection sort, `cnt` positions from `j` on:
`if sims[idx[j]] > sims[idx[b]] { b = j }`.  The positions are in range by the loop bounds.
The type `α` stands for the float64 values other than NaN with their order. -/
def argBest {α : Type} [LinearOrder α] [Zero α] (sims : List α) (idx : List Nat) :
    Nat → Nat → Nat → Nat
  | 0, _, b => b
  | cnt + 1, j, b =>
    argBest sims idx cnt (j + 1)
      (if sims.getD (idx.getD j 0) 0 > sims.getD (idx.getD b 0) 0 then j else b)

/-- The exchange `idx[i], idx[b] = idx[b], idx[i]`. -/
def swapAt (idx : List Nat) (i b : Nat) : List Nat :=
  (idx.set i (idx.getD b 0)).set b (idx.getD i 0)

/-- The outer loop of the selection sort, `cnt` positions from `i` on. -/
def selSort {α : Type} [LinearOrder α] [Zero α] (sims : List α) :
    Nat → Nat → List Nat → List Nat
  | 0, _, idx => idx
  | cnt + 1, i, idx =>
    selSort sims cnt (i + 1) (swapAt idx i (argBest sims idx (idx.length - (i + 1)) (i + 1) i))

/-- `rankByCosine(keys, q)`. -/
def rankByCosine {α : Type} [LinearOrder α] [Zero α] [Add α] [Mul α] (keys : List (List α))
    (q : List α) : Res (List Nat) := do
  let sims ← simsOf keys q
  pure (selSort sims keys.length 0 (List.range keys.length))

/-- The similarity that `rankByCosine` computes for a key: `s := 0.0` and
`s += key[j] * q[j]` over the columns of the query in turn, in the arithmetic of `α`. -/
def dotOf {α : Type} [Zero α] [Add α] [Mul α] (key q : List α) : α :=
  (key.zip q).foldl (fun s p => s + p.1 * p.2) 0

/-- A list of `n` pairwise different numbers below `n`. -/
def IsPermN (n : Nat) (idx : List Nat) : Prop :=
  idx.length = n ∧ (∀ r, r < n → idx.getD r 0 < n) ∧
  ∀ r1 r2, r1 < n → r2 < n → idx.getD r1 0 = idx.getD r2 0 → r1 = r2

/-! ## The routing section (`buildRoutingFromBank`, `parseRouting`) -/

/-- `buildRoutingFromBank(bank)`.  Its loop over the bank is the loop of `IndexShardBank`.  The
float32 computations are parameters: `costBits usize` is the bit pattern of the cost
(`float32(usize) / (1024*1024)`, at least `0.001`) and `keyBits i j` the bit pattern of
component `j` of the normalised key of shard `i`. -/
def buildRoutingFromBank (costBits : Nat → Nat) (keyBits : Nat → Nat → Nat) (bank : Bytes) :
    Bytes :=
  let shards := indexLoop bank (bank.length + 1) 0
  let n := shards.length
  putU16 (64 % 2 ^ 16) ++ putU32 (n % 2 ^ 32)
    ++ ((List.range n).map (fun i => putU32 (i % 2 ^ 32))).flatten
    ++ (shards.map (fun r => putU32 (costBits r.Hdr.Usize % 2 ^ 32))).flatten
    ++ ((List.range n).map (fun i =>
          ((List.range 64).map (fun j => putU32 (keyBits i j % 2 ^ 32))).flatten)).flatten

/-- A loop of `parseRouting` reading `uint32` values: `cnt` values from index `i` on, value `i`
at `data[off+4*i : off+4*(i+1)]`. -/
def readU32s (data : Bytes) (off : Nat) : Nat → Nat → Res (List Nat)
  | 0, _ => .ok []
  | cnt + 1, i =>
    if off + 4 * (i + 1) > data.length then .error (.panic "slice bounds out of range")
    else do
      let rest ← readU32s data off cnt (i + 1)
      pure (le32 data (off + 4 * i) :: rest)

/-- The key loop of `parseRouting`: `cnt` keys of `dim` values from offset `off` on.
`normKey` is the float normalisation `v[j] *= 1/(sqrt(sum v[j]^2) + 1e-8)`. -/
def parseKeys {α : Type} (F : Nat → α) (normKey : List α → List α) (data : Bytes) (dim : Nat) :
    Nat → Nat → Res (List (List α))
  | 0, _ => .ok []
  | cnt + 1, off => do
    let v ← readU32s data off dim 0
    let rest ← parseKeys F normKey data dim cnt (off + 4 * dim)
    pure (normKey (v.map F) :: rest)

/-- `parseRouting(data)`: `(dim, n, shardIDs, costs, keys)`. -/
def parseRouting {α : Type} (F : Nat → α) (normKey : List α → List α) (data : Bytes) :
    Res (Nat × Nat × List Nat × List α × List (List α)) :=
  if data.length < 2 + 4 then .error (.error "routing: short header")
  else do
    let dim := le16 data 0
    let n := le32 data 2
    let shardIDs ← readU32s data 6 n 0
    let costs ← readU32s data (6 + 4 * n) n 0
    let keys ← parseKeys F normKey data dim n (6 + 4 * n + 4 * n)
    pure (dim, n, shardIDs, costs.map F, keys)

/-! ## Chunked checksums (`rollingXXH3Index`, `rollXXH3`, `parseHashes`) -/

/-- The lowercase hexadecimal digit of a value below 16. -/
def hexDigit (d : Nat) : Char :=
  if d < 10 then Char.ofNat (48 + d) else Char.ofNat (87 + d)

/-- The value of a hexadecimal digit, lowercase or uppercase; `none` for any other character. -/
def hexVal (c : Char) : Option Nat :=
  if 48 ≤ c.toNat ∧ c.toNat ≤ 57 then some (c.toNat - 48)
  else if 97 ≤ c.toNat ∧ c.toNat ≤ 102 then some (c.toNat - 87)
  else if 65 ≤ c.toNat ∧ c.toNat ≤ 70 then some (c.toNat - 55)
  else none

/-- The text `fmt.Sprintf("%016x", x)` for a `uint64` value: 16 lowercase hexadecimal digits,
most significant first. -/
def toHex16 (x : Nat) : List Char :=
  (List.range 16).map (fun i => hexDigit (x % 2 ^ 64 / 16 ^ (15 - i) % 16))

/-- The digits at the head of a text and the number they denote so far. -/
def scanDigits : List Char → Nat → Nat → Nat × Nat
  | [], v, cnt => (v, cnt)
  | c :: rest, v, cnt =>
    match hexVal c with
    | some d => scanDigits rest (16 * v + d) (cnt + 1)
    | none => (v, cnt)

/-- The `uint64` that `fmt.Sscanf(s, "%x", &x)` leaves in `x` (zero before the call) for a text
that starts with a hexadecimal digit or is empty: the number denoted by the digits at its head;
zero when there is no digit or the number does not fit 64 bits (the scan fails and `x` is not
assigned).  Leading blanks and digit separators, which `fmt` accepts too, do not occur in the
texts the writer produces and are not modelled. -/
def scanHex (s : List Char) : Nat :=
  let r := scanDigits s 0 0
  if r.2 = 0 then 0 else if r.1 ≥ 2 ^ 64 then 0 else r.1

/-- The hex branch of `parseHashes`: one `uint64` per text of `hashes_hex`. -/
def parseHashes (hx : List (List Char)) : List Nat := hx.map scanHex

/-- The loop `for i := 0; i < len(data); i += chunk` of `rollXXH3` and `rollingXXH3Index`, from
`i` on: the hash of `data[i:min(i+chunk, len(data))]` per iteration.  `none` when `fuel`
iterations do not end it (with `chunk = 0` the loop never ends). -/
def rollLoop (hash : Bytes → Nat) (data : Bytes) (chunk : Nat) : Nat → Nat → Option (List Nat)
  | 0, i => if i < data.length then none else some []
  | fuel + 1, i =>
    if i < data.length then
      (rollLoop hash data chunk fuel (i + chunk)).map
        (fun rest => hash (slice data i (if i + chunk > data.length then data.length else i + chunk))
          :: rest)
    else some []

/-- `rollXXH3(data, chunk)` for `chunk >= 0`: the capacity `(len(data)+chunk-1)/chunk` divides
by `chunk`. -/
def rollXXH3 (hash : Bytes → Nat) (data : Bytes) (chunk : Nat) : Res (List Nat) :=
  if chunk = 0 then .error (.panic "integer divide by zero")
  else
    match rollLoop hash data chunk data.length 0 with
    | some l => .ok l
    | none => .error (.panic "the loop does not end")

/-- The `hashes_hex` list of `rollingXXH3Index(data, chunk)` for `chunk >= 0`; `none` when the
loop does not end. -/
def rollingXXH3Index (hash : Bytes → Nat) (data : Bytes) (chunk : Nat) :
    Option (List (List Char)) :=
  if data.length = 0 then some []
  else (rollLoop hash data chunk data.length 0).map (fun l => l.map toHex16)

/-- A stand-in for `xxh3.Hash` in the examples: the byte sum as a `uint64`. -/
def testHash (b : Bytes) : Nat := b.sum % 2 ^ 64

/-! ## Product quantiser (`internal/quant/pq.go`) -/

/-- A trained quantiser (`PQ`): `Codebooks[i]` holds the `K` centroids of sub-vector `i`, `Dsub`
values each. -/
structure PQ (α : Type) where
  M : Nat
  K : Nat
  Dsub : Nat
  Codebooks : List (List α)

/-- The loop of `l2Flat(a, b)` from index `i` on: `d := a[i]-b[i]; s += d*d`, in the
subtraction, multiplication and addition of `α` (of which nothing is assumed). -/
def l2Loop {α : Type} [Add α] [Sub α] [Mul α] (b : List α) : List α → Nat → α → Res α
  | [], _, s => .ok s
  | ai :: rest, i, s =>
    match b[i]? with
    | none => .error (.panic "index out of range")
    | some bi => l2Loop b rest (i + 1) (s + (ai - bi) * (ai - bi))

/-- `l2Flat(a, b)`. -/
def l2Flat {α : Type} [Zero α] [Add α] [Sub α] [Mul α] (a b : List α) : Res α :=
  l2Loop b a 0 0

/-- Go's `p[a:b]` with its bounds check. -/
def sliceChecked {α : Type} (p : List α) (a b : Nat) : Res (List α) :=
  if a ≤ b ∧ b ≤ p.length then .ok ((p.drop a).take (b - a))
  else .error (.panic "slice bounds out of range")

/-- The centroid loop of `Encode` for one vector and one sub-vector, `cnt` centroids from `j`
on, with the state `(best, bestd)`: `if d < bestd { bestd, best = d, j }`.  The type `α` stands
for the float32 values other than NaN with their order. -/
def bestLoop {α : Type} [LinearOrder α] [Zero α] [Add α] [Sub α] [Mul α] (vec cb : List α)
    (i dsub : Nat) : Nat → Nat → Nat × α → Res (Nat × α)
  | 0, _, st => .ok st
  | cnt + 1, j, st => do
    let sub ← sliceChecked vec (i * dsub) ((i + 1) * dsub)
    let cent ← sliceChecked cb (j * dsub) (j * dsub + dsub)
    let d ← l2Flat sub cent
    bestLoop vec cb i dsub cnt (j + 1) (if d < st.2 then (j, d) else st)

/-- `pq.Encode(data)`: one row of `M` bytes per vector.  `big` is the value of the constant
`float32(1e30)` that `bestd` starts from. -/
def PQ.Encode {α : Type} [LinearOrder α] [Zero α] [Add α] [Sub α] [Mul α] (big : α)
    (pq : PQ α) (data : List (List α)) : Res (List (List Nat)) :=
  if data.length = 0 then .error (.panic "index out of range")
  else
    loopM pq.M (fun i codes =>
      match pq.Codebooks[i]? with
      | none => .error (.panic "index out of range")
      | some cb =>
        loopM data.length (fun n codes => do
          let vec ← getAt data n
          let st ← bestLoop vec cb i pq.Dsub pq.K 0 (0, big)
          let row ← getAt codes n
          let row ← setAt row i (st.1 % 256)
          setAt codes n row) codes)
      (List.replicate data.length (List.replicate pq.M 0))

/-- The squared distance that `l2Flat` computes for two vectors of the same length:
`s := 0` and `s += (a[i]-b[i]) * (a[i]-b[i])` for every index in turn, in the arithmetic of
`α`. -/
def sqDist {α : Type} [Zero α] [Add α] [Sub α] [Mul α] (a b : List α) : α :=
  (a.zip b).foldl (fun s p => s + (p.1 - p.2) * (p.1 - p.2)) 0

/-- Sub-vector `i` of a vector, `dsub` values. -/
def subVec {α : Type} (vec : List α) (i dsub : Nat) : List α :=
  (vec.drop (i * dsub)).take dsub

/-- The state of the centroid search after the centroids below `j`, for the distances `dist`:
nothing below the sentinel `big` was met and the state is the initial one, or `best` is the
first centroid of least distance. -/
def BestInv {α : Type} [LinearOrder α] (big : α) (dist : Nat → α) (j : Nat)
    (st : Nat × α) : Prop :=
  (st.2 = big ∧ st.1 = 0 ∧ ∀ t, t < j → ¬ dist t < big) ∨
  (st.1 < j ∧ st.2 = dist st.1 ∧ dist st.1 < big ∧
    ∀ t, t < j → dist st.1 ≤ dist t ∧ (t < st.1 → dist st.1 < dist t))

/-- The computed squared distance of sub-vector `i` of `vec` to centroid `t` of sub-codebook
`i`. -/
def centDist {α : Type} [Zero α] [Add α] [Sub α] [Mul α] (pq : PQ α) (vec : List α)
    (i t : Nat) : α :=
  sqDist (subVec vec i pq.Dsub) (subVec (pq.Codebooks.getD i []) t pq.Dsub)

/-- The code `c` names a centroid of sub-codebook `i` such that none has a strictly smaller
computed distance to sub-vector `i` of `vec`, and every centroid of lower index has a strictly
larger one. -/
def NearestCode {α : Type} [LinearOrder α] [Zero α] [Add α] [Sub α] [Mul α] (pq : PQ α)
    (vec : List α) (i c : Nat) : Prop :=
  c < pq.K ∧ ∀ j, j < pq.K →
    centDist pq vec i c ≤ centDist pq vec i j ∧ (j < c → centDist pq vec i c < centDist pq vec i j)

/-- The code rows hold nearest-centroid codes at every sub-vector below `i` of every vector, and
at sub-vector `i` of the vectors below `n`. -/
def EncInv {α : Type} [LinearOrder α] [Zero α] [Add α] [Sub α] [Mul α] (pq : PQ α)
    (data : List (List α)) (i n : Nat) (codes : List (List Nat)) : Prop :=
  codes.length = data.length ∧ (∀ r, r < data.length → (codes.getD r []).length = pq.M) ∧
  ∀ r, r < data.length → ∀ c, c < pq.M → (c < i ∨ (c = i ∧ r < n)) →
    NearestCode pq (data.getD r []) c ((codes.getD r []).getD c 0)

/-! ## Shapes declared by the shards of a scope -/

/-- The hooks leave the length of `y` as it is: a Go function gets the slice header by value and
cannot change the length its caller sees. -/
def Gpu.KeepsLength {α : Type} (gpu : Gpu α) : Prop :=
  (∀ y A r c x, (gpu.MatVecF32 y A r c x).2.length = y.length) ∧
  (∀ y cb d m k n codes x, (gpu.RPQMatVecF32 y cb d m k n codes x).2.length = y.length) ∧
  (∀ y r c ri ci v x, (gpu.SparseAddF32 y r c ri ci v x).2.length = y.length)

/-- The bytes `bank[rec.Offset : rec.Offset+int(rec.Hdr.Csize)]` of a record. -/
def recPayload (bank : Bytes) (rec : BankRec) : Bytes :=
  slice bank rec.Offset (rec.Offset + rec.Hdr.Csize)

/-- The pair `(rows, cols)` at the head of a payload. -/
def declaredShape (p : Bytes) : Nat × Nat := (le32 p 0, le32 p 4)

/-- The records among `recs` that carry the scope and one of the four shard types
`L = 0, R = 1, S = 2, D = 3`. -/
def scopeRecsOf (scope : Nat) (recs : List BankRec) : List BankRec :=
  recs.filter (fun r => r.Hdr.Scope = scope ∧ r.Hdr.Typ ≤ 3)

/-- The shards of a scope in the bank, in bank order. -/
def scopeRecs (bank : Bytes) (scope : Nat) : List BankRec :=
  scopeRecsOf scope (indexLoop bank (bank.length + 1) 0)

/-- A bank with one L shard of scope 0 that declares `2 x 3` and holds only the first three of
its six values: 14 payload bytes instead of `8 + 2*2*3 = 20`. -/
def shortL : Bytes := packShard 0 0 (f16Payload 2 3 [0x3F800000, 0x40000000, 0x40400000])

/-- The bank `shortL` with the shard typed D. -/
def shortD : Bytes := packShard 3 0 (f16Payload 2 3 [0x3F800000, 0x40000000, 0x40400000])

/-- A bank with one S shard of scope 0 that declares `2 x 3` and `n = 2` triplets and holds the
two index pairs and only the first value: 32 payload bytes instead of `12 + 12*2 = 36`. -/
def shortS : Bytes :=
  packShard 2 0 (putU32 2 ++ putU32 3 ++ putU32 2 ++ putU32 0 ++ putU32 1 ++ putU32 1 ++ putU32 2
    ++ putU32 0x3DCCCCCD)

/-- A bank with an L shard that declares `2 x 3` and a D shard that declares `3 x 2`, both of
scope 0 and both with their six values. -/
def mixedBank : Bytes :=
  packShard 0 0 (f16Payload 2 3 testL) ++ packShard 3 0 (f16Payload 3 2 testD)

/-! ## Decomposition of a layer (`internal/convert/convert.go`) -/

/-- The results `D, L, R, Sind, Sval` of `decomposeNDSQ`. -/
structure Decomp (α : Type) where
  D : List α
  L : List α
  R : List α
  Sind : List (Int × Int)
  Sval : List α

/-- The loop `resid[i] = data[i] - L[i]` for `i < n`, on `resid = make([]float32, n)`, in the
subtraction of `α` (the float32 subtraction, of which nothing is assumed). -/
def residLoop {α : Type} [Zero α] [Sub α] (data L : List α) (n : Nat) : Res (List α) :=
  loopM n (fun i resid => do
    let a ← getAt data i
    let b ← getAt L i
    setAt resid i (a - b)) (List.replicate n 0)

/-- The loop over the diagonal: `idx := i*cols + i; D[idx] = resid[idx]; resid[idx] = 0`, with
the state `(D, resid)`. -/
def diagLoop {α : Type} [Zero α] (cols minDim : Nat) (D resid : List α) :
    Res (List α × List α) :=
  loopM minDim (fun i st => do
    let v ← getAt st.2 (i * cols + i)
    let D ← setAt st.1 (i * cols + i) v
    let resid ← setAt st.2 (i * cols + i) 0
    pure (D, resid)) (D, resid)

/-- The absolute value `math.Abs(float64(v))`.  The type `α` stands for the float values other
than NaN with their order (the conversion to float64 is exact). -/
def absF {α : Type} [LinearOrder α] [Zero α] [Neg α] (v : α) : α := if v < 0 then -v else v

/-- The number of binary digits of `n` (`0` for `0`), for `n < 2^8192`: a binary search over
the shifts `2^k`, `k` below the first argument. -/
def bitLenAux : Nat → Nat → Nat → Nat
  | 0, n, acc => if n = 0 then acc else acc + 1
  | k + 1, n, acc =>
    if n >>> (1 <<< k) = 0 then bitLenAux k n acc
    else bitLenAux k (n >>> (1 <<< k)) (acc + (1 <<< k))

/-- The number of binary digits of `n`. -/
def bitLen (n : Nat) : Nat := bitLenAux 13 n 0

/-- The quotient `a / b` rounded to the nearest integer, a tie to the even one. -/
def rneDiv (a b : Nat) : Nat :=
  if 2 * (a % b) > b ∨ (2 * (a % b) = b ∧ a / b % 2 = 1) then a / b + 1 else a / b

/-- `float64(n)` for an integer `n >= 0`: `n` rounded to 53 significant binary digits (to the
nearest, a tie to the even one). -/
def toF64 (n : Nat) : Nat :=
  if bitLen n ≤ 53 then n else rneDiv n (1 <<< (bitLen n - 53)) <<< (bitLen n - 53)

/-- `int(x * q)` for a float64 `x = n >= 0` and a float64 `q = qnum/qden > 0`: the float64
product is the exact product `n*qnum/qden` rounded to 53 significant binary digits (to the
nearest, a tie to the even one), and `int` truncates it. -/
def mulTrunc64 (n qnum qden : Nat) : Nat :=
  if bitLen (n * qnum / qden) ≤ 53 then
    rneDiv ((n * qnum) <<< (53 - bitLen (n * qnum / qden))) qden
      >>> (53 - bitLen (n * qnum / qden))
  else
    rneDiv (n * qnum) (qden <<< (bitLen (n * qnum / qden) - 53))
      <<< (bitLen (n * qnum / qden) - 53)

/-- The index `qidx` into `sorted`: `int(float64(len-1) * outlierQ)` for the quantile
`outlierQ = qnum / qden` (a float64 is a fraction with a power of two below; the product is
rounded to float64 and truncated toward zero), clamped to `0 .. len-1`.  For `outlierQ <= 0`
the product is at most zero and the index is `0`.  The index is that of the code for every
quantile whose product stays below `2^63`, the range in which `int` converts a float64. -/
def quantileIndex (len : Nat) (qnum : Int) (qden : Nat) : Nat :=
  if (if qnum ≤ 0 ∨ qden = 0 then 0 else mulTrunc64 (toF64 (len - 1)) qnum.toNat qden) ≥ len
  then len - 1
  else (if qnum ≤ 0 ∨ qden = 0 then 0 else mulTrunc64 (toF64 (len - 1)) qnum.toNat qden)

/-- The threshold `th`: `sorted[qidx]` for the ascending copy `sorted` of `abs` that
`sort.Float64s` makes (the ascending arrangement of a list of values other than NaN is unique,
insertion sort computes it); `0.0` for an empty list. -/
def threshold {α : Type} [LinearOrder α] [Zero α] (abs : List α) (qnum : Int) (qden : Nat) :
    Res α :=
  if (abs.insertionSort (fun a b => a ≤ b)).length > 0 then
    getAt (abs.insertionSort (fun a b => a ≤ b))
      (quantileIndex (abs.insertionSort (fun a b => a ≤ b)).length qnum qden)
  else .ok 0

/-- The loops that collect the outliers, with the state `(Sind, Sval, resid)`: for `i < rows`,
`j < cols` and `idx := i*cols + j`, `if mask[idx]` the pair `(int32(i), int32(j))` and the
value `resid[idx]` are appended and `resid[idx] = 0`. -/
def sparseLoop {α : Type} [Zero α] (rows cols : Nat) (mask : List Bool)
    (resid : List α) : Res (List (Int × Int) × List α × List α) :=
  loopM rows (fun i st =>
    loopM cols (fun j st => do
      let mk ← getAt mask (i * cols + j)
      if mk then do
        let v ← getAt st.2.2 (i * cols + j)
        let resid ← setAt st.2.2 (i * cols + j) 0
        pure (st.1 ++ [(toInt32 (i % 2 ^ 32), toInt32 (j % 2 ^ 32))], st.2.1 ++ [v], resid)
      else pure st) st) ([], [], resid)

/-- `decomposeNDSQ(rows, cols, data, rank, outlierQ)` with `outlierQ = qnum / qden`.  The
SVD step (gonum, from `mat.NewDense` to `L64.Mul`) is the parameter `lowRank`: it gets `rows`,
`cols`, the array `A` and `rank` and returns the values `float32(v)` of `L64.RawMatrix().Data`,
or the error "svd factorization failed", or a panic.  The arrays made with
`make(.., rows*cols)` have the length of `data` whenever the call returns (a shorter or longer
`data` is an index out of range), so their length is that of a slice held in memory. -/
def decomposeNDSQ {α : Type} [LinearOrder α] [Zero α] [Sub α] [Neg α]
    (lowRank : Nat → Nat → List α → Int → Res (List α)) (rows cols : Nat) (data : List α)
    (rank : Int) (qnum : Int) (qden : Nat) : Res (Decomp α) :=
  if data.length > rows * cols then .error (.panic "index out of range")
  else do
    let l64 ← lowRank rows cols (data ++ List.replicate (rows * cols - data.length) 0) rank
    if l64.length > rows * cols then .error (.panic "index out of range")
    else do
      let L := l64 ++ List.replicate (rows * cols - l64.length) 0
      let resid ← residLoop data L (rows * cols)
      let dr ← diagLoop cols (if cols < rows then cols else rows)
        (List.replicate (rows * cols) 0) resid
      let abs := dr.2.map absF
      let th ← threshold abs qnum qden
      let mask := abs.map (fun v => decide (v ≥ th ∧ v ≠ 0))
      let s ← sparseLoop rows cols mask dr.2
      pure { D := dr.1, L := L, R := s.2.2, Sind := s.1, Sval := s.2.1 }

/-- The value of the S triplets at position `(i, j)`: the value of the first triplet whose index
pair is `(i, j)`, zero if there is none. -/
def tripletAt {α : Type} [Zero α] (Sind : List (Int × Int)) (Sval : List α)
    (i j : Nat) : α :=
  (((Sind.zip Sval).filter (fun t => t.1 = ((i : Int), (j : Int)))).map (fun t => t.2)).headD 0

/-- The residual after the diagonal was moved to `D`: `data[p] - L[p]` off the diagonal (in the
subtraction of `α`), zero on it. -/
def residOff {α : Type} [Zero α] [Sub α] (cols : Nat) (data L : List α) (p : Nat) : α :=
  if p / cols = p % cols then 0 else data.getD p 0 - L.getD p 0

/-- The positions `p < n` that the outlier test `|v| >= th && |v| != 0` selects, ascending. -/
def outlierPositions {α : Type} [LinearOrder α] [Zero α] [Sub α] [Neg α] (cols n : Nat)
    (data L : List α) (th : α) : List Nat :=
  (List.range n).filter (fun p =>
    decide (absF (residOff cols data L p) ≥ th ∧ absF (residOff cols data L p) ≠ 0))

/-- The index pair `(int32(i), int32(j))` of the flat position `p = i*cols + j`. -/
def posIndex (cols p : Nat) : Int × Int :=
  (toInt32 (p / cols % 2 ^ 32), toInt32 (p % cols % 2 ^ 32))

/-- The state of the outlier loops after the flat positions below `t`. -/
def SparseInv {α : Type} [Zero α] (cols : Nat) (mask : List Bool) (resid : List α)
    (t : Nat) (st : List (Int × Int) × List α × List α) : Prop :=
  st.1 = ((List.range t).filter (fun p => mask.getD p false)).map (posIndex cols) ∧
  st.2.1 = ((List.range t).filter (fun p => mask.getD p false)).map (fun p => resid.getD p 0) ∧
  st.2.2.length = resid.length ∧
  ∀ p, st.2.2.getD p 0 = if p < t ∧ mask.getD p false = true then 0 else resid.getD p 0

/-- The state of the diagonal loop after the rows below `i`. -/
def DiagInv {α : Type} [Zero α] (cols : Nat) (resid : List α) (i : Nat)
    (st : List α × List α) : Prop :=
  st.1.length = resid.length ∧ st.2.length = resid.length ∧
  ∀ p, p < resid.length →
    st.1.getD p 0 = (if p / cols = p % cols ∧ p / cols < i then resid.getD p 0 else 0) ∧
    st.2.getD p 0 = (if p / cols = p % cols ∧ p / cols < i then 0 else resid.getD p 0)

/-- The threshold in the words of the specification, `θ = sorted[⌊(N−1)·q⌋]` for `q = qnum/qden`
over the absolute values of the residual with the diagonal zeroed, `N = n` values. -/
def specTheta {α : Type} [LinearOrder α] [Zero α] [Sub α] [Neg α] (cols n : Nat)
    (data L : List α) (qnum : Int) (qden : Nat) : α :=
  (((List.range n).map (fun p => absF (residOff cols data L p))).insertionSort
    (fun a b => a ≤ b)).getD ((n - 1) * qnum.toNat / qden) 0

/-- The threshold that `decomposeNDSQ` uses: `sorted[qidx]` with the index
`qidx = int(float64(N-1) * q)` of `quantileIndex`, over the absolute values of the residual with
the diagonal zeroed, `N = n` values. -/
def codeTheta {α : Type} [LinearOrder α] [Zero α] [Sub α] [Neg α] (cols n : Nat)
    (data L : List α) (qnum : Int) (qden : Nat) : α :=
  (((List.range n).map (fun p => absF (residOff cols data L p))).insertionSort
    (fun a b => a ≤ b)).getD (quantileIndex n qnum qden) 0

/-- A low-rank step that returns the given array. -/
def lowRankConst {α : Type} (L : List α) : Nat → Nat → List α → Int → Res (List α) :=
  fun _ _ _ _ => .ok L

/-- A matrix `W` of `2^31 + 1` rows and 2 columns, row-major: `W[0,0] = 2`, `W[2^31,1] = 1`,
zero elsewhere.  Its singular values are 2 and 1. -/
def bigData : List Int := 2 :: (List.replicate (2 ^ 32) 0 ++ [1])

/-- The rank-1 part of `bigData` (the term of the largest singular value): `L[0,0] = 2`, zero
elsewhere. -/
def bigL : List Int := 2 :: List.replicate (2 ^ 32 + 1) 0

/-! ## Training of the quantiser (`internal/quant/pq.go`) and `ConvertLayer` -/

/-- `l2(a, b)`: the same loop as `l2Flat`, in the arithmetic of `α`. -/
def l2 {α : Type} [Zero α] [Add α] [Sub α] [Mul α] (a b : List α) : Res α := l2Loop b a 0 0

/-- The centroid loop of the assign step of `kmeans` for one vector, `cnt` centroids from `j`
on, with the state `(best, bestd)`: `d := l2(data[n], centroids[j]); if d < bestd { ... }`. -/
def nearestLoop {α : Type} [LinearOrder α] [Zero α] [Add α] [Sub α] [Mul α] (vec : List α)
    (cents : List (List α)) : Nat → Nat → Nat × α → Res (Nat × α)
  | 0, _, st => .ok st
  | cnt + 1, j, st => do
    let c ← getAt cents j
    let d ← l2 vec c
    nearestLoop vec cents cnt (j + 1) (if d < st.2 then (j, d) else st)

/-- The assign step of `kmeans`: `assign[n] = best` for every vector. -/
def assignLoop {α : Type} [LinearOrder α] [Zero α] [Add α] [Sub α] [Mul α] (big : α)
    (data cents : List (List α)) (k : Nat) (assign : List Nat) : Res (List Nat) :=
  loopM data.length (fun n assign => do
    let vec ← getAt data n
    let st ← nearestLoop vec cents k 0 (0, big)
    setAt assign n st.1) assign

/-- `accumAdd(dst, src)`: `for i := range dst { dst[i] += src[i] }`. -/
def accumAdd {α : Type} [Add α] (dst src : List α) : Res (List α) :=
  loopM dst.length (fun i dst => do
    let s ← getAt src i
    addAt dst i s) dst

/-- The first loop of the update step of `kmeans`, with the state `(counts, sums)`:
`c := assign[n]; counts[c]++; accumAdd(sums[c], data[n])`. -/
def sumLoop {α : Type} [Add α] (data : List (List α)) (assign : List Nat)
    (counts : List Nat) (sums : List (List α)) : Res (List Nat × List (List α)) :=
  loopM data.length (fun n st => do
    let c ← getAt assign n
    let cnt ← getAt st.1 c
    let counts ← setAt st.1 c (cnt + 1)
    let sc ← getAt st.2 c
    let vec ← getAt data n
    let sc ← accumAdd sc vec
    let sums ← setAt st.2 c sc
    pure (counts, sums)) (counts, sums)

/-- The loop `for d := 0; d < D; d++ { sums[j][d] *= float32(inv) }` on the row `sums[j]`. -/
def scaleLoop {α : Type} [Mul α] (D : Nat) (inv : α) (row : List α) : Res (List α) :=
  loopM D (fun d row => do
    let v ← getAt row d
    setAt row d (v * inv)) row

/-- The second loop of the update step of `kmeans`, with the state `centroids`: a cluster
without members is skipped, else `inv := 1.0 / float32(counts[j])`, the row `sums[j]` is scaled
and becomes `centroids[j]`.  The value `1.0`, the conversion `float32(counts[j])` (the cast of
`α`) and the division are those of `α`; nothing is assumed of them. -/
def updateLoop {α : Type} [One α] [Mul α] [Div α] [NatCast α] (k D : Nat) (counts : List Nat)
    (sums cents : List (List α)) : Res (List (List α)) :=
  loopM k (fun j cents => do
    let cnt ← getAt counts j
    if cnt = 0 then pure cents
    else do
      let row ← getAt sums j
      let row ← scaleLoop D (1 / (cnt : α)) row
      setAt cents j row) cents

/-- One iteration of `kmeans`, with the state `(centroids, assign)`. -/
def kmeansIter {α : Type} [LinearOrder α] [Zero α] [One α] [Add α] [Sub α] [Mul α] [Div α]
    [NatCast α] (big : α) (data : List (List α)) (k D : Nat) (st : List (List α) × List Nat) :
    Res (List (List α) × List Nat) := do
  let assign ← assignLoop big data st.1 k st.2
  let cs ← sumLoop data assign (List.replicate k 0) (List.replicate k (List.replicate D 0))
  let cents ← updateLoop k D cs.1 cs.2 st.1
  pure (cents, assign)

/-- The last loop of `kmeans`: `copy(flat[j*D:(j+1)*D], centroids[j])` on
`flat = make([]float32, k*D)`. -/
def flattenLoop {α : Type} [Zero α] (k D : Nat) (cents : List (List α)) : Res (List α) :=
  loopM k (fun j flat => do
    let c ← getAt cents j
    if (j + 1) * D > flat.length then .error (.panic "slice bounds out of range")
    else loopM (min D c.length) (fun t flat => setAt flat (j * D + t) (c.getD t 0)) flat)
    (List.replicate (k * D) 0)

/-- `kmeans(data, k, iters, rng)`; `permN` is the permutation `rng.Perm(N)` that this call
draws, `big` the constant `float32(1e30)`. -/
def kmeans {α : Type} [LinearOrder α] [Zero α] [One α] [Add α] [Sub α] [Mul α] [Div α]
    [NatCast α] (big : α) (permN : List Nat) (data : List (List α)) (k iters : Nat) :
    Res (List α) :=
  match data with
  | [] => .error (.panic "index out of range")
  | v0 :: _ => do
    let idx ← sliceChecked permN 0 k
    let cents ← loopM k (fun i cents => do
      let ix ← getAt idx i
      let v ← getAt data ix
      setAt cents i (copyInto v0.length v)) (List.replicate k [])
    let st ← loopM iters (fun _ st => kmeansIter big data k v0.length st)
      (cents, List.replicate data.length 0)
    flattenLoop k v0.length st.1

/-- The loop `subs[n] = data[n][i*dsub:(i+1)*dsub]` of `TrainPQ`. -/
def subsLoop {α : Type} (data : List (List α)) (i dsub : Nat) : Res (List (List α)) :=
  loopM data.length (fun n subs => do
    let v ← getAt data n
    let s ← sliceChecked v (i * dsub) ((i + 1) * dsub)
    setAt subs n s) (List.replicate data.length [])

/-- `TrainPQ(data, m, k, iters, seed)`; `perm i N` is the permutation `rng.Perm(N)` drawn from
the seeded source in the call of `kmeans` for sub-vector `i`. -/
def TrainPQ {α : Type} [LinearOrder α] [Zero α] [One α] [Add α] [Sub α] [Mul α] [Div α]
    [NatCast α] (big : α) (perm : Nat → Nat → List Nat) (data : List (List α))
    (m k iters : Nat) : Res (PQ α) :=
  match data with
  | [] => .ok { M := m, K := k, Dsub := 0, Codebooks := [] }
  | v0 :: _ =>
    if m = 0 then .error (.panic "integer divide by zero")
    else do
      let cbs ← loopM m (fun i cbs => do
        let subs ← subsLoop data i (v0.length / m)
        let cb ← kmeans big (perm i data.length) subs
          (if (if k > data.length then data.length else k) < 1 then 1
            else (if k > data.length then data.length else k)) iters
        setAt cbs i cb) (List.replicate m [])
      pure { M := m, K := if (if k > data.length then data.length else k) < 1 then 1
                  else (if k > data.length then data.length else k),
             Dsub := v0.length / m, Codebooks := cbs }

/-- A list of `n` rows of `D` values each. -/
def Rect {α : Type} (n D : Nat) (m : List (List α)) : Prop :=
  m.length = n ∧ ∀ p, p < n → (m.getD p []).length = D

/-- `LayerSpec` (without the name). -/
structure LayerSpec (α : Type) where
  Rows : Nat
  Cols : Nat
  Data : List α
  Scope : Nat

/-- `Config`; the quantile `OutlierQuantile` is the fraction `Qnum / Qden`. -/
structure Config where
  Rank : Int
  Qnum : Int
  Qden : Nat
  PQm : Nat
  PQk : Nat

/-- The struct `Shard` of package `convert`, with its field `Comp`. -/
structure ShardOut where
  Typ : Nat
  Scope : Nat
  Comp : Nat
  Data : Bytes
  deriving DecidableEq, Repr

/-- `fp16bytes(f)`; `bitsOf` is `math.Float32bits`. -/
def fp16bytes {α : Type} (bitsOf : α → Nat) (f : List α) : Bytes :=
  (f.map (fun v => fp32to16 (bitsOf v))).flatten

/-- `float32SliceToBytes(a)`: the bit patterns, little-endian. -/
def float32SliceToBytes {α : Type} (bitsOf : α → Nat) (a : List α) : Bytes :=
  (a.map (fun v => putU32 (bitsOf v))).flatten

/-- The loop `for i := 0; i < m; i++ { rb.Write(float32SliceToBytes(pq.Codebooks[i])) }`. -/
def codebookLoop {α : Type} (bitsOf : α → Nat) (m : Nat) (cbs : List (List α)) : Res Bytes :=
  loopM m (fun i rb => do
    let cb ← getAt cbs i
    pure (rb ++ float32SliceToBytes bitsOf cb)) []

/-- The loop `for i := 0; i < N; i++ { rb.Write(codes[i]) }`. -/
def codesLoop (n : Nat) (codes : List (List Nat)) : Res Bytes :=
  loopM n (fun i rb => do
    let row ← getAt codes i
    pure (rb ++ row)) []

/-- `ConvertLayer(spec, cfg)`: the shards D, L, R, S in this order.  `lowRank` is the SVD step
of `decomposeNDSQ`, `bitsOf` is `math.Float32bits`, `perm` the permutations drawn by `TrainPQ`,
`big` the constant `float32(1e30)`. -/
def ConvertLayer {α : Type} [LinearOrder α] [Zero α] [One α] [Add α] [Sub α] [Mul α] [Neg α]
    [Div α] [NatCast α]
    (lowRank : Nat → Nat → List α → Int → Res (List α)) (bitsOf : α → Nat)
    (perm : Nat → Nat → List Nat) (big : α) (spec : LayerSpec α) (cfg : Config) :
    Res (List ShardOut) := do
  let dec ← decomposeNDSQ lowRank spec.Rows spec.Cols spec.Data cfg.Rank cfg.Qnum cfg.Qden
  let db := putU32 (spec.Rows % 2 ^ 32) ++ putU32 (spec.Cols % 2 ^ 32) ++ fp16bytes bitsOf dec.D
  let lb := putU32 (spec.Rows % 2 ^ 32) ++ putU32 (spec.Cols % 2 ^ 32) ++ fp16bytes bitsOf dec.L
  let flat := dec.R ++ List.replicate ((128 - dec.R.length % 128) % 128) 0
  let data := (List.range (flat.length / 128)).map (fun i => (flat.drop (i * 128)).take 128)
  if cfg.PQm = 0 then .error (.panic "integer divide by zero")
  else do
    let pq ← TrainPQ big perm data (if 128 % cfg.PQm ≠ 0 then 128 / 8 else cfg.PQm) cfg.PQk 25
    let codes ← PQ.Encode big pq data
    let cbBytes ← codebookLoop bitsOf (if 128 % cfg.PQm ≠ 0 then 128 / 8 else cfg.PQm)
      pq.Codebooks
    let codeBytes ← codesLoop (flat.length / 128) codes
    let rb := putU32 (spec.Rows % 2 ^ 32) ++ putU32 (spec.Cols % 2 ^ 32) ++ putU16 (128 % 2 ^ 16)
      ++ putU16 ((if 128 % cfg.PQm ≠ 0 then 128 / 8 else cfg.PQm) % 2 ^ 16)
      ++ putU16 (pq.K % 2 ^ 16) ++ putU32 (flat.length / 128 % 2 ^ 32) ++ cbBytes ++ codeBytes
    let sb := putU32 (spec.Rows % 2 ^ 32) ++ putU32 (spec.Cols % 2 ^ 32)
      ++ putU32 (dec.Sind.length % 2 ^ 32)
      ++ (dec.Sind.map (fun ij => putU32 (ofInt32 ij.1) ++ putU32 (ofInt32 ij.2))).flatten
      ++ float32SliceToBytes bitsOf dec.Sval
    pure [{ Typ := 3, Scope := spec.Scope, Comp := 0, Data := db },
          { Typ := 0, Scope := spec.Scope, Comp := 0, Data := lb },
          { Typ := 1, Scope := spec.Scope, Comp := 0, Data := rb },
          { Typ := 2, Scope := spec.Scope, Comp := 0, Data := sb }]

/-- The SVD step on a matrix whose rank is at most `rank`: the low-rank part is the matrix
itself. -/
def lowRankFull {α : Type} : Nat → Nat → List α → Int → Res (List α) :=
  fun _ _ A _ => .ok A

/-- The bit patterns `math.Float32bits` of the values 0, 1 and 2, the only values that occur in
the layers below. -/
def tableBits : ℚ → Nat :=
  fun v => if v = 1 then 0x3F800000 else if v = 2 then 0x40000000 else 0

/-- The identity permutations.  In the layers below all vectors that `kmeans` gets are equal, so
the result does not depend on the permutation drawn. -/
def identPerm : Nat → Nat → List Nat := fun _ n => List.range n

/-- The constant `float32(1e30)` as a rational number. -/
def big32Q : ℚ := 1000000015047466219876688855040

/-- A layer of `2^32` rows and one column, all zero. -/
def wideSpec : LayerSpec ℚ :=
  { Rows := 2 ^ 32, Cols := 1, Data := List.replicate (2 ^ 32) 0, Scope := 0 }

/-- A layer of `2^23` rows and one column, all zero: 65536 vectors of 128 values. -/
def manySpec : LayerSpec ℚ :=
  { Rows := 2 ^ 23, Cols := 1, Data := List.replicate (2 ^ 23) 0, Scope := 0 }

/-- A `2 x 3` layer of rank 1. -/
def rankOneSpec : LayerSpec ℚ :=
  { Rows := 2, Cols := 3, Data := [1, 2, 0, 1, 2, 0], Scope := 4 }

/-- A configuration with `PQm = 16` and `PQk = 256`. -/
def cfg16 : Config := { Rank := 1, Qnum := 1, Qden := 2, PQm := 16, PQk := 256 }

/-- A configuration with `PQm = 16` and `PQk = 65536`. -/
def cfgManyK : Config := { Rank := 1, Qnum := 1, Qden := 2, PQm := 16, PQk := 65536 }

/-! ## Examples of malformed payloads -/

/-- An embedded R payload with `d = 3`, `m = 2` (`d` is not divisible by `m`), `k = 1`, `n = 1`:
shape `1 x 3`, two centroids of `d/m = 1` value (`1.0` and `2.0`) and the codes `0, 0`. -/
def oddPayload : Bytes :=
  rPayload 1 3 3 2 1 1 (putU32 0x3F800000 ++ putU32 0x40000000) [0, 0]

/-- A shared R payload with `d = 3`, `m = 2`, `k = 1`, `n = 1`, `cb_id = 0` and the codes
`0, 0`. -/
def oddShared : Bytes := rShared 1 3 3 2 1 1 0 [0, 0]

/-- A pool whose entry 0 declares `d = 3`, `m = 2`, `k = 1` and holds two values. -/
def oddPool : CodebookPool Int :=
  { Entries := [(0, { ID := 0, D := 3, M := 2, K := 1, Data := [2 ^ 150, 2 ^ 151] })] }

/-- An embedded R payload with `m = 0`: the 18 head bytes only. -/
def zeroMPayload : Bytes := rPayload 1 1 4 0 1 0 [] []

/-- A shared R payload with `m = 0`: 20 bytes. -/
def zeroMShared : Bytes := rShared 1 1 4 0 1 0 0 []

/-- A pool whose entry 0 leaves `d`, `m` and `k` open (zero). -/
def openPool : CodebookPool Int :=
  { Entries := [(0, { ID := 0, D := 0, M := 0, K := 0, Data := [] })] }

/-- The first 16 bytes of an R payload: `rows = 1, cols = 1, d = 2, m = 1, k = 1` and the low
half of `n`. -/
def shortHead : Bytes := putU32 1 ++ putU32 1 ++ putU16 2 ++ putU16 1 ++ putU16 1 ++ [0, 0]

/-- A routing section that declares `dim = 2` and `n = 1` (22 bytes) and holds 14: the header,
one shard id and one cost. -/
def shortRouting : Bytes := putU16 2 ++ putU32 1 ++ putU32 0 ++ putU32 0x3F800000

/-- A routing section of 6 bytes that declares `dim = 0` and `n = 1` (14 bytes). -/
def headRouting : Bytes := putU16 0 ++ putU32 1

/-! ## The report of the route command -/

/-- The print loop of `cmdRoute`: line `i` holds `i`, `selected[i]` and `costs[order[i]]`. -/
def reportLoop {α : Type} (costs : List α) (order : List Nat) :
    List Nat → Nat → Res (List (Nat × Nat × α))
  | [], _ => .ok []
  | sid :: rest, i => do
    let oi ← getAt order i
    let c ← getAt costs oi
    let lines ← reportLoop costs order rest (i + 1)
    pure ((i, sid, c) :: lines)

/-- The selection and the report of `cmdRoute`: the lines `(i, shard_id, cost)` it prints. -/
def routeReport {α : Type} [LinearOrder α] [Zero α] [Add α] (k : Int) (budget : α)
    (costs : List α) (shardIDs : List Nat) (order : List Nat) : Res (List (Nat × Nat × α)) := do
  let sel ← selectShards k budget costs shardIDs order
  reportLoop costs order sel.1 0

/-! ## A dense backend that handles one of two calls -/

/-- The product `y += A*x` of a row-major `rows x cols` matrix, as `MatVecF32` of package `gpu`
computes it. -/
def denseAdd (y A : List Int) (rows cols : Nat) (x : List Int) : List Int :=
  (List.range rows).map (fun i =>
    y.getD i 0 + ((List.range cols).map (fun j => A.getD (i * cols + j) 0 * x.getD j 0)).sum)

/-- A backend that is available and handles the dense call for the matrix whose first value is
`1.0` (the matrix `testL`), and reports every other call as not handled, leaving `y` alone. -/
def halfGpu : Gpu Int :=
  { Available := true
    MatVecF32 := fun y A rows cols x =>
      if A.getD 0 0 = 2 ^ 150 then (true, denseAdd y A rows cols x) else (false, y)
    RPQMatVecF32 := fun y _ _ _ _ _ _ _ => (false, y)
    SparseAddF32 := fun y _ _ _ _ _ _ => (false, y) }

/-- A bank with the L and the D shard of `TestReconstructSmall_L_D_S`, scope 0. -/
def denseBank : Bytes :=
  packShard 0 0 (f16Payload 2 3 testL) ++ packShard 3 0 (f16Payload 2 3 testD)

/-! ## Triplets out of range -/

/-- An S payload of shape `2 x 3` with one triplet `(r, c, 1.0)`. -/
def sPayload (r c : Int) : Bytes :=
  putU32 2 ++ putU32 3 ++ putU32 1 ++ putU32 (ofInt32 r) ++ putU32 (ofInt32 c)
    ++ putU32 0x3F800000

/-- A bank with one S shard of scope 0 and shape `2 x 3` that holds the triplet `(r, c, 1.0)`. -/
def sBank (r c : Int) : Bytes := packShard 2 0 (sPayload r c)

/-! ## The scan of the shard bank -/

/-- The offset at which the scan of `IndexShardBank` stands after the records `recs` when it
started at `off`: the end of the payload of the last record. -/
def scanEnd : Nat → List BankRec → Nat
  | off, [] => off
  | _, r :: rest => scanEnd (r.Offset + r.Hdr.Csize) rest

/-! ## The declared entries of a codebook table -/

/-- Offset of the `i`-th entry that a codebook table declares from offset `off` on: each entry
stands behind the 12-byte header and the `size` data bytes of the one before. -/
def entryOffset (b : Bytes) : Nat → Nat → Nat
  | off, 0 => off
  | off, i + 1 => entryOffset b (off + 12 + le32 b (off + 8)) i

/-- The entry declared at offset `off` of a codebook table, with its key: `id`, `d`, `m`, `k`
from the header and the `size/4` little-endian `f32` values behind it. -/
def entryAt {α : Type} (F : Nat → α) (b : Bytes) (off : Nat) : Nat × CodebookEntry α :=
  (le16 b off,
    { ID := le16 b off, D := le16 b (off + 2), M := le16 b (off + 4), K := le16 b (off + 6)
      Data := (List.range (le32 b (off + 8) / 4)).map (fun j => F (le32 b (off + 12 + 4 * j))) })

/-- The entry declared at `off` is malformed: its 12-byte header or its `size` data bytes run
past the end of `b`, or `size` is not a multiple of 4. -/
def entryBad (b : Bytes) (off : Nat) : Prop :=
  off + 12 > b.length ∨ off + 12 + le32 b (off + 8) > b.length ∨ le32 b (off + 8) % 4 ≠ 0

instance (b : Bytes) (off : Nat) : Decidable (entryBad b off) := by
  unfold entryBad; infer_instance

/-- A codebook table with two entries: id 7 with `(d, m, k) = (2, 1, 1)` and the values
`1.0, 2.0`, and id 9 with `(d, m, k) = (1, 1, 1)` and the value `2.0`. -/
def twoTable : Bytes :=
  putU16 2
    ++ (putU16 7 ++ putU16 2 ++ putU16 1 ++ putU16 1 ++ putU32 8
        ++ putU32 0x3F800000 ++ putU32 0x40000000)
    ++ (putU16 9 ++ putU16 1 ++ putU16 1 ++ putU16 1 ++ putU32 4 ++ putU32 0x40000000)

/-- A container head of 44 bytes: the magic, version 1, `num = 1`, and one TOC entry
`(type 3, offset 4096, size 5, flags 2)`. -/
def tinyFile : Bytes :=
  magic ++ putU32 1 ++ putU32 1 ++ putU32 0
    ++ [3, 0, 0, 0] ++ [0, 16, 0, 0, 0, 0, 0, 0] ++ [5, 0, 0, 0, 0, 0, 0, 0] ++ [2, 0, 0, 0]

/-! ## Decoding product-quantiser codes (`internal/quant/pq.go`) and the R payload -/

/-- The statement `copy(dst[off:off+len(src)], src)`, used where the bounds hold. -/
def copyAt {α : Type} (dst : List α) (off : Nat) (src : List α) : List α :=
  dst.take off ++ src ++ dst.drop (off + src.length)

/-- `pq.Decode(codes)`: `out[n][i*dsub:(i+1)*dsub]` is the centroid `codes[n][i]` of codebook
`i`; a missing codebook, a missing code and a centroid outside its codebook are panics. -/
def PQ.Decode {α : Type} [Zero α] (pq : PQ α) (codes : List (List Nat)) : Res (List (List α)) :=
  loopM pq.M (fun i out => do
    let cb ← getAt pq.Codebooks i
    loopM codes.length (fun n out => do
      let row ← getAt codes n
      let idx ← getAt row i
      let dst ← getAt out n
      let cent ← sliceChecked cb (idx * pq.Dsub) (idx * pq.Dsub + pq.Dsub)
      setAt out n (copyAt dst (i * pq.Dsub) cent)) out)
    (List.replicate codes.length (List.replicate (pq.M * pq.Dsub) 0))

/-- The packing lines of `ConvertLayer` (`convert.go`, lines 204 to 216) for a quantiser `pq`
and its code rows: the head `rows, cols, d, m, k, n` with `d = M*Dsub`, `m = M`, `k = K` and
`n` the number of code rows, then the `M` codebooks in order, then the code rows. -/
def packR {α : Type} (bitsOf : α → Nat) (rows cols : Nat) (pq : PQ α) (codes : List (List Nat)) :
    Res Bytes := do
  let cbBytes ← codebookLoop bitsOf pq.M pq.Codebooks
  let codeBytes ← codesLoop codes.length codes
  pure (putU32 (rows % 2 ^ 32) ++ putU32 (cols % 2 ^ 32) ++ putU16 (pq.M * pq.Dsub % 2 ^ 16)
    ++ putU16 (pq.M % 2 ^ 16) ++ putU16 (pq.K % 2 ^ 16) ++ putU32 (codes.length % 2 ^ 32)
    ++ cbBytes ++ codeBytes)

/-- The bit patterns `math.Float32bits` of the values 0, 1 and 2 in units of `2^-150`, the only
values that occur in the quantisers below. -/
def fixBits : Int → Nat :=
  fun v => if v = 2 ^ 150 then 0x3F800000 else if v = 2 ^ 151 then 0x40000000 else 0

/-- A quantiser with two sub-vectors of one value and one centroid each: `1.0` and `2.0`. -/
def pqTwo : PQ Int := { M := 2, K := 1, Dsub := 1, Codebooks := [[2 ^ 150], [2 ^ 151]] }

/-- A quantiser with one sub-vector of one value and the two centroids `1.0` and `2.0`. -/
def pqOne : PQ Int := { M := 1, K := 2, Dsub := 1, Codebooks := [[2 ^ 150, 2 ^ 151]] }

/-- The sub-vectors `i2 < i` of every row, and the sub-vector `i` of the rows below `r`, hold the
selected centroids. -/
def DecodeInv {α : Type} [Zero α] (pq : PQ α) (codes : List (List Nat)) (i r : Nat)
    (out : List (List α)) : Prop :=
  Rect codes.length (pq.M * pq.Dsub) out ∧
  (∀ r2, r2 < codes.length → ∀ i2, i2 < i → ∀ j, j < pq.Dsub →
    (out.getD r2 []).getD (i2 * pq.Dsub + j) 0
      = (pq.Codebooks.getD i2 []).getD ((codes.getD r2 []).getD i2 0 * pq.Dsub + j) 0) ∧
  (∀ r2, r2 < r → ∀ j, j < pq.Dsub →
    (out.getD r2 []).getD (i * pq.Dsub + j) 0
      = (pq.Codebooks.getD i []).getD ((codes.getD r2 []).getD i 0 * pq.Dsub + j) 0)

/-! ## Float values for the examples -/

/-- The magnitude `num / 2^sh` (counted in units of the grid) rounded to `p` significant binary
digits, to the nearest value and a tie to the even one; the result is a multiple of `2^qmin`
units, the spacing of the smallest values. -/
def roundMag (p qmin num sh : Nat) : Nat :=
  rneDiv num (1 <<< max (sh + qmin) (bitLen num - p)) <<< (max (sh + qmin) (bitLen num - p) - sh)

/-- The number `n / 2^sh` rounded as `roundMag` rounds its magnitude. -/
def roundInt (p qmin : Nat) (n : Int) (sh : Nat) : Int :=
  if n < 0 then -((roundMag p qmin n.natAbs sh : Nat) : Int)
  else ((roundMag p qmin n.natAbs sh : Nat) : Int)

/-- A finite float32 value, `v` in units of `2^-150` (the unit of `f32fix`).  The operations
round to 24 significant binary digits on the grid of the multiples of `2^-149`, to the nearest
value and a tie to the even one; a result above the float32 range is not turned into an
infinity (the examples stay far below `2^128`). -/
structure F32 where
  v : Int
  deriving DecidableEq, Repr

instance : Zero F32 := ⟨⟨0⟩⟩

instance : Add F32 := ⟨fun a b => ⟨roundInt 24 1 (a.v + b.v) 0⟩⟩

instance : Sub F32 := ⟨fun a b => ⟨roundInt 24 1 (a.v - b.v) 0⟩⟩

instance : Mul F32 := ⟨fun a b => ⟨roundInt 24 1 (a.v * b.v) 150⟩⟩

instance : Neg F32 := ⟨fun a => ⟨-a.v⟩⟩

instance : LinearOrder F32 :=
  LinearOrder.lift' F32.v (fun a b h => by cases a; cases b; cases h; rfl)

/-- The float32 value with the bit pattern `u` (a finite pattern). -/
def F32.ofBits (u : Nat) : F32 := ⟨f32fix u⟩

/-- A finite float64 value, `v` in units of `2^-1074`.  The operations round to 53 significant
binary digits, to the nearest value and a tie to the even one; a result above the float64 range
is not turned into an infinity. -/
structure F64 where
  v : Int
  deriving DecidableEq, Repr

instance : Zero F64 := ⟨⟨0⟩⟩

instance : Add F64 := ⟨fun a b => ⟨roundInt 53 0 (a.v + b.v) 0⟩⟩

instance : Sub F64 := ⟨fun a b => ⟨roundInt 53 0 (a.v - b.v) 0⟩⟩

instance : Mul F64 := ⟨fun a b => ⟨roundInt 53 0 (a.v * b.v) 1074⟩⟩

instance : Neg F64 := ⟨fun a => ⟨-a.v⟩⟩

instance : LinearOrder F64 :=
  LinearOrder.lift' F64.v (fun a b h => by cases a; cases b; cases h; rfl)

/-- The float64 value `float64(f)` of the float32 with the bit pattern `u`: the conversion is
exact. -/
def F64.ofBits32 (u : Nat) : F64 := ⟨f32fix u * ((1 <<< 924 : Nat) : Int)⟩

/-! ## Inputs of the examples, as float values -/

/-- The float32 `1.0`. -/
def one32 : F32 := F32.ofBits 0x3F800000

/-- What the three shards of `testBank` decode to, as float32 values. -/
def testComps32 : List (Decoded F32) :=
  [{ typ := 0, rows := 2, cols := 3, mat := testL.map (fun u => F32.ofBits (fp16RoundTrip u)),
     idx := [], vals := [] },
   { typ := 3, rows := 2, cols := 3, mat := testD.map (fun u => F32.ofBits (fp16RoundTrip u)),
     idx := [], vals := [] },
   { typ := 2, rows := 2, cols := 3, mat := [], idx := [(0, 1), (1, 2)],
     vals := [F32.ofBits 0x3DCCCCCD, F32.ofBits 0xBE4CCCCD] }]

/-- A bank of one uncompressed S shard of scope 0 that declares `rows = cols = 2^32 - 1` and
holds no triplet. -/
def hugeBank : Bytes :=
  packShard 2 0 (putU32 (2 ^ 32 - 1) ++ putU32 (2 ^ 32 - 1) ++ putU32 0)

/-- What the shard of `hugeBank` decodes to. -/
def hugeComps : List (Decoded F32) :=
  [{ typ := 2, rows := 2 ^ 32 - 1, cols := 2 ^ 32 - 1, mat := [], idx := [], vals := [] }]

/-- A pool whose entry 0 has the four values `1, 0, 0, 1` the payload `testShared` needs but
declares `m = 2`. -/
def testPoolM32 : CodebookPool F32 :=
  { Entries := [(0, { ID := 0, D := 2, M := 2, K := 2, Data := [one32, 0, 0, one32] })] }

/-- A shared R payload with `rows = cols = 1, d = 65535, m = 1, k = 1, n = 2^31, cb_id = 0` and
`2^31` codes `0`. -/
def wideShared : Bytes := rShared 1 1 65535 1 1 (2 ^ 31) 0 (List.replicate (2 ^ 31) 0)

/-- The pool entry for `wideShared`: `d = 65535, m = 1, k = 1` and 65535 values. -/
def wideEntry : CodebookEntry F32 :=
  { ID := 0, D := 65535, M := 1, K := 1, Data := List.replicate 65535 0 }

/-- A pool that holds `wideEntry` under the id 0. -/
def widePool : CodebookPool F32 := { Entries := [(0, wideEntry)] }

/-- The pool of `TestDecodeRWithPool` as float32 values: entry 0 with `d = 2, m = 1, k = 2` and
the codebook `[1, 0, 0, 1]`. -/
def testPool32 : CodebookPool F32 :=
  { Entries := [(0, { ID := 0, D := 2, M := 1, K := 2, Data := [one32, 0, 0, one32] })] }

/-- The float64 `1.0`. -/
def one64 : F64 := F64.ofBits32 0x3F800000

/-- The float64 `2^-60`. -/
def tiny64 : F64 := F64.ofBits32 0x21800000

/-- The costs `1.0` and `2^-60` of two shards (float32 values, converted to float64). -/
def tinyCosts : List F64 := [one64, tiny64]

/-- The keys `[1, 0]` and `[1, 2^-60]` (float32 values, converted to float64). -/
def tieKeys : List (List F64) := [[one64, 0], [one64, tiny64]]

/-- The keys `[1, 0]` and `[0, 1]` of `TestRankByCosineOrder`, as float64 values. -/
def testKeys64 : List (List F64) := [[one64, 0], [0, one64]]

/-- The exact dot product of two lists of float64 values, in units of `2^-2148`. -/
def exactDot (key q : List F64) : Int := ((key.zip q).map (fun p => p.1.v * p.2.v)).sum

/-- The constant `float32(1e30)` that `bestd` starts from. -/
def big32F : F32 := F32.ofBits 0x7149F2CA

/-- A quantiser with one sub-vector of one value and the two centroids `2^51` and `2^50`. -/
def farPQ32 : PQ F32 :=
  { M := 1, K := 2, Dsub := 1, Codebooks := [[F32.ofBits 0x59000000, F32.ofBits 0x58800000]] }

/-- A quantiser with one sub-vector of two values and the two centroids `(4097, 0)` and
`(4096, 90.5078125)`. -/
def tiePQ : PQ F32 :=
  { M := 1, K := 2, Dsub := 2
    Codebooks := [[F32.ofBits 0x45800800, 0, F32.ofBits 0x45800000, F32.ofBits 0x42B50400]] }

/-- A quantiser with two sub-vectors of one value: centroids `0, 10` and `5, 5`. -/
def nearPQ32 : PQ F32 :=
  { M := 2, K := 2, Dsub := 1
    Codebooks := [[0, F32.ofBits 0x41200000], [F32.ofBits 0x40A00000, F32.ofBits 0x40A00000]] }

/-- The vectors `(9, 4)`, `(1, 7)` and `(5, 5)`. -/
def nearData : List (List F32) :=
  [[F32.ofBits 0x41100000, F32.ofBits 0x40800000], [F32.ofBits 0x3F800000, F32.ofBits 0x40E00000],
    [F32.ofBits 0x40A00000, F32.ofBits 0x40A00000]]

/-- The exact squared Euclidean distance of two lists of float32 values, in units of
`2^-300`. -/
def exactSq (a b : List F32) : Int :=
  ((a.zip b).map (fun p => (p.1.v - p.2.v) * (p.1.v - p.2.v))).sum

/-- A `1 x 1` input: `W[0,0] = 2^24`. -/
def roundW : List F32 := [F32.ofBits 0x4B800000]

/-- A low-rank part for `roundW`: `L[0,0] = -1`. -/
def roundL : List F32 := [F32.ofBits 0xBF800000]

/-- The `2 x 3` input `[[5, -7, 1], [0, 3, 9]]`, row-major. -/
def smallData32 : List F32 :=
  [F32.ofBits 0x40A00000, F32.ofBits 0xC0E00000, F32.ofBits 0x3F800000, 0,
    F32.ofBits 0x40400000, F32.ofBits 0x41100000]

/-- A low-rank part for `smallData32`: every entry `1`. -/
def smallL32 : List F32 := List.replicate 6 one32

/-- An `11 x 1` input: the values `0, 1, ..., 10`. -/
def quantData : List F32 :=
  [0, F32.ofBits 0x3F800000, F32.ofBits 0x40000000, F32.ofBits 0x40400000,
    F32.ofBits 0x40800000, F32.ofBits 0x40A00000, F32.ofBits 0x40C00000,
    F32.ofBits 0x40E00000, F32.ofBits 0x41000000, F32.ofBits 0x41100000,
    F32.ofBits 0x41200000]

/-- A low-rank part for `quantData`: zero. -/
def quantL : List F32 := List.replicate 11 0

/-- The float64 nearest to `0.7` is `q07num / 2^53`. -/
def q07num : Int := 6305039478318694

/-- A quantiser with one sub-vector of 65535 values and one centroid, all zero. -/
def widePQ : PQ Int := { M := 1, K := 1, Dsub := 65535, Codebooks := [List.replicate 65535 0] }

/-- `2^31` code rows `[0]`. -/
def wideCodes : List (List Nat) := List.replicate (2 ^ 31) [0]

/-! ## Bit fields as arithmetic -/

theorem or_eq_add_of_lt (i a b : Nat) (hb : b < 2 ^ i) : 2 ^ i * a ||| b = 2 ^ i * a + b :=
  (Nat.mul_add_lt_is_or hb a).symm

theorem and_mask (x n : Nat) : x &&& (2 ^ n - 1) = x % 2 ^ n := Nat.and_pow_two_sub_one_eq_mod x n

theorem readHalf_pair (h : Nat) (hlt : h < 2 ^ 16) :
    readHalf [(h &&& 0xFF) % 256, (h >>> 8) % 256] 0 = h := by
  have a1 : h &&& 0xFF = h % 2 ^ 8 := and_mask h 8
  have a2 : (h % 2 ^ 8 % 256 ||| (h / 2 ^ 8 % 256) <<< 8) = 2 ^ 8 * (h / 2 ^ 8 % 256) + h % 2 ^ 8 % 256 := by
    rw [Nat.shiftLeft_eq, Nat.mul_comm _ (2 ^ 8), Nat.lor_comm]
    exact or_eq_add_of_lt 8 _ _ (by omega)
  simp only [readHalf, byteAt, List.getD_cons_zero, List.getD_cons_succ, a1,
    Nat.shiftRight_eq_div_pow, a2]
  omega

/-- Half-precision pattern written by `fp32to16` for a float32 in the normal half range. -/
theorem readHalf_fp32to16_normal (u : Nat) (hu : u < 2 ^ 32)
    (h1 : 113 ≤ u / 2 ^ 23 % 256) (h2 : u / 2 ^ 23 % 256 ≤ 142) :
    readHalf (fp32to16 u) 0
      = 2 ^ 15 * (u / 2 ^ 31) + 2 ^ 10 * (u / 2 ^ 23 % 256 - 112) + u % 2 ^ 23 / 2 ^ 13 := by
  have e1 : (u >>> 31) &&& 0x1 = u / 2 ^ 31 := by
    rw [Nat.shiftRight_eq_div_pow, Nat.and_one_is_mod]; omega
  have e2 : (u >>> 23) &&& 0xFF = u / 2 ^ 23 % 256 := by
    rw [Nat.shiftRight_eq_div_pow]; exact and_mask _ 8
  have e3 : u &&& 0x7FFFFF = u % 2 ^ 23 := and_mask _ 23
  have hs : u / 2 ^ 31 < 2 := by omega
  have hm : u % 2 ^ 23 / 2 ^ 13 < 2 ^ 10 := by omega
  unfold fp32to16
  simp only [e1, e2, e3]
  generalize u / 2 ^ 31 = s at hs ⊢
  generalize u / 2 ^ 23 % 256 = E at h1 h2 ⊢
  generalize hmm : u % 2 ^ 23 = m at hm ⊢
  have c1 : ¬ E = 0 := by omega
  have c2 : ¬ E = 0xFF := by omega
  have c3 : ¬ ((E : Int) - 127 + 15 ≤ 0) := by omega
  have c4 : ¬ ((E : Int) - 127 + 15 ≥ 0x1F) := by omega
  have c5 : (((E : Int) - 127 + 15) % 2 ^ 32).toNat = E - 112 := by omega
  simp only [c1, c2, c3, c4, c5, if_false]
  have e4 : (E - 112) &&& 0x1F = E - 112 := by
    rw [show (0x1F : Nat) = 2 ^ 5 - 1 from rfl, and_mask]; omega
  have e5 : (m >>> 13) &&& 0x3FF = m / 2 ^ 13 := by
    rw [Nat.shiftRight_eq_div_pow, show (0x3FF : Nat) = 2 ^ 10 - 1 from rfl, and_mask]; omega
  rw [e4, e5]
  generalize m / 2 ^ 13 = q at hm ⊢
  have o1 : s <<< 15 ||| (E - 112) <<< 10 = 2 ^ 15 * s + 2 ^ 10 * (E - 112) := by
    rw [Nat.shiftLeft_eq, Nat.shiftLeft_eq, Nat.mul_comm s, Nat.mul_comm (E - 112)]
    exact or_eq_add_of_lt 15 s _ (by omega)
  have o2 : 2 ^ 15 * s + 2 ^ 10 * (E - 112) ||| q = 2 ^ 15 * s + 2 ^ 10 * (E - 112) + q := by
    have : 2 ^ 15 * s + 2 ^ 10 * (E - 112) = 2 ^ 10 * (32 * s + (E - 112)) := by ring
    rw [this]; exact or_eq_add_of_lt 10 _ _ hm
  rw [o1, o2]
  set h := 2 ^ 15 * s + 2 ^ 10 * (E - 112) + q with hh
  have hlt : h < 2 ^ 16 := by omega
  rw [Nat.mod_eq_of_lt hlt]
  exact readHalf_pair h hlt

/-- Half-precision pattern written by `fp32to16` below the normal half range: a signed zero. -/
theorem readHalf_fp32to16_small (u : Nat) (hu : u < 2 ^ 32) (h1 : u / 2 ^ 23 % 256 ≤ 112) :
    readHalf (fp32to16 u) 0 = 2 ^ 15 * (u / 2 ^ 31) := by
  have e1 : (u >>> 31) &&& 0x1 = u / 2 ^ 31 := by
    rw [Nat.shiftRight_eq_div_pow, Nat.and_one_is_mod]; omega
  have e2 : (u >>> 23) &&& 0xFF = u / 2 ^ 23 % 256 := by
    rw [Nat.shiftRight_eq_div_pow]; exact and_mask _ 8
  have hs : u / 2 ^ 31 < 2 := by omega
  unfold fp32to16
  simp only [e1, e2]
  generalize u / 2 ^ 31 = s at hs ⊢
  generalize u / 2 ^ 23 % 256 = E at h1 ⊢
  have c2 : ¬ E = 0xFF := by omega
  have c3 : ((E : Int) - 127 + 15 ≤ 0) := by omega
  have hz : (s <<< 15) % 2 ^ 16 = 2 ^ 15 * s := by rw [Nat.shiftLeft_eq]; omega
  by_cases c1 : E = 0
  · simp only [c1, if_true, hz]
    exact readHalf_pair _ (by omega)
  · simp only [c1, c2, c3, if_true, if_false, hz]
    exact readHalf_pair _ (by omega)

/-- Decoding a normal half-precision pattern: the exponent is rebiased by 112 and the mantissa
moved up 13 bits. -/
theorem fp16to32bits_normal (s e q : Nat) (hs : s < 2) (he1 : 1 ≤ e) (he2 : e ≤ 30)
    (hq : q < 2 ^ 10) :
    fp16to32bits (2 ^ 15 * s + 2 ^ 10 * e + q) = 2 ^ 31 * s + 2 ^ 23 * (e + 112) + 2 ^ 13 * q := by
  set h := 2 ^ 15 * s + 2 ^ 10 * e + q with hh
  have e1 : (h >>> 15) &&& 0x1 = s := by
    rw [Nat.shiftRight_eq_div_pow, Nat.and_one_is_mod]; omega
  have e2 : (h >>> 10) &&& 0x1F = e := by
    rw [Nat.shiftRight_eq_div_pow, show (0x1F : Nat) = 2 ^ 5 - 1 from rfl, and_mask]; omega
  have e3 : h &&& 0x3FF = q := by
    rw [show (0x3FF : Nat) = 2 ^ 10 - 1 from rfl, and_mask]; omega
  unfold fp16to32bits
  simp only [e1, e2, e3]
  have c1 : ¬ e = 0 := by omega
  have c2 : ¬ e = 0x1F := by omega
  simp only [c1, c2, if_false]
  have c3 : (e + 2 ^ 32 - 15 + 127) % 2 ^ 32 = e + 112 := by omega
  rw [c3]
  have o1 : s <<< 31 ||| (e + 112) <<< 23 = 2 ^ 31 * s + 2 ^ 23 * (e + 112) := by
    rw [Nat.shiftLeft_eq, Nat.shiftLeft_eq, Nat.mul_comm s, Nat.mul_comm (e + 112)]
    exact or_eq_add_of_lt 31 s _ (by omega)
  have o2 : 2 ^ 31 * s + 2 ^ 23 * (e + 112) ||| q <<< 13
      = 2 ^ 31 * s + 2 ^ 23 * (e + 112) + 2 ^ 13 * q := by
    have : 2 ^ 31 * s + 2 ^ 23 * (e + 112) = 2 ^ 23 * (256 * s + (e + 112)) := by ring
    rw [this, Nat.shiftLeft_eq, Nat.mul_comm q]
    exact or_eq_add_of_lt 23 _ _ (by omega)
  rw [o1, o2]
  omega

/-- Decoding a half-precision signed zero. -/
theorem fp16to32bits_zero (s : Nat) (hs : s < 2) : fp16to32bits (2 ^ 15 * s) = 2 ^ 31 * s := by
  have h2 : s = 0 ∨ s = 1 := by omega
  rcases h2 with h | h <;> subst h <;> decide

/-- Encode-then-decode clears the low 13 mantissa bits in the normal half range. -/
theorem fp16RoundTrip_normal (u : Nat) (hu : u < 2 ^ 32)
    (h1 : 113 ≤ u / 2 ^ 23 % 256) (h2 : u / 2 ^ 23 % 256 ≤ 142) :
    fp16RoundTrip u = u - u % 2 ^ 13 := by
  unfold fp16RoundTrip
  rw [readHalf_fp32to16_normal u hu h1 h2,
    fp16to32bits_normal _ _ _ (by omega) (by omega) (by omega) (by omega)]
  omega

/-- Encode-then-decode flushes everything below the normal half range to a signed zero. -/
theorem fp16RoundTrip_small (u : Nat) (hu : u < 2 ^ 32) (h1 : u / 2 ^ 23 % 256 ≤ 112) :
    fp16RoundTrip u = 2 ^ 31 * (u / 2 ^ 31) := by
  unfold fp16RoundTrip
  rw [readHalf_fp32to16_small u hu h1, fp16to32bits_zero _ (by omega)]

theorem abs_f32val (u : Nat) : |f32val u| = (f32mag u : ℚ) / 2 ^ 150 := by
  have h0 : (0 : ℚ) ≤ (f32mag u : ℚ) / 2 ^ 150 := by positivity
  unfold f32val
  split
  · rw [abs_neg, abs_of_nonneg h0]
  · rw [abs_of_nonneg h0]

/-- The magnitude is monotone in the bit pattern (sign bit aside). -/
theorem f32mag_mono (x y : Nat) (hy : y < 2 ^ 31) (hxy : x ≤ y) : f32mag x ≤ f32mag y := by
  unfold f32mag
  have hx : x < 2 ^ 31 := lt_of_le_of_lt hxy hy
  have ex : x / 2 ^ 23 % 256 = x / 2 ^ 23 := by omega
  have ey : y / 2 ^ 23 % 256 = y / 2 ^ 23 := by omega
  rw [ex, ey]
  have hE : x / 2 ^ 23 ≤ y / 2 ^ 23 := Nat.div_le_div_right hxy
  have hmx : x % 2 ^ 23 < 2 ^ 23 := Nat.mod_lt _ (by norm_num)
  rcases Nat.lt_or_ge (x / 2 ^ 23) (y / 2 ^ 23) with hlt | hge
  · have hy0 : ¬ y / 2 ^ 23 = 0 := by omega
    rw [if_neg hy0]
    have hpow : 2 ^ (x / 2 ^ 23 + 1) ≤ 2 ^ (y / 2 ^ 23) := Nat.pow_le_pow_right (by norm_num) hlt
    have hbig : 2 ^ 23 * 2 ^ (y / 2 ^ 23) ≤ (2 ^ 23 + y % 2 ^ 23) * 2 ^ (y / 2 ^ 23) :=
      Nat.mul_le_mul_right _ (by omega)
    split
    · have : 2 ≤ 2 ^ (y / 2 ^ 23) := by
        calc 2 = 2 ^ 1 := by norm_num
          _ ≤ 2 ^ (y / 2 ^ 23) := Nat.pow_le_pow_right (by norm_num) (by omega)
      nlinarith
    · have h1 : (2 ^ 23 + x % 2 ^ 23) * 2 ^ (x / 2 ^ 23) ≤ 2 ^ 24 * 2 ^ (x / 2 ^ 23) :=
        Nat.mul_le_mul_right _ (by omega)
      have h2 : 2 ^ 24 * 2 ^ (x / 2 ^ 23) = 2 ^ 23 * 2 ^ (x / 2 ^ 23 + 1) := by ring
      calc (2 ^ 23 + x % 2 ^ 23) * 2 ^ (x / 2 ^ 23) ≤ 2 ^ 24 * 2 ^ (x / 2 ^ 23) := h1
        _ = 2 ^ 23 * 2 ^ (x / 2 ^ 23 + 1) := h2
        _ ≤ 2 ^ 23 * 2 ^ (y / 2 ^ 23) := Nat.mul_le_mul_left _ hpow
        _ ≤ _ := hbig
  · have hEq : x / 2 ^ 23 = y / 2 ^ 23 := le_antisymm hE hge
    have hm : x % 2 ^ 23 ≤ y % 2 ^ 23 := by omega
    rw [hEq]
    split
    · omega
    · exact Nat.mul_le_mul_right _ (by omega)

/-- Below exponent field 113 the magnitude is below `2^-14`. -/
theorem f32mag_lt_of_exp_le (u : Nat) (h : u / 2 ^ 23 % 256 ≤ 112) : f32mag u < 2 ^ 136 := by
  unfold f32mag
  have hm : u % 2 ^ 23 < 2 ^ 23 := Nat.mod_lt _ (by norm_num)
  split
  · calc 2 * (u % 2 ^ 23) < 2 ^ 24 := by omega
      _ ≤ 2 ^ 136 := by norm_num
  · have hp : 2 ^ (u / 2 ^ 23 % 256) ≤ 2 ^ 112 := Nat.pow_le_pow_right (by norm_num) h
    calc (2 ^ 23 + u % 2 ^ 23) * 2 ^ (u / 2 ^ 23 % 256)
        < 2 ^ 24 * 2 ^ (u / 2 ^ 23 % 256) :=
          Nat.mul_lt_mul_of_pos_right (by omega) (by positivity)
      _ ≤ 2 ^ 24 * 2 ^ 112 := Nat.mul_le_mul_left _ hp
      _ = 2 ^ 136 := by norm_num

/-- From exponent field 143 on the magnitude is at least `2^16`. -/
theorem f32mag_ge_of_exp_ge (u : Nat) (h : 143 ≤ u / 2 ^ 23 % 256) : 2 ^ 166 ≤ f32mag u := by
  unfold f32mag
  rw [if_neg (by omega)]
  have hp : 2 ^ 143 ≤ 2 ^ (u / 2 ^ 23 % 256) := Nat.pow_le_pow_right (by norm_num) h
  calc 2 ^ 166 = 2 ^ 23 * 2 ^ 143 := by norm_num
    _ ≤ 2 ^ 23 * 2 ^ (u / 2 ^ 23 % 256) := Nat.mul_le_mul_left _ hp
    _ ≤ _ := Nat.mul_le_mul_right _ (by omega)

/-- Clearing the low 13 mantissa bits lowers the magnitude by the cleared bits. -/
theorem f32mag_trunc (u : Nat) (h1 : 113 ≤ u / 2 ^ 23 % 256) :
    f32mag u = f32mag (u - u % 2 ^ 13) + u % 2 ^ 13 * 2 ^ (u / 2 ^ 23 % 256) := by
  unfold f32mag
  have hE : (u - u % 2 ^ 13) / 2 ^ 23 % 256 = u / 2 ^ 23 % 256 := by omega
  have hm : (u - u % 2 ^ 13) % 2 ^ 23 = u % 2 ^ 23 - u % 2 ^ 13 := by omega
  have hle : u % 2 ^ 13 ≤ u % 2 ^ 23 := by omega
  have h0 : ¬ u / 2 ^ 23 % 256 = 0 := by omega
  simp only [hE, hm, if_neg h0]
  generalize 2 ^ (u / 2 ^ 23 % 256) = P
  have : 2 ^ 23 + u % 2 ^ 23 = (2 ^ 23 + (u % 2 ^ 23 - u % 2 ^ 13)) + u % 2 ^ 13 := by omega
  rw [this, Nat.add_mul]

theorem fp16_relative_error_aux (u : Nat) (hu : u < 2 ^ 32)
    (hlo : (1 : ℚ) / 2 ^ 14 ≤ |f32val u|) (hhi : |f32val u| ≤ 2 ^ 15) :
    |f32val (fp16RoundTrip u) - f32val u| ≤ |f32val u| / 2 ^ 10 := by
  rw [abs_f32val] at hlo hhi ⊢
  -- the exponent field lies in 113..142
  have h1 : 113 ≤ u / 2 ^ 23 % 256 := by
    by_contra hc
    have := f32mag_lt_of_exp_le u (by omega)
    have h3 : (f32mag u : ℚ) < 2 ^ 136 := by exact_mod_cast this
    rw [div_le_div_iff₀ (by positivity) (by positivity)] at hlo
    have h4 : (2 : ℚ) ^ 150 = 2 ^ 136 * 2 ^ 14 := by norm_num
    have h5 : (0 : ℚ) < 2 ^ 14 := by positivity
    rw [one_mul, h4] at hlo
    have := le_of_mul_le_mul_right hlo h5
    linarith
  have h2 : u / 2 ^ 23 % 256 ≤ 142 := by
    by_contra hc
    have := f32mag_ge_of_exp_ge u (by omega)
    have h3 : (2 ^ 166 : ℚ) ≤ f32mag u := by exact_mod_cast this
    rw [div_le_iff₀ (by positivity)] at hhi
    have h4 : (2 : ℚ) ^ 15 * 2 ^ 150 = 2 ^ 165 := by norm_num
    have h5 : (2 : ℚ) ^ 165 < 2 ^ 166 := by norm_num
    rw [h4] at hhi
    linarith
  rw [fp16RoundTrip_normal u hu h1 h2]
  have hs : (u - u % 2 ^ 13) / 2 ^ 31 % 2 = u / 2 ^ 31 % 2 := by omega
  have ht := f32mag_trunc u h1
  have ht2 : (f32mag u : ℚ)
      = (f32mag (u - u % 2 ^ 13) : ℚ) + (u % 2 ^ 13 : ℕ) * 2 ^ (u / 2 ^ 23 % 256) := by
    exact_mod_cast ht
  -- the cleared bits are at most 2^-10 of the magnitude
  have hr : (u % 2 ^ 13) * 2 ^ (u / 2 ^ 23 % 256) * 2 ^ 10 ≤ f32mag u := by
    unfold f32mag
    rw [if_neg (by omega)]
    have : u % 2 ^ 13 * 2 ^ 10 ≤ 2 ^ 23 + u % 2 ^ 23 := by omega
    calc u % 2 ^ 13 * 2 ^ (u / 2 ^ 23 % 256) * 2 ^ 10
        = (u % 2 ^ 13 * 2 ^ 10) * 2 ^ (u / 2 ^ 23 % 256) := by ring
      _ ≤ _ := Nat.mul_le_mul_right _ this
  have hr2 : ((u % 2 ^ 13 : ℕ) : ℚ) * 2 ^ (u / 2 ^ 23 % 256) * 2 ^ 10 ≤ f32mag u := by
    exact_mod_cast hr
  have hd0 : (0 : ℚ) ≤ ((u % 2 ^ 13 : ℕ) : ℚ) * 2 ^ (u / 2 ^ 23 % 256) := by positivity
  have hdiff : |f32val (u - u % 2 ^ 13) - f32val u|
      = ((u % 2 ^ 13 : ℕ) : ℚ) * 2 ^ (u / 2 ^ 23 % 256) / 2 ^ 150 := by
    unfold f32val
    rw [hs]
    split
    · rw [ht2]
      rw [show -((f32mag (u - u % 2 ^ 13) : ℚ) / 2 ^ 150)
          - -(((f32mag (u - u % 2 ^ 13) : ℚ) + ((u % 2 ^ 13 : ℕ) : ℚ) * 2 ^ (u / 2 ^ 23 % 256))
              / 2 ^ 150)
          = ((u % 2 ^ 13 : ℕ) : ℚ) * 2 ^ (u / 2 ^ 23 % 256) / 2 ^ 150 by ring]
      exact abs_of_nonneg (by positivity)
    · rw [ht2]
      rw [show (f32mag (u - u % 2 ^ 13) : ℚ) / 2 ^ 150
          - ((f32mag (u - u % 2 ^ 13) : ℚ) + ((u % 2 ^ 13 : ℕ) : ℚ) * 2 ^ (u / 2 ^ 23 % 256))
              / 2 ^ 150
          = -(((u % 2 ^ 13 : ℕ) : ℚ) * 2 ^ (u / 2 ^ 23 % 256) / 2 ^ 150) by ring]
      rw [abs_neg]
      exact abs_of_nonneg (by positivity)
  rw [hdiff, div_div, div_le_div_iff₀ (by positivity) (by positivity)]
  calc ((u % 2 ^ 13 : ℕ) : ℚ) * 2 ^ (u / 2 ^ 23 % 256) * (2 ^ 150 * 2 ^ 10)
      = (((u % 2 ^ 13 : ℕ) : ℚ) * 2 ^ (u / 2 ^ 23 % 256) * 2 ^ 10) * 2 ^ 150 := by ring
    _ ≤ (f32mag u : ℚ) * 2 ^ 150 := mul_le_mul_of_nonneg_right hr2 (by positivity)

/-- Magnitude pattern (sign bit removed) after encode-then-decode, below the overflow range. -/
theorem fp16RoundTrip_mod (u : Nat) (hu : u < 2 ^ 32) (h2 : u / 2 ^ 23 % 256 ≤ 142) :
    fp16RoundTrip u / 2 ^ 31 % 2 = u / 2 ^ 31 % 2 ∧
    fp16RoundTrip u % 2 ^ 31
      = if u % 2 ^ 31 < 113 * 2 ^ 23 then 0 else u % 2 ^ 31 - u % 2 ^ 31 % 2 ^ 13 := by
  rcases Nat.lt_or_ge (u / 2 ^ 23 % 256) 113 with h | h
  · rw [fp16RoundTrip_small u hu (by omega), if_pos (by omega)]
    omega
  · rw [fp16RoundTrip_normal u hu h h2, if_neg (by omega)]
    omega

theorem f32mag_mod (u : Nat) : f32mag (u % 2 ^ 31) = f32mag u := by
  unfold f32mag
  have h1 : u % 2 ^ 31 / 2 ^ 23 % 256 = u / 2 ^ 23 % 256 := by omega
  have h2 : u % 2 ^ 31 % 2 ^ 23 = u % 2 ^ 23 := by omega
  rw [h1, h2]

/-- Encode-then-decode does not reverse the order of magnitudes. -/
theorem f32mag_roundTrip_mono (a b : Nat) (ha : a < 2 ^ 32) (hb : b < 2 ^ 32)
    (ea : a / 2 ^ 23 % 256 ≤ 142) (eb : b / 2 ^ 23 % 256 ≤ 142) (h : f32mag a < f32mag b) :
    f32mag (fp16RoundTrip a) ≤ f32mag (fp16RoundTrip b) := by
  have hab : a % 2 ^ 31 < b % 2 ^ 31 := by
    by_contra hc
    have := f32mag_mono (b % 2 ^ 31) (a % 2 ^ 31) (Nat.mod_lt _ (by norm_num)) (by omega)
    rw [f32mag_mod, f32mag_mod] at this
    omega
  rw [← f32mag_mod (fp16RoundTrip a), ← f32mag_mod (fp16RoundTrip b),
    (fp16RoundTrip_mod a ha ea).2, (fp16RoundTrip_mod b hb eb).2]
  apply f32mag_mono
  · split <;> omega
  · split <;> split <;> omega

theorem f32val_of_sign_zero (u : Nat) (h : u / 2 ^ 31 % 2 = 0) :
    f32val u = (f32mag u : ℚ) / 2 ^ 150 := by
  unfold f32val; rw [if_neg (by omega)]

theorem f32val_of_sign_one (u : Nat) (h : u / 2 ^ 31 % 2 = 1) :
    f32val u = -((f32mag u : ℚ) / 2 ^ 150) := by
  unfold f32val; rw [if_pos h]

theorem exp_le_of_abs_le (u : Nat) (h : |f32val u| ≤ 65504) : u / 2 ^ 23 % 256 ≤ 142 := by
  by_contra hc
  have := f32mag_ge_of_exp_ge u (by omega)
  have h3 : (2 ^ 166 : ℚ) ≤ f32mag u := by exact_mod_cast this
  rw [abs_f32val, div_le_iff₀ (by positivity)] at h
  have h4 : (65504 : ℚ) * 2 ^ 150 < 2 ^ 166 := by norm_num
  linarith

theorem fp16_monotone_aux (a b : Nat) (ha : a < 2 ^ 32) (hb : b < 2 ^ 32)
    (hab : f32val a < f32val b)
    (ha1 : -65504 ≤ f32val a) (ha2 : f32val a ≤ 65504)
    (hb1 : -65504 ≤ f32val b) (hb2 : f32val b ≤ 65504) :
    f32val (fp16RoundTrip a) ≤ f32val (fp16RoundTrip b) := by
  have ea := exp_le_of_abs_le a (abs_le.mpr ⟨ha1, ha2⟩)
  have eb := exp_le_of_abs_le b (abs_le.mpr ⟨hb1, hb2⟩)
  have sa := (fp16RoundTrip_mod a ha ea).1
  have sb := (fp16RoundTrip_mod b hb eb).1
  have p : (0 : ℚ) < 2 ^ 150 := by positivity
  rcases Nat.mod_two_eq_zero_or_one (a / 2 ^ 31) with za | za <;>
    rcases Nat.mod_two_eq_zero_or_one (b / 2 ^ 31) with zb | zb
  · rw [f32val_of_sign_zero _ (sa.trans za), f32val_of_sign_zero _ (sb.trans zb)]
    rw [f32val_of_sign_zero _ za, f32val_of_sign_zero _ zb,
      div_lt_div_iff_of_pos_right p] at hab
    have := f32mag_roundTrip_mono a b ha hb ea eb (by exact_mod_cast hab)
    rw [div_le_div_iff_of_pos_right p]
    exact_mod_cast this
  · rw [f32val_of_sign_zero _ za, f32val_of_sign_one _ zb] at hab
    have h1 : (0 : ℚ) ≤ (f32mag a : ℚ) / 2 ^ 150 := div_nonneg (Nat.cast_nonneg _) (le_of_lt p)
    have h2 : (0 : ℚ) ≤ (f32mag b : ℚ) / 2 ^ 150 := div_nonneg (Nat.cast_nonneg _) (le_of_lt p)
    linarith
  · rw [f32val_of_sign_one _ (sa.trans za), f32val_of_sign_zero _ (sb.trans zb)]
    have h1 : (0 : ℚ) ≤ (f32mag (fp16RoundTrip a) : ℚ) / 2 ^ 150 := div_nonneg (Nat.cast_nonneg _) (le_of_lt p)
    have h2 : (0 : ℚ) ≤ (f32mag (fp16RoundTrip b) : ℚ) / 2 ^ 150 := div_nonneg (Nat.cast_nonneg _) (le_of_lt p)
    linarith
  · rw [f32val_of_sign_one _ (sa.trans za), f32val_of_sign_one _ (sb.trans zb)]
    rw [f32val_of_sign_one _ za, f32val_of_sign_one _ zb, neg_lt_neg_iff,
      div_lt_div_iff_of_pos_right p] at hab
    have := f32mag_roundTrip_mono b a hb ha eb ea (by exact_mod_cast hab)
    rw [neg_le_neg_iff, div_le_div_iff_of_pos_right p]
    exact_mod_cast this

/-! ## Reading bytes -/

theorem byteAt_append_right (pre x : Bytes) (i : Nat) :
    byteAt (pre ++ x) (pre.length + i) = byteAt x i := by
  unfold byteAt
  rw [List.getD_eq_getElem?_getD, List.getD_eq_getElem?_getD,
    List.getElem?_append_right (by omega)]
  simp

theorem le32_append_right (pre x : Bytes) (i : Nat) :
    le32 (pre ++ x) (pre.length + i) = le32 x i := by
  simp only [le32, Nat.add_assoc, byteAt_append_right]

theorem le32_putU32 (v : Nat) (rest : Bytes) (hv : v < 2 ^ 32) : le32 (putU32 v ++ rest) 0 = v := by
  simp [le32, putU32, byteAt]
  omega

theorem length_putU32 (v : Nat) : (putU32 v).length = 4 := rfl

theorem length_packShard (t scope : Nat) (p : Bytes) : (packShard t scope p).length = 12 + p.length := by
  simp [packShard, putU32]; omega

theorem scope_bytes (scope : Nat) (h : scope < 65536) :
    ((scope &&& 0xFF) % 256 ||| ((scope >>> 8) % 256) <<< 8) % 2 ^ 16 = scope :=
  readHalf_pair scope h

theorem length_bankOf_ge (shards : List Shard) : 12 * shards.length ≤ (bankOf shards).length := by
  induction shards with
  | nil => simp [bankOf]
  | cons s rest ih =>
    simp only [bankOf, List.map_cons, List.flatten_cons, List.length_append, length_packShard,
      List.length_cons] at ih ⊢
    omega

theorem bankOf_cons (s : Shard) (rest : List Shard) :
    bankOf (s :: rest) = packShard s.Typ s.Scope s.Data ++ bankOf rest := rfl

theorem indexLoop_bankOf (shards : List Shard)
    (hs : ∀ s ∈ shards, s.Scope < 65536 ∧ s.Data.length < 2 ^ 32) :
    ∀ (pre : Bytes) (fuel : Nat), shards.length < fuel →
      indexLoop (pre ++ bankOf shards) fuel pre.length = recordsOf shards pre.length := by
  induction shards with
  | nil =>
    intro pre fuel hf
    cases fuel with
    | zero => rfl
    | succ f => simp [indexLoop, bankOf, recordsOf]
  | cons s rest ih =>
    intro pre fuel hf
    cases fuel with
    | zero => simp at hf
    | succ f =>
      obtain ⟨hsc, hlen⟩ := hs s (List.mem_cons_self _ _)
      have ih2 := ih (fun x hx => hs x (List.mem_cons_of_mem _ hx))
        (pre ++ packShard s.Typ s.Scope s.Data) f (by simpa using hf)
      rw [bankOf_cons]
      rw [List.append_assoc, List.length_append, length_packShard] at ih2
      have hl : (pre ++ (packShard s.Typ s.Scope s.Data ++ bankOf rest)).length
          = pre.length + (12 + s.Data.length + (bankOf rest).length) := by
        simp [length_packShard]
      unfold indexLoop
      rw [if_pos (by rw [hl]; omega)]
      have b0 : byteAt (pre ++ (packShard s.Typ s.Scope s.Data ++ bankOf rest)) (pre.length + 0)
          = s.Typ := by
        rw [byteAt_append_right]; rfl
      have b1 : byteAt (pre ++ (packShard s.Typ s.Scope s.Data ++ bankOf rest)) (pre.length + 1)
          = (s.Scope &&& 0xFF) % 256 := by
        rw [byteAt_append_right]; rfl
      have b2 : byteAt (pre ++ (packShard s.Typ s.Scope s.Data ++ bankOf rest)) (pre.length + 2)
          = (s.Scope >>> 8) % 256 := by
        rw [byteAt_append_right]; rfl
      have b3 : byteAt (pre ++ (packShard s.Typ s.Scope s.Data ++ bankOf rest)) (pre.length + 3)
          = 0 := by
        rw [byteAt_append_right]; rfl
      have hmod : s.Data.length % 2 ^ 32 = s.Data.length := Nat.mod_eq_of_lt hlen
      have b4 : le32 (pre ++ (packShard s.Typ s.Scope s.Data ++ bankOf rest)) (pre.length + 4)
          = s.Data.length := by
        rw [le32_append_right]
        simp [packShard, le32, putU32, byteAt]
        omega
      have b8 : le32 (pre ++ (packShard s.Typ s.Scope s.Data ++ bankOf rest)) (pre.length + 8)
          = s.Data.length := by
        rw [le32_append_right]
        simp [packShard, le32, putU32, byteAt]
        omega
      simp only [b0, b1, b2, b3, b4, b8, scope_bytes s.Scope hsc]
      rw [if_neg (by rw [hl]; omega)]
      simp only [recordsOf]
      rw [show pre.length + 12 + s.Data.length = pre.length + (12 + s.Data.length) by omega, ih2]

/-- The iteration budget of `IndexShardBank` is never used up: with `12 * fuel > len(bank) - off`
one more iteration changes nothing. -/
theorem indexLoop_fuel (bank : Bytes) :
    ∀ (fuel off : Nat), bank.length < off + 12 * fuel →
      indexLoop bank (fuel + 1) off = indexLoop bank fuel off := by
  intro fuel
  induction fuel with
  | zero =>
    intro off h
    simp only [indexLoop]
    rw [if_neg (by omega)]
  | succ f ih =>
    intro off h
    rw [indexLoop, indexLoop]
    split
    · simp only []
      split
      · rfl
      · rw [ih _ (by omega)]
    · rfl

theorem slice_append_mid (pre x post : Bytes) :
    slice (pre ++ (x ++ post)) pre.length (pre.length + x.length) = x := by
  simp [slice]

theorem headerBytes_packShard (s : Shard) (hlen : s.Data.length < 2 ^ 32) :
    headerBytes { Typ := s.Typ, Scope := s.Scope, Comp := 0,
                  Usize := s.Data.length, Csize := s.Data.length } ++ s.Data
      = packShard s.Typ s.Scope s.Data := by
  have h1 : (s.Scope &&& 0xFF) % 256 = s.Scope % 256 := by
    rw [show (0xFF : Nat) = 2 ^ 8 - 1 from rfl, and_mask]; omega
  have h2 : (s.Scope >>> 8) % 256 = s.Scope / 256 % 256 := by
    rw [Nat.shiftRight_eq_div_pow]
  simp only [headerBytes, packShard, h1, h2, Nat.mod_eq_of_lt hlen]

theorem slice_record (pre : Bytes) (s : Shard) (post : Bytes) :
    slice (pre ++ (packShard s.Typ s.Scope s.Data ++ post)) (pre.length + 12)
      (pre.length + 12 + s.Data.length) = s.Data := by
  have h : pre ++ (packShard s.Typ s.Scope s.Data ++ post)
      = (pre ++ (packShard s.Typ s.Scope s.Data).take 12) ++ (s.Data ++ post) := by
    simp [packShard, putU32]
  have hl : (pre ++ (packShard s.Typ s.Scope s.Data).take 12).length = pre.length + 12 := by
    simp [packShard, putU32]
  rw [h, ← hl]
  exact slice_append_mid _ _ _

theorem frameRecords_bankOf (shards : List Shard)
    (hs : ∀ s ∈ shards, s.Scope < 65536 ∧ s.Data.length < 2 ^ 32) :
    ∀ (pre : Bytes),
      ((recordsOf shards pre.length).map (frameRecord (pre ++ bankOf shards))).flatten
        = bankOf shards ∧
      (recordsOf shards pre.length).map
          (fun r => slice (pre ++ bankOf shards) r.Offset (r.Offset + r.Hdr.Csize))
        = shards.map (fun s => s.Data) := by
  induction shards with
  | nil => intro pre; simp [recordsOf, bankOf]
  | cons s rest ih =>
    intro pre
    obtain ⟨_, hlen⟩ := hs s (List.mem_cons_self _ _)
    have ih2 := ih (fun x hx => hs x (List.mem_cons_of_mem _ hx))
      (pre ++ packShard s.Typ s.Scope s.Data)
    rw [List.append_assoc, List.length_append, length_packShard,
      show pre.length + (12 + s.Data.length) = pre.length + 12 + s.Data.length by omega] at ih2
    rw [bankOf_cons]
    simp only [recordsOf, List.map_cons, List.flatten_cons, frameRecord, slice_record]
    rw [ih2.2]
    refine ⟨?_, rfl⟩
    have := ih2.1
    simp only [frameRecord] at this
    rw [this, headerBytes_packShard s hlen]

theorem alignUp_ge (x : Nat) : x ≤ alignUp x 4096 := by
  unfold alignUp; simp only []; split <;> omega

theorem alignUp_dvd (x : Nat) : 4096 ∣ alignUp x 4096 := by
  unfold alignUp; simp only []; split <;> omega

theorem length_tocLoop (secs : List Section) :
    ∀ (ps : List Bytes) (off : Nat), ps.length = secs.length →
      (tocLoop secs ps off).length = secs.length := by
  induction secs with
  | nil => intro ps off h; cases ps <;> simp [tocLoop]
  | cons s rest ih =>
    intro ps off h
    cases ps with
    | nil => simp at h
    | cons p ps => simp [tocLoop, ih ps _ (by simpa using h)]

/-- Entry `i` of the table of contents, with the offset the loop had reached there. -/
theorem tocLoop_spec (secs : List Section) :
    ∀ (ps : List Bytes) (off : Nat), ps.length = secs.length → 4096 ∣ off →
      (∀ e ∈ tocLoop secs ps off, 4096 ∣ e.Offset ∧ off ≤ e.Offset) ∧
      (tocLoop secs ps off).map (fun e => e.Size) = ps.map List.length ∧
      (tocLoop secs ps off).map (fun e => e.TypeID) = secs.map (fun s => s.TypeID) ∧
      (tocLoop secs ps off).map (fun e => e.Flags) = secs.map (fun s => s.Flags) ∧
      List.Chain' (fun a b => a.Offset + a.Size ≤ b.Offset) (tocLoop secs ps off) ∧
      (∀ e, (tocLoop secs ps off).head? = some e → e.Offset = off) := by
  induction secs with
  | nil =>
    intro ps off h _
    cases ps with
    | nil => simp [tocLoop]
    | cons p ps => simp at h
  | cons s rest ih =>
    intro ps off h hd
    cases ps with
    | nil => simp at h
    | cons p ps =>
      have hlen : ps.length = rest.length := by simpa using h
      obtain ⟨i1, i2, i3, i4, i5, i6⟩ :=
        ih ps (alignUp (off + p.length) 4096) hlen (alignUp_dvd _)
      have hge := alignUp_ge (off + p.length)
      simp only [tocLoop]
      refine ⟨?_, ?_, ?_, ?_, ?_, ?_⟩
      · intro e he
        rcases List.mem_cons.mp he with h1 | h1
        · subst h1; exact ⟨hd, le_refl _⟩
        · exact ⟨(i1 e h1).1, by have := (i1 e h1).2; omega⟩
      · simp [i2]
      · simp [i3]
      · simp [i4]
      · rw [List.chain'_cons']
        refine ⟨?_, i5⟩
        intro e he
        have := i6 e he
        simp only []
        omega
      · intro e he
        simp at he
        subst he
        rfl

/-! ## Writing the container -/

theorem File.write_end (f : File) (b : Bytes) (h : f.pos = f.data.length) :
    f.write b = { data := f.data ++ b, pos := f.pos + b.length } := by
  unfold File.write
  split
  · rename_i hb
    have : b = [] := List.length_eq_zero.mp hb
    subst this
    simp
  · simp [h]

theorem File.write_gap (f : File) (b : Bytes) (h : f.data.length ≤ f.pos) (hb : b ≠ []) :
    (f.write b).data = f.data ++ List.replicate (f.pos - f.data.length) 0 ++ b := by
  unfold File.write
  rw [if_neg (by simpa [List.length_eq_zero] using hb)]
  simp only []
  have h1 : (f.data ++ List.replicate (f.pos - f.data.length) 0).length = f.pos := by
    simp; omega
  rw [List.take_of_length_le (by omega), List.drop_of_length_le (by omega)]
  simp

theorem File.write_nil (f : File) : f.write [] = f := by
  simp [File.write]

theorem slice_append_left (A tail : Bytes) (a b : Nat) (h : b ≤ A.length) :
    slice (A ++ tail) a b = slice A a b := by
  unfold slice
  rcases Nat.lt_or_ge b a with hab | hab
  · rw [show b - a = 0 by omega]; simp
  · rw [List.drop_append_of_le_length (by omega), List.take_append_of_le_length]
    simp; omega

theorem writeSections_spec (secs : List Section) :
    ∀ (ps : List Bytes) (off : Nat) (f : File), ps.length = secs.length →
      f.data.length ≤ off →
      (∃ tail, (writeSections (tocLoop secs ps off) ps f).data = f.data ++ tail) ∧
      ∀ r p, (r, p) ∈ (tocLoop secs ps off).zip ps → p ≠ [] →
        r.Offset + p.length ≤ (writeSections (tocLoop secs ps off) ps f).data.length ∧
        slice (writeSections (tocLoop secs ps off) ps f).data r.Offset (r.Offset + p.length)
          = p := by
  induction secs with
  | nil =>
    intro ps off f h _
    cases ps with
    | nil => simp [tocLoop, writeSections]
    | cons p ps => simp at h
  | cons s rest ih =>
    intro ps off f h hf
    cases ps with
    | nil => simp at h
    | cons p ps =>
      have hlen : ps.length = rest.length := by simpa using h
      simp only [tocLoop, writeSections, List.zip_cons_cons]
      have hge := alignUp_ge (off + p.length)
      by_cases hp : p = []
      · subst hp
        rw [File.write_nil]
        obtain ⟨i1, i2⟩ := ih ps (alignUp (off + ([] : Bytes).length) 4096) (f.seek off) hlen
          (by simp only [File.seek]; omega)
        refine ⟨i1, ?_⟩
        intro r p hrp hpne
        rcases List.mem_cons.mp hrp with h1 | h1
        · cases h1; exact absurd rfl hpne
        · exact i2 r p h1 hpne
      · have hw := File.write_gap (f.seek off) p (by simpa [File.seek] using hf) hp
        simp only [File.seek] at hw
        have hpos : ((f.seek off).write p).data.length ≤ alignUp (off + p.length) 4096 := by
          simp only [File.seek, hw, List.length_append, List.length_replicate]; omega
        obtain ⟨⟨tail, ht⟩, i2⟩ := ih ps (alignUp (off + p.length) 4096)
          ((f.seek off).write p) hlen hpos
        have hw2 : ((f.seek off).write p).data
            = f.data ++ List.replicate (off - f.data.length) 0 ++ p := hw
        refine ⟨⟨List.replicate (off - f.data.length) 0 ++ p ++ tail, ?_⟩, ?_⟩
        · rw [ht, hw2]; simp
        · intro r q hrq hqne
          rcases List.mem_cons.mp hrq with h1 | h1
          · cases h1
            rw [ht, hw2]
            have hl : (f.data ++ List.replicate (off - f.data.length) 0).length = off := by
              simp; omega
            constructor
            · simp; omega
            · have key := slice_append_mid (f.data ++ List.replicate (off - f.data.length) 0) p tail
              rw [hl] at key
              rw [List.append_assoc _ p tail]
              exact key
          · exact i2 r q h1 hqne

/-! ## Reading the container back -/

theorem length_tocEntryBytes (r : TocEntry) : (tocEntryBytes r).length = 24 := rfl

theorem length_tocBytes (recs : List TocEntry) :
    (recs.map tocEntryBytes).flatten.length = 24 * recs.length := by
  induction recs with
  | nil => rfl
  | cons r rest ih =>
    simp only [List.map_cons, List.flatten_cons, List.length_append, length_tocEntryBytes, ih,
      List.length_cons]
    omega

theorem tocEntry_read (r : TocEntry) (tail : Bytes)
    (h : r.TypeID < 2 ^ 32 ∧ r.Offset < 2 ^ 64 ∧ r.Size < 2 ^ 64 ∧ r.Flags < 2 ^ 32) :
    le32 (tocEntryBytes r ++ tail) 0 = r.TypeID ∧ le64 (tocEntryBytes r ++ tail) 4 = r.Offset ∧
    le64 (tocEntryBytes r ++ tail) 12 = r.Size ∧ le32 (tocEntryBytes r ++ tail) 20 = r.Flags := by
  obtain ⟨h1, h2, h3, h4⟩ := h
  refine ⟨?_, ?_, ?_, ?_⟩
  · simp [tocEntryBytes, le32, putU32, putU64, byteAt]; omega
  · simp [tocEntryBytes, le64, le32, putU32, putU64, byteAt]; omega
  · simp [tocEntryBytes, le64, le32, putU32, putU64, byteAt]; omega
  · simp [tocEntryBytes, le32, putU32, putU64, byteAt]; omega

theorem le64_append_right (pre x : Bytes) (i : Nat) :
    le64 (pre ++ x) (pre.length + i) = le64 x i := by
  simp only [le64, Nat.add_assoc, le32_append_right]

theorem readToc_bytes (recs : List TocEntry)
    (hr : ∀ r ∈ recs, r.TypeID < 2 ^ 32 ∧ r.Offset < 2 ^ 64 ∧ r.Size < 2 ^ 64 ∧ r.Flags < 2 ^ 32) :
    ∀ (pre tail : Bytes),
      readToc (pre ++ ((recs.map tocEntryBytes).flatten ++ tail)) recs.length pre.length
        = .ok recs := by
  induction recs with
  | nil => intro pre tail; rfl
  | cons r rest ih =>
    intro pre tail
    have hr0 := hr r (List.mem_cons_self _ _)
    have ih2 := ih (fun x hx => hr x (List.mem_cons_of_mem _ hx)) (pre ++ tocEntryBytes r) tail
    simp only [List.map_cons, List.flatten_cons, List.length_cons, readToc]
    rw [if_neg (by simp [length_tocEntryBytes])]
    rw [List.append_assoc, List.length_append, length_tocEntryBytes] at ih2
    rw [List.append_assoc (tocEntryBytes r), ih2]
    obtain ⟨e1, e2, e3, e4⟩ := tocEntry_read r ((rest.map tocEntryBytes).flatten ++ tail) hr0
    have a1 := le32_append_right pre (tocEntryBytes r ++ ((rest.map tocEntryBytes).flatten ++ tail)) 0
    have a2 := le64_append_right pre (tocEntryBytes r ++ ((rest.map tocEntryBytes).flatten ++ tail)) 4
    have a3 := le64_append_right pre (tocEntryBytes r ++ ((rest.map tocEntryBytes).flatten ++ tail)) 12
    have a4 := le32_append_right pre (tocEntryBytes r ++ ((rest.map tocEntryBytes).flatten ++ tail)) 20
    rw [Nat.add_zero] at a1
    simp only [a1, a2, a3, a4, e1, e2, e3, e4]
    rfl

theorem preparePayloads_cons (c : Codec) (s : Section) (rest : List Section) (ps : List Bytes)
    (h : preparePayloads c (s :: rest) = .ok ps) :
    ∃ data ps2, ps = data :: ps2 ∧ preparePayloads c rest = .ok ps2 ∧
      encodeSection c s = .ok data := by
  rw [preparePayloads] at h
  cases henc : encodeSection c s with
  | error e => rw [henc] at h; simp [bind, Except.bind] at h
  | ok data =>
    rw [henc] at h
    cases hps : preparePayloads c rest with
    | error e => rw [hps] at h; simp [bind, Except.bind] at h
    | ok ps2 =>
      rw [hps] at h
      simp only [bind, Except.bind, pure, Except.pure, Except.ok.injEq] at h
      exact ⟨data, ps2, h.symm, rfl, rfl⟩

theorem encodeSection_ok (c : Codec) (hc : c.inverts) (s : Section) :
    ∃ data, encodeSection c s = .ok data := by
  obtain ⟨y1, hy1, _⟩ := hc.1 s.Data
  obtain ⟨y2, hy2, _⟩ := hc.2 s.Data
  unfold encodeSection
  split
  · exact ⟨y1, hy1⟩
  · split
    · exact ⟨y2, hy2⟩
    · exact ⟨s.Data, rfl⟩

theorem preparePayloads_ok (c : Codec) (hc : c.inverts) (secs : List Section) :
    ∃ ps, preparePayloads c secs = .ok ps ∧ ps.length = secs.length := by
  induction secs with
  | nil => exact ⟨[], rfl, rfl⟩
  | cons s rest ih =>
    obtain ⟨ps, h1, h2⟩ := ih
    obtain ⟨data, hd⟩ := encodeSection_ok c hc s
    exact ⟨data :: ps, by simp [preparePayloads, hd, h1, bind, Except.bind, pure, Except.pure],
      by simp [h2]⟩

theorem sectionLoop_spec (c : Codec) (hc : c.inverts) (file : Bytes) (secs : List Section) :
    ∀ (ps : List Bytes) (off : Nat), preparePayloads c secs = .ok ps →
      (∀ r p, (r, p) ∈ (tocLoop secs ps off).zip ps → readAt file r.Size r.Offset = .ok p) →
      (secs.map (fun s => s.TypeID)).Nodup →
      ∀ s ∈ secs, sectionUncompressedLoop c file s.TypeID (tocLoop secs ps off) = .ok s.Data := by
  induction secs with
  | nil => intro ps off _ _ _ s hs; simp at hs
  | cons s0 rest ih =>
    intro ps off hps hread hnd s hs
    obtain ⟨data, ps2, rfl, hps2, henc⟩ := preparePayloads_cons c s0 rest ps hps
    simp only [tocLoop, List.zip_cons_cons] at hread ⊢
    have hr0 := hread _ _ (List.mem_cons_self _ _)
    simp only [] at hr0
    rw [List.map_cons, List.nodup_cons] at hnd
    unfold sectionUncompressedLoop
    rcases List.mem_cons.mp hs with h1 | h1
    · subst h1
      simp only [ne_eq, not_true_eq_false, if_false, hr0, bind, Except.bind]
      unfold encodeSection at henc
      by_cases z : s.Flags &&& FlagCompZSTD ≠ 0
      · rw [if_pos z] at henc ⊢
        obtain ⟨y, hy1, hy2⟩ := hc.1 s.Data
        rw [hy1] at henc; cases henc; exact hy2
      · rw [if_neg z] at henc ⊢
        by_cases l : s.Flags &&& FlagCompLZ4 ≠ 0
        · rw [if_pos l] at henc ⊢
          obtain ⟨y, hy1, hy2⟩ := hc.2 s.Data
          rw [hy1] at henc; cases henc; exact hy2
        · rw [if_neg l] at henc ⊢
          cases henc; rfl
    · have hne : s0.TypeID ≠ s.TypeID := by
        intro he
        exact hnd.1 (by rw [he]; exact List.mem_map_of_mem (fun s => s.TypeID) h1)
      simp only [hne, ne_eq, not_false_eq_true, if_true]
      exact ih ps2 _ hps2 (fun r p hrp => hread r p (List.mem_cons_of_mem _ hrp)) hnd.2 s h1

/-- The file before the section payloads are written: magic, header, TOC and the padding up to
the first section offset. -/
theorem Writer.Write_eq (c : Codec) (sections : List Section) (ps : List Bytes)
    (hps : preparePayloads c sections = .ok ps) (hlen : ps.length = sections.length)
    (hne : sections ≠ []) :
    ∃ f : File,
      Writer.Write c sections = .ok (writeSections (tocOf sections ps) ps f).data ∧
      f.data.length ≤ alignUp (8 + 12 + 24 * sections.length) 4096 ∧
      ∃ pad, f.data = (magic ++ (putU32 1 ++ putU32 (sections.length % 2 ^ 32) ++ putU32 0))
        ++ (((tocOf sections ps).map tocEntryBytes).flatten ++ pad) := by
  cases sections with
  | nil => exact absurd rfl hne
  | cons s0 rest =>
    cases ps with
    | nil => simp at hlen
    | cons p0 ps2 =>
      have hge := alignUp_ge (8 + 12 + 24 * (s0 :: rest).length)
      have htl : (((tocOf (s0 :: rest) (p0 :: ps2)).map tocEntryBytes).flatten).length
          = 24 * (s0 :: rest).length := by
        rw [length_tocBytes]
        unfold tocOf
        rw [length_tocLoop _ _ _ hlen]
      simp only [Writer.Write, hps, bind, Except.bind, pure, Except.pure]
      rw [File.write_end _ magic rfl, File.write_end _ _ rfl, File.write_end _ _ rfl]
      simp only [List.nil_append]
      generalize hT : ((tocOf (s0 :: rest) (p0 :: ps2)).map tocEntryBytes).flatten = T at htl ⊢
      have hr : tocOf (s0 :: rest) (p0 :: ps2)
          = { TypeID := s0.TypeID, Offset := alignUp (8 + 12 + 24 * (s0 :: rest).length) 4096,
              Size := p0.length, Flags := s0.Flags }
            :: tocLoop rest ps2
                (alignUp (alignUp (8 + 12 + 24 * (s0 :: rest).length) 4096 + p0.length) 4096) := rfl
      rw [hr]
      simp only []
      have hmag : magic.length = 8 := rfl
      have hh : (putU32 1 ++ putU32 ((s0 :: rest).length % 2 ^ 32) ++ putU32 0).length = 12 := rfl
      refine ⟨_, rfl, ?_, ?_⟩
      · split
        · rw [File.write_end _ _ (by simp only [List.length_append]; omega)]
          simp only [List.length_append, List.length_replicate, hmag, hh, htl]
          omega
        · simp only [List.length_append, hmag, hh, htl]
          omega
      · split
        · rw [File.write_end _ _ (by simp only [List.length_append]; omega)]
          exact ⟨_, List.append_assoc _ _ _⟩
        · exact ⟨[], by simp⟩

theorem container_roundtrip_aux (c : Codec) (hc : c.inverts) (sections : List Section)
    (hne : sections ≠ []) (hnum : sections.length < 2 ^ 32)
    (hty : ∀ s ∈ sections, s.TypeID < 2 ^ 32 ∧ s.Flags < 2 ^ 32)
    (hd : (sections.map (fun s => s.TypeID)).Nodup)
    (hsz : ∀ ps, preparePayloads c sections = .ok ps →
      ∀ e ∈ tocOf sections ps, e.Offset + e.Size < 2 ^ 63) :
    ∃ file r, Writer.Write c sections = .ok file ∧ OpenCAWSF file = .ok r ∧
      r.TOC.length = sections.length ∧
      ∀ s ∈ sections, r.SectionUncompressed c s.TypeID = .ok s.Data := by
  obtain ⟨ps, hps, hlen⟩ := preparePayloads_ok c hc sections
  obtain ⟨f, hw, hfl, pad, hfd⟩ := Writer.Write_eq c sections ps hps hlen hne
  have hsz2 := hsz ps hps
  obtain ⟨⟨tail, htail⟩, hpay⟩ := writeSections_spec sections ps _ f hlen hfl
  obtain ⟨t1, t2, t3, t4, _, _⟩ := tocLoop_spec sections ps
    (alignUp (8 + 12 + 24 * sections.length) 4096) hlen (alignUp_dvd _)
  have htoclen : (tocOf sections ps).length = sections.length := length_tocLoop _ _ _ hlen
  set D := (writeSections (tocOf sections ps) ps f).data with hD
  have hDeq : D = (magic ++ (putU32 1 ++ putU32 (sections.length % 2 ^ 32) ++ putU32 0))
      ++ (((tocOf sections ps).map tocEntryBytes).flatten ++ (pad ++ tail)) := by
    rw [hD]; unfold tocOf; rw [htail, hfd]; unfold tocOf; simp only [List.append_assoc]
  -- fields of the TOC fit their stored width
  have hfields : ∀ r ∈ tocOf sections ps,
      r.TypeID < 2 ^ 32 ∧ r.Offset < 2 ^ 64 ∧ r.Size < 2 ^ 64 ∧ r.Flags < 2 ^ 32 := by
    intro r hr
    have h63 := hsz2 r hr
    have hmemT : r.TypeID ∈ (tocOf sections ps).map (fun e => e.TypeID) :=
      List.mem_map_of_mem (fun e => e.TypeID) hr
    have hmemF : r.Flags ∈ (tocOf sections ps).map (fun e => e.Flags) :=
      List.mem_map_of_mem (fun e => e.Flags) hr
    unfold tocOf at hmemT hmemF
    rw [t3] at hmemT
    rw [t4] at hmemF
    obtain ⟨s1, hs1, e1⟩ := List.mem_map.mp hmemT
    obtain ⟨s2, hs2, e2⟩ := List.mem_map.mp hmemF
    refine ⟨by rw [← e1]; exact (hty s1 hs1).1, by omega, by omega, by rw [← e2]; exact (hty s2 hs2).2⟩
  have hread := readToc_bytes (tocOf sections ps) hfields
    (magic ++ (putU32 1 ++ putU32 (sections.length % 2 ^ 32) ++ putU32 0)) (pad ++ tail)
  rw [← hDeq, htoclen] at hread
  have hDlen : 20 ≤ D.length := by rw [hDeq]; simp [magic, putU32]
  have hmagic : slice D 0 8 = magic := by rw [hDeq]; rfl
  have hnumr : le32 D 12 = sections.length := by
    rw [hDeq]
    simp [magic, le32, putU32, byteAt]
    omega
  have hopen : OpenCAWSF D = .ok { file := D, TOC := tocOf sections ps } := by
    unfold OpenCAWSF
    rw [if_neg (by omega), if_neg (by simp [hmagic]), if_neg (by omega)]
    simp only [hnumr]
    have : (magic ++ (putU32 1 ++ putU32 (sections.length % 2 ^ 32) ++ putU32 0)).length = 20 := rfl
    rw [this] at hread
    rw [hread]
    rfl
  refine ⟨D, _, hw, hopen, htoclen, ?_⟩
  intro s hs
  unfold Reader.SectionUncompressed
  simp only []
  apply sectionLoop_spec c hc D sections ps _ hps _ hd s hs
  intro r p hrp
  have hr : r ∈ tocOf sections ps := (List.of_mem_zip hrp).1
  have h63 := hsz2 r hr
  -- the recorded size is the payload length
  have hsize : r.Size = p.length := by
    have hz : (r.Size, p.length) ∈ ((tocLoop sections ps
        (alignUp (8 + 12 + 24 * sections.length) 4096)).map (fun e => e.Size)).zip
          (ps.map List.length) := by
      rw [List.zip_map]
      exact List.mem_map.mpr ⟨(r, p), hrp, rfl⟩
    rw [t2] at hz
    rw [List.zip_map, List.mem_map] at hz
    obtain ⟨⟨a, b⟩, hab, heq⟩ := hz
    rw [List.mem_iff_getElem] at hab
    obtain ⟨i, hi, hget⟩ := hab
    simp only [List.getElem_zip, Prod.mk.injEq] at hget
    simp only [Prod.map, Prod.mk.injEq] at heq
    rw [← heq.1, ← heq.2, ← hget.1, ← hget.2]
  unfold readAt
  rw [if_neg (by omega)]
  by_cases hp : p = []
  · subst hp
    rw [if_pos (by simpa using hsize)]
  · obtain ⟨h1, h2⟩ := hpay r p hrp hp
    have h1 : r.Offset + p.length ≤ D.length := h1
    have h2 : slice D r.Offset (r.Offset + p.length) = p := h2
    rw [if_neg (by rw [hsize]; simpa [List.length_eq_zero] using hp), hsize, if_pos h1, h2]

/-! ## Loops -/

theorem loopM_zero {σ : Type} (body : Nat → σ → Res σ) (s : σ) : loopM 0 body s = .ok s := rfl

theorem loopM_succ {σ : Type} (n : Nat) (body : Nat → σ → Res σ) (s : σ) :
    loopM (n + 1) body s = loopM n body s >>= body n := by
  unfold loopM
  rw [List.range_succ, List.foldlM_append]
  congr 1
  funext t
  simp [List.foldlM]

theorem loopM_add {σ : Type} (a b : Nat) (body : Nat → σ → Res σ) (s : σ) :
    loopM (a + b) body s = loopM a body s >>= loopM b (fun i => body (a + i)) := by
  induction b with
  | zero =>
    show loopM a body s = loopM a body s >>= fun t => Except.ok t
    cases loopM a body s <;> rfl
  | succ b ih =>
    rw [← Nat.add_assoc, loopM_succ, ih]
    cases h : loopM a body s with
    | error e => rfl
    | ok t =>
      show loopM b (fun i => body (a + i)) t >>= body (a + b)
        = loopM (b + 1) (fun i => body (a + i)) t
      rw [loopM_succ]

/-- Nested loops over `r < n` and `i < m` are one loop over `r*m + i < n*m`. -/
theorem loopM_mul {σ : Type} (n m : Nat) (f : Nat → σ → Res σ) (s : σ) :
    loopM n (fun r s => loopM m (fun i s => f (r * m + i) s) s) s = loopM (n * m) f s := by
  induction n with
  | zero => rw [Nat.zero_mul]; rfl
  | succ n ih =>
    rw [loopM_succ, ih, Nat.succ_mul, loopM_add]

theorem loopM_congr {σ : Type} (n : Nat) (f g : Nat → σ → Res σ)
    (h : ∀ i, i < n → ∀ s, f i s = g i s) (s : σ) : loopM n f s = loopM n g s := by
  induction n with
  | zero => rfl
  | succ n ih =>
    rw [loopM_succ, loopM_succ, ih (fun i hi => h i (Nat.lt_succ_of_lt hi))]
    cases loopM n g s with
    | error e => rfl
    | ok t => exact h n (Nat.lt_succ_self n) t

/-- The loop rule: an invariant that holds before the loop and is carried by every iteration
that starts from it holds after the loop, and the loop does not fail. -/
theorem loopM_inv {σ : Type} (n : Nat) (body : Nat → σ → Res σ) (init : σ)
    (I : Nat → σ → Prop) (h0 : I 0 init)
    (hstep : ∀ i, i < n → ∀ s, I i s → ∃ t, body i s = .ok t ∧ I (i + 1) t) :
    ∃ t, loopM n body init = .ok t ∧ I n t := by
  induction n with
  | zero => exact ⟨init, rfl, h0⟩
  | succ n ih =>
    obtain ⟨t, ht, hI⟩ := ih (fun i hi s hs => hstep i (Nat.lt_succ_of_lt hi) s hs)
    obtain ⟨u, hu, hI2⟩ := hstep n (Nat.lt_succ_self n) t hI
    exact ⟨u, by rw [loopM_succ, ht]; exact hu, hI2⟩

/-- Two loops whose bodies succeed on the same states with the same results succeed together. -/
theorem loopM_ok_congr {σ : Type} (n : Nat) (f g : Nat → σ → Res σ)
    (h : ∀ i, i < n → ∀ s v, f i s = .ok v ↔ g i s = .ok v) (s v : σ) :
    loopM n f s = .ok v ↔ loopM n g s = .ok v := by
  induction n generalizing v with
  | zero => exact Iff.rfl
  | succ n ih =>
    have ih2 := ih (fun i hi => h i (Nat.lt_succ_of_lt hi))
    rw [loopM_succ, loopM_succ]
    cases hf : loopM n f s with
    | error e =>
      cases hg : loopM n g s with
      | error e2 => constructor <;> intro hh <;> cases hh
      | ok t => rw [(ih2 t).mpr hg] at hf; cases hf
    | ok t =>
      rw [(ih2 t).mp hf]
      exact h n (Nat.lt_succ_self n) t v

/-! ## The length of a made slice -/

theorem mulInt_small (a b : Nat) (h : a * b < 2 ^ 63) : mulInt a b = ((a * b : Nat) : Int) := by
  unfold mulInt
  have h2 : a * b % 2 ^ 64 = a * b := Nat.mod_eq_of_lt (by omega)
  rw [h2, if_pos h]

theorem makeLen_mul (a b : Nat) (h : a * b ≤ maxLenF32) : makeLen (mulInt a b) = .ok (a * b) := by
  have hm : maxLenF32 = 2 ^ 46 := rfl
  rw [mulInt_small a b (by rw [hm] at h; omega)]
  unfold makeLen
  rw [if_neg (by push_neg; exact ⟨Int.natCast_nonneg _, by exact_mod_cast h⟩), Int.toNat_ofNat]

theorem makeLen_cases (n : Int) :
    makeLen n = .error (.panic "makeslice: len out of range") ∨ ∃ k, makeLen n = .ok k := by
  unfold makeLen
  split
  · exact Or.inl rfl
  · exact Or.inr ⟨_, rfl⟩

theorem ok_bind_PL {σ τ : Type} (a : σ) (f : σ → Res τ) :
    ((Except.ok a : Res σ) >>= f) = f a := rfl

theorem makeLen_big (a b : Nat) (h1 : maxLenF32 < a * b) (h2 : a * b < 2 ^ 63) :
    makeLen (mulInt a b) = .error (.panic "makeslice: len out of range") := by
  rw [mulInt_small a b h2]
  unfold makeLen
  rw [if_pos (Or.inr (by exact_mod_cast h1))]

/-! ## Indexed reads and writes -/

theorem getAt_of_lt {α : Type} [Zero α] (l : List α) (i : Nat) (h : i < l.length) :
    getAt l i = .ok (l.getD i 0) := by
  unfold getAt
  rw [List.getElem?_eq_getElem h, List.getD_eq_getElem _ _ h]

theorem setAt_of_lt {α : Type} (l : List α) (i : Nat) (v : α) (h : i < l.length) :
    setAt l i v = .ok (l.set i v) := by
  unfold setAt; rw [if_pos h]

theorem addAt_of_lt {α : Type} [Zero α] [Add α] (l : List α) (i : Nat) (v : α)
    (h : i < l.length) : addAt l i v = .ok (l.set i (l.getD i 0 + v)) := by
  unfold addAt
  rw [List.getElem?_eq_getElem h, List.getD_eq_getElem _ _ h]

theorem getD_set {α : Type} (l : List α) (i p : Nat) (v d : α) (h : i < l.length) :
    (l.set i v).getD p d = if p = i then v else l.getD p d := by
  rw [List.getD_eq_getElem?_getD, List.getD_eq_getElem?_getD, List.getElem?_set]
  by_cases hp : p = i
  · subst hp; simp [h]
  · rw [if_neg (Ne.symm hp), if_neg hp]

/-! ## Flat positions of an R shard -/

theorem flat_lt (n m dsub r i j : Nat) (hr : r < n) (hi : i < m) (hj : j < dsub) :
    r * (m * dsub) + i * dsub + j < n * (m * dsub) := by
  have h1 : i * dsub + j < m * dsub := by
    calc i * dsub + j < i * dsub + dsub := by omega
      _ = (i + 1) * dsub := by ring
      _ ≤ m * dsub := Nat.mul_le_mul_right _ hi
  calc r * (m * dsub) + i * dsub + j < r * (m * dsub) + m * dsub := by omega
    _ = (r + 1) * (m * dsub) := by ring
    _ ≤ n * (m * dsub) := Nat.mul_le_mul_right _ hr

theorem flat_decode (m dsub r i j : Nat) (hi : i < m) (hj : j < dsub) :
    (r * (m * dsub) + i * dsub + j) / (m * dsub) = r ∧
    (r * (m * dsub) + i * dsub + j) % (m * dsub) / dsub = i ∧
    (r * (m * dsub) + i * dsub + j) % (m * dsub) % dsub = j := by
  have h1 : i * dsub + j < m * dsub := by
    calc i * dsub + j < i * dsub + dsub := by omega
      _ = (i + 1) * dsub := by ring
      _ ≤ m * dsub := Nat.mul_le_mul_right _ hi
  have hpos : 0 < m * dsub := by omega
  have hds : 0 < dsub := by omega
  have e1 : r * (m * dsub) + i * dsub + j = (i * dsub + j) + (m * dsub) * r := by ring
  have hmod : (r * (m * dsub) + i * dsub + j) % (m * dsub) = i * dsub + j := by
    rw [e1, Nat.add_mul_mod_self_left, Nat.mod_eq_of_lt h1]
  refine ⟨?_, ?_, ?_⟩
  · rw [e1, Nat.add_mul_div_left _ _ hpos, Nat.div_eq_of_lt h1, Nat.zero_add]
  · rw [hmod, show i * dsub + j = j + dsub * i by ring, Nat.add_mul_div_left _ _ hds,
      Nat.div_eq_of_lt hj, Nat.zero_add]
  · rw [hmod, show i * dsub + j = j + dsub * i by ring, Nat.add_mul_mod_self_left,
      Nat.mod_eq_of_lt hj]

theorem flat_exists (n m dsub q : Nat) (hq : q < n * (m * dsub)) :
    ∃ r i j, r < n ∧ i < m ∧ j < dsub ∧ q = r * (m * dsub) + i * dsub + j := by
  have hpos : 0 < m * dsub := by
    rcases Nat.eq_zero_or_pos (m * dsub) with h | h
    · rw [h] at hq; omega
    · exact h
  have hds : 0 < dsub := by
    rcases Nat.eq_zero_or_pos dsub with h | h
    · rw [h] at hpos; omega
    · exact h
  refine ⟨q / (m * dsub), q % (m * dsub) / dsub, q % (m * dsub) % dsub, ?_, ?_, ?_, ?_⟩
  · exact Nat.div_lt_of_lt_mul
      (calc q < n * (m * dsub) := hq
        _ = m * dsub * n := Nat.mul_comm _ _)
  · exact Nat.div_lt_of_lt_mul
      (calc q % (m * dsub) < m * dsub := Nat.mod_lt _ hpos
        _ = dsub * m := Nat.mul_comm _ _)
  · exact Nat.mod_lt _ hds
  · have a := Nat.div_add_mod q (m * dsub)
    have b := Nat.div_add_mod (q % (m * dsub)) dsub
    calc q = (m * dsub) * (q / (m * dsub)) + q % (m * dsub) := a.symm
      _ = (m * dsub) * (q / (m * dsub)) + (dsub * (q % (m * dsub) / dsub) + q % (m * dsub) % dsub) := by
          rw [b]
      _ = _ := by ring

theorem blockVal_flat {α : Type} [Zero α] (m k dsub : Nat) (data : List α) (codes : Bytes)
    (r i j : Nat) (hi : i < m) (hj : j < dsub) :
    blockVal (m * dsub) m k dsub data codes (r * (m * dsub) + i * dsub + j)
      = data.getD ((i * k + byteAt codes (r * m + i)) * dsub + j) 0 := by
  obtain ⟨e1, e2, e3⟩ := flat_decode m dsub r i j hi hj
  unfold blockVal
  rw [e1, e2, e3]

/-! ## The decode loops of `decodeRWithPool` -/

theorem BlocksOn.mono {α : Type} [Zero α] {N : Nat} {bv : Nat → α} {W W2 : Nat → Prop}
    {b : List α} (h : BlocksOn N bv W b) (hw : ∀ q, W2 q → W q) : BlocksOn N bv W2 b :=
  ⟨h.1, fun q hq => h.2 q (hw q hq)⟩

theorem BlocksOn.set {α : Type} [Zero α] {N : Nat} {bv : Nat → α} {W : Nat → Prop}
    {b : List α} (h : BlocksOn N bv W b) (q0 : Nat) (hq0 : q0 < N) :
    BlocksOn N bv (fun q => W q ∨ q = q0) (b.set q0 (bv q0)) := by
  refine ⟨by rw [List.length_set]; exact h.1, ?_⟩
  intro q hq
  rw [getD_set _ _ _ _ _ (by rw [h.1]; exact hq0)]
  by_cases e : q = q0
  · rw [if_pos e, e]
  · rw [if_neg e]
    rcases hq with hq | hq
    · exact h.2 q hq
    · exact absurd hq e

theorem decodeBlocksPool_spec {α : Type} [Zero α] (m k n dsub : Nat) (data : List α)
    (codes : Bytes)
    (hcap : n * (m * dsub) ≤ maxLenF32)
    (hdata : ∀ r i j, r < n → i < m → j < dsub →
      (i * k + byteAt codes (r * m + i)) * dsub + j < data.length) :
    ∃ blocks, decodeBlocksPool (m * dsub) m k n dsub data codes = .ok blocks ∧
      blocks.length = n * (m * dsub) ∧
      ∀ q, q < n * (m * dsub) → blocks.getD q 0 = blockVal (m * dsub) m k dsub data codes q := by
  set bv := blockVal (m * dsub) m k dsub data codes with hbv
  unfold decodeBlocksPool
  rw [makeLen_mul n (m * dsub) hcap]
  show ∃ blocks, loopM m _ (List.replicate (n * (m * dsub)) (0 : α)) = .ok blocks ∧ _
  set N := n * (m * dsub) with hN
  -- outer loop over the sub-vectors `i`
  obtain ⟨blocks, hb, hI⟩ := loopM_inv m _ (List.replicate N (0 : α))
    (fun i b => BlocksOn N bv
      (fun q => ∃ r i2 j, r < n ∧ i2 < i ∧ j < dsub ∧ q = r * (m * dsub) + i2 * dsub + j) b)
    ⟨by simp, by rintro q ⟨r, i2, j, _, h, _⟩; omega⟩
    (by
      intro i hi b hIb
      -- middle loop over the blocks `r`
      obtain ⟨b2, hb2, hI2⟩ := loopM_inv n
        (fun r blocks =>
          loopM dsub (fun j blocks => do
            let v ← getAt data ((i * k + byteAt codes (r * m + i)) * dsub + j)
            setAt blocks (r * (m * dsub) + i * dsub + j) v) blocks) b
        (fun r b => BlocksOn N bv
          (fun q => (∃ r i2 j, r < n ∧ i2 < i ∧ j < dsub ∧ q = r * (m * dsub) + i2 * dsub + j)
            ∨ ∃ r2 j, r2 < r ∧ j < dsub ∧ q = r2 * (m * dsub) + i * dsub + j) b)
        (hIb.mono (by rintro q (h | ⟨r2, j, h, _⟩); exact h; omega))
        (by
          intro r hr b hIb
          -- inner loop over the offsets `j`
          obtain ⟨b3, hb3, hI3⟩ := loopM_inv dsub
            (fun j blocks => do
              let v ← getAt data ((i * k + byteAt codes (r * m + i)) * dsub + j)
              setAt blocks (r * (m * dsub) + i * dsub + j) v) b
            (fun j b => BlocksOn N bv
              (fun q =>
                ((∃ r i2 j, r < n ∧ i2 < i ∧ j < dsub ∧ q = r * (m * dsub) + i2 * dsub + j)
                  ∨ ∃ r2 j, r2 < r ∧ j < dsub ∧ q = r2 * (m * dsub) + i * dsub + j)
                ∨ ∃ j2, j2 < j ∧ q = r * (m * dsub) + i * dsub + j2) b)
            (hIb.mono (by rintro q (h | ⟨j2, h, _⟩); exact h; omega))
            (by
              intro j hj b hIb
              have hq0 := flat_lt n m dsub r i j hr hi hj
              have hv := getAt_of_lt data _ (hdata r i j hr hi hj)
              refine ⟨b.set (r * (m * dsub) + i * dsub + j) (bv (r * (m * dsub) + i * dsub + j)),
                ?_, ?_⟩
              · beta_reduce
                rw [hv]
                show setAt b _ _ = _
                rw [setAt_of_lt _ _ _ (by rw [hIb.1]; exact hq0), hbv,
                  blockVal_flat m k dsub data codes r i j hi hj]
              · refine (hIb.set _ hq0).mono ?_
                rintro q (h | ⟨j2, h1, h2⟩)
                · exact Or.inl (Or.inl h)
                · rcases Nat.lt_succ_iff_lt_or_eq.mp h1 with h3 | h3
                  · exact Or.inl (Or.inr ⟨j2, h3, h2⟩)
                  · subst h3; exact Or.inr h2)
          refine ⟨b3, hb3, hI3.mono ?_⟩
          rintro q (h | ⟨r2, j, h1, h2, h3⟩)
          · exact Or.inl (Or.inl h)
          · rcases Nat.lt_succ_iff_lt_or_eq.mp h1 with h4 | h4
            · exact Or.inl (Or.inr ⟨r2, j, h4, h2, h3⟩)
            · subst h4; exact Or.inr ⟨j, h2, h3⟩)
      refine ⟨b2, hb2, hI2.mono ?_⟩
      rintro q ⟨r, i2, j, h1, h2, h3, h4⟩
      rcases Nat.lt_succ_iff_lt_or_eq.mp h2 with h5 | h5
      · exact Or.inl ⟨r, i2, j, h1, h5, h3, h4⟩
      · subst h5; exact Or.inr ⟨r, j, h1, h3, h4⟩)
  refine ⟨blocks, hb, hI.1, ?_⟩
  intro q hq
  exact hI.2 q (by
    obtain ⟨r, i, j, h1, h2, h3, h4⟩ := flat_exists n m dsub q hq
    exact ⟨r, i, j, h1, h2, h3, h4⟩)

open Finset in
theorem getD_copyInto {α : Type} [Zero α] (need : Nat) (flat : List α) (p : Nat) :
    (copyInto need flat).getD p 0 = if p < need then flat.getD p 0 else 0 := by
  unfold copyInto
  rw [List.getD_eq_getElem?_getD, List.getD_eq_getElem?_getD]
  by_cases h1 : p < (flat.take need).length
  · rw [List.getElem?_append_left h1, List.getElem?_take_of_lt (by simp at h1; omega)]
    rw [if_pos (by simp at h1; omega)]
  · rw [List.getElem?_append_right (by omega)]
    simp only [List.length_take] at h1 ⊢
    by_cases h2 : p < need
    · have h3 : flat.length ≤ p := by omega
      rw [if_pos h2, List.getElem?_eq_none h3]
      by_cases h4 : p - min need flat.length < need - flat.length
      · rw [List.getElem?_replicate, if_pos h4]; rfl
      · rw [List.getElem?_eq_none (by simp; omega)]
    · rw [if_neg h2, List.getElem?_eq_none (by simp; omega)]; rfl

theorem length_copyInto {α : Type} [Zero α] (need : Nat) (flat : List α) :
    (copyInto need flat).length = need := by
  unfold copyInto
  simp only [List.length_append, List.length_take, List.length_replicate]
  omega

theorem byteAt_mem (p : Bytes) (i : Nat) (h : i < p.length) : byteAt p i ∈ p := by
  unfold byteAt
  rw [List.getD_eq_getElem _ _ h]
  exact List.getElem_mem h

theorem code_index_lt (m k n dsub : Nat) (codes : Bytes) (hlen : codes.length = n * m)
    (hcodes : ∀ c ∈ codes, c < k) (r i j : Nat) (hr : r < n) (hi : i < m) (hj : j < dsub) :
    (i * k + byteAt codes (r * m + i)) * dsub + j < m * k * dsub := by
  have hidx : r * m + i < codes.length := by
    rw [hlen]
    calc r * m + i < r * m + m := by omega
      _ = (r + 1) * m := by ring
      _ ≤ n * m := Nat.mul_le_mul_right _ hr
  have hc := hcodes _ (byteAt_mem codes _ hidx)
  have h1 : i * k + byteAt codes (r * m + i) + 1 ≤ m * k := by
    calc i * k + byteAt codes (r * m + i) + 1 ≤ i * k + k := by omega
      _ = (i + 1) * k := by ring
      _ ≤ m * k := Nat.mul_le_mul_right _ hi
  calc (i * k + byteAt codes (r * m + i)) * dsub + j
      < (i * k + byteAt codes (r * m + i)) * dsub + dsub := by omega
    _ = (i * k + byteAt codes (r * m + i) + 1) * dsub := by ring
    _ ≤ m * k * dsub := Nat.mul_le_mul_right _ h1

/-! ## Adding matrices in place -/

theorem addInPlace_spec {α : Type} [Zero α] [Add α] (dst src : List α)
    (h : src.length ≤ dst.length) :
    ∃ r, addInPlace dst src = .ok r ∧ r.length = dst.length ∧
      ∀ p, r.getD p 0 = if p < src.length then dst.getD p 0 + src.getD p 0 else dst.getD p 0 := by
  unfold addInPlace
  obtain ⟨r, h1, h2, h3⟩ := loopM_inv src.length
    (fun i dst =>
      match src[i]? with
      | some v => addAt dst i v
      | none => Except.error (Err.panic "index out of range")) dst
    (fun i b => b.length = dst.length ∧
      ∀ p, b.getD p 0 = if p < i then dst.getD p 0 + src.getD p 0 else dst.getD p 0)
    ⟨rfl, by intro p; simp⟩
    (by
      intro i hi b hb
      beta_reduce
      rw [List.getElem?_eq_getElem hi]
      refine ⟨_, addAt_of_lt b i _ (by omega), by rw [List.length_set]; exact hb.1, ?_⟩
      intro p
      rw [getD_set _ _ _ _ _ (by omega)]
      by_cases e : p = i
      · subst e
        rw [if_pos rfl, if_pos (Nat.lt_succ_self _), hb.2 p, if_neg (Nat.lt_irrefl _),
          List.getD_eq_getElem _ _ hi]
      · rw [if_neg e, hb.2 p]
        by_cases l : p < i
        · rw [if_pos l, if_pos (by omega)]
        · rw [if_neg l, if_neg (by omega)])
  exact ⟨r, h1, h2, h3⟩

theorem addInPlace_fold_spec {α : Type} [Zero α] [Add α] (N : Nat) (Rs : List (List α))
    (hR : ∀ m ∈ Rs, m.length = N) :
    ∀ data : List α, data.length = N →
      ∃ r, Rs.foldlM (fun data rr => addInPlace data rr) data = .ok r ∧ r.length = N ∧
        ∀ p, p < N →
          r.getD p 0 = (Rs.map (fun m => m.getD p 0)).foldl (fun s v => s + v) (data.getD p 0) := by
  induction Rs with
  | nil => intro data hd; exact ⟨data, rfl, hd, by intro p _; rfl⟩
  | cons m rest ih =>
    intro data hd
    obtain ⟨r1, h1, h2, h3⟩ := addInPlace_spec data m (by rw [hR m (List.mem_cons_self _ _), hd])
    obtain ⟨r2, h4, h5, h6⟩ := ih (fun x hx => hR x (List.mem_cons_of_mem _ hx)) r1
      (by rw [h2, hd])
    refine ⟨r2, ?_, h5, ?_⟩
    · rw [List.foldlM_cons, h1]; exact h4
    · intro p hp
      rw [h6 p hp, h3 p, if_pos (by rw [hR m (List.mem_cons_self _ _)]; exact hp), List.map_cons,
        List.foldl_cons]

/-! ## Adding the sparse triplets -/

theorem flat_index_eq (cols i j : Nat) (a b : Int) (ha : 0 ≤ a) (hb0 : 0 ≤ b)
    (hb : b < cols) (hj : j < cols) :
    (a * cols + b).toNat = i * cols + j ↔ (a, b) = ((i : Int), (j : Int)) := by
  obtain ⟨a2, rfl⟩ := Int.eq_ofNat_of_zero_le ha
  obtain ⟨b2, rfl⟩ := Int.eq_ofNat_of_zero_le hb0
  have hb2 : b2 < cols := by exact_mod_cast hb
  have e : ((a2 : Int) * cols + b2).toNat = a2 * cols + b2 := by
    have : ((a2 : Int) * cols + b2) = ((a2 * cols + b2 : Nat) : Int) := by push_cast; ring
    rw [this, Int.toNat_ofNat]
  rw [e]
  constructor
  · intro h
    have h1 : a2 = i := by
      have := congrArg (· / cols) h
      simp only [] at this
      rw [Nat.mul_comm a2, Nat.mul_comm i, Nat.mul_add_div (by omega), Nat.mul_add_div (by omega),
        Nat.div_eq_of_lt hb2, Nat.div_eq_of_lt hj] at this
      simpa using this
    subst h1
    have h2 : b2 = j := by omega
    subst h2
    rfl
  · intro h
    simp only [Prod.mk.injEq, Int.natCast_inj] at h
    rw [h.1, h.2]

theorem addSparse_spec {α : Type} [Zero α] [Add α] (rows cols : Nat) :
    ∀ (idx : List (Int × Int)) (vals data : List α), idx.length = vals.length →
      data.length = rows * cols →
      (∀ ij ∈ idx, 0 ≤ ij.1 ∧ ij.1 < rows ∧ 0 ≤ ij.2 ∧ ij.2 < cols) →
      ∃ r, addSparse cols idx vals data = .ok r ∧ r.length = rows * cols ∧
        ∀ i j, i < rows → j < cols →
          r.getD (i * cols + j) 0
            = (((idx.zip vals).filter (fun t => t.1 = ((i : Int), (j : Int)))).map
                (fun t => t.2)).foldl (fun s v => s + v) (data.getD (i * cols + j) 0) := by
  intro idx
  induction idx with
  | nil =>
    intro vals data _ hd _
    exact ⟨data, by cases vals <;> rfl, hd, by intro i j _ _; simp⟩
  | cons ij rest ih =>
    intro vals data hl hd hin
    cases vals with
    | nil => simp at hl
    | cons v vals =>
      obtain ⟨ha0, ha1, hb0, hb1⟩ := hin ij (List.mem_cons_self _ _)
      have hlt : (ij.1 * cols + ij.2).toNat < data.length := by
        obtain ⟨a2, ha2⟩ := Int.eq_ofNat_of_zero_le ha0
        obtain ⟨b2, hb2⟩ := Int.eq_ofNat_of_zero_le hb0
        rw [ha2] at ha1
        rw [hb2] at hb1
        rw [ha2, hb2]
        have h1 : a2 < rows := by exact_mod_cast ha1
        have h2 : b2 < cols := by exact_mod_cast hb1
        have : ((a2 : Int) * cols + b2) = ((a2 * cols + b2 : Nat) : Int) := by push_cast; ring
        rw [this, Int.toNat_ofNat, hd]
        calc a2 * cols + b2 < a2 * cols + cols := by omega
          _ = (a2 + 1) * cols := by ring
          _ ≤ rows * cols := Nat.mul_le_mul_right _ h1
      have hnn : ¬ (ij.1 * cols + ij.2 < 0) := by
        have : 0 ≤ ij.1 * (cols : Int) := mul_nonneg ha0 (by exact_mod_cast Nat.zero_le cols)
        omega
      obtain ⟨r, h1, h2, h3⟩ := ih vals
        (data.set (ij.1 * cols + ij.2).toNat (data.getD (ij.1 * cols + ij.2).toNat 0 + v))
        (by simpa using hl) (by rw [List.length_set]; exact hd)
        (fun x hx => hin x (List.mem_cons_of_mem _ hx))
      refine ⟨r, ?_, h2, ?_⟩
      · simp only [addSparse]
        rw [if_neg hnn, addAt_of_lt _ _ _ hlt]
        exact h1
      · intro i j hi hj
        rw [h3 i j hi hj, getD_set _ _ _ _ _ hlt, List.zip_cons_cons, List.filter_cons]
        by_cases e : (ij.1, ij.2) = ((i : Int), (j : Int))
        · have e2 := (flat_index_eq cols i j ij.1 ij.2 ha0 hb0 hb1 hj).mpr e
          rw [if_pos e2.symm, e2]
          have e3 : ij = ((i : Int), (j : Int)) := by rw [← e]
          simp only [e3, decide_True, if_true, List.map_cons, List.foldl_cons]
        · have e2 : ¬ i * cols + j = (ij.1 * cols + ij.2).toNat := by
            intro h
            exact e ((flat_index_eq cols i j ij.1 ij.2 ha0 hb0 hb1 hj).mp h.symm)
          rw [if_neg e2]
          have e3 : ¬ ij = ((i : Int), (j : Int)) := by
            intro h; apply e; rw [← h]
          simp only [e3, decide_False, Bool.false_eq_true, if_false]

/-! ## Lengths of what the decoders return -/

theorem readFP16Loop_length {α : Type} (F : Nat → α) (p : Bytes) :
    ∀ (n off : Nat) (l : List α), readFP16Loop F p n off = .ok l → l.length = n := by
  intro n
  induction n with
  | zero => intro off l h; cases h; rfl
  | succ n ih =>
    intro off l h
    rw [readFP16Loop] at h
    split at h
    · cases h
    · cases hr : readFP16Loop F p n (off + 2) with
      | error e => rw [hr] at h; cases h
      | ok rest =>
        rw [hr] at h
        cases h
        simp [ih _ _ hr]

theorem readFP16WithShape_length {α : Type} (F : Nat → α) (p : Bytes) (r c : Nat)
    (mat : List α) (h : readFP16WithShape F p = .ok (r, c, mat)) :
    makeLen (mulInt r c) = .ok mat.length := by
  unfold readFP16WithShape at h
  split at h
  · cases h
  · simp only [] at h
    cases hm : makeLen (mulInt (le32 p 0) (le32 p 4)) with
    | error e => rw [hm] at h; cases h
    | ok n =>
      rw [hm] at h
      cases hr : readFP16Loop F p n 8 with
      | error e =>
        have h2 : (Except.error e : Res (Nat × Nat × List α)) = .ok (r, c, mat) := by
          rw [← h, ok_bind_PL, hr]; rfl
        cases h2
      | ok out =>
        have h2 : (Except.ok (le32 p 0, le32 p 4, out) : Res (Nat × Nat × List α))
            = .ok (r, c, mat) := by
          rw [← h, ok_bind_PL, hr]; rfl
        cases h2
        rw [hm, readFP16Loop_length F p _ _ _ hr]

theorem finishR_length {α : Type} [Zero α] (rows cols : Nat) (blocks mat : List α)
    (h : finishR rows cols blocks = .ok mat) : makeLen (mulInt rows cols) = .ok mat.length := by
  unfold finishR at h
  split at h
  · cases h
  · cases hm : makeLen (mulInt rows cols) with
    | error e => rw [hm] at h; cases h
    | ok n =>
      rw [hm] at h
      cases h
      rw [length_copyInto]

theorem decodeR_cases {α : Type} [Zero α] (F : Nat → α) (p : Bytes) (r c : Nat)
    (mat : List α) (h : decodeR F p = (r, c, .ok mat)) :
    r = le32 p 0 ∧ c = le32 p 4 ∧ ∃ blocks, finishR r c blocks = .ok mat := by
  unfold decodeR at h
  split at h
  · cases h
  · simp only [] at h
    split at h
    · cases h
    · split at h
      · cases h
      · split at h
        · cases h
        · split at h
          · cases h
          · split at h
            · cases h
            · split at h
              · cases h
              · rename_i blocks _
                cases hf : finishR (le32 p 0) (le32 p 4) blocks with
                | error e => rw [hf] at h; cases h
                | ok m2 =>
                  rw [hf] at h
                  cases h
                  exact ⟨rfl, rfl, blocks, hf⟩

theorem decodeR_length {α : Type} [Zero α] (F : Nat → α) (p : Bytes) (r c : Nat)
    (mat : List α) (h : decodeR F p = (r, c, .ok mat)) :
    makeLen (mulInt r c) = .ok mat.length := by
  obtain ⟨_, _, blocks, hf⟩ := decodeR_cases F p r c mat h
  exact finishR_length r c blocks mat hf

theorem decodeSIdx_length (p : Bytes) :
    ∀ (n pos : Nat) (l : List (Int × Int)), decodeSIdx p n pos = .ok l → l.length = n := by
  intro n
  induction n with
  | zero => intro pos l h; cases h; rfl
  | succ n ih =>
    intro pos l h
    rw [decodeSIdx] at h
    split at h
    · cases h
    · cases hr : decodeSIdx p n (pos + 8) with
      | error e => rw [hr] at h; cases h
      | ok rest =>
        rw [hr] at h
        cases h
        simp [ih _ _ hr]

theorem decodeSVals_length {α : Type} (F : Nat → α) (p : Bytes) :
    ∀ (n pos : Nat) (l : List α), decodeSVals F p n pos = .ok l → l.length = n := by
  intro n
  induction n with
  | zero => intro pos l h; cases h; rfl
  | succ n ih =>
    intro pos l h
    rw [decodeSVals] at h
    split at h
    · cases h
    · cases hr : decodeSVals F p n (pos + 4) with
      | error e => rw [hr] at h; cases h
      | ok rest =>
        rw [hr] at h
        cases h
        simp [ih _ _ hr]

theorem decodeS_length {α : Type} (F : Nat → α) (p : Bytes) (r c : Nat)
    (idx : List (Int × Int)) (vals : List α) (h : decodeS F p = .ok (r, c, idx, vals)) :
    idx.length = vals.length := by
  unfold decodeS at h
  split at h
  · cases h
  · simp only [] at h
    cases h1 : decodeSIdx p (le32 p 8) 12 with
    | error e => rw [h1] at h; cases h
    | ok i2 =>
      rw [h1] at h
      cases h2 : decodeSVals F p (le32 p 8) (12 + 8 * le32 p 8) with
      | error e => rw [h2] at h; cases h
      | ok v2 =>
        rw [h2] at h
        cases h
        rw [decodeSIdx_length p _ _ _ h1, decodeSVals_length F p _ _ _ h2]

/-! ## The loop over the records of a scope -/

theorem lastOfTyp_append_same {α : Type} (t : Nat) (comps : List (Decoded α)) (c : Decoded α)
    (h : c.typ = t) : lastOfTyp t (comps ++ [c]) = some c := by
  simp [lastOfTyp, List.filter_append, h]

theorem lastOfTyp_append_other {α : Type} (t : Nat) (comps : List (Decoded α)) (c : Decoded α)
    (h : c.typ ≠ t) : lastOfTyp t (comps ++ [c]) = lastOfTyp t comps := by
  simp [lastOfTyp, List.filter_append, h]

theorem reconStep_decoded {α : Type} [Zero α] (F : Nat → α) (codec : Codec) (bank : Bytes)
    (pool : Option (CodebookPool α)) (scope : Nat) (rec : BankRec) (comps : List (Decoded α))
    (c : Decoded α) (hs : rec.Hdr.Scope = scope) (hc : rec.Hdr.Comp = 0)
    (hd : decodeShard F rec.Hdr.Typ (slice bank rec.Offset (rec.Offset + rec.Hdr.Csize)) = some c) :
    reconStep F codec bank pool scope (reconStateOf comps) rec
      = .ok (reconStateOf (comps ++ [c])) := by
  unfold reconStep
  rw [if_neg (by simp [hs])]
  simp only [hc, decompressShard, if_true, bind, Except.bind]
  unfold decodeShard at hd
  by_cases t0 : rec.Hdr.Typ = 0
  · rw [t0] at hd ⊢
    simp only [true_or, if_true] at hd
    cases hr : readFP16WithShape F (slice bank rec.Offset (rec.Offset + rec.Hdr.Csize)) with
    | error e => rw [hr] at hd; cases hd
    | ok v =>
      obtain ⟨r, cc, mat⟩ := v
      rw [hr] at hd
      simp only [Option.some.injEq] at hd
      subst hd
      simp [reconStateOf, lastOfTyp, List.filter_append, pure, Except.pure]
  · by_cases t3 : rec.Hdr.Typ = 3
    · rw [t3] at hd ⊢
      simp only [or_true, if_true] at hd
      cases hr : readFP16WithShape F (slice bank rec.Offset (rec.Offset + rec.Hdr.Csize)) with
      | error e => rw [hr] at hd; cases hd
      | ok v =>
        obtain ⟨r, cc, mat⟩ := v
        rw [hr] at hd
        simp only [Option.some.injEq] at hd
        subst hd
        simp [reconStateOf, lastOfTyp, List.filter_append, pure, Except.pure]
    · rw [if_neg (by simp [t0, t3])] at hd
      by_cases t1 : rec.Hdr.Typ = 1
      · rw [t1] at hd ⊢
        simp only [if_true] at hd
        rcases hr : decodeR F (slice bank rec.Offset (rec.Offset + rec.Hdr.Csize))
          with ⟨r, cc, res⟩
        rw [hr] at hd
        cases res with
        | error e => cases hd
        | ok mat =>
          simp only [Option.some.injEq] at hd
          subst hd
          simp [reconStateOf, lastOfTyp, List.filter_append, pure, Except.pure]
      · rw [if_neg t1] at hd
        by_cases t2 : rec.Hdr.Typ = 2
        · rw [t2] at hd ⊢
          simp only [if_true] at hd
          cases hr : decodeS F (slice bank rec.Offset (rec.Offset + rec.Hdr.Csize)) with
          | error e => rw [hr] at hd; cases hd
          | ok v =>
            obtain ⟨r, cc, idx, vals⟩ := v
            rw [hr] at hd
            simp only [Option.some.injEq] at hd
            subst hd
            simp [reconStateOf, lastOfTyp, List.filter_append, pure, Except.pure]
        · rw [if_neg t2] at hd
          cases hd

theorem recon_fold {α : Type} [Zero α] (F : Nat → α) (codec : Codec) (bank : Bytes)
    (pool : Option (CodebookPool α)) (scope : Nat) (recs : List BankRec) :
    ∀ comps : List (Decoded α), scopeShards F bank scope recs = comps.map some →
      recs.foldlM (reconStep F codec bank pool scope) (reconStateOf [])
        = .ok (reconStateOf comps) := by
  induction recs using List.reverseRecOn with
  | nil =>
    intro comps h
    have : comps = [] := by
      cases comps with
      | nil => rfl
      | cons c cs => simp [scopeShards] at h
    subst this
    rfl
  | append_singleton init rec ih =>
    intro comps h
    rw [List.foldlM_append]
    by_cases hs : rec.Hdr.Scope = scope
    · have hsplit : scopeShards F bank scope (init ++ [rec])
          = scopeShards F bank scope init ++
            [if rec.Hdr.Comp = 0 then
              decodeShard F rec.Hdr.Typ (slice bank rec.Offset (rec.Offset + rec.Hdr.Csize))
            else none] := by
        simp [scopeShards, List.filter_append, hs]
      rw [hsplit] at h
      rcases List.eq_nil_or_concat comps with hn | ⟨comps0, c, hcc⟩
      · subst hn; simp at h
      · subst hcc
        rw [List.concat_eq_append] at h ⊢
        rw [List.map_append, List.map_singleton] at h
        have h1 := List.append_inj' h (by simp)
        have h2 : (if rec.Hdr.Comp = 0 then
              decodeShard F rec.Hdr.Typ (slice bank rec.Offset (rec.Offset + rec.Hdr.Csize))
            else none) = some c := by simpa using h1.2
        have hc : rec.Hdr.Comp = 0 := by
          by_contra hne
          rw [if_neg hne] at h2
          cases h2
        rw [if_pos hc] at h2
        rw [ih comps0 h1.1]
        simp only [bind, Except.bind, List.foldlM_cons, List.foldlM_nil]
        rw [reconStep_decoded F codec bank pool scope rec comps0 c hs hc h2]
        rfl
    · have hsplit : scopeShards F bank scope (init ++ [rec]) = scopeShards F bank scope init := by
        simp [scopeShards, List.filter_append, hs]
      rw [hsplit] at h
      rw [ih comps h]
      simp only [bind, Except.bind, List.foldlM_cons, List.foldlM_nil, reconStep]
      rw [if_pos hs]
      rfl

theorem decodeShard_wf {α : Type} [Zero α] (F : Nat → α) (t : Nat) (p : Bytes) (c : Decoded α)
    (h : decodeShard F t p = some c) :
    c.typ = t ∧ (t ≠ 2 → makeLen (mulInt c.rows c.cols) = .ok c.mat.length)
      ∧ c.idx.length = c.vals.length := by
  unfold decodeShard at h
  split at h
  · cases hr : readFP16WithShape F p with
    | error e => rw [hr] at h; cases h
    | ok v =>
      obtain ⟨r, cc, mat⟩ := v
      rw [hr] at h
      simp only [Option.some.injEq] at h
      subst h
      exact ⟨rfl, fun _ => readFP16WithShape_length F p r cc mat hr, rfl⟩
  · split at h
    · rcases hr : decodeR F p with ⟨r, cc, res⟩
      rw [hr] at h
      cases res with
      | error e => cases h
      | ok mat =>
        simp only [Option.some.injEq] at h
        subst h
        exact ⟨rfl, fun _ => decodeR_length F p r cc mat hr, rfl⟩
    · split at h
      · cases hr : decodeS F p with
        | error e => rw [hr] at h; cases h
        | ok v =>
          obtain ⟨r, cc, idx, vals⟩ := v
          rw [hr] at h
          simp only [Option.some.injEq] at h
          subst h
          rename_i h2
          exact ⟨rfl, fun hne => absurd h2 hne, decodeS_length F p r cc idx vals hr⟩
      · cases h

theorem scopeShards_wf {α : Type} [Zero α] (F : Nat → α) (bank : Bytes) (scope : Nat)
    (recs : List BankRec) (comps : List (Decoded α))
    (h : scopeShards F bank scope recs = comps.map some) (c : Decoded α) (hc : c ∈ comps) :
    (c.typ ≠ 2 → makeLen (mulInt c.rows c.cols) = .ok c.mat.length)
      ∧ c.idx.length = c.vals.length := by
  have hm : some c ∈ scopeShards F bank scope recs := by
    rw [h]; exact List.mem_map_of_mem some hc
  unfold scopeShards at hm
  obtain ⟨rec, _, hrec⟩ := List.mem_map.mp hm
  split at hrec
  · obtain ⟨h1, h2, h3⟩ := decodeShard_wf F _ _ c hrec
    exact ⟨fun hne => h2 (by rw [← h1]; exact hne), h3⟩
  · cases hrec

theorem lastOfTyp_mem {α : Type} (t : Nat) (comps : List (Decoded α)) (c : Decoded α)
    (h : lastOfTyp t comps = some c) : c ∈ comps ∧ c.typ = t := by
  unfold lastOfTyp at h
  have := List.mem_of_getLast?_eq_some h
  rw [List.mem_filter] at this
  exact ⟨this.1, by simpa using this.2⟩

theorem addInPlaceOpt_spec {α : Type} [Zero α] [Add α] (dst : List α) (o : Option (Decoded α))
    (h : ∀ c, o = some c → c.mat.length = dst.length) :
    ∃ r, addInPlaceOpt dst (o.map (fun c => c.mat)) = .ok r ∧ r.length = dst.length ∧
      ∀ p, p < dst.length →
        r.getD p 0 = (o.toList.map (fun c => c.mat.getD p 0)).foldl (fun s v => s + v)
          (dst.getD p 0) := by
  cases o with
  | none => exact ⟨dst, rfl, rfl, by intro p _; rfl⟩
  | some c =>
    obtain ⟨r, h1, h2, h3⟩ := addInPlace_spec dst c.mat (le_of_eq (h c rfl))
    refine ⟨r, h1, h2, ?_⟩
    intro p hp
    rw [h3 p, if_pos (by rw [h c rfl]; exact hp)]
    rfl

theorem reconstruct_sum_aux {α : Type} [Zero α] [Add α] (F : Nat → α) (codec : Codec)
    (bank : Bytes) (scope rows cols : Nat) (recs : List BankRec) (comps : List (Decoded α))
    (hidx : IndexShardBank bank = .ok recs)
    (hdec : scopeShards F bank scope recs = comps.map some) (hne : comps ≠ [])
    (hrows : 1 ≤ rows) (hcols : 1 ≤ cols) (hcap : rows * cols ≤ maxLenF32)
    (hshape : ∀ c ∈ comps, c.rows = rows ∧ c.cols = cols)
    (hS : ∀ c ∈ comps, ∀ ij ∈ c.idx, 0 ≤ ij.1 ∧ ij.1 < rows ∧ 0 ≤ ij.2 ∧ ij.2 < cols) :
    ∃ data, ReconstructForScope F codec bank scope = .ok (rows, cols, data) ∧
      data.length = rows * cols ∧
      ∀ i j, i < rows → j < cols →
        data.getD (i * cols + j) 0 = accumulate (termsAt comps cols i j) := by
  have hwf := scopeShards_wf F bank scope recs comps hdec
  have hmk : makeLen (mulInt rows cols) = .ok (rows * cols) := makeLen_mul rows cols hcap
  have hmat : ∀ c ∈ comps, c.typ ≠ 2 → c.mat.length = rows * cols := by
    intro c hc ht
    have h1 := (hwf c hc).1 ht
    rw [(hshape c hc).1, (hshape c hc).2, hmk] at h1
    exact (Except.ok.inj h1).symm
  -- the state after the loop over the records
  have hfold := recon_fold F codec bank none scope recs comps hdec
  obtain ⟨cl, hcl⟩ : ∃ cl, comps.getLast? = some cl := by
    cases h : comps.getLast? with
    | none => exact absurd (List.getLast?_eq_none_iff.mp h) hne
    | some cl => exact ⟨cl, rfl⟩
  have hclm := List.mem_of_getLast?_eq_some hcl
  have hsr : (reconStateOf comps).shapeRows = rows := by
    simp [reconStateOf, hcl, (hshape cl hclm).1]
  have hsc : (reconStateOf comps).shapeCols = cols := by
    simp [reconStateOf, hcl, (hshape cl hclm).2]
  -- L, D, the R shards and S are added in turn
  obtain ⟨d1, a1, b1, c1⟩ := addInPlaceOpt_spec (List.replicate (rows * cols) (0 : α))
    (lastOfTyp 0 comps) (by
      intro c hc
      obtain ⟨m1, m2⟩ := lastOfTyp_mem 0 comps c hc
      rw [hmat c m1 (by omega), List.length_replicate])
  rw [List.length_replicate] at b1 c1
  obtain ⟨d2, a2, b2, c2⟩ := addInPlaceOpt_spec d1 (lastOfTyp 3 comps) (by
      intro c hc
      obtain ⟨m1, m2⟩ := lastOfTyp_mem 3 comps c hc
      rw [hmat c m1 (by omega), b1])
  rw [b1] at b2 c2
  obtain ⟨d3, a3, b3, c3⟩ := addInPlace_fold_spec (rows * cols)
    ((comps.filter (fun c => c.typ = 1)).map (fun c => c.mat)) (by
      intro m hm
      obtain ⟨c, hc, rfl⟩ := List.mem_map.mp hm
      rw [List.mem_filter] at hc
      exact hmat c hc.1 (by have := hc.2; simp at this; omega)) d2 b2
  obtain ⟨d4, a4, b4, c4⟩ := addSparse_spec rows cols
    (((lastOfTyp 2 comps).map (fun c => c.idx)).getD [])
    (((lastOfTyp 2 comps).map (fun c => c.vals)).getD []) d3
    (by
      cases h : lastOfTyp 2 comps with
      | none => rfl
      | some c => exact (hwf c (lastOfTyp_mem 2 comps c h).1).2)
    b3
    (by
      cases h : lastOfTyp 2 comps with
      | none => intro ij hij; simp at hij
      | some c => exact hS c (lastOfTyp_mem 2 comps c h).1)
  refine ⟨d4, ?_, b4, ?_⟩
  · unfold ReconstructForScope ReconstructForScopeWithPool
    rw [hidx]
    simp only [bind, Except.bind]
    have hfold2 : List.foldlM (reconStep F codec bank none scope)
        { L := none, D := none, R := [], shapeRows := 0, shapeCols := 0, Sind := [], Sval := [] }
        recs = Except.ok (reconStateOf comps) := hfold
    rw [hfold2]
    simp only []
    unfold reconAssemble
    rw [hsr, hsc, if_neg (by omega), hmk]
    have e1 : (reconStateOf comps).L = (lastOfTyp 0 comps).map (fun c => c.mat) := rfl
    have e2 : (reconStateOf comps).D = (lastOfTyp 3 comps).map (fun c => c.mat) := rfl
    have e3 : (reconStateOf comps).R = (comps.filter (fun c => c.typ = 1)).map (fun c => c.mat) :=
      rfl
    have e4 : (reconStateOf comps).Sind = ((lastOfTyp 2 comps).map (fun c => c.idx)).getD [] := rfl
    have e5 : (reconStateOf comps).Sval = ((lastOfTyp 2 comps).map (fun c => c.vals)).getD [] :=
      rfl
    simp only [bind, Except.bind, e1, e2, e3, e4, e5, a1, a2, a3, a4, pure, Except.pure]
  · intro i j hi hj
    have hq : i * cols + j < rows * cols :=
      calc i * cols + j < i * cols + cols := by omega
        _ = (i + 1) * cols := by ring
        _ ≤ rows * cols := Nat.mul_le_mul_right _ hi
    rw [c4 i j hi hj, c3 _ hq, c2 _ hq, c1 _ hq]
    have hz : (List.replicate (rows * cols) (0 : α)).getD (i * cols + j) 0 = 0 := by
      rw [List.getD_eq_getElem?_getD, List.getElem?_replicate]
      split <;> rfl
    rw [hz]
    unfold accumulate termsAt
    rw [List.foldl_append, List.foldl_append, List.foldl_append, List.map_map]
    rfl

/-! ## Embedded and shared decode loops -/

theorem getD_codebookValues {α : Type} [Zero α] (F : Nat → α) (data : Bytes) (t : Nat)
    (h : t < data.length / 4) : (codebookValues F data).getD t 0 = F (le32 data (t * 4)) := by
  unfold codebookValues
  rw [List.getD_eq_getElem _ _ (by simpa using h)]
  simp

theorem length_codebookValues {α : Type} (F : Nat → α) (data : Bytes) :
    (codebookValues F data).length = data.length / 4 := by
  simp [codebookValues]

/-- The embedded decode loops and the shared decode loops over the same codebook bytes succeed
together and build the same blocks. -/
theorem decodeBlocks_iff {α : Type} [Zero α] (F : Nat → α) (d m k n dsub : Nat)
    (cb codes : Bytes) (hcb : 4 ∣ cb.length) (blocks : List α) :
    decodeBlocksEmbedded F d m k n dsub cb codes = .ok blocks ↔
      decodeBlocksPool d m k n dsub (codebookValues F cb) codes = .ok blocks := by
  obtain ⟨L, hL⟩ := hcb
  unfold decodeBlocksEmbedded decodeBlocksPool
  rcases makeLen_cases (mulInt n d) with hmk | ⟨len, hmk⟩
  · rw [hmk]
    constructor <;> intro hh <;> cases hh
  rw [hmk]
  show loopM m _ (List.replicate len (0 : α)) = .ok blocks
    ↔ loopM m _ (List.replicate len (0 : α)) = .ok blocks
  apply loopM_ok_congr
  intro i _ s v
  apply loopM_ok_congr
  intro r _ s v
  apply loopM_ok_congr
  intro j _ s v
  beta_reduce
  by_cases h : (i * k + byteAt codes (r * m + i)) * dsub + j < L
  · rw [if_neg (by rw [hL]; omega),
      getAt_of_lt _ _ (by rw [length_codebookValues, hL]; omega),
      getD_codebookValues F cb _ (by rw [hL]; omega)]
    rw [show ((i * k + byteAt codes (r * m + i)) * dsub + j) * 4
        = (i * k + byteAt codes (r * m + i)) * dsub * 4 + j * 4 by ring]
    rfl
  · rw [if_pos (by rw [hL]; omega)]
    have : getAt (codebookValues F cb) ((i * k + byteAt codes (r * m + i)) * dsub + j)
        = .error (.panic "index out of range") := by
      unfold getAt
      rw [List.getElem?_eq_none (by rw [length_codebookValues, hL]; omega)]
    rw [this]
    constructor <;> intro hh <;> cases hh

theorem byteAt_lt (p : Bytes) (h : isBytes p) (i : Nat) : byteAt p i < 256 := by
  unfold byteAt
  rw [List.getD_eq_getElem?_getD]
  cases hi : p[i]? with
  | none => simp
  | some v => exact h v (List.getElem?_mem hi)

theorem le16_lt (p : Bytes) (h : isBytes p) (i : Nat) : le16 p i < 2 ^ 16 := by
  have a := byteAt_lt p h i
  have b := byteAt_lt p h (i + 1)
  unfold le16; omega

theorem le32_lt (p : Bytes) (h : isBytes p) (i : Nat) : le32 p i < 2 ^ 32 := by
  have a := byteAt_lt p h i
  have b := byteAt_lt p h (i + 1)
  have c := byteAt_lt p h (i + 2)
  have d := byteAt_lt p h (i + 3)
  unfold le32; omega

theorem sharedPayload_fields (ri : RInfo) (found : Nat) :
    le16 (sharedPayload ri found) 8 = ri.d % 2 ^ 16 ∧
    le16 (sharedPayload ri found) 10 = ri.m % 2 ^ 16 ∧
    le16 (sharedPayload ri found) 12 = ri.k % 2 ^ 16 ∧
    le32 (sharedPayload ri found) 14 = ri.n % 2 ^ 32 ∧
    le16 (sharedPayload ri found) 18 = found % 2 ^ 16 ∧
    (sharedPayload ri found).drop 20 = ri.codes ∧
    (sharedPayload ri found).length = 20 + ri.codes.length := by
  refine ⟨?_, ?_, ?_, ?_, ?_, ?_, ?_⟩
  · simp [sharedPayload, le16, putU32, putU16, byteAt]; omega
  · simp [sharedPayload, le16, putU32, putU16, byteAt]; omega
  · simp [sharedPayload, le16, putU32, putU16, byteAt]; omega
  · simp [sharedPayload, le32, putU32, putU16, byteAt]; omega
  · simp [sharedPayload, le16, putU32, putU16, byteAt]; omega
  · simp [sharedPayload, putU32, putU16]
  · simp [sharedPayload, putU32, putU16]; omega

theorem isBytes_drop (p : Bytes) (h : isBytes p) (n : Nat) : isBytes (p.drop n) :=
  fun b hb => h b (List.mem_of_mem_drop hb)

theorem length_slice (p : Bytes) (a b : Nat) (h : b ≤ p.length) :
    (slice p a b).length = b - a := by
  unfold slice
  rw [List.length_take, List.length_drop]
  omega

theorem finishR_ok_iff {α : Type} [Zero α] (rows cols : Nat) (blocks mat : List α) :
    finishR rows cols blocks = .ok mat ↔ finishPool rows cols blocks = .ok mat := by
  unfold finishR finishPool
  by_cases hneg : mulInt rows cols < 0
  · rw [if_pos hneg]
    have : makeLen (mulInt rows cols) = .error (.panic "makeslice: len out of range") := by
      unfold makeLen; rw [if_pos (Or.inl hneg)]
    rw [this]
    constructor <;> intro hh <;> cases hh
  · rw [if_neg hneg]

theorem finishR_small {α : Type} [Zero α] (rows cols : Nat) (blocks : List α)
    (h : rows * cols ≤ maxLenF32) :
    finishR rows cols blocks = .ok (copyInto (rows * cols) blocks) := by
  unfold finishR
  have h63 : rows * cols < 2 ^ 63 := lt_of_le_of_lt h (by unfold maxLenF32; norm_num)
  rw [if_neg (by rw [mulInt_small rows cols h63]; exact not_lt.mpr (Int.natCast_nonneg _)),
    makeLen_mul rows cols h]
  rfl

theorem finishPool_small {α : Type} [Zero α] (rows cols : Nat) (blocks : List α)
    (h : rows * cols ≤ maxLenF32) :
    finishPool rows cols blocks = .ok (copyInto (rows * cols) blocks) := by
  unfold finishPool
  rw [makeLen_mul rows cols h]
  rfl

/-- On a well-formed embedded R payload `decodeR` returns a matrix exactly when
`decodeRWithPool` returns it on the rewritten payload, the pool holding the shard's codebook
under the id written into it; both return one when `rows*cols` and `n*d` are within the
length `make` allocates. -/
theorem decode_pair {α : Type} [Zero α] (F : Nat → α) (i : Nat) (blob : Bytes)
    (hb : isBytes blob) (d m : Nat) (hE : EmbeddedR d m (shardPayload blob))
    (Q : CodebookPool α) (found : Nat) (hf : found < 2 ^ 16) (entry : CodebookEntry α)
    (hfind : Q.find found = some entry)
    (hD : entry.D = d) (hM : entry.M = m) (hK : entry.K = le16 (shardPayload blob) 12)
    (hData : entry.Data = codebookValues F (embeddedCodebook (shardPayload blob))) :
    (∀ mat, decodeR F (shardPayload blob)
        = (le32 (shardPayload blob) 0, le32 (shardPayload blob) 4, .ok mat) ↔
      decodeRWithPool (le32 (shardPayload blob) 0) (le32 (shardPayload blob) 4)
        (sharedPayload (infoOf i blob) found) Q = .ok mat) ∧
    (le32 (shardPayload blob) 0 * le32 (shardPayload blob) 4 ≤ maxLenF32 →
      le32 (shardPayload blob) 14 * d ≤ maxLenF32 →
      ∃ mat, decodeR F (shardPayload blob)
        = (le32 (shardPayload blob) 0, le32 (shardPayload blob) 4, .ok mat)) := by
  have hbp : isBytes (shardPayload blob) := isBytes_drop blob hb 12
  obtain ⟨f1, f2, f3, f4, f5, f6, f7⟩ := sharedPayload_fields (infoOf i blob) found
  generalize hp : shardPayload blob = p at *
  obtain ⟨e1, e2, hm1, ⟨dsub, hds⟩, hlen, hcodes⟩ := hE
  have hk16 := le16_lt p hbp 12
  have hn32 := le32_lt p hbp 14
  have hd16 := le16_lt p hbp 8
  have hm16 := le16_lt p hbp 10
  generalize hk : le16 p 12 = k at *
  generalize hn : le32 p 14 = n at *
  subst hds
  have hdiv : m * dsub / m = dsub := Nat.mul_div_cancel_left _ (by omega)
  rw [hdiv] at hlen hcodes
  -- the codebook bytes and the codes
  have hcbdef : embeddedCodebook p = slice p 18 (18 + m * k * dsub * 4) := by
    unfold embeddedCodebook; rw [e1, e2, hk, hdiv]
  have hcblen : (slice p 18 (18 + m * k * dsub * 4)).length = 4 * (m * k * dsub) := by
    rw [length_slice _ _ _ (by omega)]; omega
  have hcl : (p.drop (18 + m * k * dsub * 4)).length = n * m := by
    rw [List.length_drop, hlen]; omega
  have hidx := code_index_lt m k n dsub (p.drop (18 + m * k * dsub * 4)) hcl hcodes
  have hvl : (codebookValues F (slice p 18 (18 + m * k * dsub * 4))).length = m * k * dsub := by
    rw [length_codebookValues, hcblen]; omega
  have hiff := decodeBlocks_iff F (m * dsub) m k n dsub (slice p 18 (18 + m * k * dsub * 4))
    (p.drop (18 + m * k * dsub * 4)) ⟨_, hcblen⟩
  -- what the two decoders reduce to
  have hR : decodeR F p
      = (match decodeBlocksEmbedded F (m * dsub) m k n dsub (slice p 18 (18 + m * k * dsub * 4))
            (p.drop (18 + m * k * dsub * 4)) with
        | .error e => (0, 0, .error e)
        | .ok blocks =>
          match finishR (le32 p 0) (le32 p 4) blocks with
          | .error e => (0, 0, .error e)
          | .ok mat => (le32 p 0, le32 p 4, .ok mat)) := by
    unfold decodeR
    rw [if_neg (by omega)]
    simp only [e1, e2, hk, hn, hdiv]
    have hns : ¬ (p.length ≥ 18 + 2 ∧ p.length - (18 + 2) = n * m) := by
      generalize m * k * dsub = X at hlen
      generalize n * m = Y at hlen
      omega
    rw [if_neg (by omega), if_neg (by omega), if_neg hns, if_neg (by omega), if_neg (by omega)]
    try rfl
  have hP : decodeRWithPool (le32 p 0) (le32 p 4) (sharedPayload (infoOf i blob) found) Q
      = (match decodeBlocksPool (m * dsub) m k n dsub
            (codebookValues F (slice p 18 (18 + m * k * dsub * 4)))
            (p.drop (18 + m * k * dsub * 4)) with
        | .error e => .error e
        | .ok blocks => finishPool (le32 p 0) (le32 p 4) blocks) := by
    have hic : (infoOf i blob).codes = p.drop (18 + m * k * dsub * 4) := by
      simp only [infoOf, hp, e1, e2, hk, hdiv]
    have hid : (infoOf i blob).d = m * dsub := by simp only [infoOf, hp, e1]
    have him : (infoOf i blob).m = m := by simp only [infoOf, hp, e2]
    have hik : (infoOf i blob).k = k := by simp only [infoOf, hp, hk]
    have hin : (infoOf i blob).n = n := by simp only [infoOf, hp, hn]
    rw [hid, Nat.mod_eq_of_lt (by omega)] at f1
    rw [him, Nat.mod_eq_of_lt (by omega)] at f2
    rw [hik, Nat.mod_eq_of_lt hk16] at f3
    rw [hin, Nat.mod_eq_of_lt hn32] at f4
    rw [Nat.mod_eq_of_lt hf] at f5
    rw [hic] at f6 f7
    unfold decodeRWithPool
    rw [if_neg (by omega)]
    simp only [f1, f2, f3, f4, f5, f6, hfind, hdiv]
    rw [if_neg (by simp [hcl]), if_neg (by omega), if_neg (by omega), if_neg (by omega),
      if_neg (by rw [hD, hdiv]; omega)]
    rw [hData, hcbdef]
    try rfl
  rw [hR, hP]
  constructor
  · intro mat
    cases hbp2 : decodeBlocksPool (m * dsub) m k n dsub
        (codebookValues F (slice p 18 (18 + m * k * dsub * 4)))
        (p.drop (18 + m * k * dsub * 4)) with
    | error e =>
      cases hbe : decodeBlocksEmbedded F (m * dsub) m k n dsub
          (slice p 18 (18 + m * k * dsub * 4)) (p.drop (18 + m * k * dsub * 4)) with
      | error e2 =>
        simp only []
        constructor
        · intro hh
          have h3 := congrArg (fun t => t.2.2) hh
          cases h3
        · intro hh
          cases hh
      | ok blocks =>
        have := (hiff blocks).mp hbe
        rw [hbp2] at this
        cases this
    | ok blocks =>
      rw [(hiff blocks).mpr hbp2]
      simp only []
      rw [← finishR_ok_iff]
      cases hfin : finishR (le32 p 0) (le32 p 4) blocks with
      | error e =>
        simp only []
        constructor
        · intro hh
          have h3 := congrArg (fun t => t.2.2) hh
          cases h3
        · intro hh
          cases hh
      | ok mat2 =>
        simp only []
        constructor
        · intro hh
          cases hh
          rfl
        · intro hh
          cases hh
          rfl
  · intro hcap1 hcap2
    obtain ⟨blocks, hb1, _, _⟩ := decodeBlocksPool_spec m k n dsub
      (codebookValues F (slice p 18 (18 + m * k * dsub * 4))) (p.drop (18 + m * k * dsub * 4))
      hcap2 (fun r i j hr hi hj => by rw [hvl]; exact hidx r i j hr hi hj)
    rw [(hiff blocks).mpr hb1]
    simp only []
    rw [finishR_small _ _ _ hcap1]
    exact ⟨_, rfl⟩

/-! ## Parsing the CODEBOOKS section back -/

theorem le16_append_right (pre x : Bytes) (i : Nat) :
    le16 (pre ++ x) (pre.length + i) = le16 x i := by
  simp only [le16, Nat.add_assoc, byteAt_append_right]

theorem length_poolEntryBytes (e : PoolEntry) :
    (poolEntryBytes e).length = 12 + e.data.length := by
  simp [poolEntryBytes, putU16, putU32]; omega

theorem poolEntry_read (e : PoolEntry) (tail : Bytes)
    (h : e.id < 2 ^ 16 ∧ e.d < 2 ^ 16 ∧ e.m < 2 ^ 16 ∧ e.k < 2 ^ 16 ∧ e.data.length < 2 ^ 32) :
    le16 (poolEntryBytes e ++ tail) 0 = e.id ∧ le16 (poolEntryBytes e ++ tail) 2 = e.d ∧
    le16 (poolEntryBytes e ++ tail) 4 = e.m ∧ le16 (poolEntryBytes e ++ tail) 6 = e.k ∧
    le32 (poolEntryBytes e ++ tail) 8 = e.data.length := by
  obtain ⟨h1, h2, h3, h4, h5⟩ := h
  refine ⟨?_, ?_, ?_, ?_, ?_⟩
  · simp [poolEntryBytes, le16, putU16, putU32, byteAt]; omega
  · simp [poolEntryBytes, le16, putU16, putU32, byteAt]; omega
  · simp [poolEntryBytes, le16, putU16, putU32, byteAt]; omega
  · simp [poolEntryBytes, le16, putU16, putU32, byteAt]; omega
  · simp [poolEntryBytes, le32, putU16, putU32, byteAt]; omega

theorem parseEntries_bytes {α : Type} (F : Nat → α) (es : List PoolEntry)
    (hf : ∀ e ∈ es, (e.id < 2 ^ 16 ∧ e.d < 2 ^ 16 ∧ e.m < 2 ^ 16 ∧ e.k < 2 ^ 16
      ∧ e.data.length < 2 ^ 32) ∧ 4 ∣ e.data.length) :
    ∀ (pre tail : Bytes) (Q0 : CodebookPool α),
      parseEntries F (pre ++ ((es.map poolEntryBytes).flatten ++ tail)) es.length pre.length Q0
        = .ok (es.foldl (fun Q e => Q.insert e.id (entryOf F e)) Q0) := by
  induction es with
  | nil => intro pre tail Q0; rfl
  | cons e rest ih =>
    intro pre tail Q0
    obtain ⟨hfe, h4⟩ := hf e (List.mem_cons_self _ _)
    have ih2 := ih (fun x hx => hf x (List.mem_cons_of_mem _ hx)) (pre ++ poolEntryBytes e) tail
      (Q0.insert e.id (entryOf F e))
    rw [List.append_assoc, List.length_append, length_poolEntryBytes] at ih2
    simp only [List.map_cons, List.flatten_cons, List.length_cons, List.foldl_cons, parseEntries]
    rw [List.append_assoc (poolEntryBytes e)]
    set X := (rest.map poolEntryBytes).flatten ++ tail with hX
    obtain ⟨r1, r2, r3, r4, r5⟩ := poolEntry_read e X hfe
    have a1 := le16_append_right pre (poolEntryBytes e ++ X) 0
    have a2 := le16_append_right pre (poolEntryBytes e ++ X) 2
    have a3 := le16_append_right pre (poolEntryBytes e ++ X) 4
    have a4 := le16_append_right pre (poolEntryBytes e ++ X) 6
    have a5 := le32_append_right pre (poolEntryBytes e ++ X) 8
    rw [Nat.add_zero] at a1
    have hlen : (pre ++ (poolEntryBytes e ++ X)).length
        = pre.length + (12 + e.data.length + X.length) := by
      simp [length_poolEntryBytes]
    rw [if_neg (by rw [hlen]; omega)]
    simp only [a1, a2, a3, a4, a5, r1, r2, r3, r4, r5]
    rw [if_neg (by rw [hlen]; omega), if_neg (by omega)]
    have hslice : slice (pre ++ (poolEntryBytes e ++ X)) (pre.length + 12)
        (pre.length + 12 + e.data.length) = e.data := by
      have h : pre ++ (poolEntryBytes e ++ X)
          = (pre ++ (poolEntryBytes e).take 12) ++ (e.data ++ X) := by
        simp [poolEntryBytes, putU16, putU32]
      have hl : (pre ++ (poolEntryBytes e).take 12).length = pre.length + 12 := by
        simp [poolEntryBytes, putU16, putU32]
      rw [h, ← hl]
      exact slice_append_mid _ _ _
    rw [hslice]
    rw [show pre.length + 12 + e.data.length = pre.length + (12 + e.data.length) by omega]
    exact ih2

theorem foldl_insert_entries {α : Type} (F : Nat → α) (es : List PoolEntry) :
    ∀ Q0 : CodebookPool α,
      (es.foldl (fun Q e => Q.insert e.id (entryOf F e)) Q0).Entries
        = (es.reverse.map (fun e => (e.id, entryOf F e))) ++ Q0.Entries := by
  induction es with
  | nil => intro Q0; rfl
  | cons e rest ih =>
    intro Q0
    rw [List.foldl_cons, ih]
    simp [CodebookPool.insert]

theorem lookup_of_nodup {β : Type} (l : List (Nat × β)) (rest : List (Nat × β))
    (hnd : (l.map (fun x => x.1)).Nodup) (k : Nat) (v : β) (h : (k, v) ∈ l) :
    (l ++ rest).lookup k = some v := by
  induction l with
  | nil => simp at h
  | cons x xs ih =>
    obtain ⟨a, b⟩ := x
    rw [List.map_cons, List.nodup_cons] at hnd
    rw [List.cons_append, List.lookup_cons]
    rcases List.mem_cons.mp h with h1 | h1
    · cases h1
      simp
    · have hne : k ≠ a := by
        intro he
        apply hnd.1
        rw [← he]
        exact List.mem_map_of_mem (fun x => x.1) h1
      have : (k == a) = false := by simpa using hne
      rw [this]
      exact ih hnd.2 h1

theorem find_parsed {α : Type} (F : Nat → α) (es : List PoolEntry)
    (hnd : (es.map (fun e => e.id)).Nodup) (e : PoolEntry) (he : e ∈ es) :
    (es.foldl (fun Q e => Q.insert e.id (entryOf F e))
      ({ Entries := [] } : CodebookPool α)).find e.id = some (entryOf F e) := by
  unfold CodebookPool.find
  rw [foldl_insert_entries]
  apply lookup_of_nodup
  · rw [List.map_map]
    have : ((fun x : Nat × CodebookEntry α => x.1) ∘ fun e => (e.id, entryOf F e))
        = fun e : PoolEntry => e.id := rfl
    rw [this, List.map_reverse]
    exact List.nodup_reverse.mpr hnd
  · exact List.mem_map.mpr ⟨e, List.mem_reverse.mpr he, rfl⟩

/-! ## The dedup loop of the rewriter -/

theorem assignId_spec (hash : Bytes → Nat) (m0 dsub : Nat) (C : List Bytes)
    (hm : 1 ≤ m0) (hds : 1 ≤ dsub) (pool : List PoolEntry) (ri : RInfo)
    (hp : PoolOk hash m0 dsub C pool) (hi : InfoOk m0 dsub C ri) :
    PoolOk hash m0 dsub C (assignId hash pool ri).1 ∧
    (∃ ext, (assignId hash pool ri).1 = pool ++ ext) ∧
    ∃ e, (assignId hash pool ri).1[(assignId hash pool ri).2]? = some e ∧
      e.data = ri.cb ∧ e.k = ri.k := by
  obtain ⟨i1, i2, i3, i4, i5⟩ := hi
  unfold assignId
  simp only []
  cases hfi : pool.findIdx? (fun e => decide (e.key = hash ri.cb ∧ e.data = ri.cb)) with
  | some j =>
    simp only []
    refine ⟨hp, ⟨[], by simp⟩, ?_⟩
    have := List.findIdx?_of_eq_some hfi
    cases hj : pool[j]? with
    | none => rw [hj] at this; simp at this
    | some e =>
      rw [hj] at this
      simp only [decide_eq_true_eq] at this
      refine ⟨e, rfl, this.2, ?_⟩
      obtain ⟨_, _, _, _, _, hl, _⟩ := hp.1 j e hj
      rw [this.2, i4] at hl
      -- equal sizes give equal k
      have h1 : m0 * ri.k * dsub * 4 = (m0 * dsub * 4) * ri.k := by ring
      have h2 : m0 * e.k * dsub * 4 = (m0 * dsub * 4) * e.k := by ring
      rw [h1, h2] at hl
      have hpos : 0 < m0 * dsub * 4 := by positivity
      exact (Nat.eq_of_mul_eq_mul_left hpos hl).symm
  | none =>
    simp only []
    have hnone := List.findIdx?_eq_none_iff.mp hfi
    refine ⟨⟨?_, ?_⟩, ⟨_, rfl⟩, ?_⟩
    · intro j e hj
      by_cases hlt : j < pool.length
      · rw [List.getElem?_append_left hlt] at hj
        exact hp.1 j e hj
      · rw [List.getElem?_append_right (by omega)] at hj
        have hj0 : j - pool.length = 0 := by
          by_contra hne
          rw [List.getElem?_eq_none (by simp; omega)] at hj
          cases hj
        rw [hj0] at hj
        simp only [List.getElem?_cons_zero, Option.some.injEq] at hj
        subst hj
        exact ⟨by simp only []; omega, rfl, i1, i2, i3, i4, i5⟩
    · rw [List.map_append, List.map_singleton, List.nodup_append]
      refine ⟨hp.2, by simp, ?_⟩
      intro a ha hb
      simp only [List.mem_singleton] at hb
      obtain ⟨e, he, hea⟩ := List.mem_map.mp ha
      have hne := hnone e he
      simp only [decide_eq_false_iff_not, not_and] at hne
      obtain ⟨j, hj⟩ := List.mem_iff_getElem?.mp he
      have hk := (hp.1 j e hj).2.1
      apply hne
      · rw [hk, hea, hb]
      · rw [hea, hb]
    · exact ⟨_, List.getElem?_concat_length _ _, rfl, rfl⟩

theorem processSlots_spec (hash : Bytes → Nat) (m0 dsub : Nat) (C : List Bytes)
    (hm : 1 ≤ m0) (hds : 1 ≤ dsub) (slots : List Slot) :
    ∀ pool, PoolOk hash m0 dsub C pool →
      (∀ blob ri, Slot.rshard blob ri ∈ slots → InfoOk m0 dsub C ri) →
      PoolOk hash m0 dsub C (processSlots hash slots pool).2 ∧
      (∃ ext, (processSlots hash slots pool).2 = pool ++ ext) ∧
      List.Forall₂ (SlotDone (processSlots hash slots pool).2) slots
        (processSlots hash slots pool).1 := by
  induction slots with
  | nil => intro pool hp _; exact ⟨hp, ⟨[], by simp [processSlots]⟩, List.Forall₂.nil⟩
  | cons s rest ih =>
    intro pool hp hi
    have hi2 : ∀ blob ri, Slot.rshard blob ri ∈ rest → InfoOk m0 dsub C ri :=
      fun blob ri h => hi blob ri (List.mem_cons_of_mem _ h)
    cases s with
    | skipped =>
      obtain ⟨h1, h2, h3⟩ := ih pool hp hi2
      exact ⟨h1, h2, List.Forall₂.cons rfl h3⟩
    | kept b =>
      obtain ⟨h1, h2, h3⟩ := ih pool hp hi2
      exact ⟨h1, h2, List.Forall₂.cons rfl h3⟩
    | rshard blob ri =>
      obtain ⟨a1, ⟨ext1, a2⟩, e, a3, a4, a5⟩ := assignId_spec hash m0 dsub C hm hds pool ri hp
        (hi blob ri (List.mem_cons_self _ _))
      obtain ⟨h1, ⟨ext2, h2⟩, h3⟩ := ih (assignId hash pool ri).1 a1 hi2
      refine ⟨h1, ⟨ext1 ++ ext2, ?_⟩, List.Forall₂.cons ?_ h3⟩
      · show (processSlots hash rest (assignId hash pool ri).1).2 = _
        rw [h2, a2, List.append_assoc]
      · refine ⟨(assignId hash pool ri).2, e, rfl, ?_, a4, a5⟩
        show (processSlots hash rest (assignId hash pool ri).1).2[_]? = _
        have hlt : (assignId hash pool ri).2 < (assignId hash pool ri).1.length := by
          by_contra hge
          rw [List.getElem?_eq_none (by omega)] at a3
          cases a3
        rw [h2, List.getElem?_append_left hlt]
        exact a3

/-! ## The scan loop of the rewriter -/

theorem shardPayload_eq_slice (blob : Bytes) (h : blob.length = 12 + le32 blob 8) :
    slice blob 12 (12 + le32 blob 8) = shardPayload blob := by
  unfold slice shardPayload
  rw [List.take_of_length_le]
  rw [List.length_drop]; omega

theorem scanBlob_other (i : Nat) (blob : Bytes) (h12 : 12 ≤ blob.length)
    (h : byteAt blob 0 ≠ 1) : scanBlob i blob = .ok (.kept blob) := by
  unfold scanBlob
  rw [if_neg (by omega), if_pos h]

theorem scanBlob_embedded (i : Nat) (blob : Bytes) (d m : Nat) (hf : Framed blob)
    (h : byteAt blob 0 = 1) (hE : EmbeddedR d m (shardPayload blob)) :
    scanBlob i blob = .ok (.rshard blob (infoOf i blob)) := by
  obtain ⟨_, h12, hlen⟩ := hf
  obtain ⟨e1, e2, hm1, _, hl, _⟩ := hE
  unfold scanBlob
  rw [if_neg (by omega), if_neg (by simp [h])]
  simp only []
  rw [if_neg (by omega), shardPayload_eq_slice blob hlen]
  rw [if_neg (by omega), if_neg (by omega), if_neg]
  · rfl
  · rw [e1, e2]
    omega

theorem forall₂_chain {A B C : Type} {R1 : A → B → Prop} {R2 : B → C → Prop}
    {R3 : A → C → Prop} (h : ∀ a b c, R1 a b → R2 b c → R3 a c) :
    ∀ {l1 : List A} {l2 : List B} {l3 : List C},
      List.Forall₂ R1 l1 l2 → List.Forall₂ R2 l2 l3 → List.Forall₂ R3 l1 l3 := by
  intro l1 l2 l3 h1
  induction h1 generalizing l3 with
  | nil => intro h2; cases h2; exact List.Forall₂.nil
  | cons hab _ ih =>
    intro h2
    cases h2 with
    | cons hbc h2 => exact List.Forall₂.cons (h _ _ _ hab hbc) (ih h2)

/-- The scan loop on framed shards whose R shards are well-formed and embedded. -/
theorem scanAll_spec (d m : Nat) (shards : List Bytes) (hfr : ∀ blob ∈ shards, Framed blob)
    (hR : ∀ blob ∈ shards, byteAt blob 0 = 1 → EmbeddedR d m (shardPayload blob)) :
    ∀ i0, ∃ slots, scanAll shards i0 = .ok slots ∧
      List.Forall₂ (fun blob s => (byteAt blob 0 ≠ 1 ∧ s = Slot.kept blob) ∨
        (byteAt blob 0 = 1 ∧ Framed blob ∧ EmbeddedR d m (shardPayload blob) ∧
          ∃ i, s = Slot.rshard blob (infoOf i blob))) shards slots := by
  induction shards with
  | nil => intro i0; exact ⟨[], rfl, List.Forall₂.nil⟩
  | cons blob rest ih =>
    intro i0
    obtain ⟨slots, h1, h2⟩ := ih (fun b hb => hfr b (List.mem_cons_of_mem _ hb))
      (fun b hb => hR b (List.mem_cons_of_mem _ hb)) (i0 + 1)
    have hf := hfr blob (List.mem_cons_self _ _)
    by_cases hb : byteAt blob 0 = 1
    · refine ⟨Slot.rshard blob (infoOf i0 blob) :: slots, ?_,
        List.Forall₂.cons (Or.inr ⟨hb, hf, hR blob (List.mem_cons_self _ _) hb, i0, rfl⟩) h2⟩
      simp only [scanAll, scanBlob_embedded i0 blob d m hf hb (hR blob (List.mem_cons_self _ _) hb),
        h1, bind, Except.bind, pure, Except.pure]
    · refine ⟨Slot.kept blob :: slots, ?_, List.Forall₂.cons (Or.inl ⟨hb, rfl⟩) h2⟩
      simp only [scanAll, scanBlob_other i0 blob hf.2.1 hb, h1, bind, Except.bind, pure,
        Except.pure]

theorem filterMap_done (P : List PoolEntry) :
    ∀ (slots : List Slot) (out : List (Option Bytes)),
      List.Forall₂ (SlotDone P) slots out → (∀ s ∈ slots, s ≠ Slot.skipped) →
      List.Forall₂ (fun s b => SlotDone P s (some b)) slots (out.filterMap id) := by
  intro slots out h
  induction h with
  | nil => intro _; exact List.Forall₂.nil
  | @cons s o ss os hso _ ih =>
    intro hns
    have ih2 := ih (fun x hx => hns x (List.mem_cons_of_mem _ hx))
    cases o with
    | none =>
      cases s with
      | skipped => exact absurd rfl (hns _ (List.mem_cons_self _ _))
      | kept b => cases hso
      | rshard blob ri => obtain ⟨_, _, h, _⟩ := hso; cases h
    | some b =>
      rw [List.filterMap_cons_some (by rfl)]
      exact List.Forall₂.cons hso ih2

theorem infoOk_infoOf (i : Nat) (blob : Bytes) (m0 dsub : Nat) (C : List Bytes)
    (hf : Framed blob) (hE : EmbeddedR (m0 * dsub) m0 (shardPayload blob))
    (hC : embeddedCodebook (shardPayload blob) ∈ C) :
    InfoOk m0 dsub C (infoOf i blob) := by
  obtain ⟨hb, _, _⟩ := hf
  have hbp : isBytes (shardPayload blob) := isBytes_drop blob hb 12
  obtain ⟨e1, e2, hm1, _, hl, _⟩ := hE
  have hdiv : m0 * dsub / m0 = dsub := Nat.mul_div_cancel_left _ (by omega)
  rw [hdiv] at hl
  refine ⟨e1, e2, le16_lt _ hbp 12, ?_, hC⟩
  show (embeddedCodebook (shardPayload blob)).length = _
  unfold embeddedCodebook
  rw [e1, e2, hdiv, length_slice _ _ _ (by omega)]
  show _ = m0 * le16 (shardPayload blob) 12 * dsub * 4
  omega

theorem forall₂_mem_right {A B : Type} {R : A → B → Prop} :
    ∀ {l1 : List A} {l2 : List B}, List.Forall₂ R l1 l2 → ∀ b ∈ l2, ∃ a ∈ l1, R a b := by
  intro l1 l2 h
  induction h with
  | nil => intro b hb; simp at hb
  | cons hab _ ih =>
    intro b hb
    rcases List.mem_cons.mp hb with h1 | h1
    · subst h1; exact ⟨_, List.mem_cons_self _ _, hab⟩
    · obtain ⟨a, ha, hr⟩ := ih b h1
      exact ⟨a, List.mem_cons_of_mem _ ha, hr⟩

theorem shardPayload_rewriteBlob (blob : Bytes) (ri : RInfo) (found : Nat)
    (h : 12 ≤ blob.length) : shardPayload (rewriteBlob blob ri found) = sharedPayload ri found := by
  unfold shardPayload rewriteBlob
  have h4 : (blob.take 4).length = 4 := by rw [List.length_take]; omega
  have : blob.take 4 ++ putU32 ((sharedPayload ri found).length % 2 ^ 32)
      ++ putU32 ((sharedPayload ri found).length % 2 ^ 32) ++ sharedPayload ri found
      = (blob.take 4 ++ putU32 ((sharedPayload ri found).length % 2 ^ 32)
          ++ putU32 ((sharedPayload ri found).length % 2 ^ 32)) ++ sharedPayload ri found := rfl
  rw [this, List.drop_append_of_le_length (by simp [putU32, h4]), List.drop_of_length_le, List.nil_append]
  simp [putU32, h4]

theorem pool_ids_nodup (hash : Bytes → Nat) (m0 dsub : Nat) (C : List Bytes)
    (P : List PoolEntry) (hP : PoolOk hash m0 dsub C P) : (P.map (fun e => e.id)).Nodup := by
  have : P.map (fun e => e.id) = List.range P.length := by
    apply List.ext_getElem?
    intro j
    by_cases hj : j < P.length
    · rw [List.getElem?_map, List.getElem?_range hj, List.getElem?_eq_getElem hj]
      simp only [Option.map_some']
      rw [(hP.1 j P[j] (List.getElem?_eq_getElem hj)).1]
    · rw [List.getElem?_eq_none (by simp; omega), List.getElem?_eq_none (by simp; omega)]
  rw [this]
  exact List.nodup_range _

theorem pool_length_le (hash : Bytes → Nat) (m0 dsub : Nat) (C : List Bytes)
    (P : List PoolEntry) (hP : PoolOk hash m0 dsub C P) : P.length ≤ C.toFinset.card := by
  have h1 : (P.map (fun e => e.data)).toFinset.card = P.length := by
    rw [List.toFinset_card_of_nodup hP.2, List.length_map]
  rw [← h1]
  apply Finset.card_le_card
  intro x hx
  rw [List.mem_toFinset] at hx ⊢
  obtain ⟨e, he, rfl⟩ := List.mem_map.mp hx
  obtain ⟨j, hj⟩ := List.mem_iff_getElem?.mp he
  exact (hP.1 j e hj).2.2.2.2.2.2

theorem rewrite_decode_core {α : Type} [Zero α] (F : Nat → α) (hash : Bytes → Nat)
    (shards : List Bytes) (m0 dsub : Nat) (hm : 1 ≤ m0) (hds : 1 ≤ dsub)
    (hfr : ∀ blob ∈ shards, Framed blob)
    (hR : ∀ blob ∈ shards, byteAt blob 0 = 1 → EmbeddedR (m0 * dsub) m0 (shardPayload blob))
    (hcount : ((shards.filter (fun b => byteAt b 0 = 1)).map
      (fun b => embeddedCodebook (shardPayload b))).toFinset.card < 65536) :
    ∃ rewritten codebooks pool,
      rewriteRShardsWithSharedCodebooks hash shards = .ok (rewritten, codebooks) ∧
      ParseCodebookPool F codebooks = .ok pool ∧
      List.Forall₂ (fun blob new => byteAt blob 0 = 1 →
        ∃ i found entry, isBytes blob ∧
          shardPayload new = sharedPayload (infoOf i blob) found ∧ found < 2 ^ 16 ∧
          pool.find found = some entry ∧ entry.D = m0 * dsub ∧ entry.M = m0 ∧
          entry.K = le16 (shardPayload blob) 12 ∧
          entry.Data = codebookValues F (embeddedCodebook (shardPayload blob)))
        shards rewritten := by
  set C := (shards.filter (fun b => byteAt b 0 = 1)).map
    (fun b => embeddedCodebook (shardPayload b)) with hC
  obtain ⟨slots, hscan, hrel⟩ := scanAll_spec (m0 * dsub) m0 shards hfr hR 0
  -- every R slot carries a well-formed info
  have hmemC : ∀ blob ∈ shards, byteAt blob 0 = 1 → embeddedCodebook (shardPayload blob) ∈ C := by
    intro blob hb h1
    exact List.mem_map.mpr ⟨blob, List.mem_filter.mpr ⟨hb, by simpa using h1⟩, rfl⟩
  have hinfo : ∀ blob ri, Slot.rshard blob ri ∈ slots → InfoOk m0 dsub C ri := by
    intro blob ri hs
    obtain ⟨b2, hb2, hr⟩ := forall₂_mem_right hrel _ hs
    rcases hr with ⟨_, h⟩ | ⟨h1, _, _, i, h⟩
    · cases h
    · cases h
      exact infoOk_infoOf i blob m0 dsub C (hfr blob hb2) (hR blob hb2 h1) (hmemC blob hb2 h1)
  have hns : ∀ s ∈ slots, s ≠ Slot.skipped := by
    intro s hs
    obtain ⟨b2, _, hr⟩ := forall₂_mem_right hrel _ hs
    rcases hr with ⟨_, h⟩ | ⟨_, _, _, i, h⟩ <;> rw [h] <;> intro hh <;> cases hh
  obtain ⟨hP, _, hF⟩ := processSlots_spec hash m0 dsub C hm hds slots []
    ⟨by intro j e h; simp at h, by simp⟩ hinfo
  set P := (processSlots hash slots []).2 with hPdef
  have hF2 := filterMap_done P slots _ hF hns
  have hPlen : P.length < 2 ^ 16 := by
    have := pool_length_le hash m0 dsub C P hP
    omega
  -- the entries fit the widths of the CODEBOOKS section
  have hfields : ∀ e ∈ P, (e.id < 2 ^ 16 ∧ e.d < 2 ^ 16 ∧ e.m < 2 ^ 16 ∧ e.k < 2 ^ 16
      ∧ e.data.length < 2 ^ 32) ∧ 4 ∣ e.data.length := by
    intro e he
    obtain ⟨j, hj⟩ := List.mem_iff_getElem?.mp he
    obtain ⟨p1, _, p3, p4, p5, p6, p7⟩ := hP.1 j e hj
    have hjlt : j < P.length := by
      by_contra hge
      rw [List.getElem?_eq_none (by omega)] at hj
      cases hj
    obtain ⟨blob, hb, hbe⟩ := List.mem_map.mp p7
    rw [List.mem_filter] at hb
    have hfb := hfr blob hb.1
    have hEb := hR blob hb.1 (by simpa using hb.2)
    have hbp : isBytes (shardPayload blob) := isBytes_drop blob hfb.1 12
    obtain ⟨e1, e2, _, _, hl, _⟩ := hEb
    have hdiv : m0 * dsub / m0 = dsub := Nat.mul_div_cancel_left _ (by omega)
    rw [hdiv] at hl
    have hd16 := le16_lt _ hbp 8
    have hm16 := le16_lt _ hbp 10
    have hc32 := le32_lt blob hfb.1 8
    have hpl : (shardPayload blob).length = le32 blob 8 := by
      have := hfb.2.2
      unfold shardPayload; rw [List.length_drop]; omega
    have hdl : e.data.length ≤ (shardPayload blob).length := by
      rw [← hbe]
      unfold embeddedCodebook slice
      rw [List.length_take, List.length_drop]
      omega
    refine ⟨⟨by omega, by rw [p3, ← e1]; exact hd16, by rw [p4, ← e2]; exact hm16, p5, by omega⟩,
      ⟨m0 * e.k * dsub, by rw [p6]; ring⟩⟩
  have hparse := parseEntries_bytes F P hfields (putU16 (P.length % 2 ^ 16)) []
    ({ Entries := [] } : CodebookPool α)
  rw [List.append_nil] at hparse
  refine ⟨(processSlots hash slots []).1.filterMap id, codebookBytes P,
    P.foldl (fun Q e => Q.insert e.id (entryOf F e)) ({ Entries := [] } : CodebookPool α),
    ?_, ?_, ?_⟩
  · unfold rewriteRShardsWithSharedCodebooks
    rw [hscan]
    rfl
  · unfold ParseCodebookPool
    have hl : (codebookBytes P).length = 2 + ((P.map poolEntryBytes).flatten).length := by
      simp [codebookBytes, putU16]; omega
    rw [if_neg (by omega), if_neg (by omega)]
    have hcnt : le16 (codebookBytes P) 0 = P.length := by
      simp [codebookBytes, le16, putU16, byteAt]; omega
    rw [hcnt]
    exact hparse
  · refine forall₂_chain ?_ hrel hF2
    intro blob s new h1 h2 hb
    rcases h1 with ⟨hne, _⟩ | ⟨_, hfb, hEb, i, hs⟩
    · exact absurd hb hne
    · subst hs
      obtain ⟨found, e, ho, hg, hdata, hk⟩ := h2
      simp only [Option.some.injEq] at ho
      subst ho
      have hflt : found < P.length := by
        by_contra hge
        rw [List.getElem?_eq_none (by omega)] at hg
        cases hg
      obtain ⟨p1, _, p3, p4, _, _, _⟩ := hP.1 found e hg
      have hfind := find_parsed F P (pool_ids_nodup hash m0 dsub C P hP) e (List.getElem?_mem hg)
      rw [p1] at hfind
      exact ⟨i, found, entryOf F e, hfb.1, shardPayload_rewriteBlob blob _ found hfb.2.1,
        by omega, hfind, p3, p4, hk, by show codebookValues F e.data = _; rw [hdata]; rfl⟩

theorem forall₂_with_mem {A B : Type} {R : A → B → Prop} (l0 : List A) :
    ∀ (l : List A) (r : List B), (∀ a ∈ l, a ∈ l0) → List.Forall₂ R l r →
      List.Forall₂ (fun a b => a ∈ l0 ∧ R a b) l r := by
  intro l r hl hf
  induction hf with
  | nil => exact List.Forall₂.nil
  | cons hab _ ih =>
    exact List.Forall₂.cons ⟨hl _ (List.mem_cons_self _ _), hab⟩
      (ih (fun b hb => hl b (List.mem_cons_of_mem _ hb)))

/-- After the rewrite, at every R shard `decodeRWithPool` on the rewritten payload returns a
matrix exactly when `decodeR` returns it on the original payload, and `decodeR` returns one
when `rows*cols` and `n*d` are within the length `make` allocates. -/
theorem rewrite_decode_pairs {α : Type} [Zero α] (F : Nat → α) (hash : Bytes → Nat)
    (shards : List Bytes) (m0 dsub : Nat) (hm : 1 ≤ m0) (hds : 1 ≤ dsub)
    (hfr : ∀ blob ∈ shards, Framed blob)
    (hR : ∀ blob ∈ shards, byteAt blob 0 = 1 → EmbeddedR (m0 * dsub) m0 (shardPayload blob))
    (hcount : ((shards.filter (fun b => byteAt b 0 = 1)).map
      (fun b => embeddedCodebook (shardPayload b))).toFinset.card < 65536) :
    ∃ rewritten codebooks pool,
      rewriteRShardsWithSharedCodebooks hash shards = .ok (rewritten, codebooks) ∧
      ParseCodebookPool F codebooks = .ok pool ∧
      List.Forall₂ (fun blob new => byteAt blob 0 = 1 →
        (∀ mat, decodeR F (shardPayload blob)
            = (le32 (shardPayload blob) 0, le32 (shardPayload blob) 4, .ok mat) ↔
          decodeRWithPool (le32 (shardPayload blob) 0) (le32 (shardPayload blob) 4)
            (shardPayload new) pool = .ok mat) ∧
        (le32 (shardPayload blob) 0 * le32 (shardPayload blob) 4 ≤ maxLenF32 →
          le32 (shardPayload blob) 14 * (m0 * dsub) ≤ maxLenF32 →
          ∃ mat, decodeR F (shardPayload blob)
            = (le32 (shardPayload blob) 0, le32 (shardPayload blob) 4, .ok mat)))
        shards rewritten := by
  obtain ⟨rewritten, codebooks, pool, h1, h2, h3⟩ :=
    rewrite_decode_core F hash shards m0 dsub hm hds hfr hR hcount
  refine ⟨rewritten, codebooks, pool, h1, h2, ?_⟩
  refine List.Forall₂.imp ?_ (forall₂_with_mem shards shards rewritten (fun b hb => hb) h3)
  intro blob new ⟨hbm, hlink⟩ hb1
  obtain ⟨i, found, entry, hbytes, hsp, hf, hfind, hD, hM, hK, hData⟩ := hlink hb1
  rw [hsp]
  exact decode_pair F i blob hbytes (m0 * dsub) m0 (hR blob hbm hb1) pool found hf entry hfind
    hD hM hK hData

/-- After the rewrite, the `cb_id` of every rewritten R shard resolves in the parsed pool to an
entry whose `m`, `k` and `d` are those of the shard's header. -/
theorem rewrite_entry_core {α : Type} [Zero α] (F : Nat → α) (hash : Bytes → Nat)
    (shards : List Bytes) (m0 dsub : Nat) (hm : 1 ≤ m0) (hds : 1 ≤ dsub)
    (hfr : ∀ blob ∈ shards, Framed blob)
    (hR : ∀ blob ∈ shards, byteAt blob 0 = 1 → EmbeddedR (m0 * dsub) m0 (shardPayload blob))
    (hcount : ((shards.filter (fun b => byteAt b 0 = 1)).map
      (fun b => embeddedCodebook (shardPayload b))).toFinset.card < 65536) :
    ∃ rewritten codebooks pool,
      rewriteRShardsWithSharedCodebooks hash shards = .ok (rewritten, codebooks) ∧
      ParseCodebookPool F codebooks = .ok pool ∧
      List.Forall₂ (fun blob new => byteAt blob 0 = 1 →
        ∃ entry, pool.find (le16 (shardPayload new) 18) = some entry ∧
          entry.M = le16 (shardPayload new) 10 ∧ entry.K = le16 (shardPayload new) 12 ∧
          entry.D = le16 (shardPayload new) 8) shards rewritten := by
  obtain ⟨rewritten, codebooks, pool, h1, h2, h3⟩ :=
    rewrite_decode_core F hash shards m0 dsub hm hds hfr hR hcount
  refine ⟨rewritten, codebooks, pool, h1, h2, ?_⟩
  refine List.Forall₂.imp ?_ (forall₂_with_mem shards shards rewritten (fun b hb => hb) h3)
  intro blob new ⟨hbm, hlink⟩ hb1
  obtain ⟨i, found, entry, hbytes, hsp, hf, hfind, hD, hM, hK, hData⟩ := hlink hb1
  obtain ⟨f1, f2, f3, f4, f5, f6, f7⟩ := sharedPayload_fields (infoOf i blob) found
  obtain ⟨e1, e2, _, _, _, _⟩ := hR blob hbm hb1
  have hbp : isBytes (shardPayload blob) := isBytes_drop blob hbytes 12
  have hd16 := le16_lt (shardPayload blob) hbp 8
  have hm16 := le16_lt (shardPayload blob) hbp 10
  have hk16 := le16_lt (shardPayload blob) hbp 12
  have hid : (infoOf i blob).d = m0 * dsub := by simp only [infoOf, e1]
  have him : (infoOf i blob).m = m0 := by simp only [infoOf, e2]
  have hik : (infoOf i blob).k = le16 (shardPayload blob) 12 := by simp only [infoOf]
  rw [hid, Nat.mod_eq_of_lt (by omega)] at f1
  rw [him, Nat.mod_eq_of_lt (by omega)] at f2
  rw [hik, Nat.mod_eq_of_lt hk16] at f3
  rw [Nat.mod_eq_of_lt hf] at f5
  rw [hsp, f5, f2, f3, f1]
  exact ⟨entry, hfind, hM, hK, hD⟩

/-! ## Subnormal half-precision patterns and the bit-exact round trip -/

/-- A result of the renormalising loop does not depend on the iteration budget. -/
theorem normLoop_mono (fuel : Nat) :
    ∀ (m2 e2 : Nat) (r : Nat × Nat), normLoop fuel m2 e2 = some r →
      normLoop (fuel + 1) m2 e2 = some r := by
  induction fuel with
  | zero =>
    intro m2 e2 r h
    unfold normLoop at h ⊢
    split
    · rename_i hc; rw [if_pos hc] at h; exact h
    · rename_i hc; rw [if_neg hc] at h; cases h
  | succ f ih =>
    intro m2 e2 r h
    unfold normLoop at h ⊢
    split
    · rename_i hc; rw [if_pos hc] at h; exact h
    · rename_i hc
      rw [if_neg hc] at h
      exact ih _ _ r h

theorem normLoop_fuel (f0 : Nat) (m2 e2 : Nat) (r : Nat × Nat) (h : normLoop f0 m2 e2 = some r) :
    ∀ fuel, f0 ≤ fuel → normLoop fuel m2 e2 = some r := by
  intro fuel hf
  induction fuel with
  | zero =>
    have : f0 = 0 := by omega
    rw [← this]; exact h
  | succ f ih =>
    by_cases e : f0 = f + 1
    · rw [← e]; exact h
    · exact normLoop_mono f m2 e2 r (ih (by omega))

set_option maxRecDepth 100000 in
/-- All 2046 subnormal half-precision patterns, evaluated: the loop ends within 10 iterations,
the float32 is normal, keeps the sign, and has magnitude `m * 2^126` in units of `2^-150`. -/
theorem subnormal_table :
    ∀ s < 2, ∀ m < 1024, m ≠ 0 →
      (normLoop 10 ((m <<< 13) % 2 ^ 32) (127 - 15 + 1)).isSome = true ∧
      1 ≤ fp16to32bits (32768 * s + m) / 2 ^ 23 % 256 ∧
      fp16to32bits (32768 * s + m) / 2 ^ 23 % 256 ≤ 254 ∧
      fp16to32bits (32768 * s + m) / 2 ^ 31 % 2 = s ∧
      f32mag (fp16to32bits (32768 * s + m)) = m * 2 ^ 126 := by
  decide

/-- The two bytes `fp32to16` returns are the low and the high byte of the pattern read back
from them. -/
theorem fp32to16_bytes (u : Nat) :
    fp32to16 u = [readHalf (fp32to16 u) 0 % 256, readHalf (fp32to16 u) 0 / 256] := by
  have key : ∀ a b : Nat, readHalf [a % 256, b % 256] 0 = a % 256 + 256 * (b % 256) := by
    intro a b
    have a2 : (a % 256 ||| (b % 256) <<< 8) = 2 ^ 8 * (b % 256) + a % 256 := by
      rw [Nat.shiftLeft_eq, Nat.mul_comm _ (2 ^ 8), Nat.lor_comm]
      exact or_eq_add_of_lt 8 _ _ (by omega)
    simp only [readHalf, byteAt, List.getD_cons_zero, List.getD_cons_succ, a2]
    omega
  unfold fp32to16
  simp only []
  rw [key]
  congr 1
  · omega
  · congr 1
    omega

/-- The half-precision infinities decode to the float32 infinities and encode back. -/
theorem fp16_inf_roundtrip :
    ∀ s < 2, readHalf (fp32to16 (fp16to32bits (32768 * s + 31744))) 0 = 32768 * s + 31744 := by
  decide

/-! ## The dedup loop of the rewriter on arbitrary shards -/

theorem idxOf_lt_length (c : Bytes) : ∀ l : List Bytes, idxOf c l < l.length ↔ c ∈ l := by
  intro l
  induction l with
  | nil => simp [idxOf]
  | cons x xs ih =>
    unfold idxOf
    by_cases h : x = c
    · rw [if_pos h]; simp [h]
    · rw [if_neg h]
      simp only [List.length_cons, List.mem_cons, Nat.add_lt_add_iff_right, ih]
      constructor
      · exact Or.inr
      · rintro (h1 | h1)
        · exact absurd h1.symm h
        · exact h1

theorem idxOf_append_of_mem (c : Bytes) (l2 : List Bytes) :
    ∀ l1 : List Bytes, c ∈ l1 → idxOf c (l1 ++ l2) = idxOf c l1 := by
  intro l1
  induction l1 with
  | nil => intro h; simp at h
  | cons x xs ih =>
    intro h
    rw [List.cons_append]
    unfold idxOf
    by_cases hx : x = c
    · rw [if_pos hx, if_pos hx]
    · rw [if_neg hx, if_neg hx]
      rcases List.mem_cons.mp h with h1 | h1
      · exact absurd h1.symm hx
      · rw [ih h1]

theorem idxOf_append_of_not_mem (c : Bytes) (l2 : List Bytes) :
    ∀ l1 : List Bytes, c ∉ l1 → idxOf c (l1 ++ l2) = l1.length + idxOf c l2 := by
  intro l1
  induction l1 with
  | nil => intro _; simp
  | cons x xs ih =>
    intro h
    rw [List.cons_append]
    have hx : ¬ x = c := fun e => h (by rw [e]; exact List.mem_cons_self _ _)
    have h1 : c ∉ xs := fun e => h (List.mem_cons_of_mem _ e)
    show (if x = c then 0 else idxOf c (xs ++ l2) + 1) = _
    rw [if_neg hx, ih h1, List.length_cons]
    omega

theorem getElem_idxOf (c : Bytes) : ∀ l : List Bytes, c ∈ l → l[idxOf c l]? = some c := by
  intro l
  induction l with
  | nil => intro h; simp at h
  | cons x xs ih =>
    intro h
    unfold idxOf
    by_cases hx : x = c
    · rw [if_pos hx]; simp [hx]
    · rw [if_neg hx]
      rcases List.mem_cons.mp h with h1 | h1
      · exact absurd h1.symm hx
      · simpa using ih h1

theorem idxOf_inj (l : List Bytes) (a b : Bytes) (ha : a ∈ l) (hb : b ∈ l) :
    idxOf a l = idxOf b l ↔ a = b := by
  constructor
  · intro h
    have h1 := getElem_idxOf a l ha
    have h2 := getElem_idxOf b l hb
    rw [h, h2] at h1
    exact (Option.some.inj h1).symm
  · intro h; rw [h]

theorem findIdx_pool (hash : Bytes → Nat) (cb : Bytes) :
    ∀ pool : List PoolEntry, (∀ e ∈ pool, e.key = hash e.data) →
      pool.findIdx? (fun e => decide (e.key = hash cb ∧ e.data = cb))
        = if cb ∈ pool.map (fun e => e.data)
            then some (idxOf cb (pool.map (fun e => e.data))) else none := by
  intro pool
  induction pool with
  | nil => intro _; rfl
  | cons x xs ih =>
    intro h
    have ih2 := ih (fun e he => h e (List.mem_cons_of_mem _ he))
    rw [List.findIdx?_cons, List.map_cons, zero_add, List.findIdx?_succ]
    by_cases hx : x.data = cb
    · have hk : x.key = hash cb := by rw [h x (List.mem_cons_self _ _), hx]
      have hd : decide (x.key = hash cb ∧ x.data = cb) = true := by simp [hk, hx]
      rw [hd, if_pos rfl, if_pos (by rw [hx]; exact List.mem_cons_self _ _)]
      unfold idxOf
      rw [if_pos hx]
    · have hd : decide (x.key = hash cb ∧ x.data = cb) = false := by simp [hx]
      rw [hd, ih2]
      simp only [Bool.false_eq_true, if_false, List.mem_cons]
      by_cases hm : cb ∈ xs.map (fun e => e.data)
      · rw [if_pos hm, if_pos (Or.inr hm)]
        show _ = some (if x.data = cb then 0 else _)
        rw [if_neg hx]
        rfl
      · rw [if_neg hm, if_neg (by rintro (h1 | h1); exact hx h1.symm; exact hm h1)]
        rfl

theorem poolInv_snoc (hash : Bytes → Nat) (pool : List PoolEntry) (e0 : PoolEntry)
    (hp : PoolInv hash pool) (hk : e0.key = hash e0.data) (hid : e0.id = pool.length)
    (hm : e0.data ∉ pool.map (fun e => e.data)) :
    PoolInv hash (pool ++ [e0]) ∧
    (pool ++ [e0]).map (fun e => e.data) = pool.map (fun e => e.data) ++ [e0.data] ∧
    pool.length = idxOf e0.data ((pool ++ [e0]).map (fun e => e.data)) ∧
    e0.data ∈ (pool ++ [e0]).map (fun e => e.data) := by
  obtain ⟨h1, h2, h3⟩ := hp
  have hmap : (pool ++ [e0]).map (fun e => e.data) = pool.map (fun e => e.data) ++ [e0.data] := by
    rw [List.map_append]; rfl
  refine ⟨⟨?_, ?_, ?_⟩, hmap, ?_, ?_⟩
  · intro e he
    rcases List.mem_append.mp he with h | h
    · exact h1 e h
    · simp only [List.mem_singleton] at h
      rw [h]; exact hk
  · rw [List.map_append, h2, List.length_append, List.length_singleton, List.range_succ]
    simp [hid]
  · rw [hmap, List.nodup_append]
    refine ⟨h3, by simp, ?_⟩
    intro a ha hb
    simp only [List.mem_singleton] at hb
    subst hb
    exact hm ha
  · rw [hmap, idxOf_append_of_not_mem _ _ _ hm]
    simp [idxOf]
  · rw [hmap]
    simp

theorem assignId_gen (hash : Bytes → Nat) (pool : List PoolEntry) (ri : RInfo)
    (hp : PoolInv hash pool) :
    PoolInv hash (assignId hash pool ri).1 ∧
    (assignId hash pool ri).1.map (fun e => e.data)
      = firstSeen (pool.map (fun e => e.data)) [ri.cb] ∧
    (assignId hash pool ri).2
      = idxOf ri.cb ((assignId hash pool ri).1.map (fun e => e.data)) ∧
    ri.cb ∈ (assignId hash pool ri).1.map (fun e => e.data) ∧
    (∃ ext, (assignId hash pool ri).1 = pool ++ ext) ∧
    ∀ e ∈ (assignId hash pool ri).1, e ∈ pool ∨ (e.d = ri.d ∧ e.m = ri.m ∧ e.k = ri.k
      ∧ e.data = ri.cb) := by
  have h1 := hp.1
  unfold assignId
  simp only []
  rw [findIdx_pool hash ri.cb pool h1]
  by_cases hm : ri.cb ∈ pool.map (fun e => e.data)
  · have hfs : firstSeen (pool.map (fun e => e.data)) [ri.cb] = pool.map (fun e => e.data) := by
      simp only [firstSeen, if_pos hm]
    rw [if_pos hm, hfs]
    exact ⟨hp, rfl, rfl, hm, ⟨[], by simp⟩, fun e he => Or.inl he⟩
  · have hfs : firstSeen (pool.map (fun e => e.data)) [ri.cb]
        = pool.map (fun e => e.data) ++ [ri.cb] := by
      simp only [firstSeen, if_neg hm]
    rw [if_neg hm, hfs]
    obtain ⟨a1, a2, a3, a4⟩ := poolInv_snoc hash pool
      { key := hash ri.cb, data := ri.cb, id := pool.length, d := ri.d, m := ri.m, k := ri.k }
      hp rfl rfl hm
    refine ⟨a1, a2, a3, a4, ⟨_, rfl⟩, ?_⟩
    intro e he
    rcases List.mem_append.mp he with h | h
    · exact Or.inl h
    · simp only [List.mem_singleton] at h
      subst h
      exact Or.inr ⟨rfl, rfl, rfl, rfl⟩

theorem firstSeen_cons (acc : List Bytes) (c : Bytes) (rest : List Bytes) :
    firstSeen acc (c :: rest) = firstSeen (firstSeen acc [c]) rest := by
  by_cases h : c ∈ acc
  · simp only [firstSeen, if_pos h]
  · simp only [firstSeen, if_neg h]

theorem processSlots_gen (hash : Bytes → Nat) (slots : List Slot) :
    ∀ pool, PoolInv hash pool →
      PoolInv hash (processSlots hash slots pool).2 ∧
      (processSlots hash slots pool).2.map (fun e => e.data)
        = firstSeen (pool.map (fun e => e.data)) (slotCodebooks slots) ∧
      (∃ ext, (processSlots hash slots pool).2 = pool ++ ext) ∧
      List.Forall₂ (SlotOut ((processSlots hash slots pool).2.map (fun e => e.data))) slots
        (processSlots hash slots pool).1 ∧
      ∀ e ∈ (processSlots hash slots pool).2, e ∈ pool ∨
        ∃ blob ri, Slot.rshard blob ri ∈ slots ∧ e.d = ri.d ∧ e.m = ri.m ∧ e.k = ri.k
          ∧ e.data = ri.cb := by
  induction slots with
  | nil =>
    intro pool hp
    exact ⟨hp, rfl, ⟨[], by simp [processSlots]⟩, List.Forall₂.nil, fun e he => Or.inl he⟩
  | cons s rest ih =>
    intro pool hp
    cases s with
    | skipped =>
      obtain ⟨h1, h2, h3, h4, h5⟩ := ih pool hp
      refine ⟨h1, h2, h3, List.Forall₂.cons rfl h4, ?_⟩
      intro e he
      rcases h5 e he with h | ⟨blob, ri, hm, hr⟩
      · exact Or.inl h
      · exact Or.inr ⟨blob, ri, List.mem_cons_of_mem _ hm, hr⟩
    | kept b =>
      obtain ⟨h1, h2, h3, h4, h5⟩ := ih pool hp
      refine ⟨h1, h2, h3, List.Forall₂.cons rfl h4, ?_⟩
      intro e he
      rcases h5 e he with h | ⟨blob, ri, hm, hr⟩
      · exact Or.inl h
      · exact Or.inr ⟨blob, ri, List.mem_cons_of_mem _ hm, hr⟩
    | rshard blob ri =>
      obtain ⟨a1, a2, a3, a4, ⟨ext1, a5⟩, a6⟩ := assignId_gen hash pool ri hp
      obtain ⟨h1, h2, ⟨ext2, h3⟩, h4, h5⟩ := ih (assignId hash pool ri).1 a1
      have hidx : idxOf ri.cb ((processSlots hash rest (assignId hash pool ri).1).2.map
          (fun e => e.data)) = (assignId hash pool ri).2 := by
        rw [h3, List.map_append, idxOf_append_of_mem _ _ _ a4, ← a3]
      have hmem : ri.cb ∈ (processSlots hash rest (assignId hash pool ri).1).2.map
          (fun e => e.data) := by
        rw [h3, List.map_append]
        exact List.mem_append_left _ a4
      refine ⟨h1, ?_, ⟨ext1 ++ ext2, ?_⟩, List.Forall₂.cons ⟨?_, hmem⟩ h4, ?_⟩
      · show (processSlots hash rest (assignId hash pool ri).1).2.map _ = _
        rw [h2, a2]
        exact (firstSeen_cons _ _ _).symm
      · show (processSlots hash rest (assignId hash pool ri).1).2 = _
        rw [h3, a5, List.append_assoc]
      · show some (rewriteBlob blob ri (assignId hash pool ri).2) = _
        rw [← hidx]
        rfl
      · intro e he
        rcases h5 e he with h | ⟨b2, r2, hm, hr⟩
        · rcases a6 e h with h6 | h6
          · exact Or.inl h6
          · exact Or.inr ⟨blob, ri, List.mem_cons_self _ _, h6⟩
        · exact Or.inr ⟨b2, r2, List.mem_cons_of_mem _ hm, hr⟩

/-! ## The rewriter on arbitrary framed shards -/

theorem scanBlob_gen (i : Nat) (blob : Bytes) (hf : Framed blob)
    (hm : byteAt blob 0 = 1 → 18 ≤ (shardPayload blob).length → 1 ≤ le16 (shardPayload blob) 10) :
    ∃ s, scanBlob i blob = .ok s ∧ ScanRel blob s := by
  obtain ⟨_, h12, hlen⟩ := hf
  unfold scanBlob
  rw [if_neg (by omega)]
  by_cases hb : byteAt blob 0 = 1
  · rw [if_neg (by simp [hb])]
    simp only []
    rw [if_neg (by omega), shardPayload_eq_slice blob hlen]
    by_cases h18 : (shardPayload blob).length < 18
    · rw [if_pos h18]
      exact ⟨_, rfl, Or.inr ⟨fun h => by have := h.2.1; omega, rfl⟩⟩
    · rw [if_neg h18, if_neg (by have := hm hb (by omega); omega)]
      by_cases hcb : 18 + le16 (shardPayload blob) 10 * le16 (shardPayload blob) 12
          * (le16 (shardPayload blob) 8 / le16 (shardPayload blob) 10) * 4
          > (shardPayload blob).length
      · rw [if_pos hcb]
        exact ⟨_, rfl, Or.inr ⟨fun h => by have := h.2.2; omega, rfl⟩⟩
      · rw [if_neg hcb]
        exact ⟨_, rfl, Or.inl ⟨⟨hb, by omega, by omega⟩, i, rfl⟩⟩
  · rw [if_pos hb]
    exact ⟨_, rfl, Or.inr ⟨fun h => hb h.1, rfl⟩⟩

theorem scanAll_gen (shards : List Bytes) (hfr : ∀ blob ∈ shards, Framed blob)
    (hm : ∀ blob ∈ shards, byteAt blob 0 = 1 → 18 ≤ (shardPayload blob).length →
      1 ≤ le16 (shardPayload blob) 10) :
    ∀ i0, ∃ slots, scanAll shards i0 = .ok slots ∧ List.Forall₂ ScanRel shards slots := by
  induction shards with
  | nil => intro i0; exact ⟨[], rfl, List.Forall₂.nil⟩
  | cons blob rest ih =>
    intro i0
    obtain ⟨slots, h1, h2⟩ := ih (fun b hb => hfr b (List.mem_cons_of_mem _ hb))
      (fun b hb => hm b (List.mem_cons_of_mem _ hb)) (i0 + 1)
    obtain ⟨s, hs, hr⟩ := scanBlob_gen i0 blob (hfr blob (List.mem_cons_self _ _))
      (hm blob (List.mem_cons_self _ _))
    refine ⟨s :: slots, ?_, List.Forall₂.cons hr h2⟩
    simp only [scanAll, hs, h1, bind, Except.bind, pure, Except.pure]

theorem slotCodebooks_scan : ∀ (shards : List Bytes) (slots : List Slot),
    List.Forall₂ ScanRel shards slots → slotCodebooks slots = shardCodebooks shards := by
  intro shards slots h
  induction h with
  | nil => rfl
  | @cons blob s bs ss hbs _ ih =>
    rcases hbs with ⟨hr, i, hs⟩ | ⟨hr, hs⟩
    · subst hs
      simp only [slotCodebooks, shardCodebooks, if_pos hr, ih]
      rfl
    · subst hs
      simp only [slotCodebooks, shardCodebooks, if_neg hr, ih]

/-- The rewriter on framed shards whose R shards have `m >= 1`: it returns one blob per shard,
and the CODEBOOKS bytes of a pool that holds the distinct codebooks in order of first
appearance. -/
theorem rewrite_gen (hash : Bytes → Nat) (shards : List Bytes)
    (hfr : ∀ blob ∈ shards, Framed blob)
    (hm : ∀ blob ∈ shards, byteAt blob 0 = 1 → 18 ≤ (shardPayload blob).length →
      1 ≤ le16 (shardPayload blob) 10) :
    ∃ (P : List PoolEntry) (out : List Bytes),
      rewriteRShardsWithSharedCodebooks hash shards = .ok (out, codebookBytes P) ∧
      PoolInv hash P ∧
      P.map (fun e => e.data) = firstSeen [] (shardCodebooks shards) ∧
      List.Forall₂ (RewriteRel (P.map (fun e => e.data))) shards out ∧
      ∀ e ∈ P, ∃ blob ∈ shards, Rewritable blob ∧ e.d = le16 (shardPayload blob) 8 ∧
        e.m = le16 (shardPayload blob) 10 ∧ e.k = le16 (shardPayload blob) 12 ∧
        e.data = embeddedCodebook (shardPayload blob) := by
  obtain ⟨slots, hscan, hrel⟩ := scanAll_gen shards hfr hm 0
  obtain ⟨h1, h2, _, h4, h5⟩ := processSlots_gen hash slots []
    ⟨by intro e he; simp at he, rfl, by simp⟩
  have hns : ∀ (l1 : List Bytes) (l2 : List Slot) (l3 : List (Option Bytes)),
      List.Forall₂ ScanRel l1 l2 →
      List.Forall₂ (SlotOut ((processSlots hash slots []).2.map (fun e => e.data))) l2 l3 →
      List.Forall₂ (RewriteRel ((processSlots hash slots []).2.map (fun e => e.data))) l1
        (l3.filterMap id) := by
    intro l1 l2 l3 hA
    induction hA generalizing l3 with
    | nil => intro hB; cases hB; exact List.Forall₂.nil
    | @cons blob s bs ss hbs _ ih =>
      intro hB
      cases hB with
      | @cons _ o _ os hso hrest =>
        rcases hbs with ⟨hr, i, hs⟩ | ⟨hr, hs⟩
        · subst hs
          obtain ⟨ho, hmem⟩ := hso
          subst ho
          rw [List.filterMap_cons_some (by rfl)]
          exact List.Forall₂.cons ⟨fun _ => ⟨rfl, hmem⟩, fun h => absurd hr h⟩ (ih os hrest)
        · subst hs
          have ho : o = some blob := hso
          subst ho
          rw [List.filterMap_cons_some (by rfl)]
          exact List.Forall₂.cons ⟨fun h => absurd h hr, fun _ => rfl⟩ (ih os hrest)
  refine ⟨(processSlots hash slots []).2, (processSlots hash slots []).1.filterMap id, ?_, h1,
    ?_, hns _ _ _ hrel h4, ?_⟩
  · unfold rewriteRShardsWithSharedCodebooks
    rw [hscan]
    rfl
  · rw [h2, slotCodebooks_scan shards slots hrel]
    rfl
  · intro e he
    rcases h5 e he with h | ⟨blob, ri, hmem, h6, h7, h8, h9⟩
    · simp at h
    · obtain ⟨b2, hb2, hr⟩ := forall₂_mem_right hrel _ hmem
      rcases hr with ⟨hrw, i, hs⟩ | ⟨_, hs⟩
      · cases hs
        exact ⟨blob, hb2, hrw, h6, h7, h8, h9⟩
      · cases hs

/-! ## Fields of a rewritten shard -/

theorem rewritable_of_embedded (blob : Bytes) (d m : Nat) (hb : byteAt blob 0 = 1)
    (hE : EmbeddedR d m (shardPayload blob)) : Rewritable blob := by
  obtain ⟨e1, e2, _, _, hl, _⟩ := hE
  refine ⟨hb, by omega, ?_⟩
  rw [e1, e2]
  omega

theorem cbIdOf_rewriteBlob (blob : Bytes) (ri : RInfo) (found : Nat) (h : 12 ≤ blob.length) :
    cbIdOf (rewriteBlob blob ri found) = found % 2 ^ 16 := by
  unfold cbIdOf
  rw [shardPayload_rewriteBlob blob ri found h]
  exact (sharedPayload_fields ri found).2.2.2.2.1

theorem rewriteBlob_header (blob : Bytes) (ri : RInfo) (found : Nat) (h : 12 ≤ blob.length) :
    (rewriteBlob blob ri found).take 4 = blob.take 4 ∧
    le32 (rewriteBlob blob ri found) 4 = (20 + ri.codes.length) % 2 ^ 32 ∧
    le32 (rewriteBlob blob ri found) 8 = (20 + ri.codes.length) % 2 ^ 32 := by
  have h4 : (blob.take 4).length = 4 := by rw [List.length_take]; omega
  have hl := (sharedPayload_fields ri found).2.2.2.2.2.2
  unfold rewriteBlob
  rw [hl]
  have hvlt : (20 + ri.codes.length) % 2 ^ 32 < 2 ^ 32 := Nat.mod_lt _ (by norm_num)
  generalize (20 + ri.codes.length) % 2 ^ 32 = v at hvlt ⊢
  refine ⟨?_, ?_, ?_⟩
  · rw [List.append_assoc, List.append_assoc, List.take_append_of_le_length (by omega),
      List.take_take]
    simp
  · have := le32_append_right (blob.take 4) (putU32 v ++ (putU32 v ++ sharedPayload ri found)) 0
    rw [h4] at this
    rw [List.append_assoc, List.append_assoc, this]
    exact le32_putU32 v _ hvlt
  · have := le32_append_right (blob.take 4 ++ putU32 v) (putU32 v ++ sharedPayload ri found) 0
    rw [List.length_append, h4, length_putU32] at this
    rw [List.append_assoc (blob.take 4 ++ putU32 v), this]
    exact le32_putU32 v _ hvlt

/-! ## A list of 65536 shards with distinct codebooks -/

theorem shN_bytes (i : Nat) :
    shN i = [1, 0, 0, 0, 22, 0, 0, 0, 22, 0, 0, 0, 1, 0, 0, 0, 1, 0, 0, 0, 1, 0, 1, 0, 1, 0,
      0, 0, 0, 0, i % 256, i / 256 % 256, i / 65536 % 256, i / 16777216 % 256] := by
  simp [shN, packShard, rPayload, putU32, putU16]

theorem shN_wf (i : Nat) :
    Framed (shN i) ∧ byteAt (shN i) 0 = 1 ∧ EmbeddedR 1 1 (shardPayload (shN i)) ∧
    embeddedCodebook (shardPayload (shN i)) = putU32 i := by
  rw [shN_bytes]
  refine ⟨⟨?_, ?_, ?_⟩, ?_, ?_, ?_⟩
  · intro b hb
    simp only [List.mem_cons, List.mem_singleton, List.not_mem_nil, or_false] at hb
    omega
  · simp
  · simp [le32, byteAt]
  · simp [byteAt]
  · simp [EmbeddedR, shardPayload, le16, le32, byteAt]
  · simp [embeddedCodebook, shardPayload, le16, byteAt, slice, putU32]

theorem putU32_inj (i j : Nat) (hi : i < 2 ^ 32) (hj : j < 2 ^ 32) (h : putU32 i = putU32 j) :
    i = j := by
  simp only [putU32, List.cons.injEq, and_true] at h
  omega

theorem firstSeen_nodup (l : List Bytes) : ∀ acc : List Bytes, (acc ++ l).Nodup →
    firstSeen acc l = acc ++ l := by
  induction l with
  | nil => intro acc _; simp [firstSeen]
  | cons x xs ih =>
    intro acc h
    have hx : x ∉ acc := by
      intro hm
      rw [List.nodup_append] at h
      exact h.2.2 hm (List.mem_cons_self _ _)
    unfold firstSeen
    rw [if_neg hx, ih (acc ++ [x]) (by simpa using h)]
    simp

theorem manyShards_codebooks :
    manyShards.map (fun b => embeddedCodebook (shardPayload b)) = (List.range 65536).map putU32 := by
  unfold manyShards
  rw [List.map_map]
  apply List.map_congr_left
  intro i _
  exact (shN_wf i).2.2.2

theorem manyShards_distinct :
    (firstSeen [] (manyShards.map (fun b => embeddedCodebook (shardPayload b)))).length
      = 65536 := by
  rw [manyShards_codebooks, firstSeen_nodup _ [] ?_]
  · simp
  · rw [List.nil_append]
    apply List.Nodup.map_on _ (List.nodup_range _)
    intro a ha b hb hab
    rw [List.mem_range] at ha hb
    exact putU32_inj a b (by omega) (by omega) hab

theorem shardCodebooks_embedded (shards : List Bytes)
    (hwf : ∀ blob ∈ shards, byteAt blob 0 = 1 ∧ ∃ d m, EmbeddedR d m (shardPayload blob)) :
    shardCodebooks shards = shards.map (fun b => embeddedCodebook (shardPayload b)) := by
  induction shards with
  | nil => rfl
  | cons blob rest ih =>
    obtain ⟨hb, d, m, hE⟩ := hwf blob (List.mem_cons_self _ _)
    simp only [shardCodebooks, if_pos (rewritable_of_embedded blob d m hb hE), List.map_cons,
      ih (fun b h => hwf b (List.mem_cons_of_mem _ h))]

/-! ## The greedy selection loop -/

theorem greedyAccepted_snoc {α : Type} [LinearOrder α] [Zero α] [Add α] (budget : α)
    (costs : List α)
    (vis : List Nat) (idx : Nat) :
    greedyAccepted budget costs (vis ++ [idx])
      = if budget > 0 ∧ costOf costs (greedyAccepted budget costs vis) + costs.getD idx 0 > budget
          then greedyAccepted budget costs vis
          else greedyAccepted budget costs vis ++ [idx] := by
  unfold greedyAccepted
  rw [List.foldl_append]
  rfl

theorem costOf_snoc {α : Type} [LinearOrder α] [Zero α] [Add α] (costs : List α) (acc : List Nat)
    (idx : Nat) : costOf costs (acc ++ [idx]) = costOf costs acc + costs.getD idx 0 := by
  unfold costOf
  rw [List.foldl_append]
  rfl

theorem greedyAccepted_sublist {α : Type} [LinearOrder α] [Zero α] [Add α] (budget : α)
    (costs : List α)
    (vis : List Nat) : (greedyAccepted budget costs vis).Sublist vis := by
  induction vis using List.reverseRecOn with
  | nil => exact List.Sublist.refl _
  | append_singleton l a ih =>
    rw [greedyAccepted_snoc]
    split
    · exact ih.trans (List.sublist_append_left _ _)
    · exact List.Sublist.append ih (List.Sublist.refl _)

theorem greedyAccepted_budget {α : Type} [LinearOrder α] [Zero α] [Add α] (budget : α)
    (costs : List α)
    (hb : 0 < budget) (vis : List Nat) : costOf costs (greedyAccepted budget costs vis) ≤ budget := by
  induction vis using List.reverseRecOn with
  | nil => simpa [greedyAccepted, costOf] using hb.le
  | append_singleton l a ih =>
    rw [greedyAccepted_snoc]
    split
    · exact ih
    · rename_i hc
      rw [costOf_snoc]
      by_contra hlt
      exact hc ⟨hb, lt_of_not_le hlt⟩

theorem greedyAccepted_all {α : Type} [LinearOrder α] [Zero α] [Add α] (budget : α) (costs : List α)
    (hb : budget ≤ 0) (vis : List Nat) : greedyAccepted budget costs vis = vis := by
  induction vis using List.reverseRecOn with
  | nil => rfl
  | append_singleton l a ih =>
    rw [greedyAccepted_snoc, if_neg (fun h => absurd h.1 (not_lt.mpr hb)), ih]

/-- The loop from a state that the greedy rule has reached on `vis`: it stops after a prefix
`vis2` of the rest, with the accepted indices of `vis ++ vis2`. -/
theorem routeLoop_spec {α : Type} [LinearOrder α] [Zero α] [Add α] (k : Int) (budget : α)
    (costs : List α)
    (shardIDs : List Nat) (rest : List Nat)
    (hr : ∀ i ∈ rest, i < costs.length ∧ i < shardIDs.length) :
    ∀ vis : List Nat,
      ((greedyAccepted budget costs vis).length : Int) < k ∨ greedyAccepted budget costs vis = [] →
      ∃ vis2 rest2, rest = vis2 ++ rest2 ∧
        routeLoop k budget costs shardIDs rest
            ((greedyAccepted budget costs vis).map (fun i => shardIDs.getD i 0))
            (costOf costs (greedyAccepted budget costs vis))
          = .ok ((greedyAccepted budget costs (vis ++ vis2)).map (fun i => shardIDs.getD i 0),
              costOf costs (greedyAccepted budget costs (vis ++ vis2))) ∧
        (rest2 = [] ∨ ((greedyAccepted budget costs (vis ++ vis2)).length : Int) ≥ k) := by
  induction rest with
  | nil =>
    intro vis _
    exact ⟨[], [], rfl, by simp [routeLoop], Or.inl rfl⟩
  | cons idx rest ih =>
    intro vis hk
    obtain ⟨hc, hs⟩ := hr idx (List.mem_cons_self _ _)
    have ih2 := ih (fun i hi => hr i (List.mem_cons_of_mem _ hi)) (vis ++ [idx])
    have hcost : costs[idx]? = some (costs.getD idx 0) := by
      rw [List.getD_eq_getElem _ _ hc, List.getElem?_eq_getElem hc]
    have hsid : shardIDs[idx]? = some (shardIDs.getD idx 0) := by
      rw [List.getD_eq_getElem _ _ hs, List.getElem?_eq_getElem hs]
    unfold routeLoop
    rw [hcost]
    simp only []
    have hsn := greedyAccepted_snoc budget costs vis idx
    by_cases hcond : budget > 0 ∧ costOf costs (greedyAccepted budget costs vis)
        + costs.getD idx 0 > budget
    · rw [if_pos hcond] at hsn ⊢
      rw [hsn] at ih2
      obtain ⟨vis2, rest2, h1, h2, h3⟩ := ih2 hk
      refine ⟨idx :: vis2, rest2, by rw [h1]; rfl, ?_, ?_⟩
      · rw [h2, List.append_assoc]; rfl
      · rw [show vis ++ idx :: vis2 = vis ++ [idx] ++ vis2 by simp]; exact h3
    · rw [if_neg hcond] at hsn ⊢
      rw [hsid]
      simp only []
      have hmap : (greedyAccepted budget costs vis).map (fun i => shardIDs.getD i 0)
          ++ [shardIDs.getD idx 0]
          = (greedyAccepted budget costs (vis ++ [idx])).map (fun i => shardIDs.getD i 0) := by
        rw [hsn, List.map_append]; rfl
      have hcs : costOf costs (greedyAccepted budget costs vis) + costs.getD idx 0
          = costOf costs (greedyAccepted budget costs (vis ++ [idx])) := by
        rw [hsn, costOf_snoc]
      rw [hmap, hcs]
      by_cases hstop : (((greedyAccepted budget costs (vis ++ [idx])).map
          (fun i => shardIDs.getD i 0)).length : Int) ≥ k
      · rw [if_pos hstop]
        refine ⟨[idx], rest, rfl, rfl, Or.inr ?_⟩
        rw [List.length_map] at hstop
        exact hstop
      · rw [if_neg hstop]
        rw [List.length_map] at hstop
        obtain ⟨vis2, rest2, h1, h2, h3⟩ := ih2 (Or.inl (by omega))
        refine ⟨idx :: vis2, rest2, by rw [h1]; rfl, ?_, ?_⟩
        · rw [h2, List.append_assoc]; rfl
        · rw [show vis ++ idx :: vis2 = vis ++ [idx] ++ vis2 by simp]; exact h3

/-! ## The selection sort of `rankByCosine` -/

theorem swapAt_getD (idx : List Nat) (i b r : Nat) (hi : i < idx.length) (hb : b < idx.length) :
    (swapAt idx i b).getD r 0
      = if r = b then idx.getD i 0 else if r = i then idx.getD b 0 else idx.getD r 0 := by
  unfold swapAt
  rw [getD_set _ _ _ _ _ (by rw [List.length_set]; exact hb), getD_set _ _ _ _ _ hi]

theorem length_swapAt (idx : List Nat) (i b : Nat) : (swapAt idx i b).length = idx.length := by
  simp [swapAt]

theorem IsPermN.swapAt {n : Nat} {idx : List Nat} (h : IsPermN n idx) (i b : Nat) (hi : i < n)
    (hb : b < n) : IsPermN n (swapAt idx i b) := by
  obtain ⟨h1, h2, h3⟩ := h
  refine ⟨by rw [length_swapAt, h1], ?_, ?_⟩
  · intro r hr
    rw [swapAt_getD _ _ _ _ (by omega) (by omega)]
    split
    · exact h2 i hi
    · split
      · exact h2 b hb
      · exact h2 r hr
  · intro r1 r2 hr1 hr2 heq
    have hσ : ∀ r, (if r = b then idx.getD i 0 else if r = i then idx.getD b 0 else idx.getD r 0)
        = idx.getD (if r = b then i else if r = i then b else r) 0 := by
      intro r; split_ifs <;> rfl
    rw [swapAt_getD _ _ _ _ (by omega) (by omega), swapAt_getD _ _ _ _ (by omega) (by omega),
      hσ, hσ] at heq
    have hlt : ∀ r, r < n → (if r = b then i else if r = i then b else r) < n := by
      intro r hr; split_ifs <;> omega
    have := h3 _ _ (hlt r1 hr1) (hlt r2 hr2) heq
    split_ifs at this <;> omega

theorem IsPermN.perm {n : Nat} {idx : List Nat} (h : IsPermN n idx) :
    idx.Perm (List.range n) := by
  obtain ⟨h1, h2, h3⟩ := h
  have hget : ∀ r, r < n → idx[r]? = some (idx.getD r 0) := by
    intro r hr
    rw [List.getD_eq_getElem _ _ (by omega), List.getElem?_eq_getElem (by omega)]
  apply List.Subperm.perm_of_length_le
  · apply List.subperm_of_subset
    · rw [List.nodup_iff_getElem?_ne_getElem?]
      intro i j hij hj
      rw [hget i (by omega), hget j (by omega)]
      intro he
      have := h3 i j (by omega) (by omega) (Option.some.inj he)
      omega
    · intro x hx
      obtain ⟨r, hr⟩ := List.mem_iff_getElem?.mp hx
      have hrn : r < n := by
        by_contra hc
        rw [List.getElem?_eq_none (by omega)] at hr
        cases hr
      rw [hget r hrn] at hr
      rw [List.mem_range, ← Option.some.inj hr]
      exact h2 r hrn
  · simp [h1]

theorem argBest_spec {α : Type} [LinearOrder α] [Zero α] (sims : List α) (idx : List Nat)
    (i : Nat) :
    ∀ (cnt j b : Nat), i ≤ b → b < j →
      (∀ p, i ≤ p → p < j →
        sims.getD (idx.getD p 0) 0 ≤ sims.getD (idx.getD b 0) 0 ∧
        (p < b → sims.getD (idx.getD p 0) 0 < sims.getD (idx.getD b 0) 0)) →
      i ≤ argBest sims idx cnt j b ∧ argBest sims idx cnt j b < j + cnt ∧
      ∀ p, i ≤ p → p < j + cnt →
        sims.getD (idx.getD p 0) 0 ≤ sims.getD (idx.getD (argBest sims idx cnt j b) 0) 0 ∧
        (p < argBest sims idx cnt j b →
          sims.getD (idx.getD p 0) 0 < sims.getD (idx.getD (argBest sims idx cnt j b) 0) 0) := by
  intro cnt
  induction cnt with
  | zero => intro j b hib hbj h; exact ⟨hib, hbj, h⟩
  | succ c ih =>
    intro j b hib hbj h
    unfold argBest
    by_cases hgt : sims.getD (idx.getD j 0) 0 > sims.getD (idx.getD b 0) 0
    · rw [if_pos hgt]
      obtain ⟨a1, a2, a3⟩ := ih (j + 1) j (by omega) (by omega) (by
        intro p hp1 hp2
        by_cases hpj : p = j
        · subst hpj; exact ⟨le_refl _, fun hh => absurd hh (lt_irrefl _)⟩
        · have := (h p hp1 (by omega)).1
          exact ⟨le_of_lt (lt_of_le_of_lt this hgt), fun _ => lt_of_le_of_lt this hgt⟩)
      exact ⟨a1, by omega, fun p hp1 hp2 => a3 p hp1 (by omega)⟩
    · rw [if_neg hgt]
      obtain ⟨a1, a2, a3⟩ := ih (j + 1) b hib (by omega) (by
        intro p hp1 hp2
        by_cases hpj : p = j
        · subst hpj; exact ⟨not_lt.mp hgt, fun hh => by omega⟩
        · exact h p hp1 (by omega))
      exact ⟨a1, by omega, fun p hp1 hp2 => a3 p hp1 (by omega)⟩

/-- After the outer loop, every position holds an index whose similarity is at least that of
every later position. -/
theorem selSort_spec {α : Type} [LinearOrder α] [Zero α] (sims : List α) (n : Nat) :
    ∀ (cnt i : Nat) (idx : List Nat), i + cnt = n → IsPermN n idx →
      (∀ p r, p < i → p ≤ r → r < n →
        sims.getD (idx.getD r 0) 0 ≤ sims.getD (idx.getD p 0) 0) →
      IsPermN n (selSort sims cnt i idx) ∧
      ∀ p r, p ≤ r → r < n →
        sims.getD ((selSort sims cnt i idx).getD r 0) 0
          ≤ sims.getD ((selSort sims cnt i idx).getD p 0) 0 := by
  intro cnt
  induction cnt with
  | zero =>
    intro i idx hi hp hd
    exact ⟨hp, fun p r hpr hr => hd p r (by omega) hpr hr⟩
  | succ c ih =>
    intro i idx hi hp hd
    have hlen : idx.length = n := hp.1
    obtain ⟨b1, b2, b3⟩ := argBest_spec sims idx i (idx.length - (i + 1)) (i + 1) i
      (le_refl _) (by omega) (by
        intro p hp1 hp2
        have : p = i := by omega
        subst this
        exact ⟨le_refl _, fun hh => absurd hh (lt_irrefl _)⟩)
    have hbn : argBest sims idx (idx.length - (i + 1)) (i + 1) i < n := by omega
    have hrange : i + 1 + (idx.length - (i + 1)) = n := by omega
    rw [hrange] at b3
    unfold selSort
    apply ih (i + 1) _ (by omega) (hp.swapAt i _ (by omega) hbn)
    intro p r hpi hpr hr
    generalize argBest sims idx (idx.length - (i + 1)) (i + 1) i = b at b1 hbn b3 ⊢
    have hσ : ∀ t, (swapAt idx i b).getD t 0
        = idx.getD (if t = b then i else if t = i then b else t) 0 := by
      intro t
      rw [swapAt_getD _ _ _ _ (by omega) (by omega)]
      split_ifs <;> rfl
    rw [hσ r, hσ p]
    by_cases hpi2 : p = i
    · subst hpi2
      have e1 : idx.getD (if p = b then p else if p = p then b else p) 0 = idx.getD b 0 := by
        by_cases h1 : p = b
        · rw [if_pos h1, h1]
        · rw [if_neg h1, if_pos rfl]
      rw [e1]
      apply (b3 _ _ _).1
      · split_ifs <;> omega
      · split_ifs <;> omega
    · have e1 : (if p = b then i else if p = i then b else p) = p := by
        rw [if_neg (by omega), if_neg hpi2]
      rw [e1]
      apply hd p _ (by omega)
      · split_ifs <;> omega
      · split_ifs <;> omega

theorem selSort_head {α : Type} [LinearOrder α] [Zero α] (sims : List α) :
    ∀ (cnt i : Nat) (idx : List Nat), 1 ≤ i → i + cnt ≤ idx.length →
      (selSort sims cnt i idx).getD 0 0 = idx.getD 0 0 := by
  intro cnt
  induction cnt with
  | zero => intro i idx _ _; rfl
  | succ c ih =>
    intro i idx hi hlen
    obtain ⟨b1, b2, _⟩ := argBest_spec sims idx i (idx.length - (i + 1)) (i + 1) i
      (le_refl _) (by omega) (by
        intro p hp1 hp2
        have : p = i := by omega
        subst this
        exact ⟨le_refl _, fun hh => absurd hh (lt_irrefl _)⟩)
    unfold selSort
    rw [ih (i + 1) _ (by omega) (by rw [length_swapAt]; omega),
      swapAt_getD _ _ _ _ (by omega) (by omega), if_neg (by omega), if_neg (by omega)]

theorem dotLoop_eq {α : Type} [Zero α] [Add α] [Mul α] (key : List α) :
    ∀ (rest : List α) (j : Nat) (s : α), j + rest.length ≤ key.length →
      dotLoop key rest j s
        = .ok (((key.drop j).zip rest).foldl (fun s p => s + p.1 * p.2) s) := by
  intro rest
  induction rest with
  | nil => intro j s _; simp [dotLoop]
  | cons qj rest ih =>
    intro j s h
    have hj : j < key.length := by simp at h; omega
    unfold dotLoop
    rw [List.getElem?_eq_getElem hj]
    simp only []
    rw [ih (j + 1) _ (by simp at h; omega), List.drop_eq_getElem_cons hj]
    rfl

theorem simsOf_eq {α : Type} [Zero α] [Add α] [Mul α] (keys : List (List α)) (q : List α)
    (h : ∀ key ∈ keys, q.length ≤ key.length) :
    simsOf keys q = .ok (keys.map (fun key => dotOf key q)) := by
  unfold simsOf
  induction keys with
  | nil => rfl
  | cons key rest ih =>
    rw [List.mapM_cons, dotLoop_eq key q 0 0 (by simpa using h key (List.mem_cons_self _ _)),
      ih (fun k hk => h k (List.mem_cons_of_mem _ hk))]
    simp [bind, Except.bind, pure, Except.pure, dotOf]

/-! ## Reading `uint32` values back -/

theorem length_flatten_putU32 (vs : List Nat) : ((vs.map putU32).flatten).length = 4 * vs.length := by
  induction vs with
  | nil => rfl
  | cons v rest ih =>
    simp only [List.map_cons, List.flatten_cons, List.length_append, length_putU32, ih,
      List.length_cons]
    omega

theorem le32_flatten_putU32 (vs : List Nat) (post : Bytes) (hv : ∀ v ∈ vs, v < 2 ^ 32) :
    ∀ i, i < vs.length → le32 ((vs.map putU32).flatten ++ post) (4 * i) = vs.getD i 0 := by
  induction vs with
  | nil => intro i hi; simp at hi
  | cons v rest ih =>
    intro i hi
    simp only [List.map_cons, List.flatten_cons, List.append_assoc]
    cases i with
    | zero => exact le32_putU32 v _ (hv v (List.mem_cons_self _ _))
    | succ j =>
      have := le32_append_right (putU32 v) ((rest.map putU32).flatten ++ post) (4 * j)
      rw [length_putU32] at this
      rw [show 4 * (j + 1) = 4 + 4 * j by ring, this,
        ih (fun x hx => hv x (List.mem_cons_of_mem _ hx)) j (by simpa using hi)]
      rfl

theorem readU32s_flat (pre vs post : Bytes) (hv : ∀ v ∈ vs, v < 2 ^ 32) :
    ∀ cnt i, i + cnt = vs.length →
      readU32s (pre ++ ((vs.map putU32).flatten ++ post)) pre.length cnt i = .ok (vs.drop i) := by
  intro cnt
  induction cnt with
  | zero =>
    intro i hi
    rw [List.drop_of_length_le (by omega)]
    rfl
  | succ c ih =>
    intro i hi
    unfold readU32s
    have hlen : (pre ++ ((vs.map putU32).flatten ++ post)).length
        = pre.length + (4 * vs.length + post.length) := by
      rw [List.length_append, List.length_append, length_flatten_putU32]
    rw [if_neg (by rw [hlen]; omega), ih (i + 1) (by omega), le32_append_right,
      le32_flatten_putU32 vs post hv i (by omega)]
    have hi2 : i < vs.length := by omega
    rw [List.drop_eq_getElem_cons hi2, List.getD_eq_getElem _ _ hi2]
    rfl

theorem parseKeys_flat {α : Type} (F : Nat → α) (normKey : List α → List α) (dim : Nat)
    (rows : List (List Nat)) (hr : ∀ r ∈ rows, r.length = dim ∧ ∀ v ∈ r, v < 2 ^ 32) :
    ∀ (pre post : Bytes),
      parseKeys F normKey
          (pre ++ ((rows.map (fun r => (r.map putU32).flatten)).flatten ++ post)) dim
          rows.length pre.length
        = .ok (rows.map (fun r => normKey (r.map F))) := by
  induction rows with
  | nil => intro pre post; rfl
  | cons r rest ih =>
    intro pre post
    obtain ⟨hl, hv⟩ := hr r (List.mem_cons_self _ _)
    simp only [List.map_cons, List.flatten_cons, List.length_cons, parseKeys, List.append_assoc]
    have h1 := readU32s_flat pre r ((rest.map (fun r => (r.map putU32).flatten)).flatten ++ post)
      hv dim 0 (by omega)
    rw [h1]
    have h2 := ih (fun x hx => hr x (List.mem_cons_of_mem _ hx)) (pre ++ (r.map putU32).flatten)
      post
    rw [List.length_append, length_flatten_putU32, hl, List.append_assoc] at h2
    simp only [bind, Except.bind, pure, Except.pure, h2, List.drop_zero]

theorem range_mod (n : Nat) (h : n ≤ 2 ^ 32) :
    (List.range n).map (fun i => i % 2 ^ 32) = List.range n := by
  conv_rhs => rw [← List.map_id (List.range n)]
  apply List.map_congr_left
  intro i hi
  rw [List.mem_range] at hi
  exact Nat.mod_eq_of_lt (by omega)

/-! ## Hexadecimal text of a hash and back -/

theorem hexVal_hexDigit : ∀ d < 16, hexVal (hexDigit d) = some d := by decide

theorem scanDigits_map (ds : List Nat) (hd : ∀ d ∈ ds, d < 16) :
    ∀ v cnt, scanDigits (ds.map hexDigit) v cnt
      = (ds.foldl (fun a d => 16 * a + d) v, cnt + ds.length) := by
  induction ds with
  | nil => intro v cnt; rfl
  | cons d rest ih =>
    intro v cnt
    simp only [List.map_cons, scanDigits, hexVal_hexDigit d (hd d (List.mem_cons_self _ _)),
      List.foldl_cons, List.length_cons]
    rw [ih (fun x hx => hd x (List.mem_cons_of_mem _ hx))]
    congr 1
    omega

theorem horner_digits (x : Nat) : ∀ (k v : Nat),
    ((List.range k).map (fun i => x / 16 ^ (k - 1 - i) % 16)).foldl (fun a d => 16 * a + d) v
      = v * 16 ^ k + x % 16 ^ k := by
  intro k
  induction k with
  | zero => intro v; simp [Nat.mod_one]
  | succ k ih =>
    intro v
    rw [List.range_succ_eq_map, List.map_cons, List.foldl_cons, List.map_map]
    have e : (List.range k).map ((fun i => x / 16 ^ (k + 1 - 1 - i) % 16) ∘ Nat.succ)
        = (List.range k).map (fun i => x / 16 ^ (k - 1 - i) % 16) := by
      apply List.map_congr_left
      intro i hi
      rw [List.mem_range] at hi
      simp only [Function.comp]
      rw [show k + 1 - 1 - i.succ = k - 1 - i by omega]
    rw [e, ih, Nat.mod_pow_succ]
    simp only [Nat.add_sub_cancel, Nat.sub_zero]
    ring

theorem scanHex_toHex16 (x : Nat) (hx : x < 2 ^ 64) : scanHex (toHex16 x) = x := by
  unfold scanHex toHex16
  rw [Nat.mod_eq_of_lt hx]
  have := scanDigits_map ((List.range 16).map (fun i => x / 16 ^ (15 - i) % 16))
    (by
      intro d hd
      obtain ⟨i, _, rfl⟩ := List.mem_map.mp hd
      exact Nat.mod_lt _ (by norm_num)) 0 0
  rw [List.map_map] at this
  have e : (hexDigit ∘ fun i => x / 16 ^ (15 - i) % 16) = fun i => hexDigit (x / 16 ^ (15 - i) % 16) :=
    rfl
  rw [e] at this
  rw [this]
  have hv := horner_digits x 16 0
  rw [Nat.zero_mul, Nat.zero_add, Nat.mod_eq_of_lt (by norm_num at hx ⊢; omega)] at hv
  rw [show (fun i => x / 16 ^ (16 - 1 - i) % 16) = fun i => x / 16 ^ (15 - i) % 16 from rfl] at hv
  simp only [hv, List.length_map, List.length_range]
  rw [if_neg (by omega), if_neg (by omega)]

/-! ## The chunk loop -/

theorem chunks_le (len chunk t : Nat) (hc : 0 < chunk) :
    (len + chunk - 1) / chunk ≤ t ↔ len ≤ t * chunk := by
  rw [← Nat.lt_succ_iff, Nat.div_lt_iff_lt_mul hc, Nat.succ_mul]
  omega

theorem rollLoop_spec (hash : Bytes → Nat) (data : Bytes) (chunk : Nat) (hc : 0 < chunk) :
    ∀ fuel t, data.length ≤ t * chunk + fuel →
      rollLoop hash data chunk fuel (t * chunk)
        = some ((List.range' t ((data.length + chunk - 1) / chunk - t)).map (fun t =>
            hash (slice data (t * chunk)
              (if t * chunk + chunk > data.length then data.length else t * chunk + chunk)))) := by
  intro fuel
  induction fuel with
  | zero =>
    intro t h
    have h2 := (chunks_le data.length chunk t hc).mpr (by omega)
    unfold rollLoop
    rw [if_neg (by omega), show (data.length + chunk - 1) / chunk - t = 0 by omega]
    rfl
  | succ f ih =>
    intro t h
    unfold rollLoop
    by_cases hlt : t * chunk < data.length
    · have h2 : ¬ (data.length + chunk - 1) / chunk ≤ t := by
        rw [chunks_le _ _ _ hc]; omega
      have h3 := ih (t + 1) (by rw [Nat.succ_mul]; omega)
      rw [Nat.succ_mul] at h3
      rw [if_pos hlt, h3]
      have e : (data.length + chunk - 1) / chunk - t
          = ((data.length + chunk - 1) / chunk - (t + 1)) + 1 := by omega
      rw [e, List.range'_succ]
      rfl
    · have h2 := (chunks_le data.length chunk t hc).mpr (by omega)
      rw [if_neg hlt, show (data.length + chunk - 1) / chunk - t = 0 by omega]
      rfl

/-! ## The nearest-centroid search of `Encode` -/

theorem l2Loop_eq {α : Type} [Add α] [Sub α] [Mul α] (b : List α) :
    ∀ (rest : List α) (i : Nat) (s : α), i + rest.length ≤ b.length →
      l2Loop b rest i s
        = .ok ((rest.zip (b.drop i)).foldl (fun s p => s + (p.1 - p.2) * (p.1 - p.2)) s) := by
  intro rest
  induction rest with
  | nil => intro i s _; simp [l2Loop]
  | cons ai rest ih =>
    intro i s h
    have hi : i < b.length := by simp at h; omega
    unfold l2Loop
    rw [List.getElem?_eq_getElem hi]
    simp only []
    rw [ih (i + 1) _ (by simp at h; omega), List.drop_eq_getElem_cons hi]
    rfl

theorem bestInv_step {α : Type} [LinearOrder α] {big : α} {dist : Nat → α} {j : Nat}
    {st : Nat × α} (h : BestInv big dist j st) :
    BestInv big dist (j + 1) (if dist j < st.2 then (j, dist j) else st) := by
  rcases h with ⟨h1, h2, h3⟩ | ⟨h1, h2, h3, h4⟩
  · by_cases hd : dist j < st.2
    · rw [if_pos hd]
      rw [h1] at hd
      refine Or.inr ⟨Nat.lt_succ_self _, rfl, hd, ?_⟩
      intro t ht
      show dist j ≤ dist t ∧ (t < j → dist j < dist t)
      by_cases htj : t = j
      · subst htj; exact ⟨le_refl _, fun hh => absurd hh (lt_irrefl _)⟩
      · have := not_lt.mp (h3 t (by omega))
        exact ⟨le_of_lt (lt_of_lt_of_le hd this), fun _ => lt_of_lt_of_le hd this⟩
    · rw [if_neg hd]
      rw [h1] at hd
      refine Or.inl ⟨h1, h2, ?_⟩
      intro t ht
      by_cases htj : t = j
      · subst htj; exact hd
      · exact h3 t (by omega)
  · by_cases hd : dist j < st.2
    · rw [if_pos hd]
      rw [h2] at hd
      refine Or.inr ⟨Nat.lt_succ_self _, rfl, lt_trans hd h3, ?_⟩
      intro t ht
      show dist j ≤ dist t ∧ (t < j → dist j < dist t)
      by_cases htj : t = j
      · subst htj; exact ⟨le_refl _, fun hh => absurd hh (lt_irrefl _)⟩
      · have := (h4 t (by omega)).1
        exact ⟨le_of_lt (lt_of_lt_of_le hd this), fun _ => lt_of_lt_of_le hd this⟩
    · rw [if_neg hd]
      rw [h2] at hd
      refine Or.inr ⟨by omega, h2, h3, ?_⟩
      intro t ht
      by_cases htj : t = j
      · subst htj; exact ⟨not_lt.mp hd, fun hh => by omega⟩
      · exact h4 t (by omega)

theorem bestLoop_spec {α : Type} [LinearOrder α] [Zero α] [Add α] [Sub α] [Mul α] (big : α)
    (vec cb : List α)
    (i dsub K : Nat) (hv : (i + 1) * dsub ≤ vec.length) (hcb : K * dsub ≤ cb.length) :
    ∀ cnt j st, j + cnt = K →
      BestInv big (fun t => sqDist (subVec vec i dsub) (subVec cb t dsub)) j st →
      ∃ st2, bestLoop vec cb i dsub cnt j st = .ok st2 ∧
        BestInv big (fun t => sqDist (subVec vec i dsub) (subVec cb t dsub)) K st2 := by
  intro cnt
  induction cnt with
  | zero =>
    intro j st hj h
    have : j = K := by omega
    subst this
    exact ⟨st, rfl, h⟩
  | succ c ih =>
    intro j st hj h
    have hjK : (j + 1) * dsub ≤ K * dsub := Nat.mul_le_mul_right _ (by omega)
    have h1 : sliceChecked vec (i * dsub) ((i + 1) * dsub) = .ok (subVec vec i dsub) := by
      unfold sliceChecked subVec
      rw [if_pos ⟨Nat.mul_le_mul_right _ (by omega), hv⟩, Nat.succ_mul, Nat.add_sub_cancel_left]
    have h2 : sliceChecked cb (j * dsub) (j * dsub + dsub) = .ok (subVec cb j dsub) := by
      unfold sliceChecked subVec
      rw [if_pos ⟨by omega, by rw [Nat.succ_mul] at hjK; omega⟩, Nat.add_sub_cancel_left]
    have hsl : (subVec vec i dsub).length = dsub := by
      unfold subVec
      rw [List.length_take, List.length_drop]
      rw [Nat.succ_mul] at hv
      omega
    have hcl : (subVec cb j dsub).length = dsub := by
      unfold subVec
      rw [List.length_take, List.length_drop]
      rw [Nat.succ_mul] at hjK
      omega
    have h3 : l2Flat (subVec vec i dsub) (subVec cb j dsub)
        = .ok (sqDist (subVec vec i dsub) (subVec cb j dsub)) := by
      unfold l2Flat
      rw [l2Loop_eq _ _ 0 0 (by omega), List.drop_zero]
      rfl
    unfold bestLoop
    simp only [h1, h2, h3, bind, Except.bind]
    exact ih (j + 1) _ (by omega) (bestInv_step h)

theorem getAt_getD {α : Type} (l : List α) (i : Nat) (d : α) (h : i < l.length) :
    getAt l i = .ok (l.getD i d) := by
  unfold getAt
  rw [List.getElem?_eq_getElem h, List.getD_eq_getElem _ _ h]

theorem encode_inner {α : Type} [LinearOrder α] [Zero α] [Add α] [Sub α] [Mul α] (big : α)
    (pq : PQ α)
    (data : List (List α)) (hK2 : pq.K ≤ 256)
    (hcb : ∀ cb ∈ pq.Codebooks, cb.length = pq.K * pq.Dsub)
    (hdim : ∀ vec ∈ data, vec.length = pq.M * pq.Dsub)
    (hnear : ∀ vec ∈ data, ∀ i, i < pq.M → ∃ t, t < pq.K ∧ centDist pq vec i t < big)
    (i : Nat) (hi : i < pq.M) (hil : i < pq.Codebooks.length)
    (n : Nat) (hn : n < data.length) (codes : List (List Nat)) (h : EncInv pq data i n codes) :
    ∃ t, (do
          let vec ← getAt data n
          let st ← bestLoop vec (pq.Codebooks.getD i []) i pq.Dsub pq.K 0 (0, big)
          let row ← getAt codes n
          let row ← setAt row i (st.1 % 256)
          setAt codes n row) = .ok t ∧ EncInv pq data i (n + 1) t := by
  obtain ⟨hlen, hrows, hgood⟩ := h
  have hvm : data.getD n [] ∈ data := by
    rw [List.getD_eq_getElem _ _ hn]; exact List.getElem_mem _
  have hcm : pq.Codebooks.getD i [] ∈ pq.Codebooks := by
    rw [List.getD_eq_getElem _ _ hil]; exact List.getElem_mem _
  have hv : (i + 1) * pq.Dsub ≤ (data.getD n []).length := by
    rw [hdim _ hvm]; exact Nat.mul_le_mul_right _ (by omega)
  obtain ⟨st, hst, hinv⟩ := bestLoop_spec big (data.getD n []) (pq.Codebooks.getD i []) i
    pq.Dsub pq.K hv (le_of_eq (hcb _ hcm).symm) pq.K 0 (0, big) (by omega)
    (Or.inl ⟨rfl, rfl, fun t ht => absurd ht (Nat.not_lt_zero _)⟩)
  have hB : NearestCode pq (data.getD n []) i st.1 := by
    rcases hinv with ⟨_, _, h3⟩ | ⟨h1, _, _, h4⟩
    · obtain ⟨t, ht, hlt⟩ := hnear _ hvm i hi
      exact absurd hlt (h3 t ht)
    · exact ⟨h1, h4⟩
  have hrl : i < (codes.getD n []).length := by rw [hrows n hn]; exact hi
  have hnl : n < codes.length := by rw [hlen]; exact hn
  refine ⟨codes.set n ((codes.getD n []).set i (st.1 % 256)), ?_, ?_⟩
  · rw [getAt_getD data n [] hn]
    simp only [bind, Except.bind, hst]
    rw [getAt_getD codes n [] hnl]
    simp only [setAt_of_lt _ _ _ hrl, setAt_of_lt _ _ _ hnl]
  · refine ⟨by rw [List.length_set]; exact hlen, ?_, ?_⟩
    · intro r hr
      rw [getD_set _ _ _ _ _ hnl]
      by_cases hrn : r = n
      · rw [if_pos hrn, List.length_set]; exact hrows n hn
      · rw [if_neg hrn]; exact hrows r hr
    · intro r hr c hc hcase
      rw [getD_set _ _ _ _ _ hnl]
      by_cases hrn : r = n
      · rw [if_pos hrn, getD_set _ _ _ _ _ hrl]
        subst hrn
        by_cases hci : c = i
        · rw [if_pos hci, Nat.mod_eq_of_lt (by have := hB.1; omega)]
          subst hci
          exact hB
        · rw [if_neg hci]
          exact hgood r hr c hc (by omega)
      · rw [if_neg hrn]
        exact hgood r hr c hc (by omega)

theorem encode_spec {α : Type} [LinearOrder α] [Zero α] [Add α] [Sub α] [Mul α] (big : α)
    (pq : PQ α)
    (data : List (List α)) (hK2 : pq.K ≤ 256) (hM : pq.Codebooks.length = pq.M)
    (hcb : ∀ cb ∈ pq.Codebooks, cb.length = pq.K * pq.Dsub) (hne : data ≠ [])
    (hdim : ∀ vec ∈ data, vec.length = pq.M * pq.Dsub)
    (hnear : ∀ vec ∈ data, ∀ i, i < pq.M → ∃ t, t < pq.K ∧ centDist pq vec i t < big) :
    ∃ codes, PQ.Encode big pq data = .ok codes ∧ EncInv pq data pq.M 0 codes := by
  have hN : data.length ≠ 0 := fun h => hne (List.length_eq_zero.mp h)
  unfold PQ.Encode
  rw [if_neg hN]
  refine loopM_inv pq.M _ _ (fun i codes => EncInv pq data i 0 codes) ?_ ?_
  · refine ⟨List.length_replicate _ _, ?_, ?_⟩
    · intro r hr
      rw [List.getD_eq_getElem _ _ (by rw [List.length_replicate]; exact hr),
        List.getElem_replicate, List.length_replicate]
    · intro r _ c _ hcase
      omega
  · intro i hi codes h
    have hil : i < pq.Codebooks.length := by rw [hM]; exact hi
    simp only []
    rw [List.getElem?_eq_getElem hil, ← List.getD_eq_getElem _ [] hil]
    simp only []
    obtain ⟨t, ht, hI⟩ := loopM_inv data.length
      (fun n codes => do
          let vec ← getAt data n
          let st ← bestLoop vec (pq.Codebooks.getD i []) i pq.Dsub pq.K 0 (0, big)
          let row ← getAt codes n
          let row ← setAt row i (st.1 % 256)
          setAt codes n row) codes (fun n codes => EncInv pq data i n codes) h
      (fun n hn s hs => encode_inner big pq data hK2 hcb hdim hnear i hi hil n hn s hs)
    refine ⟨t, ht, hI.1, hI.2.1, ?_⟩
    intro r hr c hc hcase
    refine hI.2.2 r hr c hc ?_
    rcases hcase with h1 | h1
    · by_cases hci : c = i
      · exact Or.inr ⟨hci, hr⟩
      · exact Or.inl (by omega)
    · omega

/-! ## Length of `y` and the shape pass of the streaming matvec -/

theorem bind_eq_ok {α β : Type} (x : Res α) (f : α → Res β) (t : β)
    (h : (x >>= f) = .ok t) : ∃ s, x = .ok s ∧ f s = .ok t := by
  cases x with
  | error e => cases h
  | ok s => exact ⟨s, rfl, h⟩

theorem loopM_ok_pres {σ : Type} (P : σ → Prop) (n : Nat) (body : Nat → σ → Res σ)
    (hstep : ∀ i s t, P s → body i s = .ok t → P t) (init t : σ) (h0 : P init)
    (h : loopM n body init = .ok t) : P t := by
  induction n generalizing t with
  | zero => cases h; exact h0
  | succ n ih =>
    rw [loopM_succ] at h
    obtain ⟨s, hs, ht⟩ := bind_eq_ok _ _ _ h
    exact hstep n s t (ih s hs) ht

theorem foldlM_ok_pres {σ β : Type} (P : σ → Prop) (f : σ → β → Res σ)
    (hstep : ∀ s b t, P s → f s b = .ok t → P t) :
    ∀ (l : List β) (init t : σ), P init → l.foldlM f init = .ok t → P t := by
  intro l
  induction l with
  | nil => intro init t h0 h; cases h; exact h0
  | cons b l ih =>
    intro init t h0 h
    rw [List.foldlM_cons] at h
    obtain ⟨s, hs, ht⟩ := bind_eq_ok _ _ _ h
    exact ih s t (hstep init b s h0 hs) ht

theorem addAt_length {α : Type} [Add α] (l : List α) (i : Nat) (v : α) (l2 : List α)
    (h : addAt l i v = .ok l2) : l2.length = l.length := by
  unfold addAt at h
  cases hg : l[i]? with
  | none => rw [hg] at h; cases h
  | some a => rw [hg] at h; cases h; exact List.length_set _ _ _

theorem matvecFP16Loop_length {α : Type} [Zero α] [Add α] [Mul α] (F : Nat → α) (cols : Nat)
    (data : Bytes) (x : List α) :
    ∀ n i off (y y2 : List α), matvecFP16Loop F cols data x n i off y = .ok y2 →
      y2.length = y.length := by
  intro n
  induction n with
  | zero => intro i off y y2 h; cases h; rfl
  | succ n ih =>
    intro i off y y2 h
    unfold matvecFP16Loop at h
    obtain ⟨r, hr, h2⟩ := bind_eq_ok _ _ _ h
    cases r with
    | none => cases h2; rfl
    | some p =>
      obtain ⟨s, off2⟩ := p
      obtain ⟨y1, hy1, h3⟩ := bind_eq_ok _ _ _ h2
      rw [ih _ _ _ _ h3, addAt_length _ _ _ _ hy1]

theorem applySLoop_length {α : Type} [Add α] [Mul α] (rows cols : Nat) (x : List α) :
    ∀ (trip : List (Int × Int × α)) (y y2 : List α), applySLoop rows cols x trip y = .ok y2 →
      y2.length = y.length := by
  intro trip
  induction trip with
  | nil => intro y y2 h; cases h; rfl
  | cons t rest ih =>
    intro y y2 h
    obtain ⟨r, c, v⟩ := t
    unfold applySLoop at h
    by_cases hc : r < 0 ∨ r ≥ rows ∨ c < 0 ∨ c ≥ cols
    · rw [if_pos hc] at h; exact ih _ _ h
    · rw [if_neg hc] at h
      obtain ⟨xc, _, h2⟩ := bind_eq_ok _ _ _ h
      obtain ⟨y1, hy1, h3⟩ := bind_eq_ok _ _ _ h2
      rw [ih _ _ h3, addAt_length _ _ _ _ hy1]

theorem applySAddOptimized_length {α : Type} [Add α] [Mul α] (F : Nat → α) (gpu : Gpu α)
    (hgpu : gpu.KeepsLength) (y : List α) (rows cols : Nat) (payload : Bytes) (x y2 : List α)
    (h : applySAddOptimized F gpu y rows cols payload x = .ok y2) : y2.length = y.length := by
  unfold applySAddOptimized at h
  by_cases h12 : payload.length < 12
  · rw [if_pos h12] at h; cases h; rfl
  · rw [if_neg h12] at h
    simp only [] at h
    cases hp : applySParse F payload (le32 payload 8) 12 with
    | none => rw [hp] at h; cases h; rfl
    | some trip =>
      rw [hp] at h
      simp only [] at h
      split at h
      · cases h; exact hgpu.2.2 _ _ _ _ _ _ _
      · rw [applySLoop_length _ _ _ _ _ _ h]; exact hgpu.2.2 _ _ _ _ _ _ _

theorem applyRSharedLoop_length {α : Type} [Add α] [Mul α] (rows cols d m k n dsub : Nat)
    (data : List α) (codes : Bytes) (x y y2 : List α)
    (h : applyRSharedLoop rows cols d m k n dsub data codes x y = .ok y2) :
    y2.length = y.length := by
  unfold applyRSharedLoop at h
  refine loopM_ok_pres (fun s => s.length = y.length) _ _ ?_ _ _ rfl h
  intro r s t hs ht
  refine loopM_ok_pres (fun s => s.length = y.length) _ _ ?_ _ _ hs ht
  intro i s t hs ht
  refine loopM_ok_pres (fun s => s.length = y.length) _ _ ?_ _ _ hs ht
  intro j s t hs ht
  simp only [] at ht
  split at ht
  · cases ht
  · split at ht
    · obtain ⟨v, _, h2⟩ := bind_eq_ok _ _ _ ht
      obtain ⟨xc, _, h3⟩ := bind_eq_ok _ _ _ h2
      rw [addAt_length _ _ _ _ h3]; exact hs
    · cases ht; exact hs

theorem applyREmbeddedLoop_length {α : Type} [Add α] [Mul α] (F : Nat → α)
    (rows cols d m k n dsub : Nat) (cb codes : Bytes) (x y y2 : List α)
    (h : applyREmbeddedLoop F rows cols d m k n dsub cb codes x y = .ok y2) :
    y2.length = y.length := by
  unfold applyREmbeddedLoop at h
  refine loopM_ok_pres (fun s => s.length = y.length) _ _ ?_ _ _ rfl h
  intro r s t hs ht
  refine loopM_ok_pres (fun s => s.length = y.length) _ _ ?_ _ _ hs ht
  intro i s t hs ht
  refine loopM_ok_pres (fun s => s.length = y.length) _ _ ?_ _ _ hs ht
  intro j s t hs ht
  simp only [] at ht
  split at ht
  · cases ht
  · split at ht
    · cases ht
    · split at ht
      · obtain ⟨xc, _, h3⟩ := bind_eq_ok _ _ _ ht
        rw [addAt_length _ _ _ _ h3]; exact hs
      · cases ht; exact hs

theorem applyRAddOptimized_length {α : Type} [Add α] [Mul α] (F : Nat → α) (gpu : Gpu α)
    (hgpu : gpu.KeepsLength) (y : List α) (rows cols : Nat) (payload : Bytes) (x : List α)
    (pool : Option (CodebookPool α)) (y2 : List α)
    (h : applyRAddOptimized F gpu y rows cols payload x pool = .ok y2) :
    y2.length = y.length := by
  unfold applyRAddOptimized at h
  split at h
  · cases h
  · simp only [] at h
    split at h
    · cases h
    · split at h
      · split at h
        · cases h
        · split at h
          · cases h
          · split at h
            · cases h; exact hgpu.2.1 _ _ _ _ _ _ _ _
            · rw [applyRSharedLoop_length _ _ _ _ _ _ _ _ _ _ _ _ h]
              exact hgpu.2.1 _ _ _ _ _ _ _ _
      · split at h
        · cases h
        · split at h
          · cases h
          · exact applyREmbeddedLoop_length _ _ _ _ _ _ _ _ _ _ _ _ _ h

/-! ## The passes of `MultiplyScopeWithPool` -/

theorem matvecFP16Add_length {α : Type} [Zero α] [Add α] [Mul α] (F : Nat → α) (y : List α)
    (rows cols : Nat) (data : Bytes) (x y2 : List α)
    (h : matvecFP16Add F y rows cols data x = .ok y2) : y2.length = y.length :=
  matvecFP16Loop_length F cols data x rows 0 0 y y2 h

theorem applyStep_length {α : Type} [Zero α] [Add α] [Mul α] (F : Nat → α) (gpu : Gpu α)
    (hgpu : gpu.KeepsLength) (bank : Bytes) (pool : Option (CodebookPool α))
    (scope rows cols : Nat) (x : List α) (lH dH : Bool) (y : List α) (rec : BankRec)
    (y2 : List α) (h : applyStep F gpu bank pool scope rows cols x lH dH y rec = .ok y2) :
    y2.length = y.length := by
  unfold applyStep at h
  split at h
  · cases h; rfl
  · simp only [] at h
    split at h
    · split at h
      · cases h; rfl
      · split at h
        · cases h
        · exact matvecFP16Add_length _ _ _ _ _ _ _ h
    · split at h
      · cases h; rfl
      · split at h
        · cases h
        · exact matvecFP16Add_length _ _ _ _ _ _ _ h
    · exact applyRAddOptimized_length F gpu hgpu _ _ _ _ _ _ _ h
    · exact applySAddOptimized_length F gpu hgpu _ _ _ _ _ _ h
    · cases h; rfl

theorem gpuMatVec_length {α : Type} (gpu : Gpu α) (hgpu : gpu.KeepsLength) (y : List α)
    (rows cols : Nat) (Lf Df x : List α) :
    (gpuMatVec gpu y rows cols Lf Df x).2.length = y.length := by
  unfold gpuMatVec
  split
  · simp only []
    split <;> split <;> simp [hgpu.1]
  · rfl

theorem cudaBlock_length {α : Type} (F : Nat → α) (gpu : Gpu α) (hgpu : gpu.KeepsLength)
    (useCUDA : Bool) (bank : Bytes) (recs : List BankRec) (scope rows cols : Nat)
    (x y : List α) (r : Bool × Bool × List α)
    (h : cudaBlock F gpu useCUDA bank recs scope rows cols x y = .ok r) :
    r.2.2.length = y.length := by
  unfold cudaBlock at h
  split at h
  · cases hf : recs.foldlM (collectStep F bank scope rows cols) ([], []) with
    | error e => rw [hf] at h; cases h
    | ok lf =>
      rw [hf] at h
      simp only [bind, Except.bind, pure, Except.pure] at h
      split at h
      · split at h
        · cases h; exact gpuMatVec_length gpu hgpu _ _ _ _ _ _
        · cases h; exact gpuMatVec_length gpu hgpu _ _ _ _ _ _
      · cases h; rfl
  · cases h; rfl

theorem ok_bind {α β : Type} (s : α) (f : α → Res β) : ((Except.ok s : Res α) >>= f) = f s := rfl

theorem foldlM_single {σ β : Type} (f : σ → β → Res σ) (s : σ) (b : β) :
    [b].foldlM f s = f s b := by
  rw [List.foldlM_cons]
  cases f s b <;> rfl

/-- The state the shape pass leaves behind, started from `st`. -/
theorem shapeStep_cases (bank : Bytes) (scope : Nat) (st : Nat × Nat × Bool) (rec : BankRec) :
    (¬ (rec.Hdr.Scope = scope ∧ rec.Hdr.Typ ≤ 3) ∧ shapeStep bank scope st rec = .ok st) ∨
    ((rec.Hdr.Scope = scope ∧ rec.Hdr.Typ ≤ 3) ∧
      ((∃ msg, shapeStep bank scope st rec = .error (.error msg)) ∨
        shapeStep bank scope st rec
          = .ok ((declaredShape (recPayload bank rec)).1,
              (declaredShape (recPayload bank rec)).2, true))) := by
  unfold shapeStep
  by_cases hs : rec.Hdr.Scope = scope
  · rw [if_neg (by simp [hs])]
    simp only []
    split
    · rename_i h0
      refine Or.inr ⟨⟨hs, by omega⟩, ?_⟩
      split
      · exact Or.inl ⟨_, rfl⟩
      · exact Or.inr rfl
    · rename_i h0
      refine Or.inr ⟨⟨hs, by omega⟩, ?_⟩
      split
      · exact Or.inl ⟨_, rfl⟩
      · exact Or.inr rfl
    · rename_i h0
      refine Or.inr ⟨⟨hs, by omega⟩, ?_⟩
      split
      · exact Or.inl ⟨_, rfl⟩
      · exact Or.inr rfl
    · rename_i h0
      refine Or.inr ⟨⟨hs, by omega⟩, ?_⟩
      split
      · exact Or.inl ⟨_, rfl⟩
      · exact Or.inr rfl
    · rename_i h0 h3 h1 h2
      refine Or.inl ⟨fun hh => ?_, rfl⟩
      have := hh.2
      interval_cases h : rec.Hdr.Typ
      · exact h0 rfl
      · exact h1 rfl
      · exact h2 rfl
      · exact h3 rfl
  · rw [if_pos (by simp [hs])]
    exact Or.inl ⟨fun hh => hs hh.1, rfl⟩

theorem shape_fold (bank : Bytes) (scope : Nat) (st : Nat × Nat × Bool) (recs : List BankRec) :
    (∃ msg, recs.foldlM (shapeStep bank scope) st = .error (.error msg)) ∨
    recs.foldlM (shapeStep bank scope) st
      = .ok (match (scopeRecsOf scope recs).getLast? with
          | none => st
          | some rec => ((declaredShape (recPayload bank rec)).1,
              (declaredShape (recPayload bank rec)).2, true)) := by
  induction recs using List.reverseRecOn with
  | nil => exact Or.inr rfl
  | append_singleton init rec ih =>
    rw [List.foldlM_append]
    rcases ih with ⟨msg, he⟩ | hok
    · exact Or.inl ⟨msg, by rw [he]; rfl⟩
    · rw [hok]
      rw [ok_bind, foldlM_single]
      rcases shapeStep_cases bank scope
          (match (scopeRecsOf scope init).getLast? with
            | none => st
            | some rec => ((declaredShape (recPayload bank rec)).1,
                (declaredShape (recPayload bank rec)).2, true)) rec
        with ⟨hn, hstep⟩ | ⟨hy, ⟨msg, he⟩ | hstep⟩
      · right
        rw [hstep]
        have : scopeRecsOf scope (init ++ [rec]) = scopeRecsOf scope init := by
          unfold scopeRecsOf
          rw [List.filter_append, List.filter_cons_of_neg (by simpa using hn)]
          simp
        rw [this]
      · left
        exact ⟨msg, he⟩
      · right
        rw [hstep]
        have : scopeRecsOf scope (init ++ [rec]) = scopeRecsOf scope init ++ [rec] := by
          unfold scopeRecsOf
          rw [List.filter_append, List.filter_cons_of_pos (by simpa using hy)]
          simp
        rw [this, List.getLast?_append]
        rfl

/-! ## The shape `ReconstructForScopeWithPool` keeps -/

theorem readFP16WithShape_shape {α : Type} (F : Nat → α) (p : Bytes) (r c : Nat) (mat : List α)
    (h : readFP16WithShape F p = .ok (r, c, mat)) : (r, c) = declaredShape p := by
  unfold readFP16WithShape at h
  split at h
  · cases h
  · obtain ⟨n, _, h1⟩ := bind_eq_ok _ _ _ h
    obtain ⟨out, _, h2⟩ := bind_eq_ok _ _ _ h1
    cases h2
    rfl

theorem decodeS_shape {α : Type} (F : Nat → α) (p : Bytes) (r c : Nat)
    (idx : List (Int × Int)) (vals : List α)
    (h : decodeS F p = .ok (r, c, idx, vals)) : (r, c) = declaredShape p := by
  unfold decodeS at h
  split at h
  · cases h
  · obtain ⟨i1, _, h2⟩ := bind_eq_ok _ _ _ h
    obtain ⟨v1, _, h3⟩ := bind_eq_ok _ _ _ h2
    cases h3
    rfl

theorem decodeR_shape {α : Type} [Zero α] (F : Nat → α) (p : Bytes) :
    ((decodeR F p).1, (decodeR F p).2.1) = declaredShape p ∨
      ((decodeR F p).1 = 0 ∧ (decodeR F p).2.1 = 0) := by
  unfold decodeR
  split
  · exact Or.inr ⟨rfl, rfl⟩
  · simp only []
    split
    · exact Or.inr ⟨rfl, rfl⟩
    · split
      · exact Or.inr ⟨rfl, rfl⟩
      · split
        · exact Or.inl rfl
        · split
          · exact Or.inr ⟨rfl, rfl⟩
          · split
            · exact Or.inr ⟨rfl, rfl⟩
            · split
              · exact Or.inr ⟨rfl, rfl⟩
              · rename_i blocks _
                cases finishR (le32 p 0) (le32 p 4) blocks with
                | error e => exact Or.inr ⟨rfl, rfl⟩
                | ok mat => exact Or.inl rfl

/-- What one iteration of the loop of `ReconstructForScopeWithPool` does to the shape. -/
theorem reconStep_shape {α : Type} [Zero α] (F : Nat → α) (c : Codec) (bank : Bytes)
    (pool : Option (CodebookPool α)) (scope : Nat) (st st2 : ReconState α) (rec : BankRec)
    (h : reconStep F c bank pool scope st rec = .ok st2) :
    (¬ (rec.Hdr.Scope = scope ∧ rec.Hdr.Typ ≤ 3) ∧
      st2.shapeRows = st.shapeRows ∧ st2.shapeCols = st.shapeCols) ∨
    ((rec.Hdr.Scope = scope ∧ rec.Hdr.Typ ≤ 3) ∧
      ∃ payload, decompressShard c rec.Hdr.Comp (recPayload bank rec) = .ok payload ∧
        ((st2.shapeRows, st2.shapeCols) = declaredShape payload ∨
          (st2.shapeRows = 0 ∧ st2.shapeCols = 0))) := by
  unfold reconStep at h
  by_cases hs : rec.Hdr.Scope = scope
  · rw [if_neg (by simp [hs])] at h
    obtain ⟨payload, hp, h2⟩ := bind_eq_ok _ _ _ h
    simp only [] at h2
    split at h2
    · rename_i h0
      obtain ⟨⟨r, c2, mat⟩, hrd, h3⟩ := bind_eq_ok _ _ _ h2
      cases h3
      exact Or.inr ⟨⟨hs, by omega⟩, payload, hp, Or.inl (readFP16WithShape_shape F _ _ _ _ hrd)⟩
    · rename_i h0
      obtain ⟨⟨r, c2, mat⟩, hrd, h3⟩ := bind_eq_ok _ _ _ h2
      cases h3
      exact Or.inr ⟨⟨hs, by omega⟩, payload, hp, Or.inl (readFP16WithShape_shape F _ _ _ _ hrd)⟩
    · rename_i h0
      refine Or.inr ⟨⟨hs, by omega⟩, payload, hp, ?_⟩
      have hsh := decodeR_shape F payload
      split at h2
      · rename_i rows cols mat heq
        cases h2
        rw [heq] at hsh
        exact hsh
      · cases h2
      · rename_i rows cols msg heq
        rw [heq] at hsh
        split at h2
        · obtain ⟨mat2, _, h3⟩ := bind_eq_ok _ _ _ h2
          cases h3
          exact hsh
        · cases h2
    · rename_i h0
      obtain ⟨⟨r, c2, idx, vals⟩, hrd, h3⟩ := bind_eq_ok _ _ _ h2
      cases h3
      exact Or.inr ⟨⟨hs, by omega⟩, payload, hp, Or.inl (decodeS_shape F _ _ _ _ _ hrd)⟩
    · rename_i h0 h3 h1 h2x
      cases h2
      refine Or.inl ⟨fun hh => ?_, rfl, rfl⟩
      have := hh.2
      interval_cases hT : rec.Hdr.Typ
      · exact h0 rfl
      · exact h1 rfl
      · exact h2x rfl
      · exact h3 rfl
  · rw [if_pos (by simp [hs])] at h
    cases h
    exact Or.inl ⟨fun hh => hs hh.1, rfl, rfl⟩

/-- The shape after the loop of `ReconstructForScopeWithPool`: the one it started with when no
shard of the scope was met, else the one declared by the last shard of the scope, or zero. -/
theorem recon_shape_fold {α : Type} [Zero α] (F : Nat → α) (c : Codec) (bank : Bytes)
    (pool : Option (CodebookPool α)) (scope : Nat) (st : ReconState α) (recs : List BankRec) :
    ∀ st2, recs.foldlM (reconStep F c bank pool scope) st = .ok st2 →
      match (scopeRecsOf scope recs).getLast? with
      | none => st2.shapeRows = st.shapeRows ∧ st2.shapeCols = st.shapeCols
      | some rec =>
        ∃ payload, decompressShard c rec.Hdr.Comp (recPayload bank rec) = .ok payload ∧
          ((st2.shapeRows, st2.shapeCols) = declaredShape payload ∨
            (st2.shapeRows = 0 ∧ st2.shapeCols = 0)) := by
  induction recs using List.reverseRecOn with
  | nil => intro st2 h; cases h; exact ⟨rfl, rfl⟩
  | append_singleton init rec ih =>
    intro st2 h
    rw [List.foldlM_append] at h
    obtain ⟨st1, h1, h2⟩ := bind_eq_ok _ _ _ h
    rw [foldlM_single] at h2
    have ih1 := ih st1 h1
    rcases reconStep_shape F c bank pool scope st1 st2 rec h2 with ⟨hn, hr, hc⟩ | ⟨hy, hex⟩
    · have : scopeRecsOf scope (init ++ [rec]) = scopeRecsOf scope init := by
        unfold scopeRecsOf
        rw [List.filter_append, List.filter_cons_of_neg (by simpa using hn)]
        simp
      rw [this, hr, hc]
      exact ih1
    · have : scopeRecsOf scope (init ++ [rec]) = scopeRecsOf scope init ++ [rec] := by
        unfold scopeRecsOf
        rw [List.filter_append, List.filter_cons_of_pos (by simpa using hy)]
        simp
      rw [this, List.getLast?_append]
      exact hex

/-! ## The loops of `decomposeNDSQ` -/

theorem residLoop_spec {α : Type} [Zero α] [Sub α] (data L : List α) (n : Nat)
    (hd : data.length = n) (hL : L.length = n) :
    ∃ resid, residLoop data L n = .ok resid ∧ resid.length = n ∧
      ∀ p, p < n → resid.getD p 0 = data.getD p 0 - L.getD p 0 := by
  unfold residLoop
  obtain ⟨r, h1, h2, h3⟩ := loopM_inv n
    (fun i resid => do
      let a ← getAt data i
      let b ← getAt L i
      setAt resid i (a - b)) (List.replicate n (0 : α))
    (fun i resid => resid.length = n ∧ ∀ p, p < i → resid.getD p 0 = data.getD p 0 - L.getD p 0)
    ⟨List.length_replicate _ _, fun p hp => absurd hp (Nat.not_lt_zero _)⟩
    (by
      intro i hi s hs
      refine ⟨s.set i (data.getD i 0 - L.getD i 0), ?_, ?_, ?_⟩
      · simp only []
        rw [getAt_of_lt data i (by omega), ok_bind, getAt_of_lt L i (by omega), ok_bind,
          setAt_of_lt _ _ _ (by omega)]
      · rw [List.length_set]; exact hs.1
      · intro p hp
        rw [getD_set _ _ _ _ _ (by omega)]
        by_cases hpi : p = i
        · rw [if_pos hpi, hpi]
        · rw [if_neg hpi]; exact hs.2 p (by omega))
  exact ⟨r, h1, h2, fun p hp => h3 p hp⟩

theorem diag_index (cols i : Nat) (hi : i < cols) :
    (i * cols + i) / cols = i ∧ (i * cols + i) % cols = i := by
  constructor
  · rw [Nat.mul_comm, Nat.mul_add_div (by omega), Nat.div_eq_of_lt hi, Nat.add_zero]
  · rw [Nat.mul_comm, Nat.mul_add_mod, Nat.mod_eq_of_lt hi]

theorem diagLoop_spec {α : Type} [Zero α] (rows cols minDim : Nat) (resid : List α)
    (hr : resid.length = rows * cols) (hm1 : minDim ≤ rows) (hm2 : minDim ≤ cols) :
    ∃ st, diagLoop cols minDim (List.replicate (rows * cols) 0) resid = .ok st ∧
      DiagInv cols resid minDim st := by
  unfold diagLoop
  refine loopM_inv minDim _ _ (fun i st => DiagInv cols resid i st) ?_ ?_
  · refine ⟨by rw [List.length_replicate, hr], rfl, ?_⟩
    intro p hp
    have : ¬ (p / cols = p % cols ∧ p / cols < 0) := fun h => absurd h.2 (Nat.not_lt_zero _)
    rw [if_neg this, if_neg this]
    exact ⟨by rw [List.getD_eq_getElem _ _ (by rw [List.length_replicate, ← hr]; exact hp),
      List.getElem_replicate], rfl⟩
  · intro i hi st hI
    obtain ⟨h1, h2, h3⟩ := hI
    have hic : i < cols := by omega
    have hidx : i * cols + i < resid.length := by
      rw [hr]
      calc i * cols + i < i * cols + cols := by omega
        _ = (i + 1) * cols := by ring
        _ ≤ rows * cols := Nat.mul_le_mul_right _ (by omega)
    obtain ⟨hq, hmod⟩ := diag_index cols i hic
    refine ⟨(st.1.set (i * cols + i) (st.2.getD (i * cols + i) 0),
      st.2.set (i * cols + i) 0), ?_, ?_, ?_, ?_⟩
    · rw [getAt_of_lt st.2 _ (by omega), ok_bind, setAt_of_lt _ _ _ (by omega), ok_bind,
        setAt_of_lt _ _ _ (by omega), ok_bind]
      rfl
    · rw [List.length_set]; exact h1
    · rw [List.length_set]; exact h2
    · intro p hp
      simp only []
      rw [getD_set _ _ _ _ _ (by omega), getD_set _ _ _ _ _ (by omega)]
      by_cases hpi : p = i * cols + i
      · rw [if_pos hpi, if_pos hpi, hpi, hq, hmod, if_pos ⟨rfl, Nat.lt_succ_self _⟩,
          if_pos ⟨rfl, Nat.lt_succ_self _⟩]
        refine ⟨?_, rfl⟩
        rw [(h3 _ hidx).2, hq, hmod, if_neg (fun h => absurd h.2 (Nat.lt_irrefl _))]
      · rw [if_neg hpi, if_neg hpi, (h3 p hp).1, (h3 p hp).2]
        have hiff : (p / cols = p % cols ∧ p / cols < i + 1)
            ↔ (p / cols = p % cols ∧ p / cols < i) := by
          constructor
          · rintro ⟨ha, hb⟩
            refine ⟨ha, ?_⟩
            by_contra hne
            have hpc : p / cols = i := by omega
            apply hpi
            have := Nat.div_add_mod p cols
            rw [← ha, hpc] at this
            rw [← this, Nat.mul_comm]
          · rintro ⟨ha, hb⟩
            exact ⟨ha, by omega⟩
        simp only [hiff]
        exact ⟨trivial, trivial⟩

/-! ## The outlier loops of `decomposeNDSQ` -/

theorem getAt_bool (l : List Bool) (i : Nat) (h : i < l.length) :
    getAt l i = .ok (l.getD i false) := getAt_getD l i false h

theorem sparseInv_step {α : Type} [Zero α] (cols : Nat) (mask : List Bool)
    (resid : List α) (hm : mask.length = resid.length) (t : Nat) (ht : t < resid.length)
    (st : List (Int × Int) × List α × List α) (h : SparseInv cols mask resid t st) :
    ∃ st2, (do
        let mk ← getAt mask t
        if mk then do
          let v ← getAt st.2.2 t
          let resid ← setAt st.2.2 t 0
          pure (st.1 ++ [posIndex cols t], st.2.1 ++ [v], resid)
        else pure st) = .ok st2 ∧ SparseInv cols mask resid (t + 1) st2 := by
  obtain ⟨h1, h2, h3, h4⟩ := h
  rw [getAt_bool mask t (by omega), ok_bind]
  by_cases hmk : mask.getD t false = true
  · rw [if_pos hmk, getAt_of_lt st.2.2 t (by omega), ok_bind, setAt_of_lt _ _ _ (by omega),
      ok_bind]
    refine ⟨_, rfl, ?_, ?_, ?_, ?_⟩
    · show st.1 ++ [posIndex cols t] = _
      rw [List.range_succ, List.filter_append, List.map_append, h1,
        List.filter_cons_of_pos (by simpa using hmk)]
      rfl
    · show st.2.1 ++ [st.2.2.getD t 0] = _
      rw [List.range_succ, List.filter_append, List.map_append, h2,
        List.filter_cons_of_pos (by simpa using hmk), h4 t,
        if_neg (fun hh => absurd hh.1 (Nat.lt_irrefl _))]
      rfl
    · show (st.2.2.set t 0).length = _
      rw [List.length_set]; exact h3
    · intro p
      show (st.2.2.set t 0).getD p 0 = _
      rw [getD_set _ _ _ _ _ (by omega)]
      by_cases hpt : p = t
      · rw [if_pos hpt, if_pos ⟨by omega, by rw [hpt]; exact hmk⟩]
      · rw [if_neg hpt, h4 p]
        by_cases hc : p < t ∧ mask.getD p false = true
        · rw [if_pos hc, if_pos ⟨by omega, hc.2⟩]
        · rw [if_neg hc, if_neg (fun hh => hc ⟨by omega, hh.2⟩)]
  · rw [if_neg hmk]
    refine ⟨st, rfl, ?_, ?_, h3, ?_⟩
    · rw [List.range_succ, List.filter_append, List.filter_cons_of_neg (by simpa using hmk)]
      simpa using h1
    · rw [List.range_succ, List.filter_append, List.filter_cons_of_neg (by simpa using hmk)]
      simpa using h2
    · intro p
      rw [h4 p]
      by_cases hc : p < t ∧ mask.getD p false = true
      · rw [if_pos hc, if_pos ⟨by omega, hc.2⟩]
      · rw [if_neg hc]
        by_cases hpt : p = t
        · rw [if_neg (fun hh => hmk (hpt ▸ hh.2))]
        · rw [if_neg (fun hh => hc ⟨by omega, hh.2⟩)]

theorem flat_index (cols i j : Nat) (hj : j < cols) :
    (i * cols + j) / cols = i ∧ (i * cols + j) % cols = j := by
  constructor
  · rw [Nat.mul_comm, Nat.mul_add_div (by omega), Nat.div_eq_of_lt hj, Nat.add_zero]
  · rw [Nat.mul_comm, Nat.mul_add_mod, Nat.mod_eq_of_lt hj]

theorem sparseLoop_spec {α : Type} [Zero α] (rows cols : Nat) (mask : List Bool)
    (resid : List α) (hm : mask.length = resid.length) (hr : resid.length = rows * cols) :
    ∃ st, sparseLoop rows cols mask resid = .ok st ∧
      SparseInv cols mask resid (rows * cols) st := by
  unfold sparseLoop
  refine loopM_inv rows _ _ (fun i st => SparseInv cols mask resid (i * cols) st) ?_ ?_
  · show SparseInv cols mask resid (0 * cols) ([], [], resid)
    rw [Nat.zero_mul]
    exact ⟨rfl, rfl, rfl, fun p => by
      rw [if_neg (fun hh => absurd hh.1 (Nat.not_lt_zero _))]⟩
  · intro i hi st hI
    obtain ⟨st2, h1, h2⟩ := loopM_inv cols
      (fun j st => do
        let mk ← getAt mask (i * cols + j)
        if mk then do
          let v ← getAt st.2.2 (i * cols + j)
          let resid ← setAt st.2.2 (i * cols + j) 0
          pure (st.1 ++ [(toInt32 (i % 2 ^ 32), toInt32 (j % 2 ^ 32))], st.2.1 ++ [v], resid)
        else pure st) st
      (fun j st => SparseInv cols mask resid (i * cols + j) st) hI
      (by
        intro j hj s hs
        have hlt : i * cols + j < resid.length := by
          rw [hr]
          calc i * cols + j < i * cols + cols := by omega
            _ = (i + 1) * cols := by ring
            _ ≤ rows * cols := Nat.mul_le_mul_right _ (by omega)
        have := sparseInv_step cols mask resid hm (i * cols + j) hlt s hs
        unfold posIndex at this
        rw [(flat_index cols i j hj).1, (flat_index cols i j hj).2] at this
        exact this)
    refine ⟨st2, h1, ?_⟩
    show SparseInv cols mask resid ((i + 1) * cols) st2
    rw [Nat.succ_mul]
    exact h2

/-! ## The threshold and the results of `decomposeNDSQ` -/

theorem quantileIndex_lt (len : Nat) (qnum : Int) (qden : Nat) (h : 0 < len) :
    quantileIndex len qnum qden < len := by
  unfold quantileIndex
  generalize (if qnum ≤ 0 ∨ qden = 0 then 0
    else mulTrunc64 (toF64 (len - 1)) qnum.toNat qden) = k
  split_ifs <;> omega

theorem threshold_spec {α : Type} [LinearOrder α] [Zero α] (abs : List α) (qnum : Int)
    (qden : Nat) :
    ∃ th, threshold abs qnum qden = .ok th ∧
      th = (abs.insertionSort (fun a b => a ≤ b)).getD (quantileIndex abs.length qnum qden) 0 ∧
      (0 < abs.length → th ∈ abs) := by
  unfold threshold
  rw [List.length_insertionSort]
  by_cases h : abs.length > 0
  · rw [if_pos h]
    have hlt : quantileIndex abs.length qnum qden
        < (abs.insertionSort (fun a b => a ≤ b)).length := by
      rw [List.length_insertionSort]; exact quantileIndex_lt _ _ _ h
    refine ⟨_, getAt_of_lt _ _ hlt, rfl, fun _ => ?_⟩
    rw [List.getD_eq_getElem _ _ hlt]
    exact (List.perm_insertionSort _ abs).subset (List.getElem_mem _)
  · rw [if_neg h]
    refine ⟨0, rfl, ?_, fun hh => absurd hh h⟩
    have : abs = [] := List.length_eq_zero.mp (by omega)
    subst this
    rfl

theorem eq_map_range {α : Type} [Zero α] (l : List α) (n : Nat) (f : Nat → α)
    (hl : l.length = n) (h : ∀ p, p < n → l.getD p 0 = f p) : l = (List.range n).map f := by
  apply List.ext_getElem
  · rw [List.length_map, List.length_range, hl]
  · intro i h1 h2
    rw [List.getElem_map, List.getElem_range, ← h i (by omega), List.getD_eq_getElem _ _ h1]

theorem diag_iff (rows cols p : Nat) (hp : p < rows * cols) :
    (p / cols = p % cols ∧ p / cols < (if cols < rows then cols else rows))
      ↔ p / cols = p % cols := by
  have hc : 0 < cols := by
    rcases Nat.eq_zero_or_pos cols with h | h
    · subst h; simp at hp
    · exact h
  have h1 : p / cols < rows := by
    rw [Nat.div_lt_iff_lt_mul hc]; exact hp
  have h2 : p % cols < cols := Nat.mod_lt _ hc
  constructor
  · exact fun h => h.1
  · intro h
    refine ⟨h, ?_⟩
    split_ifs <;> omega

/-- What `decomposeNDSQ` computes, for the threshold `th` it derives. -/
theorem decompose_spec {α : Type} [LinearOrder α] [Zero α] [Sub α] [Neg α]
    (lowRank : Nat → Nat → List α → Int → Res (List α)) (rows cols : Nat) (data L0 : List α)
    (rank : Int) (qnum : Int) (qden : Nat) (hdata : data.length = rows * cols)
    (hL : lowRank rows cols data rank = .ok L0) (hLlen : L0.length = rows * cols) :
    ∃ th dec, decomposeNDSQ lowRank rows cols data rank qnum qden = .ok dec ∧ dec.L = L0 ∧
      threshold ((List.range (rows * cols)).map (fun p => absF (residOff cols data L0 p)))
        qnum qden = .ok th ∧
      dec.D.length = rows * cols ∧ dec.R.length = rows * cols ∧
      (∀ p, p < rows * cols →
        dec.D.getD p 0 = if p / cols = p % cols then data.getD p 0 - L0.getD p 0 else 0) ∧
      (∀ p, p < rows * cols →
        dec.R.getD p 0 = if p ∈ outlierPositions cols (rows * cols) data L0 th then 0
          else residOff cols data L0 p) ∧
      dec.Sind = (outlierPositions cols (rows * cols) data L0 th).map (posIndex cols) ∧
      dec.Sval = (outlierPositions cols (rows * cols) data L0 th).map (residOff cols data L0) := by
  obtain ⟨resid, hres, hrl, hrv⟩ := residLoop_spec data L0 (rows * cols) hdata hLlen
  obtain ⟨dr, hdr, hd1, hd2, hd3⟩ := diagLoop_spec rows cols (if cols < rows then cols else rows)
    resid hrl (by split_ifs <;> omega) (by split_ifs <;> omega)
  rw [hrl] at hd1 hd2 hd3
  have hdr2 : dr.2 = (List.range (rows * cols)).map (residOff cols data L0) := by
    apply eq_map_range _ _ _ hd2
    intro p hp
    rw [(hd3 p hp).2]
    unfold residOff
    simp only [diag_iff rows cols p hp]
    by_cases hdg : p / cols = p % cols
    · rw [if_pos hdg, if_pos hdg]
    · rw [if_neg hdg, if_neg hdg, hrv p hp]
  obtain ⟨th, hth, _, _⟩ := threshold_spec
    ((List.range (rows * cols)).map (fun p => absF (residOff cols data L0 p))) qnum qden
  have habs : dr.2.map absF
      = (List.range (rows * cols)).map (fun p => absF (residOff cols data L0 p)) := by
    rw [hdr2, List.map_map]; rfl
  obtain ⟨s, hs, hs1, hs2, hs3, hs4⟩ := sparseLoop_spec rows cols
    ((dr.2.map absF).map (fun v => decide (v ≥ th ∧ v ≠ 0))) dr.2
    (by rw [List.length_map, List.length_map]) hd2
  have hfilter : (List.range (rows * cols)).filter
      (fun p => ((dr.2.map absF).map (fun v => decide (v ≥ th ∧ v ≠ 0))).getD p false)
      = outlierPositions cols (rows * cols) data L0 th := by
    unfold outlierPositions
    apply List.filter_congr
    intro p hp
    have hp : p < rows * cols := List.mem_range.mp hp
    rw [habs, List.map_map,
      List.getD_eq_getElem _ _ (by rw [List.length_map, List.length_range]; exact hp),
      List.getElem_map, List.getElem_range]
    rfl
  rw [hfilter] at hs1 hs2
  have hgetD : ∀ p, p < rows * cols → dr.2.getD p 0 = residOff cols data L0 p := by
    intro p hp
    rw [hdr2, List.getD_eq_getElem _ _ (by rw [List.length_map, List.length_range]; exact hp),
      List.getElem_map, List.getElem_range]
  refine ⟨th, { D := dr.1, L := L0, R := s.2.2, Sind := s.1, Sval := s.2.1 }, ?_, rfl, hth, hd1,
    by rw [hs3, hd2], ?_, ?_, hs1, ?_⟩
  · unfold decomposeNDSQ
    rw [if_neg (by omega), hdata, Nat.sub_self, List.replicate_zero, List.append_nil, hL, ok_bind,
      if_neg (by omega), hLlen, Nat.sub_self, List.replicate_zero, List.append_nil]
    dsimp only
    rw [hres, ok_bind, hdr, ok_bind, habs, hth, ok_bind, ← habs, hs, ok_bind]
    rfl
  · intro p hp
    show dr.1.getD p 0 = _
    rw [(hd3 p hp).1]
    simp only [diag_iff rows cols p hp]
    by_cases hdg : p / cols = p % cols
    · rw [if_pos hdg, if_pos hdg, hrv p hp]
    · rw [if_neg hdg, if_neg hdg]
  · intro p hp
    show s.2.2.getD p 0 = _
    rw [hs4 p, hgetD p hp]
    have hmem : p ∈ outlierPositions cols (rows * cols) data L0 th
        ↔ (p < rows * cols ∧
          ((dr.2.map absF).map (fun v => decide (v ≥ th ∧ v ≠ 0))).getD p false = true) := by
      rw [← hfilter, List.mem_filter, List.mem_range]
    by_cases hc : p ∈ outlierPositions cols (rows * cols) data L0 th
    · rw [if_pos hc, if_pos (hmem.mp hc)]
    · rw [if_neg hc, if_neg (fun hh => hc (hmem.mpr hh))]
  · show s.2.1 = _
    rw [hs2]
    apply List.map_congr_left
    intro p hp
    unfold outlierPositions at hp
    exact hgetD p (List.mem_range.mp (List.mem_filter.mp hp).1)

/-! ## Triplets and positions -/

theorem tripletAt_map {α : Type} [Zero α] (g : Nat → Int × Int) (v : Nat → α)
    (i j p0 : Nat) :
    ∀ ps : List Nat, ps.Nodup → (∀ p ∈ ps, g p = ((i : Int), (j : Int)) ↔ p = p0) →
      tripletAt (ps.map g) (ps.map v) i j = if p0 ∈ ps then v p0 else 0 := by
  intro ps
  induction ps with
  | nil => intro _ _; rfl
  | cons p ps ih =>
    intro hnd hg
    have ih2 := ih (List.nodup_cons.mp hnd).2 (fun q hq => hg q (List.mem_cons_of_mem _ hq))
    unfold tripletAt at ih2 ⊢
    rw [List.map_cons, List.map_cons, List.zip_cons_cons]
    by_cases hp : p = p0
    · have hgp : g p = ((i : Int), (j : Int)) := (hg p (List.mem_cons_self _ _)).mpr hp
      rw [List.filter_cons_of_pos (by simpa using hgp), List.map_cons, List.headD_cons,
        if_pos (by rw [hp]; exact List.mem_cons_self _ _), hp]
    · have hgp : ¬ g p = ((i : Int), (j : Int)) := fun h =>
        hp ((hg p (List.mem_cons_self _ _)).mp h)
      rw [List.filter_cons_of_neg (by simpa using hgp), ih2]
      by_cases hm : p0 ∈ ps
      · rw [if_pos hm, if_pos (List.mem_cons_of_mem _ hm)]
      · rw [if_neg hm, if_neg (by
          intro hh
          rcases List.mem_cons.mp hh with h1 | h1
          · exact hp h1.symm
          · exact hm h1)]

theorem tripletAt_none {α : Type} [Zero α] (Sind : List (Int × Int))
    (Sval : List α) (i j : Nat) (h : ((i : Int), (j : Int)) ∉ Sind) :
    tripletAt Sind Sval i j = 0 := by
  unfold tripletAt
  have : (Sind.zip Sval).filter (fun t => t.1 = ((i : Int), (j : Int))) = [] := by
    rw [List.filter_eq_nil_iff]
    intro t ht
    have := (List.of_mem_zip ht).1
    intro heq
    apply h
    have h2 : t.1 = ((i : Int), (j : Int)) := by simpa using heq
    rw [← h2]; exact this
  rw [this]
  rfl

theorem toInt32_small (x : Nat) (h : x < 2 ^ 31) : toInt32 (x % 2 ^ 32) = (x : Int) := by
  unfold toInt32
  rw [Nat.mod_eq_of_lt (by omega), if_pos h]

theorem toInt32_lt (u : Nat) (h : u < 2 ^ 32) : toInt32 u < 2 ^ 31 := by
  unfold toInt32
  split_ifs with h1
  · exact_mod_cast h1
  · have : (u : Int) < 2 ^ 32 := by exact_mod_cast h
    omega

theorem posIndex_small (rows cols p : Nat) (hr : rows ≤ 2 ^ 31) (hc : cols ≤ 2 ^ 31)
    (hp : p < rows * cols) :
    posIndex cols p = (((p / cols : Nat) : Int), ((p % cols : Nat) : Int)) := by
  have hc0 : 0 < cols := by
    rcases Nat.eq_zero_or_pos cols with h | h
    · subst h; simp at hp
    · exact h
  have h1 : p / cols < rows := by rw [Nat.div_lt_iff_lt_mul hc0]; exact hp
  have h2 : p % cols < cols := Nat.mod_lt _ hc0
  unfold posIndex
  rw [toInt32_small _ (by omega), toInt32_small _ (by omega)]

theorem pos_eq_iff (cols p i j : Nat) (hj : j < cols) :
    ((((p / cols : Nat) : Int), ((p % cols : Nat) : Int)) = ((i : Int), (j : Int)))
      ↔ p = i * cols + j := by
  constructor
  · intro h
    have h1 : p / cols = i := by exact_mod_cast (Prod.mk.inj h).1
    have h2 : p % cols = j := by exact_mod_cast (Prod.mk.inj h).2
    rw [← Nat.div_add_mod p cols, h1, h2, Nat.mul_comm]
  · intro h
    rw [h, (flat_index cols i j hj).1, (flat_index cols i j hj).2]

theorem outlierPositions_nodup {α : Type} [LinearOrder α] [Zero α] [Sub α] [Neg α]
    (cols n : Nat) (data L : List α) (th : α) : (outlierPositions cols n data L th).Nodup :=
  (List.nodup_range n).filter _

theorem mem_outlierPositions {α : Type} [LinearOrder α] [Zero α] [Sub α] [Neg α] (cols n : Nat)
    (data L : List α) (th : α) (p : Nat) :
    p ∈ outlierPositions cols n data L th
      ↔ p < n ∧ th ≤ absF (residOff cols data L p) ∧ absF (residOff cols data L p) ≠ 0 := by
  unfold outlierPositions
  rw [List.mem_filter, List.mem_range, decide_eq_true_iff]

/-- A value whose absolute value is not zero is not zero. -/
theorem ne_zero_of_absF {α : Type} [LinearOrder α] [Zero α] [Neg α] (v : α)
    (h : absF v ≠ 0) : v ≠ 0 := by
  intro hv
  apply h
  unfold absF
  rw [hv, if_neg (lt_irrefl _)]

/-! ## A matrix with more than `2^31` rows -/

theorem getD_replicate_zero {α : Type} [Zero α] (n q : Nat) :
    (List.replicate n (0 : α)).getD q 0 = 0 := by
  by_cases h : q < n
  · rw [List.getD_eq_getElem _ _ (by rw [List.length_replicate]; exact h),
      List.getElem_replicate]
  · rw [List.getD_eq_default _ _ (by rw [List.length_replicate]; omega)]

theorem bigData_length : bigData.length = (2 ^ 31 + 1) * 2 := by
  unfold bigData
  rw [List.length_cons, List.length_append, List.length_replicate, List.length_singleton]
  norm_num

theorem bigL_length : bigL.length = (2 ^ 31 + 1) * 2 := by
  unfold bigL
  rw [List.length_cons, List.length_replicate]
  norm_num

theorem big_resid (p : Nat) (hp : p < (2 ^ 31 + 1) * 2) :
    bigData.getD p 0 - bigL.getD p 0 = if p = 2 ^ 31 * 2 + 1 then 1 else 0 := by
  unfold bigData bigL
  cases p with
  | zero =>
    rw [List.getD_cons_zero, List.getD_cons_zero, if_neg (by omega)]
    rfl
  | succ q =>
    rw [List.getD_cons_succ, List.getD_cons_succ, getD_replicate_zero]
    by_cases hq : q < 2 ^ 32
    · rw [List.getD_append _ _ _ _ (by rw [List.length_replicate]; exact hq),
        getD_replicate_zero, if_neg (by omega)]
      rfl
    · have hq2 : q = 2 ^ 32 := by omega
      rw [List.getD_append_right _ _ _ _ (by rw [List.length_replicate]; omega),
        List.length_replicate, hq2, Nat.sub_self, List.getD_cons_zero, if_pos (by omega)]
      rfl

theorem big_residOff (p : Nat) (hp : p < (2 ^ 31 + 1) * 2) :
    residOff 2 bigData bigL p = if p = 2 ^ 31 * 2 + 1 then 1 else 0 := by
  unfold residOff
  rw [big_resid p hp]
  by_cases h : p = 2 ^ 31 * 2 + 1
  · rw [if_pos h, if_neg (by omega)]
  · rw [if_neg h]
    split_ifs <;> rfl

/-- The threshold of the big matrix is at most 1, so its last position is an outlier. -/
theorem big_last_mem (th : Int)
    (hth : threshold ((List.range ((2 ^ 31 + 1) * 2)).map
      (fun p => absF (residOff 2 bigData bigL p))) 1 2 = .ok th) :
    2 ^ 31 * 2 + 1 ∈ outlierPositions 2 ((2 ^ 31 + 1) * 2) bigData bigL th := by
  obtain ⟨th2, h2, _, hmem⟩ := threshold_spec ((List.range ((2 ^ 31 + 1) * 2)).map
      (fun p => absF (residOff 2 bigData bigL p))) 1 2
  rw [hth] at h2
  have hEq : th = th2 := Except.ok.inj h2
  have hm := hmem (by rw [List.length_map, List.length_range]; omega)
  rw [List.mem_map] at hm
  obtain ⟨p, hp1, hp2⟩ := hm
  have hp : p < (2 ^ 31 + 1) * 2 := List.mem_range.mp hp1
  have hle : th ≤ 1 := by
    rw [hEq, ← hp2, big_residOff p hp]
    unfold absF
    split_ifs <;> omega
  rw [mem_outlierPositions, big_residOff _ (by omega), if_pos rfl]
  refine ⟨by omega, ?_, ?_⟩
  · unfold absF
    rw [if_neg (by omega)]
    exact hle
  · unfold absF
    rw [if_neg (by omega)]
    omega

theorem posIndex_ne_big (cols p : Nat) : posIndex cols p ≠ ((2 ^ 31 : Nat), (1 : Nat)) := by
  intro h
  unfold posIndex at h
  have h1 := (Prod.mk.inj h).1
  have h2 := toInt32_lt (p / cols % 2 ^ 32) (Nat.mod_lt _ (by omega))
  rw [h1] at h2
  omega

theorem posIndex_big : posIndex 2 (2 ^ 31 * 2 + 1) = (-(2 ^ 31), 1) := by
  unfold posIndex toInt32
  rw [show (2 ^ 31 * 2 + 1) / 2 % 2 ^ 32 = 2 ^ 31 by omega,
    show (2 ^ 31 * 2 + 1) % 2 % 2 ^ 32 = 1 by omega, if_neg (by omega), if_pos (by omega)]
  rfl

/-- The threshold of the specification is at most 1 on the big matrix. -/
theorem big_specTheta_le (qnum : Int) (qden : Nat) :
    specTheta 2 ((2 ^ 31 + 1) * 2) bigData bigL qnum qden ≤ 1 := by
  unfold specTheta
  generalize ((2 ^ 31 + 1) * 2 - 1) * qnum.toNat / qden = idx
  rw [List.getD_eq_getElem?_getD]
  cases h : ((List.map (fun p => absF (residOff 2 bigData bigL p))
      (List.range ((2 ^ 31 + 1) * 2))).insertionSort (fun a b => a ≤ b))[idx]? with
  | none => exact Int.zero_le_ofNat 1
  | some v =>
    have hm : v ∈ (List.map (fun p => absF (residOff 2 bigData bigL p))
        (List.range ((2 ^ 31 + 1) * 2))).insertionSort (fun a b => a ≤ b) :=
      List.getElem?_mem h
    have hm2 := (List.perm_insertionSort _ _).subset hm
    rw [List.mem_map] at hm2
    obtain ⟨p, hp1, hp2⟩ := hm2
    show v ≤ 1
    rw [← hp2, big_residOff p (List.mem_range.mp hp1)]
    unfold absF
    split_ifs <;> omega

/-! ## The threshold in the words of the specification -/

theorem threshold_codeTheta {α : Type} [LinearOrder α] [Zero α] [Sub α] [Neg α]
    (cols n : Nat) (data L : List α) (qnum : Int) (qden : Nat) (th : α)
    (hth : threshold ((List.range n).map (fun p => absF (residOff cols data L p))) qnum qden
      = .ok th) : th = codeTheta cols n data L qnum qden := by
  obtain ⟨th2, h2, h3, _⟩ := threshold_spec
    ((List.range n).map (fun p => absF (residOff cols data L p))) qnum qden
  rw [hth] at h2
  rw [Except.ok.inj h2, h3]
  unfold codeTheta
  rw [List.length_map, List.length_range]

theorem outlierPositions_sorted {α : Type} [LinearOrder α] [Zero α] [Sub α] [Neg α]
    (cols n : Nat) (data L : List α) (th : α) :
    (outlierPositions cols n data L th).Pairwise (fun a b => a < b) :=
  List.Pairwise.sublist (List.filter_sublist _) (List.pairwise_lt_range n)

/-! ## The loops of `kmeans` return -/

theorem rect_mem {α : Type} {n D : Nat} {m : List (List α)} (h : Rect n D m) (v : List α)
    (hv : v ∈ m) : v.length = D := by
  obtain ⟨i, hi, rfl⟩ := List.getElem_of_mem hv
  rw [← List.getD_eq_getElem _ [] hi]
  exact h.2 i (by rw [← h.1]; exact hi)

theorem rect_set {α : Type} {n D : Nat} {m : List (List α)} (h : Rect n D m) (i : Nat)
    (v : List α) (hv : v.length = D) : Rect n D (m.set i v) := by
  refine ⟨by rw [List.length_set]; exact h.1, ?_⟩
  intro p hp
  by_cases hi : i < m.length
  · rw [getD_set _ _ _ _ _ hi]
    by_cases hpi : p = i
    · rw [if_pos hpi]; exact hv
    · rw [if_neg hpi]; exact h.2 p hp
  · rw [List.set_eq_of_length_le (by omega)]
    exact h.2 p hp

theorem rect_replicate {α : Type} [Zero α] (n D : Nat) :
    Rect n D (List.replicate n (List.replicate D (0 : α))) := by
  refine ⟨List.length_replicate _ _, ?_⟩
  intro p hp
  rw [List.getD_eq_getElem _ _ (by rw [List.length_replicate]; exact hp),
    List.getElem_replicate, List.length_replicate]

theorem l2_total {α : Type} [LinearOrder α] [Zero α] [Add α] [Sub α] [Mul α] (a b : List α)
    (h : a.length ≤ b.length) :
    ∃ d, l2 a b = .ok d := by
  unfold l2
  exact ⟨_, l2Loop_eq b a 0 0 (by omega)⟩

theorem nearestLoop_total {α : Type} [LinearOrder α] [Zero α] [Add α] [Sub α] [Mul α] (vec : List α)
    (cents : List (List α)) (k D : Nat) (hc : Rect k D cents) (hv : vec.length = D) :
    ∀ cnt j st, j + cnt = k → (st.1 = 0 ∨ st.1 < j) →
      ∃ st2, nearestLoop vec cents cnt j st = .ok st2 ∧ (st2.1 = 0 ∨ st2.1 < k) := by
  intro cnt
  induction cnt with
  | zero =>
    intro j st hj h
    refine ⟨st, rfl, ?_⟩
    rcases h with h | h
    · exact Or.inl h
    · exact Or.inr (by omega)
  | succ c ih =>
    intro j st hj h
    unfold nearestLoop
    rw [getAt_getD cents j [] (by rw [hc.1]; omega), ok_bind]
    obtain ⟨d, hd⟩ := l2_total vec (cents.getD j []) (by rw [hc.2 j (by omega), hv])
    rw [hd, ok_bind]
    apply ih (j + 1) _ (by omega)
    split_ifs
    · exact Or.inr (Nat.lt_succ_self j)
    · rcases h with h | h
      · exact Or.inl h
      · exact Or.inr (by omega)

theorem assignLoop_total {α : Type} [LinearOrder α] [Zero α] [Add α] [Sub α] [Mul α] (big : α)
    (data cents : List (List α))
    (N k D : Nat) (hd : Rect N D data) (hc : Rect k D cents) (hk : 1 ≤ k) (assign : List Nat)
    (ha : assign.length = N) :
    ∃ a2, assignLoop big data cents k assign = .ok a2 ∧ a2.length = N ∧
      ∀ p, p < N → a2.getD p 0 < k := by
  unfold assignLoop
  rw [hd.1]
  obtain ⟨a2, h1, h2, h3⟩ := loopM_inv N
    (fun n assign => do
      let vec ← getAt data n
      let st ← nearestLoop vec cents k 0 (0, big)
      setAt assign n st.1) assign
    (fun n a => a.length = N ∧ ∀ p, p < n → a.getD p 0 < k)
    ⟨ha, fun p hp => absurd hp (Nat.not_lt_zero _)⟩
    (by
      intro n hn a hI
      beta_reduce
      obtain ⟨st, hst, hlt⟩ := nearestLoop_total (data.getD n []) cents k D hc (hd.2 n hn) k 0
        (0, big) (by omega) (Or.inl rfl)
      refine ⟨a.set n st.1, ?_, by rw [List.length_set]; exact hI.1, ?_⟩
      · rw [getAt_getD data n [] (by rw [hd.1]; exact hn), ok_bind, hst, ok_bind,
          setAt_of_lt _ _ _ (by rw [hI.1]; exact hn)]
      · intro p hp
        rw [getD_set _ _ _ _ _ (by rw [hI.1]; exact hn)]
        by_cases hpn : p = n
        · rw [if_pos hpn]
          rcases hlt with h | h
          · rw [h]; omega
          · exact h
        · rw [if_neg hpn]; exact hI.2 p (by omega))
  exact ⟨a2, h1, h2, h3⟩

theorem accumAdd_total {α : Type} [LinearOrder α] [Zero α] [Add α] [Sub α] [Mul α]
    (dst src : List α)
    (h : dst.length ≤ src.length) :
    ∃ r, accumAdd dst src = .ok r ∧ r.length = dst.length := by
  unfold accumAdd
  refine loopM_inv dst.length _ dst (fun _ r => r.length = dst.length) rfl ?_
  intro i hi r hr
  beta_reduce
  refine ⟨r.set i (r.getD i 0 + src.getD i 0), ?_, by rw [List.length_set]; exact hr⟩
  rw [getAt_of_lt src i (by omega), ok_bind, addAt_of_lt r i _ (by omega)]

theorem sumLoop_total {α : Type} [LinearOrder α] [Zero α] [Add α] [Sub α] [Mul α]
    (data : List (List α))
    (assign : List Nat) (N k D : Nat) (hd : Rect N D data) (ha : assign.length = N)
    (hak : ∀ p, p < N → assign.getD p 0 < k) (counts : List Nat) (sums : List (List α))
    (hcn : counts.length = k) (hs : Rect k D sums) :
    ∃ st, sumLoop data assign counts sums = .ok st ∧ st.1.length = k ∧ Rect k D st.2 := by
  unfold sumLoop
  rw [hd.1]
  refine loopM_inv N _ (counts, sums) (fun _ st => st.1.length = k ∧ Rect k D st.2)
    ⟨hcn, hs⟩ ?_
  intro n hn st hI
  beta_reduce
  have hc := hak n hn
  obtain ⟨r, hr, hrl⟩ := accumAdd_total (st.2.getD (assign.getD n 0) []) (data.getD n [])
    (by rw [hI.2.2 _ hc, hd.2 n hn])
  refine ⟨(st.1.set (assign.getD n 0) (st.1.getD (assign.getD n 0) 0 + 1),
    st.2.set (assign.getD n 0) r), ?_, by rw [List.length_set]; exact hI.1, ?_⟩
  · rw [getAt_getD assign n 0 (by rw [ha]; exact hn), ok_bind,
      getAt_getD st.1 _ 0 (by rw [hI.1]; exact hc), ok_bind,
      setAt_of_lt _ _ _ (by rw [hI.1]; exact hc), ok_bind,
      getAt_getD st.2 _ [] (by rw [hI.2.1]; exact hc), ok_bind,
      getAt_getD data n [] (by rw [hd.1]; exact hn), ok_bind, hr, ok_bind,
      setAt_of_lt _ _ _ (by rw [hI.2.1]; exact hc), ok_bind]
    rfl
  · exact rect_set hI.2 _ _ (by rw [hrl, hI.2.2 _ hc])

theorem scaleLoop_total {α : Type} [LinearOrder α] [Zero α] [Add α] [Sub α] [Mul α] (D : Nat)
    (inv : α) (row : List α)
    (h : row.length = D) : ∃ r, scaleLoop D inv row = .ok r ∧ r.length = D := by
  unfold scaleLoop
  refine loopM_inv D _ row (fun _ r => r.length = D) h ?_
  intro d hd r hr
  beta_reduce
  refine ⟨r.set d (r.getD d 0 * inv), ?_, by rw [List.length_set]; exact hr⟩
  rw [getAt_of_lt r d (by omega), ok_bind, setAt_of_lt _ _ _ (by omega)]

theorem updateLoop_total {α : Type} [LinearOrder α] [Zero α] [One α] [Add α] [Sub α] [Mul α] [Neg α]
    [Div α] [NatCast α] (k D : Nat) (counts : List Nat)
    (sums cents : List (List α)) (hcn : counts.length = k) (hs : Rect k D sums)
    (hc : Rect k D cents) :
    ∃ c2, updateLoop k D counts sums cents = .ok c2 ∧ Rect k D c2 := by
  unfold updateLoop
  refine loopM_inv k _ cents (fun _ c => Rect k D c) hc ?_
  intro j hj c hI
  beta_reduce
  rw [getAt_getD counts j 0 (by omega), ok_bind]
  by_cases h0 : counts.getD j 0 = 0
  · rw [if_pos h0]
    exact ⟨c, rfl, hI⟩
  · rw [if_neg h0, getAt_getD sums j [] (by rw [hs.1]; exact hj), ok_bind]
    obtain ⟨r, hr, hrl⟩ := scaleLoop_total D (1 / (counts.getD j 0 : α)) (sums.getD j [])
      (hs.2 j hj)
    rw [hr, ok_bind, setAt_of_lt _ _ _ (by rw [hI.1]; exact hj)]
    exact ⟨_, rfl, rect_set hI _ _ hrl⟩

theorem kmeansIter_total {α : Type} [LinearOrder α] [Zero α] [One α] [Add α] [Sub α] [Mul α] [Neg α]
    [Div α] [NatCast α] (big : α) (data : List (List α))
    (N k D : Nat) (hd : Rect N D data) (hk : 1 ≤ k) (st : List (List α) × List Nat)
    (hc : Rect k D st.1) (ha : st.2.length = N) :
    ∃ st2, kmeansIter big data k D st = .ok st2 ∧ Rect k D st2.1 ∧ st2.2.length = N := by
  unfold kmeansIter
  obtain ⟨a2, h1, h2, h3⟩ := assignLoop_total big data st.1 N k D hd hc hk st.2 ha
  obtain ⟨cs, h4, h5, h6⟩ := sumLoop_total data a2 N k D hd h2 h3 (List.replicate k 0)
    (List.replicate k (List.replicate D 0)) (List.length_replicate _ _) (rect_replicate k D)
  obtain ⟨c2, h7, h8⟩ := updateLoop_total k D cs.1 cs.2 st.1 h5 h6 hc
  rw [h1, ok_bind, h4, ok_bind, h7, ok_bind]
  exact ⟨_, rfl, h8, h2⟩

theorem flattenLoop_total {α : Type} [LinearOrder α] [Zero α] [Add α] [Sub α] [Mul α] (k D : Nat)
    (cents : List (List α))
    (hc : Rect k D cents) : ∃ flat, flattenLoop k D cents = .ok flat ∧ flat.length = k * D := by
  unfold flattenLoop
  refine loopM_inv k _ _ (fun _ (f : List α) => f.length = k * D) (List.length_replicate _ _) ?_
  intro j hj f hf
  beta_reduce
  have hle : (j + 1) * D ≤ k * D := Nat.mul_le_mul_right _ (by omega)
  rw [getAt_getD cents j [] (by rw [hc.1]; exact hj), ok_bind, if_neg (by omega)]
  refine loopM_inv _ _ f (fun _ (f : List α) => f.length = k * D) hf ?_
  intro t ht g hg
  beta_reduce
  have : t < D := lt_of_lt_of_le ht (Nat.min_le_left _ _)
  rw [Nat.succ_mul] at hle
  exact ⟨_, setAt_of_lt _ _ _ (by omega), by rw [List.length_set]; exact hg⟩

/-! ## `kmeans`, `TrainPQ` and `Encode` return -/

theorem rect_cons_head {α : Type} {N D : Nat} {v0 : List α} {rest : List (List α)}
    (h : Rect N D (v0 :: rest)) : v0.length = D ∧ 1 ≤ N := by
  have hN : 1 ≤ N := by rw [← h.1]; simp
  exact ⟨h.2 0 (by omega), hN⟩

theorem kmeans_total {α : Type} [LinearOrder α] [Zero α] [One α] [Add α] [Sub α] [Mul α] [Neg α]
    [Div α] [NatCast α] (big : α) (permN : List Nat)
    (data : List (List α)) (N k D iters : Nat) (hd : Rect N D data) (hN : 1 ≤ N) (hk : 1 ≤ k)
    (hp : k ≤ permN.length) (hpx : ∀ x ∈ permN, x < N) :
    ∃ flat, kmeans big permN data k iters = .ok flat ∧ flat.length = k * D := by
  cases data with
  | nil => have := hd.1; simp at this; omega
  | cons v0 rest =>
    have hv0 := (rect_cons_head hd).1
    unfold kmeans
    simp only []
    have hidx : sliceChecked permN 0 k = .ok ((permN.drop 0).take (k - 0)) := by
      unfold sliceChecked
      rw [if_pos ⟨by omega, hp⟩]
    rw [hidx, ok_bind, List.drop_zero, Nat.sub_zero, hv0]
    obtain ⟨cents, hc1, hc2, hc3⟩ := loopM_inv k
      (fun i cents => do
        let ix ← getAt (permN.take k) i
        let v ← getAt (v0 :: rest) ix
        setAt cents i (copyInto D v)) (List.replicate k ([] : List α))
      (fun i c => c.length = k ∧ ∀ p, p < i → (c.getD p []).length = D)
      ⟨List.length_replicate _ _, fun p hp => absurd hp (Nat.not_lt_zero _)⟩
      (by
        intro i hi c hI
        beta_reduce
        have hil : i < (permN.take k).length := by rw [List.length_take]; omega
        have hmem : (permN.take k).getD i 0 ∈ permN := by
          rw [List.getD_eq_getElem _ _ hil]
          exact List.mem_of_mem_take (List.getElem_mem _)
        rw [getAt_getD _ i 0 hil, ok_bind,
          getAt_getD (v0 :: rest) _ [] (by rw [hd.1]; exact hpx _ hmem), ok_bind,
          setAt_of_lt _ _ _ (by rw [hI.1]; exact hi)]
        refine ⟨_, rfl, by rw [List.length_set]; exact hI.1, ?_⟩
        intro p hp
        rw [getD_set _ _ _ _ _ (by rw [hI.1]; exact hi)]
        by_cases hpi : p = i
        · rw [if_pos hpi]; exact length_copyInto _ _
        · rw [if_neg hpi]; exact hI.2 p (by omega))
    rw [hc1, ok_bind]
    obtain ⟨st, hs1, hs2, hs3⟩ := loopM_inv iters
      (fun _ st => kmeansIter big (v0 :: rest) k D st)
      (cents, List.replicate (v0 :: rest).length 0)
      (fun _ st => Rect k D st.1 ∧ st.2.length = N)
      ⟨⟨hc2, hc3⟩, by rw [List.length_replicate]; exact hd.1⟩
      (by
        intro i _ st hI
        exact kmeansIter_total big (v0 :: rest) N k D hd hk st hI.1 hI.2)
    rw [hs1, ok_bind]
    exact flattenLoop_total k D st.1 hs2

theorem subsLoop_total {α : Type} (data : List (List α)) (N D0 i dsub : Nat)
    (hd : Rect N D0 data) (hle : (i + 1) * dsub ≤ D0) :
    ∃ subs, subsLoop data i dsub = .ok subs ∧ Rect N dsub subs := by
  unfold subsLoop
  rw [hd.1]
  obtain ⟨s, h1, h2, h3⟩ := loopM_inv N
    (fun n subs => do
      let v ← getAt data n
      let s ← sliceChecked v (i * dsub) ((i + 1) * dsub)
      setAt subs n s) (List.replicate N ([] : List α))
    (fun n s => s.length = N ∧ ∀ p, p < n → (s.getD p []).length = dsub)
    ⟨List.length_replicate _ _, fun p hp => absurd hp (Nat.not_lt_zero _)⟩
    (by
      intro n hn s hI
      beta_reduce
      have hsl : sliceChecked (data.getD n []) (i * dsub) ((i + 1) * dsub)
          = .ok (((data.getD n []).drop (i * dsub)).take ((i + 1) * dsub - i * dsub)) := by
        unfold sliceChecked
        rw [if_pos ⟨Nat.mul_le_mul_right _ (by omega), by rw [hd.2 n hn]; exact hle⟩]
      rw [getAt_getD data n [] (by rw [hd.1]; exact hn), ok_bind, hsl, ok_bind,
        setAt_of_lt _ _ _ (by rw [hI.1]; exact hn)]
      refine ⟨_, rfl, by rw [List.length_set]; exact hI.1, ?_⟩
      intro p hp
      rw [getD_set _ _ _ _ _ (by rw [hI.1]; exact hn)]
      by_cases hpn : p = n
      · rw [if_pos hpn, List.length_take, List.length_drop, hd.2 n hn]
        rw [Nat.succ_mul] at hle ⊢
        omega
      · rw [if_neg hpn]; exact hI.2 p (by omega))
  exact ⟨s, h1, h2, h3⟩

/-- The number of centroids `TrainPQ` trains: `k` clamped to `1 .. N`. -/
theorem clampK (k N : Nat) (hN : 1 ≤ N) :
    (if (if k > N then N else k) < 1 then 1 else (if k > N then N else k))
      = max 1 (min k N) := by
  split_ifs <;> omega

theorem TrainPQ_total {α : Type} [LinearOrder α] [Zero α] [One α] [Add α] [Sub α] [Mul α] [Neg α]
    [Div α] [NatCast α] (big : α)
    (perm : Nat → Nat → List Nat) (data : List (List α)) (N D0 m k iters : Nat)
    (hd : Rect N D0 data) (hN : 1 ≤ N) (hm : 1 ≤ m)
    (hperm : ∀ i, (perm i N).length = N ∧ ∀ x ∈ perm i N, x < N) :
    ∃ pq, TrainPQ big perm data m k iters = .ok pq ∧ pq.M = m ∧ pq.K = max 1 (min k N) ∧
      pq.Dsub = D0 / m ∧ Rect m (max 1 (min k N) * (D0 / m)) pq.Codebooks := by
  cases data with
  | nil => have := hd.1; simp at this; omega
  | cons v0 rest =>
    have hv0 := (rect_cons_head hd).1
    have hlen : (v0 :: rest).length = N := hd.1
    unfold TrainPQ
    simp only []
    rw [if_neg (by omega), hlen, clampK k N hN, hv0]
    obtain ⟨cbs, h1, h2, h3⟩ := loopM_inv m
      (fun i cbs => do
        let subs ← subsLoop (v0 :: rest) i (D0 / m)
        let cb ← kmeans big (perm i N) subs (max 1 (min k N)) iters
        setAt cbs i cb) (List.replicate m ([] : List α))
      (fun i c => c.length = m ∧ ∀ p, p < i → (c.getD p []).length = max 1 (min k N) * (D0 / m))
      ⟨List.length_replicate _ _, fun p hp => absurd hp (Nat.not_lt_zero _)⟩
      (by
        intro i hi c hI
        beta_reduce
        have hle : (i + 1) * (D0 / m) ≤ D0 :=
          le_trans (Nat.mul_le_mul_right _ (by omega)) (Nat.mul_div_le D0 m)
        obtain ⟨subs, hs1, hs2⟩ := subsLoop_total (v0 :: rest) N D0 i (D0 / m) hd hle
        obtain ⟨flat, hf1, hf2⟩ := kmeans_total big (perm i N) subs N (max 1 (min k N))
          (D0 / m) iters hs2 hN (by omega) (by rw [(hperm i).1]; omega) (hperm i).2
        rw [hs1, ok_bind, hf1, ok_bind, setAt_of_lt _ _ _ (by rw [hI.1]; exact hi)]
        refine ⟨_, rfl, by rw [List.length_set]; exact hI.1, ?_⟩
        intro p hp
        rw [getD_set _ _ _ _ _ (by rw [hI.1]; exact hi)]
        by_cases hpi : p = i
        · rw [if_pos hpi]; exact hf2
        · rw [if_neg hpi]; exact hI.2 p (by omega))
    rw [h1, ok_bind]
    exact ⟨_, rfl, rfl, rfl, rfl, h2, h3⟩

theorem encode_shape {α : Type} [LinearOrder α] [Zero α] [Add α] [Sub α] [Mul α] (big : α)
    (pq : PQ α)
    (data : List (List α)) (N D0 : Nat) (hd : Rect N D0 data) (hN : 1 ≤ N)
    (hcb : Rect pq.M (pq.K * pq.Dsub) pq.Codebooks) (hle : pq.M * pq.Dsub ≤ D0) :
    ∃ codes, PQ.Encode big pq data = .ok codes ∧ Rect N pq.M codes ∧
      ∀ row ∈ codes, isBytes row := by
  unfold PQ.Encode
  rw [if_neg (by rw [hd.1]; omega), hd.1]
  have hinit : Rect N pq.M (List.replicate N (List.replicate pq.M 0)) ∧
      ∀ row ∈ List.replicate N (List.replicate pq.M 0), isBytes row := by
    refine ⟨rect_replicate N pq.M, ?_⟩
    intro row hrow b hb
    rw [List.eq_of_mem_replicate hrow] at hb
    rw [List.eq_of_mem_replicate hb]
    omega
  refine loopM_inv pq.M _ _ (fun _ c => Rect N pq.M c ∧ ∀ row ∈ c, isBytes row) hinit ?_
  intro i hi c hI
  beta_reduce
  have hil : i < pq.Codebooks.length := by rw [hcb.1]; exact hi
  rw [List.getElem?_eq_getElem hil, ← List.getD_eq_getElem _ [] hil]
  simp only []
  refine loopM_inv N _ c (fun _ c => Rect N pq.M c ∧ ∀ row ∈ c, isBytes row) hI ?_
  intro n hn c2 hI2
  beta_reduce
  have hv : (i + 1) * pq.Dsub ≤ (data.getD n []).length := by
    rw [hd.2 n hn]
    exact le_trans (Nat.mul_le_mul_right _ (by omega)) hle
  obtain ⟨st, hst, _⟩ := bestLoop_spec big (data.getD n []) (pq.Codebooks.getD i []) i
    pq.Dsub pq.K hv (le_of_eq (hcb.2 i hi).symm) pq.K 0 (0, big) (by omega)
    (Or.inl ⟨rfl, rfl, fun t ht => absurd ht (Nat.not_lt_zero _)⟩)
  have hrl : i < (c2.getD n []).length := by rw [hI2.1.2 n hn]; exact hi
  have hnl : n < c2.length := by rw [hI2.1.1]; exact hn
  rw [getAt_getD data n [] (by rw [hd.1]; exact hn), ok_bind, hst, ok_bind,
    getAt_getD c2 n [] hnl, ok_bind, setAt_of_lt _ _ _ hrl, ok_bind, setAt_of_lt _ _ _ hnl]
  refine ⟨_, rfl, rect_set hI2.1 _ _ (by rw [List.length_set]; exact hI2.1.2 n hn), ?_⟩
  intro row hrow
  rcases List.mem_or_eq_of_mem_set hrow with h | h
  · exact hI2.2 row h
  · rw [h]
    intro b hb
    rcases List.mem_or_eq_of_mem_set hb with h2 | h2
    · have hmem : c2.getD n [] ∈ c2 := by
        rw [List.getD_eq_getElem _ _ hnl]; exact List.getElem_mem _
      exact hI2.2 _ hmem b h2
    · rw [h2]; exact Nat.mod_lt _ (by omega)

/-! ## The payloads `ConvertLayer` writes -/

theorem length_fp32to16 (u : Nat) : (fp32to16 u).length = 2 := by
  rw [fp32to16_bytes]
  rfl

theorem length_fp16bytes {α : Type} (bitsOf : α → Nat) (f : List α) :
    (fp16bytes bitsOf f).length = 2 * f.length := by
  unfold fp16bytes
  induction f with
  | nil => rfl
  | cons v f ih =>
    rw [List.map_cons, List.flatten_cons, List.length_append, ih, length_fp32to16,
      List.length_cons]
    omega

theorem length_float32SliceToBytes {α : Type} (bitsOf : α → Nat) (a : List α) :
    (float32SliceToBytes bitsOf a).length = 4 * a.length := by
  unfold float32SliceToBytes
  induction a with
  | nil => rfl
  | cons v a ih =>
    rw [List.map_cons, List.flatten_cons, List.length_append, ih, List.length_cons]
    show 4 + 4 * a.length = 4 * (a.length + 1)
    omega

theorem codebookLoop_total {α : Type} (bitsOf : α → Nat) (m L : Nat) (cbs : List (List α))
    (h : Rect m L cbs) :
    ∃ b, codebookLoop bitsOf m cbs = .ok b ∧ b.length = m * (4 * L) := by
  unfold codebookLoop
  obtain ⟨b, h1, h2⟩ := loopM_inv m
    (fun i rb => do
      let cb ← getAt cbs i
      pure (rb ++ float32SliceToBytes bitsOf cb)) ([] : Bytes)
    (fun i (b : Bytes) => b.length = i * (4 * L)) (by simp)
    (by
      intro i hi b hb
      beta_reduce
      rw [getAt_getD cbs i [] (by rw [h.1]; exact hi), ok_bind]
      refine ⟨_, rfl, ?_⟩
      rw [List.length_append, hb, length_float32SliceToBytes, h.2 i hi]
      ring)
  exact ⟨b, h1, h2⟩

theorem codesLoop_total (n M : Nat) (codes : List (List Nat)) (h : Rect n M codes) :
    ∃ b, codesLoop n codes = .ok b ∧ b.length = n * M := by
  unfold codesLoop
  obtain ⟨b, h1, h2⟩ := loopM_inv n
    (fun i rb => do
      let row ← getAt codes i
      pure (rb ++ row)) ([] : Bytes)
    (fun i (b : Bytes) => b.length = i * M) (by simp)
    (by
      intro i hi b hb
      beta_reduce
      rw [getAt_getD codes i [] (by rw [h.1]; exact hi), ok_bind]
      refine ⟨_, rfl, ?_⟩
      rw [List.length_append, hb, h.2 i hi]
      ring)
  exact ⟨b, h1, h2⟩

theorem pad_length (n0 : Nat) : n0 + (128 - n0 % 128) % 128 = 128 * ((n0 + 127) / 128) := by
  omega

/-- The vectors cut from the padded residual: `N` rows of 128 values. -/
theorem chunks_rect {α : Type} (flat : List α) (N : Nat) (h : flat.length = 128 * N) :
    Rect N 128 ((List.range (flat.length / 128)).map
      (fun i => (flat.drop (i * 128)).take 128)) := by
  have hN : flat.length / 128 = N := by omega
  rw [hN]
  refine ⟨by rw [List.length_map, List.length_range], ?_⟩
  intro p hp
  rw [List.getD_eq_getElem _ _ (by rw [List.length_map, List.length_range]; exact hp),
    List.getElem_map, List.getElem_range, List.length_take, List.length_drop]
  omega

theorem layerM_dvd (PQm : Nat) (h : 1 ≤ PQm) :
    1 ≤ (if 128 % PQm ≠ 0 then 128 / 8 else PQm) ∧
    (if 128 % PQm ≠ 0 then 128 / 8 else PQm) ∣ 128 ∧
    (if 128 % PQm ≠ 0 then 128 / 8 else PQm) ≤ 128 := by
  by_cases hd : 128 % PQm ≠ 0
  · rw [if_pos hd]
    exact ⟨by norm_num, by norm_num, by norm_num⟩
  · rw [if_neg hd]
    have hdvd : PQm ∣ 128 := Nat.dvd_of_mod_eq_zero (not_not.mp hd)
    exact ⟨h, hdvd, Nat.le_of_dvd (by norm_num) hdvd⟩

/-- Under the contracts of the SVD step and of `rng.Perm`, `ConvertLayer` returns, and what it
returns. -/
theorem ConvertLayer_total {α : Type} [LinearOrder α] [Zero α] [One α] [Add α] [Sub α] [Mul α]
    [Neg α] [Div α] [NatCast α]
    (lowRank : Nat → Nat → List α → Int → Res (List α)) (bitsOf : α → Nat)
    (perm : Nat → Nat → List Nat) (big : α) (spec : LayerSpec α) (cfg : Config) (L0 : List α)
    (hdata : spec.Data.length = spec.Rows * spec.Cols) (hne : 1 ≤ spec.Rows * spec.Cols)
    (hL : lowRank spec.Rows spec.Cols spec.Data cfg.Rank = .ok L0)
    (hLlen : L0.length = spec.Rows * spec.Cols) (hm : 1 ≤ cfg.PQm)
    (hperm : ∀ i N, (perm i N).length = N ∧ ∀ x ∈ perm i N, x < N) :
    ∃ (dec : Decomp α) (cb codes : Bytes),
      ConvertLayer lowRank bitsOf perm big spec cfg
        = .ok [{ Typ := 3, Scope := spec.Scope, Comp := 0,
                 Data := putU32 (spec.Rows % 2 ^ 32) ++ putU32 (spec.Cols % 2 ^ 32)
                   ++ fp16bytes bitsOf dec.D },
               { Typ := 0, Scope := spec.Scope, Comp := 0,
                 Data := putU32 (spec.Rows % 2 ^ 32) ++ putU32 (spec.Cols % 2 ^ 32)
                   ++ fp16bytes bitsOf dec.L },
               { Typ := 1, Scope := spec.Scope, Comp := 0,
                 Data := putU32 (spec.Rows % 2 ^ 32) ++ putU32 (spec.Cols % 2 ^ 32)
                   ++ putU16 (128 % 2 ^ 16)
                   ++ putU16 ((if 128 % cfg.PQm ≠ 0 then 128 / 8 else cfg.PQm) % 2 ^ 16)
                   ++ putU16 (max 1 (min cfg.PQk ((spec.Rows * spec.Cols + 127) / 128)) % 2 ^ 16)
                   ++ putU32 ((spec.Rows * spec.Cols + 127) / 128 % 2 ^ 32) ++ cb ++ codes },
               { Typ := 2, Scope := spec.Scope, Comp := 0,
                 Data := putU32 (spec.Rows % 2 ^ 32) ++ putU32 (spec.Cols % 2 ^ 32)
                   ++ putU32 (dec.Sind.length % 2 ^ 32)
                   ++ (dec.Sind.map
                        (fun ij => putU32 (ofInt32 ij.1) ++ putU32 (ofInt32 ij.2))).flatten
                   ++ float32SliceToBytes bitsOf dec.Sval }] ∧
      decomposeNDSQ lowRank spec.Rows spec.Cols spec.Data cfg.Rank cfg.Qnum cfg.Qden = .ok dec ∧
      dec.D.length = spec.Rows * spec.Cols ∧ dec.L.length = spec.Rows * spec.Cols ∧
      cb.length = (if 128 % cfg.PQm ≠ 0 then 128 / 8 else cfg.PQm)
        * (4 * (max 1 (min cfg.PQk ((spec.Rows * spec.Cols + 127) / 128))
          * (128 / (if 128 % cfg.PQm ≠ 0 then 128 / 8 else cfg.PQm)))) ∧
      codes.length = (spec.Rows * spec.Cols + 127) / 128
        * (if 128 % cfg.PQm ≠ 0 then 128 / 8 else cfg.PQm) ∧
      isBytes codes := by
  obtain ⟨th, dec, hdec, hLd, _, hDl, hRl, _, _, _, _⟩ :=
    decompose_spec lowRank spec.Rows spec.Cols spec.Data L0 cfg.Rank cfg.Qnum cfg.Qden hdata hL
      hLlen
  obtain ⟨hm1, hmd, hm128⟩ := layerM_dvd cfg.PQm hm
  generalize hmdef : (if 128 % cfg.PQm ≠ 0 then 128 / 8 else cfg.PQm) = m at *
  set n := (spec.Rows * spec.Cols + 127) / 128 with hn
  have hn1 : 1 ≤ n := by omega
  have hflat : (dec.R ++ List.replicate ((128 - dec.R.length % 128) % 128) (0 : α)).length
      = 128 * n := by
    rw [List.length_append, List.length_replicate, hRl, pad_length]
  have hfn : (dec.R ++ List.replicate ((128 - dec.R.length % 128) % 128) (0 : α)).length / 128
      = n := by omega
  have hrect := chunks_rect _ n hflat
  obtain ⟨pq, hpq, hM, hK, hDs, hcbs⟩ := TrainPQ_total big perm _ n 128 m cfg.PQk 25 hrect hn1
    hm1 (fun i => hperm i n)
  have hmul : m * (128 / m) = 128 := Nat.mul_div_cancel' hmd
  obtain ⟨codes, hcodes, hcr, hcb⟩ := encode_shape big pq _ n 128 hrect hn1
    (by rw [hM, hK, hDs]; exact hcbs) (by rw [hM, hDs, hmul])
  obtain ⟨cbB, hcbB, hcbl⟩ := codebookLoop_total bitsOf m _ pq.Codebooks hcbs
  rw [hM] at hcr
  obtain ⟨cdB, hcdB, hcdl⟩ := codesLoop_total n m codes hcr
  refine ⟨dec, cbB, cdB, ?_, hdec, hDl, by rw [hLd]; exact hLlen, hcbl, hcdl, ?_⟩
  · unfold ConvertLayer
    rw [hdec, ok_bind]
    simp only []
    rw [if_neg (by omega), hmdef, hpq, ok_bind, hcodes, ok_bind, hcbB, ok_bind, hfn, hcdB,
      ok_bind, hK]
    rfl
  · -- the code bytes are the rows of `codes`, appended
    have hall : ∀ (k : Nat) (b : Bytes), k ≤ n →
        loopM k (fun i rb => do
          let row ← getAt codes i
          pure (rb ++ row)) ([] : Bytes) = .ok b → isBytes b := by
      intro k
      induction k with
      | zero => intro b _ h; cases h; intro x hx; cases hx
      | succ k ih =>
        intro b hk h
        rw [loopM_succ] at h
        obtain ⟨b0, hb0, h2⟩ := bind_eq_ok _ _ _ h
        rw [getAt_getD codes k [] (by rw [hcr.1]; omega), ok_bind] at h2
        cases h2
        intro x hx
        rcases List.mem_append.mp hx with h3 | h3
        · exact ih b0 (by omega) hb0 x h3
        · have hmem : codes.getD k [] ∈ codes := by
            rw [List.getD_eq_getElem _ _ (by rw [hcr.1]; omega)]; exact List.getElem_mem _
          exact hcb _ hmem x h3
    exact hall n cdB (le_refl _) hcdB

/-! ## Reading the heads of the payloads back -/

theorem shape_head (a b : Nat) (rest : Bytes) (ha : a < 2 ^ 32) (hb : b < 2 ^ 32) :
    le32 (putU32 (a % 2 ^ 32) ++ putU32 (b % 2 ^ 32) ++ rest) 0 = a ∧
    le32 (putU32 (a % 2 ^ 32) ++ putU32 (b % 2 ^ 32) ++ rest) 4 = b := by
  rw [Nat.mod_eq_of_lt ha, Nat.mod_eq_of_lt hb]
  constructor
  · rw [List.append_assoc]
    exact le32_putU32 a _ ha
  · rw [List.append_assoc]
    have := le32_append_right (putU32 a) (putU32 b ++ rest) 0
    rw [length_putU32] at this
    rw [this]
    exact le32_putU32 b _ hb

theorem r_head (a b d m k n : Nat) (hd : d < 2 ^ 16) (hm : m < 2 ^ 16) (hk : k < 2 ^ 16)
    (hn : n < 2 ^ 32) :
    (putU32 a ++ putU32 b ++ putU16 d ++ putU16 m ++ putU16 k ++ putU32 n).length = 18 ∧
    le16 (putU32 a ++ putU32 b ++ putU16 d ++ putU16 m ++ putU16 k ++ putU32 n) 8 = d ∧
    le16 (putU32 a ++ putU32 b ++ putU16 d ++ putU16 m ++ putU16 k ++ putU32 n) 10 = m ∧
    le16 (putU32 a ++ putU32 b ++ putU16 d ++ putU16 m ++ putU16 k ++ putU32 n) 12 = k ∧
    le32 (putU32 a ++ putU32 b ++ putU16 d ++ putU16 m ++ putU16 k ++ putU32 n) 14 = n := by
  refine ⟨rfl, ?_, ?_, ?_, ?_⟩
  · simp [le16, putU32, putU16, byteAt]; omega
  · simp [le16, putU32, putU16, byteAt]; omega
  · simp [le16, putU32, putU16, byteAt]; omega
  · simp [le32, putU32, putU16, byteAt]; omega

theorem byteAt_append_left (h rest : Bytes) (i : Nat) (hi : i < h.length) :
    byteAt (h ++ rest) i = byteAt h i := by
  unfold byteAt
  rw [List.getD_eq_getElem?_getD, List.getD_eq_getElem?_getD, List.getElem?_append_left hi]

theorem le16_append_left (h rest : Bytes) (i : Nat) (hi : i + 2 ≤ h.length) :
    le16 (h ++ rest) i = le16 h i := by
  unfold le16
  rw [byteAt_append_left h rest i (by omega), byteAt_append_left h rest (i + 1) (by omega)]

theorem le32_append_left (h rest : Bytes) (i : Nat) (hi : i + 4 ≤ h.length) :
    le32 (h ++ rest) i = le32 h i := by
  unfold le32
  rw [byteAt_append_left h rest i (by omega), byteAt_append_left h rest (i + 1) (by omega),
    byteAt_append_left h rest (i + 2) (by omega), byteAt_append_left h rest (i + 3) (by omega)]

theorem identPerm_ok (i N : Nat) :
    (identPerm i N).length = N ∧ ∀ x ∈ identPerm i N, x < N :=
  ⟨List.length_range N, fun _ hx => List.mem_range.mp hx⟩

theorem setAt_length {α : Type} (l : List α) (i : Nat) (v : α) (l2 : List α)
    (h : setAt l i v = .ok l2) : l2.length = l.length := by
  unfold setAt at h
  split at h
  · cases h; exact List.length_set _ _ _
  · cases h

theorem decompose_lengths {α : Type} [LinearOrder α] [Zero α] [Sub α] [Neg α]
    (lowRank : Nat → Nat → List α → Int → Res (List α)) (rows cols : Nat) (data : List α)
    (rank : Int) (qnum : Int) (qden : Nat) (dec : Decomp α)
    (h : decomposeNDSQ lowRank rows cols data rank qnum qden = .ok dec) :
    dec.D.length = rows * cols ∧ dec.L.length = rows * cols := by
  unfold decomposeNDSQ at h
  split at h
  · cases h
  · obtain ⟨l64, _, h2⟩ := bind_eq_ok _ _ _ h
    split at h2
    · cases h2
    · rename_i hl
      obtain ⟨resid, _, h3⟩ := bind_eq_ok _ _ _ h2
      obtain ⟨dr, hdr, h4⟩ := bind_eq_ok _ _ _ h3
      obtain ⟨th, _, h5⟩ := bind_eq_ok _ _ _ h4
      obtain ⟨s, _, h6⟩ := bind_eq_ok _ _ _ h5
      cases h6
      constructor
      · show dr.1.length = rows * cols
        unfold diagLoop at hdr
        have := loopM_ok_pres (fun st : List α × List α => st.1.length = rows * cols) _ _
          (by
            intro i st t hs ht
            obtain ⟨v, _, h7⟩ := bind_eq_ok _ _ _ ht
            obtain ⟨D2, hD2, h8⟩ := bind_eq_ok _ _ _ h7
            obtain ⟨r2, _, h9⟩ := bind_eq_ok _ _ _ h8
            cases h9
            show D2.length = rows * cols
            rw [setAt_length _ _ _ _ hD2]; exact hs)
          _ _ (List.length_replicate _ _) hdr
        exact this
      · show (l64 ++ List.replicate (rows * cols - l64.length) 0).length = rows * cols
        rw [List.length_append, List.length_replicate]
        omega

/-- What a successful call of `ConvertLayer` returns. -/
theorem ConvertLayer_ok {α : Type} [LinearOrder α] [Zero α] [One α] [Add α] [Sub α] [Mul α] [Neg α]
    [Div α] [NatCast α]
    (lowRank : Nat → Nat → List α → Int → Res (List α)) (bitsOf : α → Nat)
    (perm : Nat → Nat → List Nat) (big : α) (spec : LayerSpec α) (cfg : Config)
    (shards : List ShardOut) (h : ConvertLayer lowRank bitsOf perm big spec cfg = .ok shards) :
    ∃ (dec : Decomp α) (rtail stail : Bytes),
      decomposeNDSQ lowRank spec.Rows spec.Cols spec.Data cfg.Rank cfg.Qnum cfg.Qden = .ok dec ∧
      shards = [ShardOut.mk 3 spec.Scope 0
                 (putU32 (spec.Rows % 2 ^ 32) ++ putU32 (spec.Cols % 2 ^ 32)
                   ++ fp16bytes bitsOf dec.D),
               ShardOut.mk 0 spec.Scope 0
                 (putU32 (spec.Rows % 2 ^ 32) ++ putU32 (spec.Cols % 2 ^ 32)
                   ++ fp16bytes bitsOf dec.L),
               ShardOut.mk 1 spec.Scope 0
                 (putU32 (spec.Rows % 2 ^ 32) ++ putU32 (spec.Cols % 2 ^ 32) ++ rtail),
               ShardOut.mk 2 spec.Scope 0
                 (putU32 (spec.Rows % 2 ^ 32) ++ putU32 (spec.Cols % 2 ^ 32) ++ stail)] := by
  unfold ConvertLayer at h
  obtain ⟨dec, hdec, h2⟩ := bind_eq_ok _ _ _ h
  simp only [] at h2
  split at h2
  · cases h2
  · obtain ⟨pq, _, h3⟩ := bind_eq_ok _ _ _ h2
    obtain ⟨codes, _, h4⟩ := bind_eq_ok _ _ _ h3
    obtain ⟨cb, _, h5⟩ := bind_eq_ok _ _ _ h4
    obtain ⟨cd, _, h6⟩ := bind_eq_ok _ _ _ h5
    cases h6
    refine ⟨dec,
      putU16 (128 % 2 ^ 16)
        ++ putU16 ((if 128 % cfg.PQm ≠ 0 then 128 / 8 else cfg.PQm) % 2 ^ 16)
        ++ putU16 (pq.K % 2 ^ 16)
        ++ putU32 ((dec.R ++ List.replicate ((128 - dec.R.length % 128) % 128) 0).length
            / 128 % 2 ^ 32) ++ cb ++ cd,
      putU32 (dec.Sind.length % 2 ^ 32)
        ++ (dec.Sind.map (fun ij => putU32 (ofInt32 ij.1) ++ putU32 (ofInt32 ij.2))).flatten
        ++ float32SliceToBytes bitsOf dec.Sval, hdec, ?_⟩
    simp only [List.append_assoc]

/-! ## The scan of the shard bank and the TOC loop -/

theorem indexLoop_chain (bank : Bytes) :
    ∀ (fuel off : Nat),
      (∀ r ∈ indexLoop bank fuel off,
        off + 12 ≤ r.Offset ∧ r.Offset + r.Hdr.Csize ≤ bank.length ∧
        r.Hdr = { Typ := byteAt bank (r.Offset - 12)
                  Scope := (byteAt bank (r.Offset - 11) ||| (byteAt bank (r.Offset - 10) <<< 8))
                    % 2 ^ 16
                  Comp := byteAt bank (r.Offset - 9)
                  Usize := le32 bank (r.Offset - 8)
                  Csize := le32 bank (r.Offset - 4) }) ∧
      (∀ r, (indexLoop bank fuel off).head? = some r → r.Offset = off + 12) ∧
      List.Chain' (fun a b : BankRec => b.Offset = a.Offset + a.Hdr.Csize + 12)
        (indexLoop bank fuel off) ∧
      (bank.length < off + 12 * fuel →
        bank.length < scanEnd off (indexLoop bank fuel off) + 12 ∨
        bank.length < scanEnd off (indexLoop bank fuel off) + 12
          + le32 bank (scanEnd off (indexLoop bank fuel off) + 8)) := by
  intro fuel
  induction fuel with
  | zero =>
    intro off
    refine ⟨?_, ?_, ?_, ?_⟩
    · intro r hr; cases hr
    · intro r hr; cases hr
    · exact List.chain'_nil
    · intro h
      left
      show bank.length < off + 12
      omega
  | succ fuel ih =>
    intro off
    by_cases h12 : off + 12 ≤ bank.length
    · by_cases hc : off + 12 + le32 bank (off + 8) > bank.length
      · have hnil : indexLoop bank (fuel + 1) off = [] := by
          show (if off + 12 ≤ bank.length then _ else _) = _
          rw [if_pos h12]
          show (if off + 12 + le32 bank (off + 8) > bank.length then _ else _) = _
          rw [if_pos hc]
        rw [hnil]
        refine ⟨?_, ?_, ?_, ?_⟩
        · intro r hr; cases hr
        · intro r hr; cases hr
        · exact List.chain'_nil
        · intro _
          right
          show bank.length < off + 12 + le32 bank (off + 8)
          omega
      · have hcons : indexLoop bank (fuel + 1) off
            = { Offset := off + 12,
                Hdr := { Typ := byteAt bank (off + 0)
                         Scope := (byteAt bank (off + 1) ||| (byteAt bank (off + 2) <<< 8))
                           % 2 ^ 16
                         Comp := byteAt bank (off + 3)
                         Usize := le32 bank (off + 4)
                         Csize := le32 bank (off + 8) } }
              :: indexLoop bank fuel (off + 12 + le32 bank (off + 8)) := by
          show (if off + 12 ≤ bank.length then _ else _) = _
          rw [if_pos h12]
          show (if off + 12 + le32 bank (off + 8) > bank.length then _ else _) = _
          rw [if_neg hc]
        obtain ⟨ihm, ihh, ihc, ihs⟩ := ih (off + 12 + le32 bank (off + 8))
        rw [hcons]
        refine ⟨?_, ?_, ?_, ?_⟩
        · intro r hr
          rcases List.mem_cons.mp hr with rfl | hr
          · refine ⟨le_refl _, ?_, ?_⟩
            · show off + 12 + le32 bank (off + 8) ≤ bank.length
              omega
            · show _ = ShardHeader.mk _ _ _ _ _
              have e1 : off + 12 - 12 = off + 0 := by omega
              have e2 : off + 12 - 11 = off + 1 := by omega
              have e3 : off + 12 - 10 = off + 2 := by omega
              have e4 : off + 12 - 9 = off + 3 := by omega
              have e5 : off + 12 - 8 = off + 4 := by omega
              have e6 : off + 12 - 4 = off + 8 := by omega
              rw [e1, e2, e3, e4, e5, e6]
          · obtain ⟨h1, h2, h3⟩ := ihm r hr
            exact ⟨by omega, h2, h3⟩
        · intro r hr
          cases hr
          rfl
        · rw [List.chain'_cons']
          refine ⟨?_, ihc⟩
          intro y hy
          have := ihh y (Option.mem_def.mp hy)
          show y.Offset = off + 12 + le32 bank (off + 8) + 12
          exact this
        · intro hf
          show bank.length < scanEnd (off + 12 + le32 bank (off + 8)) _ + 12 ∨ _
          exact ihs (by omega)
    · have hnil : indexLoop bank (fuel + 1) off = [] := by
        show (if off + 12 ≤ bank.length then _ else _) = _
        rw [if_neg h12]
      rw [hnil]
      refine ⟨?_, ?_, ?_, ?_⟩
      · intro r hr; cases hr
      · intro r hr; cases hr
      · exact List.chain'_nil
      · intro _
        left
        show bank.length < off + 12
        omega

theorem indexLoop_stable (bank : Bytes) :
    ∀ fuel, bank.length + 1 ≤ fuel →
      indexLoop bank fuel 0 = indexLoop bank (bank.length + 1) 0 := by
  intro fuel hf
  induction fuel with
  | zero => omega
  | succ n ih =>
    by_cases hn : bank.length + 1 ≤ n
    · rw [indexLoop_fuel bank n 0 (by omega)]
      exact ih hn
    · have : n = bank.length := by omega
      rw [this]

theorem readToc_ok (file : Bytes) :
    ∀ (num off : Nat), off + 24 * num ≤ file.length →
      readToc file num off = .ok ((List.range num).map (fun i =>
        TocEntry.mk (le32 file (off + 24 * i)) (le64 file (off + 24 * i + 4))
          (le64 file (off + 24 * i + 12)) (le32 file (off + 24 * i + 20)))) := by
  intro num
  induction num with
  | zero => intro off _; rfl
  | succ n ih =>
    intro off h
    show (if off + 24 > file.length then _ else _) = _
    rw [if_neg (by omega), ih (off + 24) (by omega)]
    rw [List.range_succ_eq_map, List.map_cons, List.map_map]
    show Except.ok (_ :: _) = _
    congr 2
    apply List.map_congr_left
    intro i _
    show TocEntry.mk _ _ _ _ = TocEntry.mk _ _ _ _
    have e : off + 24 + 24 * i = off + 24 * (i + 1) := by ring
    rw [e]

theorem readToc_short (file : Bytes) :
    ∀ (num off : Nat), off ≤ file.length → file.length < off + 24 * num →
      readToc file num off = .error (.error "unexpected EOF") := by
  intro num
  induction num with
  | zero => intro off h0 h; omega
  | succ n ih =>
    intro off h0 h
    show (if off + 24 > file.length then _ else _) = _
    by_cases h24 : off + 24 > file.length
    · rw [if_pos h24]
    · rw [if_neg h24, ih (off + 24) (by omega) (by omega)]
      rfl

/-! ## The entry loop of `ParseCodebookPool` -/

theorem byteAt_slice (p : Bytes) (a c i : Nat) (h : i < c - a) :
    byteAt (slice p a c) i = byteAt p (a + i) := by
  unfold byteAt slice
  rw [List.getD_eq_getElem?_getD, List.getD_eq_getElem?_getD, List.getElem?_take_of_lt h,
    List.getElem?_drop]

theorem le32_slice (p : Bytes) (a c i : Nat) (h : i + 4 ≤ c - a) :
    le32 (slice p a c) i = le32 p (a + i) := by
  unfold le32
  rw [byteAt_slice p a c i (by omega), byteAt_slice p a c (i + 1) (by omega),
    byteAt_slice p a c (i + 2) (by omega), byteAt_slice p a c (i + 3) (by omega)]
  rfl

theorem parseEntries_step {α : Type} (F : Nat → α) (b : Bytes) (cnt off : Nat)
    (pool : CodebookPool α) (h : ¬ entryBad b off) :
    parseEntries F b (cnt + 1) off pool
      = parseEntries F b cnt (off + 12 + le32 b (off + 8))
          { Entries := entryAt F b off :: pool.Entries } := by
  unfold entryBad at h
  push_neg at h
  obtain ⟨h1, h2, h3⟩ := h
  show (if off + 12 > b.length then _ else _) = _
  rw [if_neg (by omega)]
  show (if off + 12 + le32 b (off + 8) > b.length then _ else _) = _
  rw [if_neg (by omega)]
  show (if le32 b (off + 8) % 4 ≠ 0 then _ else _) = _
  rw [if_neg (by omega)]
  show parseEntries F b cnt _ (CodebookPool.insert pool _ _) = _
  unfold CodebookPool.insert entryAt
  have hmap : (List.range (le32 b (off + 8) / 4)).map
        (fun j => F (le32 (slice b (off + 12) (off + 12 + le32 b (off + 8))) (j * 4)))
      = (List.range (le32 b (off + 8) / 4)).map (fun j => F (le32 b (off + 12 + 4 * j))) := by
    apply List.map_congr_left
    intro j hj
    have hj2 := List.mem_range.mp hj
    rw [le32_slice b (off + 12) (off + 12 + le32 b (off + 8)) (j * 4) (by omega)]
    have e : off + 12 + j * 4 = off + 12 + 4 * j := by omega
    rw [e]
  rw [hmap]

theorem parseEntries_bad {α : Type} (F : Nat → α) (b : Bytes) (cnt off : Nat)
    (pool : CodebookPool α) (h : entryBad b off) :
    ∃ e, parseEntries F b (cnt + 1) off pool = .error e := by
  show ∃ e, (if off + 12 > b.length then _ else _) = _
  by_cases h1 : off + 12 > b.length
  · rw [if_pos h1]; exact ⟨_, rfl⟩
  · rw [if_neg h1]
    show ∃ e, (if off + 12 + le32 b (off + 8) > b.length then _ else _) = _
    by_cases h2 : off + 12 + le32 b (off + 8) > b.length
    · rw [if_pos h2]; exact ⟨_, rfl⟩
    · rw [if_neg h2]
      show ∃ e, (if le32 b (off + 8) % 4 ≠ 0 then _ else _) = _
      have h3 : le32 b (off + 8) % 4 ≠ 0 := by
        rcases h with h | h | h
        · exact absurd h h1
        · exact absurd h h2
        · exact h
      rw [if_pos h3]
      exact ⟨_, rfl⟩

theorem parseEntries_ok {α : Type} (F : Nat → α) (b : Bytes) :
    ∀ (cnt off : Nat) (pool : CodebookPool α),
      (∀ i, i < cnt → ¬ entryBad b (entryOffset b off i)) →
      parseEntries F b cnt off pool
        = .ok { Entries := ((List.range cnt).map (fun i =>
            entryAt F b (entryOffset b off i))).reverse ++ pool.Entries } := by
  intro cnt
  induction cnt with
  | zero => intro off pool _; rfl
  | succ n ih =>
    intro off pool h
    rw [parseEntries_step F b n off pool (h 0 (by omega))]
    rw [ih _ _ (fun i hi => h (i + 1) (by omega))]
    rw [List.range_succ_eq_map, List.map_cons, List.reverse_cons, List.map_map,
      List.append_assoc]
    rfl

theorem parseEntries_err {α : Type} (F : Nat → α) (b : Bytes) :
    ∀ (cnt off : Nat) (pool : CodebookPool α),
      (∃ i, i < cnt ∧ entryBad b (entryOffset b off i)) →
      ∃ e, parseEntries F b cnt off pool = .error e := by
  intro cnt
  induction cnt with
  | zero => rintro off pool ⟨i, hi, _⟩; omega
  | succ n ih =>
    rintro off pool ⟨i, hi, hbad⟩
    by_cases h0 : entryBad b off
    · exact parseEntries_bad F b n off pool h0
    · rw [parseEntries_step F b n off pool h0]
      apply ih
      cases i with
      | zero => exact absurd hbad h0
      | succ j => exact ⟨j, by omega, hbad⟩

theorem mem_of_lookup {β : Type} (l : List (Nat × β)) (k : Nat) (v : β)
    (h : l.lookup k = some v) : (k, v) ∈ l := by
  induction l with
  | nil => cases h
  | cons x xs ih =>
    obtain ⟨a, b⟩ := x
    rw [List.lookup_cons] at h
    by_cases hk : k = a
    · have : (k == a) = true := by simpa using hk
      rw [this] at h
      cases h
      rw [hk]
      exact List.mem_cons_self _ _
    · have : (k == a) = false := by simpa using hk
      rw [this] at h
      exact List.mem_cons_of_mem _ (ih h)

/-! ## Rows of equal length, flattened -/

theorem rect_tail {α : Type} {n D : Nat} {row : List α} {rest : List (List α)}
    (h : Rect n D (row :: rest)) : Rect (n - 1) D rest := by
  refine ⟨by have := h.1; simp at this; omega, ?_⟩
  intro p hp
  have := h.2 (p + 1) (by omega)
  exact this

theorem length_flatten_rect {α : Type} (D : Nat) :
    ∀ (m : List (List α)) (n : Nat), Rect n D m → m.flatten.length = n * D := by
  intro m
  induction m with
  | nil =>
    intro n h
    have : n = 0 := h.1.symm
    rw [this]; simp
  | cons row rest ih =>
    intro n h
    obtain ⟨hrow, hn⟩ := rect_cons_head h
    rw [List.flatten_cons, List.length_append, hrow, ih (n - 1) (rect_tail h)]
    have e : n = (n - 1) + 1 := by omega
    nth_rewrite 2 [e]
    ring

theorem flatten_getD_rect {α : Type} (d : α) (D : Nat) :
    ∀ (m : List (List α)) (n : Nat), Rect n D m → ∀ p j, p < n → j < D →
      m.flatten.getD (p * D + j) d = (m.getD p []).getD j d := by
  intro m
  induction m with
  | nil =>
    intro n h p j hp hj
    have : n = 0 := h.1.symm
    omega
  | cons row rest ih =>
    intro n h p j hp hj
    obtain ⟨hrow, hn⟩ := rect_cons_head h
    rw [List.flatten_cons]
    cases p with
    | zero =>
      rw [Nat.zero_mul, Nat.zero_add, List.getD_append _ _ _ _ (by omega)]
      rfl
    | succ q =>
      rw [List.getD_append_right _ _ _ _ (by rw [hrow, Nat.succ_mul]; omega), hrow,
        show (q + 1) * D + j - D = q * D + j by rw [Nat.succ_mul]; omega,
        ih (n - 1) (rect_tail h) q j (by omega) hj]
      rfl

/-! ## The statement `copy(dst[off:], src)` -/

theorem copyAt_length {α : Type} (dst src : List α) (off : Nat)
    (h : off + src.length ≤ dst.length) : (copyAt dst off src).length = dst.length := by
  unfold copyAt
  rw [List.length_append, List.length_append, List.length_take, List.length_drop]
  omega

theorem copyAt_getD_lt {α : Type} (dst src : List α) (off p : Nat) (d : α)
    (h : off ≤ dst.length) (hp : p < off) : (copyAt dst off src).getD p d = dst.getD p d := by
  unfold copyAt
  rw [List.append_assoc, List.getD_append _ _ _ _ (by rw [List.length_take]; omega),
    List.getD_eq_getElem?_getD, List.getD_eq_getElem?_getD, List.getElem?_take_of_lt hp]

theorem copyAt_getD_mid {α : Type} (dst src : List α) (off j : Nat) (d : α)
    (h : off ≤ dst.length) (hj : j < src.length) :
    (copyAt dst off src).getD (off + j) d = src.getD j d := by
  unfold copyAt
  have hl : (dst.take off).length = off := by rw [List.length_take]; omega
  rw [List.append_assoc, List.getD_append_right _ _ _ _ (by rw [hl]; omega), hl,
    show off + j - off = j by omega, List.getD_append _ _ _ _ hj]

/-! ## The packing loops -/

theorem float32SliceToBytes_append {α : Type} (bitsOf : α → Nat) (a b : List α) :
    float32SliceToBytes bitsOf (a ++ b)
      = float32SliceToBytes bitsOf a ++ float32SliceToBytes bitsOf b := by
  unfold float32SliceToBytes
  rw [List.map_append, List.flatten_append]

theorem take_succ_getD {α : Type} (l : List α) (i : Nat) (d : α) (h : i < l.length) :
    l.take (i + 1) = l.take i ++ [l.getD i d] := by
  rw [List.take_succ, List.getElem?_eq_getElem h, List.getD_eq_getElem _ _ h]
  rfl

theorem codebookLoop_eq {α : Type} (bitsOf : α → Nat) (m : Nat) (cbs : List (List α))
    (h : m ≤ cbs.length) :
    codebookLoop bitsOf m cbs = .ok (float32SliceToBytes bitsOf (cbs.take m).flatten) := by
  unfold codebookLoop
  obtain ⟨b, h1, h2⟩ := loopM_inv m
    (fun i rb => do
      let cb ← getAt cbs i
      pure (rb ++ float32SliceToBytes bitsOf cb)) ([] : Bytes)
    (fun i (b : Bytes) => b = float32SliceToBytes bitsOf (cbs.take i).flatten) rfl
    (by
      intro i hi b hb
      beta_reduce
      rw [getAt_getD cbs i [] (by omega), ok_bind]
      refine ⟨_, rfl, ?_⟩
      rw [take_succ_getD cbs i [] (by omega), List.flatten_append,
        float32SliceToBytes_append, hb]
      simp)
  rw [h1, h2]

theorem codesLoop_eq (n : Nat) (codes : List (List Nat)) (h : n ≤ codes.length) :
    codesLoop n codes = .ok (codes.take n).flatten := by
  unfold codesLoop
  obtain ⟨b, h1, h2⟩ := loopM_inv n
    (fun i rb => do
      let row ← getAt codes i
      pure (rb ++ row)) ([] : Bytes)
    (fun i (b : Bytes) => b = (codes.take i).flatten) rfl
    (by
      intro i hi b hb
      beta_reduce
      rw [getAt_getD codes i [] (by omega), ok_bind]
      refine ⟨_, rfl, ?_⟩
      rw [take_succ_getD codes i [] (by omega), List.flatten_append, hb]
      simp)
  rw [h1, h2]

theorem packR_eq {α : Type} (bitsOf : α → Nat) (rows cols : Nat) (pq : PQ α)
    (codes : List (List Nat)) (hcbs : pq.Codebooks.length = pq.M) :
    packR bitsOf rows cols pq codes
      = .ok (putU32 (rows % 2 ^ 32) ++ putU32 (cols % 2 ^ 32)
          ++ putU16 (pq.M * pq.Dsub % 2 ^ 16) ++ putU16 (pq.M % 2 ^ 16)
          ++ putU16 (pq.K % 2 ^ 16) ++ putU32 (codes.length % 2 ^ 32)
          ++ float32SliceToBytes bitsOf pq.Codebooks.flatten ++ codes.flatten) := by
  unfold packR
  rw [codebookLoop_eq bitsOf pq.M pq.Codebooks (by omega), codesLoop_eq _ codes (le_refl _),
    ← hcbs, List.take_length, List.take_length]
  rfl

/-! ## Reading the codebook bytes back -/

theorem codebookValues_bytes {α : Type} (F : Nat → α) (bitsOf : α → Nat) (data : List α)
    (h : ∀ v ∈ data, F (bitsOf v) = v ∧ bitsOf v < 2 ^ 32) :
    codebookValues F (float32SliceToBytes bitsOf data) = data := by
  have hB : float32SliceToBytes bitsOf data = ((data.map bitsOf).map putU32).flatten := by
    unfold float32SliceToBytes
    rw [List.map_map]
    rfl
  have hlen : (float32SliceToBytes bitsOf data).length / 4 = data.length := by
    rw [length_float32SliceToBytes]
    omega
  apply List.ext_getElem
  · rw [length_codebookValues, hlen]
  · intro i h1 h2
    have hv := h _ (List.getElem_mem h2)
    have hle := le32_flatten_putU32 (data.map bitsOf) []
      (by
        intro v hv
        obtain ⟨w, hw, rfl⟩ := List.mem_map.mp hv
        exact (h w hw).2) i (by rw [List.length_map]; exact h2)
    rw [List.append_nil, ← hB, List.getD_eq_getElem _ _ (by rw [List.length_map]; exact h2),
      List.getElem_map] at hle
    unfold codebookValues
    rw [List.getElem_map, List.getElem_range, Nat.mul_comm, hle]
    exact hv.1

/-! ## `PQ.Decode` returns the selected centroids -/

theorem sliceChecked_ok {α : Type} (p : List α) (a b : Nat) (h : a ≤ b ∧ b ≤ p.length) :
    sliceChecked p a b = .ok ((p.drop a).take (b - a)) := by
  unfold sliceChecked
  rw [if_pos h]

theorem decode_step {α : Type} [Zero α] (pq : PQ α) (codes : List (List Nat))
    (hcbs : Rect pq.M (pq.K * pq.Dsub) pq.Codebooks)
    (hcodes : Rect codes.length pq.M codes)
    (hlt : ∀ r, r < codes.length → ∀ i, i < pq.M → (codes.getD r []).getD i 0 < pq.K)
    (i : Nat) (hi : i < pq.M) (r : Nat) (hr : r < codes.length) (out : List (List α))
    (hinv : DecodeInv pq codes i r out) :
    ∃ t, (do
        let row ← getAt codes r
        let idx ← getAt row i
        let dst ← getAt out r
        let cent ← sliceChecked (pq.Codebooks.getD i []) (idx * pq.Dsub)
          (idx * pq.Dsub + pq.Dsub)
        setAt out r (copyAt dst (i * pq.Dsub) cent)) = .ok t ∧
      DecodeInv pq codes i (r + 1) t := by
  obtain ⟨hrect, hdone, hcur⟩ := hinv
  have hrow : (codes.getD r []).length = pq.M := hcodes.2 r hr
  have hc : (codes.getD r []).getD i 0 < pq.K := hlt r hr i hi
  have hcb : (pq.Codebooks.getD i []).length = pq.K * pq.Dsub := hcbs.2 i hi
  have hdst : (out.getD r []).length = pq.M * pq.Dsub := hrect.2 r hr
  have hfit : (codes.getD r []).getD i 0 * pq.Dsub + pq.Dsub ≤ pq.K * pq.Dsub := by
    calc (codes.getD r []).getD i 0 * pq.Dsub + pq.Dsub
        = ((codes.getD r []).getD i 0 + 1) * pq.Dsub := by ring
      _ ≤ pq.K * pq.Dsub := Nat.mul_le_mul_right _ hc
  have hoff : i * pq.Dsub + pq.Dsub ≤ pq.M * pq.Dsub := by
    calc i * pq.Dsub + pq.Dsub = (i + 1) * pq.Dsub := by ring
      _ ≤ pq.M * pq.Dsub := Nat.mul_le_mul_right _ hi
  have hcent : (((pq.Codebooks.getD i []).drop ((codes.getD r []).getD i 0 * pq.Dsub)).take
      ((codes.getD r []).getD i 0 * pq.Dsub + pq.Dsub
        - (codes.getD r []).getD i 0 * pq.Dsub)).length = pq.Dsub := by
    rw [List.length_take, List.length_drop, hcb]
    omega
  rw [getAt_getD codes r [] hr, ok_bind, getAt_getD _ i 0 (by rw [hrow]; exact hi), ok_bind,
    getAt_getD out r [] (by rw [hrect.1]; exact hr), ok_bind,
    sliceChecked_ok _ _ _ ⟨by omega, by rw [hcb]; exact hfit⟩, ok_bind,
    setAt_of_lt _ _ _ (by rw [hrect.1]; exact hr)]
  refine ⟨_, rfl, ?_, ?_, ?_⟩
  · exact rect_set hrect r _ (by rw [copyAt_length _ _ _ (by rw [hcent, hdst]; exact hoff), hdst])
  · intro r2 hr2 i2 hi2 j hj
    rw [getD_set _ _ _ _ _ (by rw [hrect.1]; exact hr)]
    by_cases e : r2 = r
    · rw [if_pos e, copyAt_getD_lt _ _ _ _ _ (by rw [hdst]; omega)
        (by
          calc i2 * pq.Dsub + j < i2 * pq.Dsub + pq.Dsub := by omega
            _ = (i2 + 1) * pq.Dsub := by ring
            _ ≤ i * pq.Dsub := Nat.mul_le_mul_right _ hi2)]
      rw [← e]
      exact hdone r2 hr2 i2 hi2 j hj
    · rw [if_neg e]
      exact hdone r2 hr2 i2 hi2 j hj
  · intro r2 hr2 j hj
    rw [getD_set _ _ _ _ _ (by rw [hrect.1]; exact hr)]
    by_cases e : r2 = r
    · rw [if_pos e, copyAt_getD_mid _ _ _ _ _ (by rw [hdst]; omega) (by rw [hcent]; exact hj),
        e]
      rw [List.getD_eq_getElem?_getD, List.getD_eq_getElem?_getD,
        List.getElem?_take_of_lt (by omega), List.getElem?_drop]
      exact (List.getD_eq_getElem?_getD _ _ _).symm
    · rw [if_neg e]
      exact hcur r2 (by omega) j hj

theorem decode_spec {α : Type} [Zero α] (pq : PQ α) (codes : List (List Nat))
    (hcbs : Rect pq.M (pq.K * pq.Dsub) pq.Codebooks)
    (hcodes : Rect codes.length pq.M codes)
    (hlt : ∀ r, r < codes.length → ∀ i, i < pq.M → (codes.getD r []).getD i 0 < pq.K) :
    ∃ out, PQ.Decode pq codes = .ok out ∧ Rect codes.length (pq.M * pq.Dsub) out ∧
      ∀ r, r < codes.length → ∀ i, i < pq.M → ∀ j, j < pq.Dsub →
        (out.getD r []).getD (i * pq.Dsub + j) 0
          = (pq.Codebooks.getD i []).getD ((codes.getD r []).getD i 0 * pq.Dsub + j) 0 := by
  unfold PQ.Decode
  obtain ⟨out, h1, h2⟩ := loopM_inv pq.M
    (fun i out => do
      let cb ← getAt pq.Codebooks i
      loopM codes.length (fun n out => do
        let row ← getAt codes n
        let idx ← getAt row i
        let dst ← getAt out n
        let cent ← sliceChecked cb (idx * pq.Dsub) (idx * pq.Dsub + pq.Dsub)
        setAt out n (copyAt dst (i * pq.Dsub) cent)) out)
    (List.replicate codes.length (List.replicate (pq.M * pq.Dsub) (0 : α)))
    (fun i out => DecodeInv pq codes i 0 out)
    ⟨rect_replicate _ _, fun _ _ _ h => absurd h (Nat.not_lt_zero _),
      fun _ h => absurd h (Nat.not_lt_zero _)⟩
    (by
      intro i hi out hinv
      beta_reduce
      rw [getAt_getD pq.Codebooks i [] (by rw [hcbs.1]; exact hi), ok_bind]
      obtain ⟨t, ht, hI⟩ := loopM_inv codes.length
        (fun n out => do
          let row ← getAt codes n
          let idx ← getAt row i
          let dst ← getAt out n
          let cent ← sliceChecked (pq.Codebooks.getD i []) (idx * pq.Dsub)
            (idx * pq.Dsub + pq.Dsub)
          setAt out n (copyAt dst (i * pq.Dsub) cent)) out
        (fun r out => DecodeInv pq codes i r out) hinv
        (fun r hr s hs => decode_step pq codes hcbs hcodes hlt i hi r hr s hs)
      refine ⟨t, ht, hI.1, ?_, fun _ h => absurd h (Nat.not_lt_zero _)⟩
      intro r2 hr2 i2 hi2 j hj
      by_cases e : i2 = i
      · rw [e]
        exact hI.2.2 r2 hr2 j hj
      · exact hI.2.1 r2 hr2 i2 (by omega) j hj)
  exact ⟨out, h1, h2.1, fun r hr i hi j hj => h2.2.1 r hr i hi j hj⟩

/-! ## `decodeR` on a packed payload -/

theorem r_head_shape (a b d m k n : Nat) (ha : a < 2 ^ 32) (hb : b < 2 ^ 32) :
    le32 (putU32 a ++ putU32 b ++ putU16 d ++ putU16 m ++ putU16 k ++ putU32 n) 0 = a ∧
    le32 (putU32 a ++ putU32 b ++ putU16 d ++ putU16 m ++ putU16 k ++ putU32 n) 4 = b := by
  constructor
  · simp [le32, putU32, putU16, byteAt]; omega
  · simp [le32, putU32, putU16, byteAt]; omega

theorem slice_mid (h x t : Bytes) : slice (h ++ x ++ t) h.length (h.length + x.length) = x := by
  unfold slice
  rw [List.append_assoc, List.drop_left, show h.length + x.length - h.length = x.length by omega,
    List.take_left]

theorem ext_getD {α : Type} (d : α) (l1 l2 : List α) (hl : l1.length = l2.length)
    (h : ∀ q, q < l1.length → l1.getD q d = l2.getD q d) : l1 = l2 := by
  apply List.ext_getElem hl
  intro q h1 h2
  have := h q h1
  rw [List.getD_eq_getElem _ _ h1, List.getD_eq_getElem _ _ h2] at this
  exact this

theorem decodeR_embedded {α : Type} [Zero α] (F : Nat → α) (p : Bytes)
    (rows cols m k n dsub : Nat) (cb codes : Bytes) (blocks : List α)
    (h0 : le32 p 0 = rows) (h4 : le32 p 4 = cols) (h8 : le16 p 8 = m * dsub)
    (h10 : le16 p 10 = m) (h12 : le16 p 12 = k) (h14 : le32 p 14 = n) (hm : 1 ≤ m)
    (hlen : p.length = 18 + m * k * dsub * 4 + n * m)
    (hcb : slice p 18 (18 + m * k * dsub * 4) = cb)
    (hcodes : p.drop (18 + m * k * dsub * 4) = codes)
    (hb : decodeBlocksEmbedded F (m * dsub) m k n dsub cb codes = .ok blocks)
    (hcap : rows * cols ≤ maxLenF32) :
    decodeR F p = (rows, cols, .ok (copyInto (rows * cols) blocks)) := by
  have hdiv : m * dsub / m = dsub := Nat.mul_div_cancel_left dsub (by omega)
  have hcl : codes.length = n * m := by
    rw [← hcodes, List.length_drop, hlen]
    omega
  unfold decodeR
  simp only [h0, h4, h8, h10, h12, h14, hdiv]
  rw [if_neg (by omega), if_neg (by omega), if_neg (by omega), if_neg (by omega),
    if_neg (by omega), hcb, hcodes, if_neg (by rw [hcl]; exact fun h => h rfl), hb]
  simp only []
  rw [finishR_small _ _ _ hcap]

theorem mem_getD_rect {α : Type} {n D : Nat} {m : List (List α)} (h : Rect n D m) (p : Nat)
    (hp : p < n) : m.getD p [] ∈ m := by
  rw [List.getD_eq_getElem _ _ (by rw [h.1]; exact hp)]
  exact List.getElem_mem _

theorem mem_getD_row {α : Type} (row : List α) (d : α) (i : Nat) (hi : i < row.length) :
    row.getD i d ∈ row := by
  rw [List.getD_eq_getElem _ _ hi]
  exact List.getElem_mem _

/-- With blocks `n*d` above the length `make` allocates, `decodeR` ends in the panic of
`make([]float32, n*d)`. -/
theorem decodeR_embedded_wide {α : Type} [Zero α] (F : Nat → α) (p : Bytes)
    (rows cols m k n dsub : Nat) (cb codes : Bytes)
    (h0 : le32 p 0 = rows) (h4 : le32 p 4 = cols) (h8 : le16 p 8 = m * dsub)
    (h10 : le16 p 10 = m) (h12 : le16 p 12 = k) (h14 : le32 p 14 = n) (hm : 1 ≤ m)
    (hlen : p.length = 18 + m * k * dsub * 4 + n * m)
    (hcb : slice p 18 (18 + m * k * dsub * 4) = cb)
    (hcodes : p.drop (18 + m * k * dsub * 4) = codes)
    (hbig : maxLenF32 < n * (m * dsub)) (h63 : n * (m * dsub) < 2 ^ 63) :
    decodeR F p = (0, 0, .error (.panic "makeslice: len out of range")) := by
  have hdiv : m * dsub / m = dsub := Nat.mul_div_cancel_left dsub (by omega)
  have hcl : codes.length = n * m := by
    rw [← hcodes, List.length_drop, hlen]
    omega
  have hb : decodeBlocksEmbedded F (m * dsub) m k n dsub cb codes
      = .error (.panic "makeslice: len out of range") := by
    unfold decodeBlocksEmbedded
    rw [makeLen_big n (m * dsub) hbig h63]
    rfl
  unfold decodeR
  simp only [h0, h4, h8, h10, h12, h14, hdiv]
  rw [if_neg (by omega), if_neg (by omega), if_neg (by omega), if_neg (by omega),
    if_neg (by omega), hcb, hcodes, if_neg (by rw [hcl]; exact fun h => h rfl), hb]

/-- The head, the codebook bytes and the code bytes of a packed R payload. -/
theorem packed_header {α : Type} (bitsOf : α → Nat) (pq : PQ α) (codes : List (List Nat))
    (rows cols : Nat) (hK : pq.K ≤ 256)
    (hcbs : Rect pq.M (pq.K * pq.Dsub) pq.Codebooks)
    (hcodes : Rect codes.length pq.M codes)
    (hd : pq.M * pq.Dsub < 2 ^ 16) (hm : pq.M < 2 ^ 16) (hn : codes.length < 2 ^ 32)
    (hr : rows < 2 ^ 32) (hc : cols < 2 ^ 32) (p : Bytes)
    (hp : p = putU32 rows ++ putU32 cols ++ putU16 (pq.M * pq.Dsub) ++ putU16 pq.M
      ++ putU16 pq.K ++ putU32 codes.length ++ float32SliceToBytes bitsOf pq.Codebooks.flatten
      ++ codes.flatten) :
    le32 p 0 = rows ∧ le32 p 4 = cols ∧ le16 p 8 = pq.M * pq.Dsub ∧ le16 p 10 = pq.M ∧
    le16 p 12 = pq.K ∧ le32 p 14 = codes.length ∧
    p.length = 18 + pq.M * pq.K * pq.Dsub * 4 + codes.length * pq.M ∧
    slice p 18 (18 + pq.M * pq.K * pq.Dsub * 4)
      = float32SliceToBytes bitsOf pq.Codebooks.flatten ∧
    p.drop (18 + pq.M * pq.K * pq.Dsub * 4) = codes.flatten := by
  have hdl : pq.Codebooks.flatten.length = pq.M * (pq.K * pq.Dsub) :=
    length_flatten_rect _ _ _ hcbs
  have hcl : codes.flatten.length = codes.length * pq.M := length_flatten_rect _ _ _ hcodes
  have hhead := r_head rows cols (pq.M * pq.Dsub) pq.M pq.K codes.length hd hm (by omega) hn
  have hshape := r_head_shape rows cols (pq.M * pq.Dsub) pq.M pq.K codes.length hr hc
  obtain ⟨hl18, h8, h10, h12, h14⟩ := hhead
  have hcbl : (float32SliceToBytes bitsOf pq.Codebooks.flatten).length
      = pq.M * pq.K * pq.Dsub * 4 := by
    rw [length_float32SliceToBytes, hdl]
    ring
  subst hp
  refine ⟨?_, ?_, ?_, ?_, ?_, ?_, ?_, ?_, ?_⟩
  · rw [List.append_assoc, le32_append_left _ _ 0 (by have := hl18; omega)]
    exact hshape.1
  · rw [List.append_assoc, le32_append_left _ _ 4 (by have := hl18; omega)]
    exact hshape.2
  · rw [List.append_assoc, le16_append_left _ _ 8 (by have := hl18; omega)]
    exact h8
  · rw [List.append_assoc, le16_append_left _ _ 10 (by have := hl18; omega)]
    exact h10
  · rw [List.append_assoc, le16_append_left _ _ 12 (by have := hl18; omega)]
    exact h12
  · rw [List.append_assoc, le32_append_left _ _ 14 (by have := hl18; omega)]
    exact h14
  · rw [List.length_append, List.length_append, hl18, hcbl, hcl]
  · have := slice_mid (putU32 rows ++ putU32 cols ++ putU16 (pq.M * pq.Dsub) ++ putU16 pq.M
      ++ putU16 pq.K ++ putU32 codes.length)
      (float32SliceToBytes bitsOf pq.Codebooks.flatten) codes.flatten
    rw [hl18, hcbl] at this
    exact this
  · have := List.drop_left (putU32 rows ++ putU32 cols ++ putU16 (pq.M * pq.Dsub) ++ putU16 pq.M
      ++ putU16 pq.K ++ putU32 codes.length ++ float32SliceToBytes bitsOf pq.Codebooks.flatten)
      codes.flatten
    rw [List.length_append, hl18, hcbl] at this
    exact this

theorem packR_small {α : Type} (bitsOf : α → Nat) (pq : PQ α) (codes : List (List Nat))
    (rows cols : Nat) (hK : pq.K ≤ 256) (hcbs : pq.Codebooks.length = pq.M)
    (hd : pq.M * pq.Dsub < 2 ^ 16) (hm : pq.M < 2 ^ 16) (hn : codes.length < 2 ^ 32)
    (hr : rows < 2 ^ 32) (hc : cols < 2 ^ 32) :
    packR bitsOf rows cols pq codes
      = .ok (putU32 rows ++ putU32 cols ++ putU16 (pq.M * pq.Dsub) ++ putU16 pq.M
          ++ putU16 pq.K ++ putU32 codes.length
          ++ float32SliceToBytes bitsOf pq.Codebooks.flatten ++ codes.flatten) := by
  rw [packR_eq bitsOf rows cols pq codes hcbs, Nat.mod_eq_of_lt hr, Nat.mod_eq_of_lt hc,
    Nat.mod_eq_of_lt hd, Nat.mod_eq_of_lt hm, Nat.mod_eq_of_lt (show pq.K < 2 ^ 16 by omega),
    Nat.mod_eq_of_lt hn]

theorem decodeR_packed {α : Type} [Zero α] (F : Nat → α) (bitsOf : α → Nat) (pq : PQ α)
    (codes : List (List Nat)) (rows cols : Nat)
    (hM : 1 ≤ pq.M) (hK : pq.K ≤ 256)
    (hcbs : Rect pq.M (pq.K * pq.Dsub) pq.Codebooks)
    (hbits : ∀ cb ∈ pq.Codebooks, ∀ v ∈ cb, F (bitsOf v) = v ∧ bitsOf v < 2 ^ 32)
    (hcodes : Rect codes.length pq.M codes)
    (hlt : ∀ row ∈ codes, ∀ c ∈ row, c < pq.K)
    (hd : pq.M * pq.Dsub < 2 ^ 16) (hm : pq.M < 2 ^ 16) (hn : codes.length < 2 ^ 32)
    (hr : rows < 2 ^ 32) (hc : cols < 2 ^ 32) (hcap : rows * cols ≤ maxLenF32)
    (hblk : codes.length * (pq.M * pq.Dsub) ≤ maxLenF32) :
    ∃ payload out, packR bitsOf rows cols pq codes = .ok payload ∧
      PQ.Decode pq codes = .ok out ∧
      decodeR F payload = (rows, cols, .ok (copyInto (rows * cols) out.flatten)) := by
  have hlt2 : ∀ r, r < codes.length → ∀ i, i < pq.M → (codes.getD r []).getD i 0 < pq.K := by
    intro r hr i hi
    exact hlt _ (mem_getD_rect hcodes r hr) _
      (mem_getD_row _ 0 i (by rw [hcodes.2 r hr]; exact hi))
  obtain ⟨out, hout, hrect, hval⟩ := decode_spec pq codes hcbs hcodes hlt2
  have hdl : pq.Codebooks.flatten.length = pq.M * (pq.K * pq.Dsub) :=
    length_flatten_rect _ _ _ hcbs
  have hbyte : ∀ r, r < codes.length → ∀ i, i < pq.M →
      byteAt codes.flatten (r * pq.M + i) = (codes.getD r []).getD i 0 := by
    intro r hr i hi
    exact flatten_getD_rect 0 pq.M codes codes.length hcodes r i hr hi
  have hin : ∀ c j, c < pq.K → j < pq.Dsub → c * pq.Dsub + j < pq.K * pq.Dsub := by
    intro c j hc hj
    calc c * pq.Dsub + j < c * pq.Dsub + pq.Dsub := by omega
      _ = (c + 1) * pq.Dsub := by ring
      _ ≤ pq.K * pq.Dsub := Nat.mul_le_mul_right _ hc
  have hidx : ∀ i c j, (i * pq.K + c) * pq.Dsub + j = i * (pq.K * pq.Dsub) + (c * pq.Dsub + j) := by
    intro i c j
    ring
  have hdata : ∀ r i j, r < codes.length → i < pq.M → j < pq.Dsub →
      (i * pq.K + byteAt codes.flatten (r * pq.M + i)) * pq.Dsub + j
        < pq.Codebooks.flatten.length := by
    intro r i j hr hi hj
    rw [hbyte r hr i hi, hdl, hidx]
    have h1 := hin _ j (hlt2 r hr i hi) hj
    calc i * (pq.K * pq.Dsub) + ((codes.getD r []).getD i 0 * pq.Dsub + j)
        < i * (pq.K * pq.Dsub) + pq.K * pq.Dsub := by omega
      _ = (i + 1) * (pq.K * pq.Dsub) := by ring
      _ ≤ pq.M * (pq.K * pq.Dsub) := Nat.mul_le_mul_right _ hi
  obtain ⟨blocks, hb, hbl, hbv⟩ := decodeBlocksPool_spec pq.M pq.K codes.length pq.Dsub
    pq.Codebooks.flatten codes.flatten hblk hdata
  have hvals : codebookValues F (float32SliceToBytes bitsOf pq.Codebooks.flatten)
      = pq.Codebooks.flatten := by
    apply codebookValues_bytes
    intro v hv
    obtain ⟨cb, hcb, hvcb⟩ := List.mem_flatten.mp hv
    exact hbits cb hcb v hvcb
  have hbe : decodeBlocksEmbedded F (pq.M * pq.Dsub) pq.M pq.K codes.length pq.Dsub
      (float32SliceToBytes bitsOf pq.Codebooks.flatten) codes.flatten = .ok blocks := by
    rw [decodeBlocks_iff F _ _ _ _ _ _ _
      (by rw [length_float32SliceToBytes]; exact Dvd.intro _ rfl), hvals]
    exact hb
  have heq : blocks = out.flatten := by
    apply ext_getD 0
    · rw [hbl, length_flatten_rect _ _ _ hrect]
    · intro q hq
      rw [hbl] at hq
      obtain ⟨r, i, j, hr, hi, hj, rfl⟩ := flat_exists _ _ _ q hq
      rw [hbv _ hq, blockVal_flat _ _ _ _ _ r i j hi hj, hbyte r hr i hi, hidx,
        flatten_getD_rect 0 _ _ _ hcbs i _ hi (hin _ j (hlt2 r hr i hi) hj),
        Nat.add_assoc,
        flatten_getD_rect 0 _ _ _ hrect r (i * pq.Dsub + j) hr
          (by
            calc i * pq.Dsub + j < i * pq.Dsub + pq.Dsub := by omega
              _ = (i + 1) * pq.Dsub := by ring
              _ ≤ pq.M * pq.Dsub := Nat.mul_le_mul_right _ hi),
        hval r hr i hi j hj]
  obtain ⟨g0, g4, g8, g10, g12, g14, glen, gcb, gcodes⟩ :=
    packed_header bitsOf pq codes rows cols hK hcbs hcodes hd hm hn hr hc _ rfl
  refine ⟨_, out, packR_small bitsOf pq codes rows cols hK hcbs.1 hd hm hn hr hc, hout, ?_⟩
  rw [← heq]
  exact decodeR_embedded F _ rows cols pq.M pq.K codes.length pq.Dsub
    (float32SliceToBytes bitsOf pq.Codebooks.flatten) codes.flatten blocks g0 g4 g8 g10 g12 g14
    hM glen gcb gcodes hbe hcap

/-- With blocks `n*d` above the length `make` allocates, `Decode` returns and `decodeR` on the
packed payload ends in the panic of `make([]float32, n*d)`. -/
theorem decodeR_packed_wide {α : Type} [Zero α] (F : Nat → α) (bitsOf : α → Nat) (pq : PQ α)
    (codes : List (List Nat)) (rows cols : Nat)
    (hM : 1 ≤ pq.M) (hK : pq.K ≤ 256)
    (hcbs : Rect pq.M (pq.K * pq.Dsub) pq.Codebooks)
    (hcodes : Rect codes.length pq.M codes)
    (hlt : ∀ row ∈ codes, ∀ c ∈ row, c < pq.K)
    (hd : pq.M * pq.Dsub < 2 ^ 16) (hm : pq.M < 2 ^ 16) (hn : codes.length < 2 ^ 32)
    (hr : rows < 2 ^ 32) (hc : cols < 2 ^ 32)
    (hbig : maxLenF32 < codes.length * (pq.M * pq.Dsub)) :
    ∃ payload out, packR bitsOf rows cols pq codes = .ok payload ∧
      PQ.Decode pq codes = .ok out ∧
      decodeR F payload = (0, 0, .error (.panic "makeslice: len out of range")) := by
  have hlt2 : ∀ r, r < codes.length → ∀ i, i < pq.M → (codes.getD r []).getD i 0 < pq.K := by
    intro r hr i hi
    exact hlt _ (mem_getD_rect hcodes r hr) _
      (mem_getD_row _ 0 i (by rw [hcodes.2 r hr]; exact hi))
  obtain ⟨out, hout, _, _⟩ := decode_spec pq codes hcbs hcodes hlt2
  obtain ⟨g0, g4, g8, g10, g12, g14, glen, gcb, gcodes⟩ :=
    packed_header bitsOf pq codes rows cols hK hcbs hcodes hd hm hn hr hc _ rfl
  refine ⟨_, out, packR_small bitsOf pq codes rows cols hK hcbs.1 hd hm hn hr hc, hout, ?_⟩
  have h63 : codes.length * (pq.M * pq.Dsub) < 2 ^ 63 :=
    calc codes.length * (pq.M * pq.Dsub) < 2 ^ 32 * 2 ^ 16 :=
        Nat.mul_lt_mul'' hn hd
      _ < 2 ^ 63 := by norm_num
  exact decodeR_embedded_wide F _ rows cols pq.M pq.K codes.length pq.Dsub
    (float32SliceToBytes bitsOf pq.Codebooks.flatten) codes.flatten g0 g4 g8 g10 g12 g14
    hM glen gcb gcodes hbig h63

/-! ## Claims on the fp16 codec, the shard bank and the table of contents -/

/-- C9: for every float32 bit pattern `u` whose magnitude lies in `[2^-14, 2^15]`, the value
decoded from the half-precision encoding differs from the value of `u` by at most
`2^-10 * |value of u|`, as exact rationals. -/
theorem fp16_relative_error (u : Nat) (hu : u < 2 ^ 32)
    (hlo : (1 : ℚ) / 2 ^ 14 ≤ |f32val u|) (hhi : |f32val u| ≤ 2 ^ 15) :
    |f32val (fp16RoundTrip u) - f32val u| ≤ |f32val u| / 2 ^ 10 :=
  fp16_relative_error_aux u hu hlo hhi

theorem fp16_relative_error_witness :
    |f32val (fp16RoundTrip 0x3DCCCCCD) - f32val 0x3DCCCCCD| ≤ |f32val 0x3DCCCCCD| / 2 ^ 10 :=
  fp16_relative_error 0x3DCCCCCD (by norm_num)
    (by rw [abs_f32val]; norm_num [f32mag]) (by rw [abs_f32val]; norm_num [f32mag])

/-- C10: for every two finite float32 bit patterns with values `a < b`, both in
`[-65504, 65504]`, the value decoded from the half-precision encoding of `a` is at most the one
decoded from the encoding of `b`. -/
theorem fp16_monotone (a b : Nat) (ha : a < 2 ^ 32) (hb : b < 2 ^ 32)
    (hab : f32val a < f32val b)
    (ha1 : -65504 ≤ f32val a) (ha2 : f32val a ≤ 65504)
    (hb1 : -65504 ≤ f32val b) (hb2 : f32val b ≤ 65504) :
    f32val (fp16RoundTrip a) ≤ f32val (fp16RoundTrip b) :=
  fp16_monotone_aux a b ha hb hab ha1 ha2 hb1 hb2

theorem fp16_monotone_witness :
    f32val (fp16RoundTrip 0x3F800000) ≤ f32val (fp16RoundTrip 0x3F800001) :=
  fp16_monotone 0x3F800000 0x3F800001 (by norm_num) (by norm_num)
    (by norm_num [f32val, f32mag]) (by norm_num [f32val, f32mag]) (by norm_num [f32val, f32mag])
    (by norm_num [f32val, f32mag]) (by norm_num [f32val, f32mag])

/-- C6: for every list of shards with `uint16` scopes and payloads shorter than `2^32` bytes,
`IndexShardBank` on the concatenation of their `packShard` framings returns no error and one
record per shard, in order, with header `(type, scope, comp = 0, usize = csize = len(payload))`
and `Offset` at the payload (`recordsOf`); re-framing every record as its header followed by
`bank[Offset : Offset+Csize]` and concatenating gives the bank back, and the slices are the
payloads. -/
theorem bank_roundtrip (shards : List Shard)
    (hs : ∀ s ∈ shards, s.Scope < 65536 ∧ s.Data.length < 2 ^ 32) :
    IndexShardBank (bankOf shards) = .ok (recordsOf shards 0) ∧
    ((recordsOf shards 0).map (frameRecord (bankOf shards))).flatten = bankOf shards ∧
    (recordsOf shards 0).map
        (fun r => slice (bankOf shards) r.Offset (r.Offset + r.Hdr.Csize))
      = shards.map (fun s => s.Data) := by
  have h1 := indexLoop_bankOf shards hs [] ((bankOf shards).length + 1)
    (by have := length_bankOf_ge shards; omega)
  have h2 := frameRecords_bankOf shards hs []
  simp only [List.nil_append, List.length_nil] at h1 h2
  exact ⟨by unfold IndexShardBank; rw [h1], h2.1, h2.2⟩

theorem bank_roundtrip_witness :
    IndexShardBank (bankOf [⟨0, 7, [1, 2, 3]⟩, ⟨2, 7, []⟩])
        = .ok (recordsOf [⟨0, 7, [1, 2, 3]⟩, ⟨2, 7, []⟩] 0) ∧
    ((recordsOf [⟨0, 7, [1, 2, 3]⟩, ⟨2, 7, []⟩] 0).map
        (frameRecord (bankOf [⟨0, 7, [1, 2, 3]⟩, ⟨2, 7, []⟩]))).flatten
      = bankOf [⟨0, 7, [1, 2, 3]⟩, ⟨2, 7, []⟩] ∧
    (recordsOf [⟨0, 7, [1, 2, 3]⟩, ⟨2, 7, []⟩] 0).map
        (fun r => slice (bankOf [⟨0, 7, [1, 2, 3]⟩, ⟨2, 7, []⟩]) r.Offset
          (r.Offset + r.Hdr.Csize))
      = [[1, 2, 3], []] :=
  bank_roundtrip [⟨0, 7, [1, 2, 3]⟩, ⟨2, 7, []⟩] (by decide)

/-- C8: for every list of sections with their stored payloads, the table of contents that
`Writer.Write` computes has every offset a multiple of 4096 and at least `20 + 24*num` (the end
of the table), every recorded size equal to the length of the stored payload, and
`offset[i] + size[i] <= offset[i+1]` for consecutive entries. -/
theorem toc_layout (sections : List Section) (payloads : List Bytes)
    (hlen : payloads.length = sections.length) :
    (∀ e ∈ tocOf sections payloads, 4096 ∣ e.Offset ∧ 20 + 24 * sections.length ≤ e.Offset) ∧
    (tocOf sections payloads).map (fun e => e.Size) = payloads.map List.length ∧
    List.Chain' (fun a b => a.Offset + a.Size ≤ b.Offset) (tocOf sections payloads) := by
  obtain ⟨t1, t2, _, _, t5, _⟩ := tocLoop_spec sections payloads
    (alignUp (8 + 12 + 24 * sections.length) 4096) hlen (alignUp_dvd _)
  refine ⟨fun e he => ⟨(t1 e he).1, ?_⟩, t2, t5⟩
  have h1 := (t1 e he).2
  have h2 := alignUp_ge (8 + 12 + 24 * sections.length)
  omega

theorem toc_layout_witness :
    (∀ e ∈ tocOf [⟨1, [1], 0⟩, ⟨3, [], 2⟩] [[1], [9, 9]],
      4096 ∣ e.Offset ∧ 20 + 24 * [(⟨1, [1], 0⟩ : Section), ⟨3, [], 2⟩].length ≤ e.Offset) ∧
    (tocOf [⟨1, [1], 0⟩, ⟨3, [], 2⟩] [[1], [9, 9]]).map (fun e => e.Size) = [1, 2] ∧
    List.Chain' (fun a b => a.Offset + a.Size ≤ b.Offset)
      (tocOf [⟨1, [1], 0⟩, ⟨3, [], 2⟩] [[1], [9, 9]]) :=
  toc_layout [⟨1, [1], 0⟩, ⟨3, [], 2⟩] [[1], [9, 9]] rfl

/-- C3: on the S payload of `TestReconstructSmall_L_D_S` (`n = 2`, the layout `ConvertLayer`
writes: the pairs `(0,1), (1,2)`, then the two values) `decodeS` reads the triplets
`(0, 1, v0), (1, 2, v1)`, while the parser of `applySAddOptimized` reads `(0, 1, bits 1)` and
`(2, v0 as int32, v1)`: it takes every triplet from 12 consecutive bytes. -/
theorem applySParse_testS :
    decodeS id testS = .ok (2, 3, [(0, 1), (1, 2)], [0x3DCCCCCD, 0xBE4CCCCD]) ∧
    applySParse id testS 2 12 = some [(0, 1, 1), (2, 0x3DCCCCCD, 0xBE4CCCCD)] := by
  decide

set_option maxRecDepth 100000

/-- C1: on the bank of `TestReconstructSmall_L_D_S` and `x = (0, 1, 0)`, with float32 values,
`MultiplyScopeWithPool` returns `y[0] = 2.0` (bits `0x40000000`), while the matrix
`ReconstructForScope` returns has `W[0][1] = float32(2 + 0.1)` (bits `0x40066666`): the S term
of row 0 is lost. -/
theorem multiply_testBank :
    MultiplyScopeWithPool F32.ofBits Gpu.off false testBank none 0 [0, one32, 0]
      = .ok ([F32.ofBits 0x40000000, F32.ofBits 0x40A80000], 2, 3) ∧
    ReconstructForScope F32.ofBits Codec.store testBank 0
      = .ok (2, 3, [F32.ofBits 0x3FC00000, F32.ofBits 0x40066666, F32.ofBits 0x40400000,
          F32.ofBits 0x40800000, F32.ofBits 0x40A80000, F32.ofBits 0x40B9999A]) := by
  decide

/-! ## Claims on reconstruction, the shared-codebook paths and the container -/

/-- C2, as stated, fails.  The bank `hugeBank` holds one uncompressed S shard of scope 0 with
`rows = cols = 2^32 - 1` and no triplet, and `ReconstructForScope` returns nothing: it stops in
`make([]float32, rows*cols)`, the product being negative as an `int`.  On `testBank`, the bank of
`TestReconstructSmall_L_D_S`, entry `(0, 1)` of the result is the float32 `0x40066666`, the
rounded value of `2 + 0.1f`, not the sum of `L[0,1] = 2` and the S value `0.1f`. -/
theorem reconstruct_sum_counterexample :
    scopeShards F32.ofBits hugeBank 0 (indexLoop hugeBank (hugeBank.length + 1) 0)
      = hugeComps.map some ∧
    ReconstructForScope F32.ofBits Codec.store hugeBank 0
      = .error (.panic "makeslice: len out of range") ∧
    scopeShards F32.ofBits testBank 0 (indexLoop testBank (testBank.length + 1) 0)
      = testComps32.map some ∧
    ReconstructForScope F32.ofBits Codec.store testBank 0
      = .ok (2, 3, [F32.ofBits 0x3FC00000, F32.ofBits 0x40066666, F32.ofBits 0x40400000,
          F32.ofBits 0x40800000, F32.ofBits 0x40A80000, F32.ofBits 0x40B9999A]) ∧
    termsAt testComps32 3 0 1 = [F32.ofBits 0x40000000, 0, F32.ofBits 0x3DCCCCCD] ∧
    (F32.ofBits 0x40000000).v + (0 : F32).v + (F32.ofBits 0x3DCCCCCD).v
      ≠ (F32.ofBits 0x40066666).v :=
  ⟨rfl, by decide, rfl, by decide, by decide, by decide⟩

/-- C2, amended: for every bank whose shards of a scope are uncompressed and decode (`comps`),
agree on `(rows, cols)` with `rows, cols >= 1` and `rows*cols <= 2^46` (the length `make`
allocates), and have in-range S indices, `ReconstructForScope` returns `(rows, cols, data)` with
`len(data) = rows*cols`, and `data[i*cols+j]` is the sum accumulated from zero, in the float32
addition of the code and in its order, of `L[i,j]`, `D[i,j]`, the entries at `(i,j)` of the R
matrices in bank order and the S values with index `(i,j)` in payload order, where L, D and S
are the last shard of their type and a missing component adds no term. -/
theorem reconstruct_sum {α : Type} [Zero α] [Add α] (F : Nat → α) (codec : Codec)
    (bank : Bytes) (scope rows cols : Nat) (recs : List BankRec) (comps : List (Decoded α))
    (hidx : IndexShardBank bank = .ok recs)
    (hdec : scopeShards F bank scope recs = comps.map some) (hne : comps ≠ [])
    (hrows : 1 ≤ rows) (hcols : 1 ≤ cols) (hcap : rows * cols ≤ maxLenF32)
    (hshape : ∀ c ∈ comps, c.rows = rows ∧ c.cols = cols)
    (hS : ∀ c ∈ comps, ∀ ij ∈ c.idx, 0 ≤ ij.1 ∧ ij.1 < rows ∧ 0 ≤ ij.2 ∧ ij.2 < cols) :
    ∃ data, ReconstructForScope F codec bank scope = .ok (rows, cols, data) ∧
      data.length = rows * cols ∧
      ∀ i j, i < rows → j < cols →
        data.getD (i * cols + j) 0 = accumulate (termsAt comps cols i j) :=
  reconstruct_sum_aux F codec bank scope rows cols recs comps hidx hdec hne hrows hcols hcap
    hshape hS

/-- C2, amended, on `testBank` with float32 values. -/
theorem reconstruct_sum_witness :
    ∃ data, ReconstructForScope F32.ofBits Codec.store testBank 0 = .ok (2, 3, data) ∧
      data.length = 2 * 3 ∧
      ∀ i j, i < 2 → j < 3 →
        data.getD (i * 3 + j) 0 = accumulate (termsAt testComps32 3 i j) :=
  reconstruct_sum F32.ofBits Codec.store testBank 0 2 3
    (indexLoop testBank (testBank.length + 1) 0) testComps32 rfl rfl (by simp [testComps32])
    (by decide) (by decide) (by decide) (by decide) (by decide)

/-- C4: `testShared` is a shared-codebook R payload (`m = 1` divides `d = 2`, length `20 + n*m`,
its code is below `k`, `cb_id = 0` is in the pool `testPoolM32` with `m*k*(d/m) = 4` values),
`rows = 1`, `cols = 2`, `x` has length 2.  The pool entry declares `m = 2`: `decodeRWithPool`
returns the error "codebook m mismatch", and `applyRAddOptimized`, which does not compare the
entry with the header, adds `1.0` to `y[0]`. -/
theorem applyR_pool_mismatch :
    1 ≤ le16 testShared 10 ∧ le16 testShared 10 ∣ le16 testShared 8 ∧
    testShared.length = 20 + le32 testShared 14 * le16 testShared 10 ∧
    (∀ c ∈ testShared.drop 20, c < le16 testShared 12) ∧
    (testPoolM32.find (le16 testShared 18)).map (fun e => e.Data.length)
      = some (le16 testShared 10 * le16 testShared 12
          * (le16 testShared 8 / le16 testShared 10)) ∧
    decodeRWithPool 1 2 testShared testPoolM32 = .error (.error "codebook m mismatch") ∧
    applyRAddOptimized F32.ofBits Gpu.off [0] 1 2 testShared [one32, one32] (some testPoolM32)
      = .ok [one32] := by
  decide

/-- C5, as stated, fails: `shA` and `shB` are framed, well-formed embedded R shards with the
same `d = 0` and `m = 1` and one distinct (empty) codebook; `decodeR` returns the matrix `[0]`
on the payload of `shB`, and after the rewrite `decodeRWithPool` returns an error on the
rewritten payload: both shards share pool entry 0, which carries the `k` of `shA`.  And `shH`
is a framed, well-formed embedded R shard with `d = 2`, `m = 1` and `rows = cols = 2^32 - 1` on
whose payload `decodeR` returns no matrix: `rows*cols` is negative as an `int` and the slice
expression `flat[:need]` panics. -/
theorem rewrite_decode_counterexample :
    (∀ blob ∈ [shA, shB],
      Framed blob ∧ byteAt blob 0 = 1 ∧ EmbeddedR 0 1 (shardPayload blob)) ∧
    (([shA, shB].filter (fun b => byteAt b 0 = 1)).map
      (fun b => embeddedCodebook (shardPayload b))).toFinset.card < 65536 ∧
    decodeR f32fix (shardPayload shB) = (1, 1, .ok [0]) ∧
    decodeRewritten f32fix (fun _ => 0) [shA, shB] 1 1 1
      = .error (.error "codebook k mismatch") ∧
    (Framed shH ∧ byteAt shH 0 = 1 ∧ EmbeddedR 2 1 (shardPayload shH)) ∧
    decodeR f32fix (shardPayload shH) = (0, 0, .error (.panic "slice bounds out of range")) := by
  decide

/-- C5, amended: for every list of framed shards in which every R shard is a well-formed
embedded R shard with the same `d >= 1` and the same `m` (`m >= 1` dividing `d`) and in which
fewer than 65536 distinct codebooks occur: `rewriteRShardsWithSharedCodebooks` returns,
`ParseCodebookPool` parses the CODEBOOKS bytes it returns, and at every index of an R shard
`decodeRWithPool` on the rewritten payload returns a matrix exactly when `decodeR` returns that
matrix on the original payload; `decodeR` returns one whenever `rows*cols` and `n*d` are at most
`2^46`, the length `make` allocates. -/
theorem rewrite_decode {α : Type} [Zero α] (F : Nat → α) (hash : Bytes → Nat)
    (shards : List Bytes) (d m : Nat) (hd : 1 ≤ d) (hm : 1 ≤ m) (hdvd : m ∣ d)
    (hfr : ∀ blob ∈ shards, Framed blob)
    (hR : ∀ blob ∈ shards, byteAt blob 0 = 1 → EmbeddedR d m (shardPayload blob))
    (hcount : ((shards.filter (fun b => byteAt b 0 = 1)).map
      (fun b => embeddedCodebook (shardPayload b))).toFinset.card < 65536) :
    ∃ rewritten codebooks pool,
      rewriteRShardsWithSharedCodebooks hash shards = .ok (rewritten, codebooks) ∧
      ParseCodebookPool F codebooks = .ok pool ∧
      List.Forall₂ (fun blob new => byteAt blob 0 = 1 →
        (∀ mat, decodeR F (shardPayload blob)
            = (le32 (shardPayload blob) 0, le32 (shardPayload blob) 4, .ok mat) ↔
          decodeRWithPool (le32 (shardPayload blob) 0) (le32 (shardPayload blob) 4)
            (shardPayload new) pool = .ok mat) ∧
        (le32 (shardPayload blob) 0 * le32 (shardPayload blob) 4 ≤ maxLenF32 →
          le32 (shardPayload blob) 14 * d ≤ maxLenF32 →
          ∃ mat, decodeR F (shardPayload blob)
            = (le32 (shardPayload blob) 0, le32 (shardPayload blob) 4, .ok mat)))
        shards rewritten := by
  obtain ⟨dsub, rfl⟩ := hdvd
  have hds : 1 ≤ dsub := by
    rcases Nat.eq_zero_or_pos dsub with h | h
    · rw [h] at hd; omega
    · exact h
  exact rewrite_decode_pairs F hash shards m dsub hm hds hfr hR hcount

/-- C5, amended, on two copies of the shard `shC`. -/
theorem rewrite_decode_witness :
    ∃ rewritten codebooks pool,
      rewriteRShardsWithSharedCodebooks (fun _ => 0) [shC, shC] = .ok (rewritten, codebooks) ∧
      ParseCodebookPool f32fix codebooks = .ok pool ∧
      List.Forall₂ (fun blob new => byteAt blob 0 = 1 →
        (∀ mat, decodeR f32fix (shardPayload blob)
            = (le32 (shardPayload blob) 0, le32 (shardPayload blob) 4, .ok mat) ↔
          decodeRWithPool (le32 (shardPayload blob) 0) (le32 (shardPayload blob) 4)
            (shardPayload new) pool = .ok mat) ∧
        (le32 (shardPayload blob) 0 * le32 (shardPayload blob) 4 ≤ maxLenF32 →
          le32 (shardPayload blob) 14 * 2 ≤ maxLenF32 →
          ∃ mat, decodeR f32fix (shardPayload blob)
            = (le32 (shardPayload blob) 0, le32 (shardPayload blob) 4, .ok mat)))
        [shC, shC] rewritten :=
  rewrite_decode f32fix (fun _ => 0) [shC, shC] 2 1 (by decide) (by decide) (by decide)
    (by decide) (by decide) (by decide)

/-- C7: for every non-empty list of fewer than `2^32` sections with pairwise distinct `uint32`
type ids and any flags, with compressors whose decoders invert their encoders, and a file that
stays below `2^63` bytes: `Writer.Write` writes a file, `OpenCAWSF` opens it with one TOC entry
per section, and `SectionUncompressed(type)` returns for every section the payload that was
added. -/
theorem container_roundtrip (c : Codec) (hc : c.inverts) (sections : List Section)
    (hne : sections ≠ []) (hnum : sections.length < 2 ^ 32)
    (hty : ∀ s ∈ sections, s.TypeID < 2 ^ 32 ∧ s.Flags < 2 ^ 32)
    (hd : (sections.map (fun s => s.TypeID)).Nodup)
    (hsz : ∀ ps, preparePayloads c sections = .ok ps →
      ∀ e ∈ tocOf sections ps, e.Offset + e.Size < 2 ^ 63) :
    ∃ file r, Writer.Write c sections = .ok file ∧ OpenCAWSF file = .ok r ∧
      r.TOC.length = sections.length ∧
      ∀ s ∈ sections, r.SectionUncompressed c s.TypeID = .ok s.Data :=
  container_roundtrip_aux c hc sections hne hnum hty hd hsz

theorem container_roundtrip_witness :
    ∃ file r, Writer.Write Codec.store [⟨1, [7, 8, 9], 0⟩, ⟨3, [5], 2⟩] = .ok file ∧
      OpenCAWSF file = .ok r ∧
      r.TOC.length = [(⟨1, [7, 8, 9], 0⟩ : Section), ⟨3, [5], 2⟩].length ∧
      ∀ s ∈ [(⟨1, [7, 8, 9], 0⟩ : Section), ⟨3, [5], 2⟩],
        r.SectionUncompressed Codec.store s.TypeID = .ok s.Data :=
  container_roundtrip Codec.store ⟨fun x => ⟨x, rfl, rfl⟩, fun x => ⟨x, rfl, rfl⟩⟩
    [⟨1, [7, 8, 9], 0⟩, ⟨3, [5], 2⟩] (by decide) (by decide) (by decide) (by decide)
    (by
      intro ps h
      have h2 : ps = [[7, 8, 9], [5]] := by
        have h3 : preparePayloads Codec.store [⟨1, [7, 8, 9], 0⟩, ⟨3, [5], 2⟩]
            = .ok [[7, 8, 9], [5]] := rfl
        rw [h3] at h
        cases h
        rfl
      subst h2
      decide)

/-! ## Claims on single half-precision patterns -/

/-- C11: for every half-precision bit pattern `h` with exponent field 0 and mantissa `m != 0`,
the normalising loop of `fp16to32` terminates (with the same result for every budget of at
least 10 iterations), the float32 returned is normal (exponent field in 1..254), and its value
is exactly `(-1)^sign * m * 2^-24`. -/
theorem fp16_subnormal (h : Nat) (hh : h < 2 ^ 16) (he : (h >>> 10) &&& 0x1F = 0)
    (hm : h &&& 0x3FF ≠ 0) :
    (∃ r, ∀ fuel, 10 ≤ fuel →
      normLoop fuel (((h &&& 0x3FF) <<< 13) % 2 ^ 32) (127 - 15 + 1) = some r) ∧
    1 ≤ fp16to32bits h / 2 ^ 23 % 256 ∧ fp16to32bits h / 2 ^ 23 % 256 ≤ 254 ∧
    f32val (fp16to32bits h)
      = (if (h >>> 15) &&& 0x1 = 1 then -1 else 1) * ((h &&& 0x3FF : Nat) : ℚ) / 2 ^ 24 := by
  have e1 : (h >>> 15) &&& 0x1 = h / 2 ^ 15 := by
    rw [Nat.shiftRight_eq_div_pow, Nat.and_one_is_mod]; omega
  have e2 : (h >>> 10) &&& 0x1F = h / 2 ^ 10 % 32 := by
    rw [Nat.shiftRight_eq_div_pow, show (0x1F : Nat) = 2 ^ 5 - 1 from rfl, and_mask]
    norm_num
  have e3 : h &&& 0x3FF = h % 2 ^ 10 := by
    rw [show (0x3FF : Nat) = 2 ^ 10 - 1 from rfl, and_mask]
  rw [e2] at he
  rw [e3] at hm
  have hs : h / 2 ^ 15 < 2 := by omega
  have hsplit : h = 32768 * (h / 2 ^ 15) + h % 2 ^ 10 := by omega
  obtain ⟨t1, t2, t3, t4, t5⟩ := subnormal_table (h / 2 ^ 15) hs (h % 2 ^ 10) (by omega) hm
  rw [← hsplit] at t2 t3 t4 t5
  rw [e1, e3]
  refine ⟨?_, t2, t3, ?_⟩
  · obtain ⟨r, hr⟩ := Option.isSome_iff_exists.mp t1
    exact ⟨r, normLoop_fuel 10 _ _ r hr⟩
  · unfold f32val
    rw [t4, t5]
    rcases (by omega : h / 2 ^ 15 = 0 ∨ h / 2 ^ 15 = 1) with h0 | h0
    · rw [h0]
      simp only [zero_ne_one, if_false]
      push_cast
      rw [show (2 : ℚ) ^ 150 = 2 ^ 126 * 2 ^ 24 by norm_num]
      field_simp
      ring
    · rw [h0]
      simp only [if_true]
      push_cast
      rw [show (2 : ℚ) ^ 150 = 2 ^ 126 * 2 ^ 24 by norm_num]
      field_simp
      ring

theorem fp16_subnormal_witness :
    (∃ r, ∀ fuel, 10 ≤ fuel →
      normLoop fuel (((0x8001 &&& 0x3FF) <<< 13) % 2 ^ 32) (127 - 15 + 1) = some r) ∧
    1 ≤ fp16to32bits 0x8001 / 2 ^ 23 % 256 ∧ fp16to32bits 0x8001 / 2 ^ 23 % 256 ≤ 254 ∧
    f32val (fp16to32bits 0x8001)
      = (if (0x8001 >>> 15) &&& 0x1 = 1 then -1 else 1) * ((0x8001 &&& 0x3FF : Nat) : ℚ)
          / 2 ^ 24 :=
  fp16_subnormal 0x8001 (by decide) (by decide) (by decide)

/-- C12: for every half-precision bit pattern `h` that is a zero (exponent and mantissa 0), an
infinity (exponent 31, mantissa 0) or a normal number (exponent field 1..30), encoding the
decoded float32 gives `h` back bit for bit: `fp32to16(fp16to32(h)) = [h & 0xFF, h >> 8]`. -/
theorem fp16_bit_exact (h : Nat) (hh : h < 2 ^ 16)
    (hk : ((h >>> 10) &&& 0x1F = 0 ∧ h &&& 0x3FF = 0) ∨
          ((h >>> 10) &&& 0x1F = 0x1F ∧ h &&& 0x3FF = 0) ∨
          (1 ≤ (h >>> 10) &&& 0x1F ∧ (h >>> 10) &&& 0x1F ≤ 30)) :
    fp32to16 (fp16to32bits h) = [h &&& 0xFF, h >>> 8] := by
  have e2 : (h >>> 10) &&& 0x1F = h / 2 ^ 10 % 32 := by
    rw [Nat.shiftRight_eq_div_pow, show (0x1F : Nat) = 2 ^ 5 - 1 from rfl, and_mask]
    norm_num
  have e3 : h &&& 0x3FF = h % 2 ^ 10 := by
    rw [show (0x3FF : Nat) = 2 ^ 10 - 1 from rfl, and_mask]
  have e4 : h &&& 0xFF = h % 256 := by
    rw [show (0xFF : Nat) = 2 ^ 8 - 1 from rfl, and_mask]
    norm_num
  have e5 : h >>> 8 = h / 256 := by rw [Nat.shiftRight_eq_div_pow]
  rw [e2, e3] at hk
  have hs : h / 2 ^ 15 < 2 := by omega
  have key : readHalf (fp32to16 (fp16to32bits h)) 0 = h := by
    rcases hk with ⟨h1, h2⟩ | ⟨h1, h2⟩ | ⟨h1, h2⟩
    · have hsplit : h = 2 ^ 15 * (h / 2 ^ 15) := by omega
      rw [hsplit, fp16to32bits_zero _ hs, readHalf_fp32to16_small _ (by omega) (by omega)]
      omega
    · have hsplit : h = 32768 * (h / 2 ^ 15) + 31744 := by omega
      rw [hsplit]
      exact fp16_inf_roundtrip _ hs
    · have hsplit : h = 2 ^ 15 * (h / 2 ^ 15) + 2 ^ 10 * (h / 2 ^ 10 % 32) + h % 2 ^ 10 := by
        omega
      have hq : h % 2 ^ 10 < 2 ^ 10 := Nat.mod_lt _ (by norm_num)
      rw [hsplit, fp16to32bits_normal _ _ _ hs h1 h2 hq]
      generalize h / 2 ^ 15 = s at hs ⊢
      generalize h / 2 ^ 10 % 32 = e at h1 h2 ⊢
      generalize h % 2 ^ 10 = q at hq ⊢
      rw [readHalf_fp32to16_normal _ (by omega) (by omega) (by omega)]
      omega
  rw [fp32to16_bytes, key, e4, e5]

theorem fp16_bit_exact_witness :
    fp32to16 (fp16to32bits 0xC500) = [0xC500 &&& 0xFF, 0xC500 >>> 8] :=
  fp16_bit_exact 0xC500 (by decide) (by decide)

/-! ## Claims on the choice between the embedded and the shared R layout -/

/-- C20: the embedded/shared test of `decodeR` (shared iff `len - 20 == n*m`) is unambiguous.
For every payload with header fields `d, m >= 1, k, n`: if its length is
`18 + 4*m*k*(d/m) + n*m` (embedded layout) it is not taken for shared, and `decodeR` returns
what the embedded decode loops give on its codebook bytes and codes (cut or zero-filled to
`rows*cols` values by the last lines of `decodeR`); if its length is
`20 + n*m` (shared layout) `decodeR` returns the shared-codebook error with the shape of the
header.  `applyRAddOptimized` takes the same branches. -/
theorem layout_unambiguous {α : Type} [Zero α] [Add α] [Mul α] (F : Nat → α) (p : Bytes)
    (hm : 1 ≤ le16 p 10) :
    (p.length = 18 + 4 * le16 p 10 * le16 p 12 * (le16 p 8 / le16 p 10) + le32 p 14 * le16 p 10 →
      decodeR F p
        = (match decodeBlocksEmbedded F (le16 p 8) (le16 p 10) (le16 p 12) (le32 p 14)
              (le16 p 8 / le16 p 10)
              (slice p 18 (18 + le16 p 10 * le16 p 12 * (le16 p 8 / le16 p 10) * 4))
              (p.drop (18 + le16 p 10 * le16 p 12 * (le16 p 8 / le16 p 10) * 4)) with
            | .error e => (0, 0, .error e)
            | .ok blocks =>
              match finishR (le32 p 0) (le32 p 4) blocks with
              | .error e => (0, 0, .error e)
              | .ok mat => (le32 p 0, le32 p 4, .ok mat)) ∧
      ∀ (gpu : Gpu α) (y x : List α) (rows cols : Nat) (pool : Option (CodebookPool α)),
        applyRAddOptimized F gpu y rows cols p x pool
          = applyREmbeddedLoop F rows cols (le16 p 8) (le16 p 10) (le16 p 12) (le32 p 14)
              (le16 p 8 / le16 p 10)
              (slice p 18 (18 + le16 p 10 * le16 p 12 * (le16 p 8 / le16 p 10) * 4))
              (p.drop (18 + le16 p 10 * le16 p 12 * (le16 p 8 / le16 p 10) * 4)) x y) ∧
    (p.length = 20 + le32 p 14 * le16 p 10 →
      decodeR F p
        = (le32 p 0, le32 p 4,
            .error (.error "R shard references shared codebook: external codebooks required")) ∧
      ∀ (gpu : Gpu α) (y x : List α) (rows cols : Nat),
        applyRAddOptimized F gpu y rows cols p x none
          = .error (.error "shared codebooks referenced but pool is nil")) := by
  constructor
  · intro hlen
    have hne : ¬ (p.length ≥ 18 + 2 ∧ p.length - (18 + 2) = le32 p 14 * le16 p 10) := by
      generalize le16 p 10 * le16 p 12 * (le16 p 8 / le16 p 10) = X at *
      have : 4 * le16 p 10 * le16 p 12 * (le16 p 8 / le16 p 10)
          = 4 * (le16 p 10 * le16 p 12 * (le16 p 8 / le16 p 10)) := by ring
      rw [this] at hlen
      generalize le16 p 10 * le16 p 12 * (le16 p 8 / le16 p 10) = X at *
      generalize le32 p 14 * le16 p 10 = Y at *
      omega
    have hsz : ¬ (18 + le16 p 10 * le16 p 12 * (le16 p 8 / le16 p 10) * 4 > p.length) := by
      have : 4 * le16 p 10 * le16 p 12 * (le16 p 8 / le16 p 10)
          = le16 p 10 * le16 p 12 * (le16 p 8 / le16 p 10) * 4 := by ring
      rw [this] at hlen
      omega
    have hcl : ¬ ((p.drop (18 + le16 p 10 * le16 p 12 * (le16 p 8 / le16 p 10) * 4)).length
        ≠ le32 p 14 * le16 p 10) := by
      have : 4 * le16 p 10 * le16 p 12 * (le16 p 8 / le16 p 10)
          = le16 p 10 * le16 p 12 * (le16 p 8 / le16 p 10) * 4 := by ring
      rw [this] at hlen
      rw [List.length_drop]
      omega
    constructor
    · unfold decodeR
      rw [if_neg (by omega)]
      simp only []
      rw [if_neg (by omega), if_neg (by omega), if_neg hne, if_neg hsz, if_neg hcl]
      try rfl
    · intro gpu y x rows cols pool
      unfold applyRAddOptimized
      rw [if_neg (by omega)]
      simp only []
      rw [if_neg (by omega), if_neg (by simpa using hne), if_neg hsz, if_neg hcl]
  · intro hlen
    have hsh : p.length ≥ 18 + 2 ∧ p.length - (18 + 2) = le32 p 14 * le16 p 10 := by omega
    constructor
    · unfold decodeR
      rw [if_neg (by omega)]
      simp only []
      rw [if_neg (by omega), if_neg (by omega), if_pos hsh]
    · intro gpu y x rows cols
      unfold applyRAddOptimized
      rw [if_neg (by omega)]
      simp only []
      rw [if_neg (by omega), if_pos (by simpa using hsh)]

theorem layout_unambiguous_witness :
    decodeR f32fix (shardPayload shC) = (2, 2, .ok [f32fix 1, 0, 0, f32fix 1]) ∧
    decodeR f32fix testShared
      = (1, 2, .error (.error "R shard references shared codebook: external codebooks required")) := by
  have h := layout_unambiguous f32fix (shardPayload shC) (by decide)
  have h2 := layout_unambiguous f32fix testShared (by decide)
  refine ⟨?_, (h2.2 (by decide)).1⟩
  rw [(h.1 (by decide)).1]
  decide

/-! ## Claims on the codebook-pool rewriter -/

/-- C17, as stated, fails.  `shD` and `shE` are framed, well-formed embedded R shards with the
same 16 codebook bytes and the headers `(d, m, k) = (4, 2, 1)` and `(4, 1, 1)`; `decodeR`
decodes both.  After the rewrite the `cb_id` of the second shard resolves to a pool entry with
`(d, m, k) = (4, 2, 1)` while its own header has `m = 1`, and `decodeRWithPool` rejects the
rewritten shard.  `shA` and `shB` are framed, well-formed embedded R shards with `d = 0`,
`m = 1`, the same empty codebook and `k = 1` and `k = 2`: after the rewrite the `cb_id` of the
second resolves to an entry with `k = 1` while its own header has `k = 2`.  And the 65536
shards of `manyShards` are framed, well-formed embedded R shards with `d = m = k = 1` and
pairwise distinct codebooks: the CODEBOOKS bytes the rewriter returns for them parse to a pool
without entries (the count is written as a `uint16`), in which no `cb_id` resolves. -/
theorem rewrite_entry_counterexample :
    ((Framed shD ∧ byteAt shD 0 = 1 ∧ EmbeddedR 4 2 (shardPayload shD)) ∧
    (Framed shE ∧ byteAt shE 0 = 1 ∧ EmbeddedR 4 1 (shardPayload shE)) ∧
    decodeR f32fix (shardPayload shE) = (1, 4, .ok [2, 4, 6, 8]) ∧
    entryRewritten f32fix (fun _ => 0) [shD, shE] 1 = .ok (some (4, 2, 1)) ∧
    (rewriteRShardsWithSharedCodebooks (fun _ => 0) [shD, shE]).map
        (fun out => le16 (shardPayload (out.1.getD 1 [])) 10) = .ok 1 ∧
    decodeRewritten f32fix (fun _ => 0) [shD, shE] 1 4 1
      = .error (.error "codebook m mismatch") ∧
    (∀ blob ∈ [shA, shB],
      Framed blob ∧ byteAt blob 0 = 1 ∧ EmbeddedR 0 1 (shardPayload blob)) ∧
    entryRewritten f32fix (fun _ => 0) [shA, shB] 1 = .ok (some (0, 1, 1)) ∧
    (rewriteRShardsWithSharedCodebooks (fun _ => 0) [shA, shB]).map
        (fun out => le16 (shardPayload (out.1.getD 1 [])) 12) = .ok 2) ∧
    (∀ blob ∈ manyShards,
      Framed blob ∧ byteAt blob 0 = 1 ∧ EmbeddedR 1 1 (shardPayload blob)) ∧
    ∃ out codebooks pool,
      rewriteRShardsWithSharedCodebooks (fun _ => 0) manyShards = .ok (out, codebooks) ∧
      ParseCodebookPool f32fix codebooks = .ok pool ∧ ∀ id, pool.find id = none := by
  refine ⟨by decide, ?_⟩
  have hwf : ∀ blob ∈ manyShards,
      Framed blob ∧ byteAt blob 0 = 1 ∧ EmbeddedR 1 1 (shardPayload blob) := by
    intro blob hb
    obtain ⟨i, _, rfl⟩ := List.mem_map.mp hb
    exact ⟨(shN_wf i).1, (shN_wf i).2.1, (shN_wf i).2.2.1⟩
  obtain ⟨P, out, h1, _, h3, _, _⟩ := rewrite_gen (fun _ => 0) manyShards
    (fun b hb => (hwf b hb).1)
    (fun b hb _ _ => by rw [(hwf b hb).2.2.2.1])
  rw [shardCodebooks_embedded manyShards (fun b hb => ⟨(hwf b hb).2.1, 1, 1, (hwf b hb).2.2⟩)]
    at h3
  have hlen : P.length = 65536 := by
    have : (P.map (fun e => e.data)).length = P.length := List.length_map _ _
    rw [h3, manyShards_distinct] at this
    exact this.symm
  refine ⟨hwf, out, codebookBytes P, { Entries := [] }, h1, ?_, fun _ => rfl⟩
  have hl : (codebookBytes P).length = 2 + ((P.map poolEntryBytes).flatten).length := by
    simp [codebookBytes, putU16]; omega
  have hcnt : le16 (codebookBytes P) 0 = 0 := by
    simp [codebookBytes, le16, putU16, byteAt, hlen]
  unfold ParseCodebookPool
  rw [if_neg (by omega), if_neg (by omega), hcnt]
  rfl

/-- C17, amended: for every list of framed shards in which every R shard is a well-formed
embedded R shard with the same `d >= 1` and the same `m` (`m >= 1` dividing `d`, any `k`) and
in which fewer than 65536 distinct codebooks occur (the ids of the pool are `uint16`): the
rewriter returns, `ParseCodebookPool` parses the CODEBOOKS bytes it returns, and the `cb_id` of
every rewritten R shard resolves in the parsed pool to an entry whose `m`, `k` and `d` equal
the `m`, `k` and `d` in that shard's own header. -/
theorem rewrite_entry {α : Type} [Zero α] (F : Nat → α) (hash : Bytes → Nat)
    (shards : List Bytes) (d m : Nat) (hd : 1 ≤ d) (hm : 1 ≤ m) (hdvd : m ∣ d)
    (hfr : ∀ blob ∈ shards, Framed blob)
    (hR : ∀ blob ∈ shards, byteAt blob 0 = 1 → EmbeddedR d m (shardPayload blob))
    (hcount : ((shards.filter (fun b => byteAt b 0 = 1)).map
      (fun b => embeddedCodebook (shardPayload b))).toFinset.card < 65536) :
    ∃ rewritten codebooks pool,
      rewriteRShardsWithSharedCodebooks hash shards = .ok (rewritten, codebooks) ∧
      ParseCodebookPool F codebooks = .ok pool ∧
      List.Forall₂ (fun blob new => byteAt blob 0 = 1 →
        ∃ entry, pool.find (le16 (shardPayload new) 18) = some entry ∧
          entry.M = le16 (shardPayload new) 10 ∧ entry.K = le16 (shardPayload new) 12 ∧
          entry.D = le16 (shardPayload new) 8) shards rewritten := by
  obtain ⟨dsub, rfl⟩ := hdvd
  have hds : 1 ≤ dsub := by
    rcases Nat.eq_zero_or_pos dsub with h | h
    · rw [h] at hd; omega
    · exact h
  exact rewrite_entry_core F hash shards m dsub hm hds hfr hR hcount

/-- C17, amended, on two copies of the shard `shC` (`d = 2`, `m = 1`). -/
theorem rewrite_entry_witness :
    ∃ rewritten codebooks pool,
      rewriteRShardsWithSharedCodebooks (fun _ => 0) [shC, shC] = .ok (rewritten, codebooks) ∧
      ParseCodebookPool f32fix codebooks = .ok pool ∧
      List.Forall₂ (fun blob new => byteAt blob 0 = 1 →
        ∃ entry, pool.find (le16 (shardPayload new) 18) = some entry ∧
          entry.M = le16 (shardPayload new) 10 ∧ entry.K = le16 (shardPayload new) 12 ∧
          entry.D = le16 (shardPayload new) 8) [shC, shC] rewritten :=
  rewrite_entry f32fix (fun _ => 0) [shC, shC] 2 1 (by decide) (by decide) (by decide)
    (by decide) (by decide) (by decide)

/-- C19, as stated, fails: `shZ` is a framed shard (12-byte header, payload of the declared
`csize`) of type R whose header has `m = 0`, and on it the rewriter does not return: it
divides by `m`. -/
theorem rewrite_frame_counterexample :
    Framed shZ ∧
    rewriteRShardsWithSharedCodebooks (fun _ => 0) [shZ]
      = .error (.panic "integer divide by zero") := by
  decide

/-- C19, amended: for every list of framed shards (a 12-byte header and a payload of the
declared `csize`, shorter than `2^32` bytes in all) in which every R shard with a payload of at
least 18 bytes has `m >= 1`, the rewriter returns a list of the same length in which every
non-R shard is the input blob at the same index, and every well-formed embedded R shard keeps
its first four bytes (type, scope, comp) while its `usize` and `csize` both equal the new
payload length `20 + len(codes)`. -/
theorem rewrite_frame (hash : Bytes → Nat) (shards : List Bytes)
    (hfr : ∀ blob ∈ shards, Framed blob ∧ blob.length < 2 ^ 32)
    (hm : ∀ blob ∈ shards, byteAt blob 0 = 1 → 18 ≤ (shardPayload blob).length →
      1 ≤ le16 (shardPayload blob) 10) :
    ∃ out codebooks, rewriteRShardsWithSharedCodebooks hash shards = .ok (out, codebooks) ∧
      out.length = shards.length ∧
      List.Forall₂ (fun blob new =>
        (byteAt blob 0 ≠ 1 → new = blob) ∧
        (byteAt blob 0 = 1 → ∀ d m, EmbeddedR d m (shardPayload blob) →
          new.take 4 = blob.take 4 ∧
          le32 new 4 = 20 + ((shardPayload blob).drop
            (18 + m * le16 (shardPayload blob) 12 * (d / m) * 4)).length ∧
          le32 new 8 = 20 + ((shardPayload blob).drop
            (18 + m * le16 (shardPayload blob) 12 * (d / m) * 4)).length ∧
          (shardPayload new).length = 20 + ((shardPayload blob).drop
            (18 + m * le16 (shardPayload blob) 12 * (d / m) * 4)).length)) shards out := by
  obtain ⟨P, out, h1, _, _, h4, _⟩ := rewrite_gen hash shards (fun b hb => (hfr b hb).1) hm
  refine ⟨out, codebookBytes P, h1, (List.Forall₂.length_eq h4).symm, ?_⟩
  have hmem : ∀ (l1 l2 : List Bytes), (∀ b ∈ l1, b ∈ shards) →
      List.Forall₂ (RewriteRel (P.map (fun e => e.data))) l1 l2 →
      List.Forall₂ (fun blob new =>
        (byteAt blob 0 ≠ 1 → new = blob) ∧
        (byteAt blob 0 = 1 → ∀ d m, EmbeddedR d m (shardPayload blob) →
          new.take 4 = blob.take 4 ∧
          le32 new 4 = 20 + ((shardPayload blob).drop
            (18 + m * le16 (shardPayload blob) 12 * (d / m) * 4)).length ∧
          le32 new 8 = 20 + ((shardPayload blob).drop
            (18 + m * le16 (shardPayload blob) 12 * (d / m) * 4)).length ∧
          (shardPayload new).length = 20 + ((shardPayload blob).drop
            (18 + m * le16 (shardPayload blob) 12 * (d / m) * 4)).length)) l1 l2 := by
    intro l1 l2 hsub hrel
    induction hrel with
    | nil => exact List.Forall₂.nil
    | @cons blob new bs ns hbn _ ih =>
      refine List.Forall₂.cons ⟨?_, ?_⟩ (ih (fun b hb => hsub b (List.mem_cons_of_mem _ hb)))
      · intro hne
        exact hbn.2 (fun h => hne h.1)
      · intro hb d m hE
        obtain ⟨hf, hlt⟩ := hfr blob (hsub blob (List.mem_cons_self _ _))
        obtain ⟨hnew, _⟩ := hbn.1 (rewritable_of_embedded blob d m hb hE)
        obtain ⟨e1, e2, _, _, hl, _⟩ := hE
        have hcodes : (infoOf 0 blob).codes = (shardPayload blob).drop
            (18 + m * le16 (shardPayload blob) 12 * (d / m) * 4) := by
          simp only [infoOf, e1, e2]
        obtain ⟨g1, g2, g3⟩ := rewriteBlob_header blob (infoOf 0 blob)
          (idxOf (embeddedCodebook (shardPayload blob)) (P.map (fun e => e.data))) hf.2.1
        have hpl : (shardPayload blob).length + 12 = blob.length := by
          unfold shardPayload; rw [List.length_drop]; have := hf.2.1; omega
        have hsmall : 20 + ((shardPayload blob).drop
            (18 + m * le16 (shardPayload blob) 12 * (d / m) * 4)).length < 2 ^ 32 := by
          rw [List.length_drop]; omega
        rw [hcodes, Nat.mod_eq_of_lt hsmall] at g2 g3
        rw [hnew]
        refine ⟨g1, g2, g3, ?_⟩
        rw [shardPayload_rewriteBlob _ _ _ hf.2.1, (sharedPayload_fields _ _).2.2.2.2.2.2, hcodes]
  exact hmem shards out (fun b hb => hb) h4

theorem rewrite_frame_witness :
    ∃ out codebooks,
      rewriteRShardsWithSharedCodebooks (fun _ => 0) [packShard 0 3 [1, 2], shC]
        = .ok (out, codebooks) ∧
      out.length = [packShard 0 3 [1, 2], shC].length ∧
      List.Forall₂ (fun blob new =>
        (byteAt blob 0 ≠ 1 → new = blob) ∧
        (byteAt blob 0 = 1 → ∀ d m, EmbeddedR d m (shardPayload blob) →
          new.take 4 = blob.take 4 ∧
          le32 new 4 = 20 + ((shardPayload blob).drop
            (18 + m * le16 (shardPayload blob) 12 * (d / m) * 4)).length ∧
          le32 new 8 = 20 + ((shardPayload blob).drop
            (18 + m * le16 (shardPayload blob) 12 * (d / m) * 4)).length ∧
          (shardPayload new).length = 20 + ((shardPayload blob).drop
            (18 + m * le16 (shardPayload blob) 12 * (d / m) * 4)).length))
        [packShard 0 3 [1, 2], shC] out :=
  rewrite_frame (fun _ => 0) [packShard 0 3 [1, 2], shC] (by decide) (by decide)

/-! ## Claims on codebook deduplication -/

theorem mem_firstSeen (l : List Bytes) : ∀ (acc : List Bytes) (c : Bytes),
    c ∈ acc ∨ c ∈ l → c ∈ firstSeen acc l := by
  induction l with
  | nil =>
    intro acc c h
    rcases h with h | h
    · exact h
    · simp at h
  | cons x xs ih =>
    intro acc c h
    unfold firstSeen
    split
    · rename_i hx
      apply ih
      rcases h with h | h
      · exact Or.inl h
      · rcases List.mem_cons.mp h with h1 | h1
        · exact Or.inl (by rw [h1]; exact hx)
        · exact Or.inr h1
    · apply ih
      rcases h with h | h
      · exact Or.inl (List.mem_append_left _ h)
      · rcases List.mem_cons.mp h with h1 | h1
        · exact Or.inl (by rw [h1]; simp)
        · exact Or.inr h1

/-- C18, as stated, fails: the 65536 shards of `manyShards` are framed, well-formed embedded R
shards with `p = 65536` distinct codebooks, and the CODEBOOKS section the rewriter returns for
them has `count = 0`: the count is written as a `uint16`. -/
theorem rewrite_dedup_counterexample :
    (∀ blob ∈ manyShards,
      Framed blob ∧ byteAt blob 0 = 1 ∧ EmbeddedR 1 1 (shardPayload blob)) ∧
    (firstSeen [] (manyShards.map (fun b => embeddedCodebook (shardPayload b)))).length
      = 65536 ∧
    ∃ out codebooks,
      rewriteRShardsWithSharedCodebooks (fun _ => 0) manyShards = .ok (out, codebooks) ∧
      le16 codebooks 0 = 0 := by
  have hwf : ∀ blob ∈ manyShards,
      Framed blob ∧ byteAt blob 0 = 1 ∧ EmbeddedR 1 1 (shardPayload blob) := by
    intro blob hb
    obtain ⟨i, _, rfl⟩ := List.mem_map.mp hb
    exact ⟨(shN_wf i).1, (shN_wf i).2.1, (shN_wf i).2.2.1⟩
  obtain ⟨P, out, h1, _, h3, _, _⟩ := rewrite_gen (fun _ => 0) manyShards
    (fun b hb => (hwf b hb).1)
    (fun b hb _ _ => by rw [(hwf b hb).2.2.2.1])
  rw [shardCodebooks_embedded manyShards (fun b hb => ⟨(hwf b hb).2.1, 1, 1, (hwf b hb).2.2⟩)]
    at h3
  have hlen : P.length = 65536 := by
    have : (P.map (fun e => e.data)).length = P.length := List.length_map _ _
    rw [h3, manyShards_distinct] at this
    exact this.symm
  refine ⟨hwf, manyShards_distinct, out, codebookBytes P, h1, ?_⟩
  simp [codebookBytes, le16, putU16, byteAt, hlen]

/-- C18, amended: for every list of framed, well-formed embedded R shards in which fewer than
65536 distinct codebooks occur, and whatever hash function is used: the rewriter returns one
shard per input shard; the `cb_id` of every rewritten shard is the position of its embedded
codebook bytes among the distinct codebooks in order of first appearance, so two shards get
the same `cb_id` if and only if their codebook bytes are equal; and the CODEBOOKS section has
`count = p`, the number of distinct codebooks, with entry `j` carrying id `j` and the `j`-th
distinct codebook. -/
theorem rewrite_dedup (hash : Bytes → Nat) (shards : List Bytes)
    (hwf : ∀ blob ∈ shards, Framed blob ∧ byteAt blob 0 = 1 ∧
      ∃ d m, EmbeddedR d m (shardPayload blob))
    (hp : (firstSeen [] (shards.map (fun b => embeddedCodebook (shardPayload b)))).length
      < 65536) :
    ∃ (P : List PoolEntry) (out : List Bytes),
      rewriteRShardsWithSharedCodebooks hash shards = .ok (out, codebookBytes P) ∧
      P.map (fun e => e.data)
        = firstSeen [] (shards.map (fun b => embeddedCodebook (shardPayload b))) ∧
      P.map (fun e => e.id) = List.range P.length ∧
      le16 (codebookBytes P) 0 = P.length ∧
      List.Forall₂ (fun blob new =>
        cbIdOf new = idxOf (embeddedCodebook (shardPayload blob)) (P.map (fun e => e.data)))
        shards out ∧
      ∀ b1 n1 b2 n2, (b1, n1) ∈ shards.zip out → (b2, n2) ∈ shards.zip out →
        (cbIdOf n1 = cbIdOf n2 ↔
          embeddedCodebook (shardPayload b1) = embeddedCodebook (shardPayload b2)) := by
  obtain ⟨P, out, h1, h2, h3, h4, _⟩ := rewrite_gen hash shards (fun b hb => (hwf b hb).1)
    (fun b hb _ _ => by
      obtain ⟨_, _, d, m, hE⟩ := hwf b hb
      rw [hE.2.1]; exact hE.2.2.1)
  rw [shardCodebooks_embedded shards (fun b hb => (hwf b hb).2)] at h3
  have hPlen : P.length < 65536 := by
    have : (P.map (fun e => e.data)).length = P.length := List.length_map _ _
    rw [h3] at this
    omega
  have hrel : ∀ (l1 l2 : List Bytes), (∀ b ∈ l1, b ∈ shards) →
      List.Forall₂ (RewriteRel (P.map (fun e => e.data))) l1 l2 →
      List.Forall₂ (fun blob new =>
        cbIdOf new = idxOf (embeddedCodebook (shardPayload blob)) (P.map (fun e => e.data)))
        l1 l2 := by
    intro l1 l2 hsub hr
    induction hr with
    | nil => exact List.Forall₂.nil
    | @cons blob new bs ns hbn _ ih =>
      refine List.Forall₂.cons ?_ (ih (fun b hb => hsub b (List.mem_cons_of_mem _ hb)))
      obtain ⟨hf, hb, d, m, hE⟩ := hwf blob (hsub blob (List.mem_cons_self _ _))
      obtain ⟨hnew, hmem⟩ := hbn.1 (rewritable_of_embedded blob d m hb hE)
      rw [hnew, cbIdOf_rewriteBlob _ _ _ hf.2.1]
      have := (idxOf_lt_length _ _).mpr hmem
      rw [List.length_map] at this
      exact Nat.mod_eq_of_lt (by omega)
  have hF := hrel shards out (fun b hb => hb) h4
  have hzip : ∀ b n, (b, n) ∈ shards.zip out →
      cbIdOf n = idxOf (embeddedCodebook (shardPayload b)) (P.map (fun e => e.data)) := by
    intro b n hbn
    have key : ∀ (l1 l2 : List Bytes), List.Forall₂ (fun blob new =>
        cbIdOf new = idxOf (embeddedCodebook (shardPayload blob)) (P.map (fun e => e.data)))
        l1 l2 → (b, n) ∈ l1.zip l2 →
        cbIdOf n = idxOf (embeddedCodebook (shardPayload b)) (P.map (fun e => e.data)) := by
      intro l1 l2 hr
      induction hr with
      | nil => intro h; simp at h
      | cons hab _ ih =>
        intro h
        rw [List.zip_cons_cons] at h
        rcases List.mem_cons.mp h with h5 | h5
        · cases h5; exact hab
        · exact ih h5
    exact key shards out hF hbn
  refine ⟨P, out, h1, h3, h2.2.1, ?_, hF, ?_⟩
  · simp [codebookBytes, le16, putU16, byteAt]; omega
  · intro b1 n1 b2 n2 m1 m2
    rw [hzip b1 n1 m1, hzip b2 n2 m2, h3]
    apply idxOf_inj
    · exact mem_firstSeen _ _ _ (Or.inr (List.mem_map.mpr ⟨b1, (List.of_mem_zip m1).1, rfl⟩))
    · exact mem_firstSeen _ _ _ (Or.inr (List.mem_map.mpr ⟨b2, (List.of_mem_zip m2).1, rfl⟩))

theorem rewrite_dedup_witness :
    ∃ (P : List PoolEntry) (out : List Bytes),
      rewriteRShardsWithSharedCodebooks (fun _ => 7) [shC, shD, shC] = .ok (out, codebookBytes P) ∧
      P.map (fun e => e.data)
        = firstSeen [] ([shC, shD, shC].map (fun b => embeddedCodebook (shardPayload b))) ∧
      P.map (fun e => e.id) = List.range P.length ∧
      le16 (codebookBytes P) 0 = P.length ∧
      List.Forall₂ (fun blob new =>
        cbIdOf new = idxOf (embeddedCodebook (shardPayload blob)) (P.map (fun e => e.data)))
        [shC, shD, shC] out ∧
      ∀ b1 n1 b2 n2, (b1, n1) ∈ [shC, shD, shC].zip out → (b2, n2) ∈ [shC, shD, shC].zip out →
        (cbIdOf n1 = cbIdOf n2 ↔
          embeddedCodebook (shardPayload b1) = embeddedCodebook (shardPayload b2)) :=
  rewrite_dedup (fun _ => 7) [shC, shD, shC]
    (by
      intro blob hb
      simp only [List.mem_cons, List.mem_singleton, List.not_mem_nil, or_false] at hb
      rcases hb with h | h | h
      · subst h; exact ⟨by decide, by decide, 2, 1, by decide⟩
      · subst h; exact ⟨by decide, by decide, 4, 2, by decide⟩
      · subst h; exact ⟨by decide, by decide, 2, 1, by decide⟩)
    (by decide)

/-! ## Claims on the shared-codebook decoder -/

/-- A shared payload whose blocks `n*d` exceed the length `make` allocates: `decodeRWithPool`
ends in the panic of `make([]float32, n*d)`. -/
theorem decodeRWithPool_wide {α : Type} [Zero α] (payload : Bytes) (pool : CodebookPool α)
    (entry : CodebookEntry α) (rows cols : Nat)
    (hm : 1 ≤ le16 payload 10) (hdvd : le16 payload 10 ∣ le16 payload 8)
    (hlen : payload.length = 20 + le32 payload 14 * le16 payload 10)
    (hfind : pool.find (le16 payload 18) = some entry)
    (hM : entry.M = le16 payload 10) (hK : entry.K = le16 payload 12)
    (hD : entry.D = le16 payload 8)
    (hbig : maxLenF32 < le32 payload 14 * le16 payload 8)
    (h63 : le32 payload 14 * le16 payload 8 < 2 ^ 63) :
    decodeRWithPool rows cols payload pool
      = .error (.panic "makeslice: len out of range") := by
  generalize hd : le16 payload 8 = d at *
  generalize hmm : le16 payload 10 = m at *
  generalize hk : le16 payload 12 = k at *
  generalize hn : le32 payload 14 = n at *
  obtain ⟨dsub, rfl⟩ := hdvd
  have hds : m * dsub / m = dsub := Nat.mul_div_cancel_left _ (by omega)
  have hcl : (payload.drop 20).length = n * m := by rw [List.length_drop, hlen]; omega
  unfold decodeRWithPool
  rw [if_neg (by omega)]
  simp only [hd, hmm, hk, hn, hfind, hds]
  rw [if_neg (by simp [hcl]), if_neg (by omega), if_neg (by omega), if_neg (by omega),
    if_neg (by rw [hD, hds]; omega)]
  unfold decodeBlocksPool
  rw [makeLen_big n (m * dsub) hbig h63]
  rfl

theorem rShared_fields (rows cols d m k n cbID : Nat) (codes : Bytes) (hr : rows < 2 ^ 32)
    (hc : cols < 2 ^ 32) (hd : d < 2 ^ 16) (hm : m < 2 ^ 16) (hk : k < 2 ^ 16) (hn : n < 2 ^ 32)
    (hid : cbID < 2 ^ 16) :
    le16 (rShared rows cols d m k n cbID codes) 8 = d ∧
    le16 (rShared rows cols d m k n cbID codes) 10 = m ∧
    le16 (rShared rows cols d m k n cbID codes) 12 = k ∧
    le32 (rShared rows cols d m k n cbID codes) 14 = n ∧
    le16 (rShared rows cols d m k n cbID codes) 18 = cbID ∧
    (rShared rows cols d m k n cbID codes).drop 20 = codes ∧
    (rShared rows cols d m k n cbID codes).length = 20 + codes.length := by
  have h : rShared rows cols d m k n cbID codes = sharedPayload
      { idx := 0, scope := 0, rows := rows, cols := cols, d := d, m := m, k := k, n := n,
        cb := [], codes := codes } cbID := by
    unfold rShared sharedPayload
    simp only [Nat.mod_eq_of_lt hr, Nat.mod_eq_of_lt hc, Nat.mod_eq_of_lt hd, Nat.mod_eq_of_lt hm,
      Nat.mod_eq_of_lt hk, Nat.mod_eq_of_lt hn, Nat.mod_eq_of_lt hid]
  obtain ⟨f1, f2, f3, f4, f5, f6, f7⟩ := sharedPayload_fields
      { idx := 0, scope := 0, rows := rows, cols := cols, d := d, m := m, k := k, n := n,
        cb := [], codes := codes } cbID
  rw [← h] at f1 f2 f3 f4 f5 f6 f7
  simp only [Nat.mod_eq_of_lt hd, Nat.mod_eq_of_lt hm, Nat.mod_eq_of_lt hk, Nat.mod_eq_of_lt hn,
    Nat.mod_eq_of_lt hid] at f1 f2 f3 f4 f5
  exact ⟨f1, f2, f3, f4, f5, f6, f7⟩

theorem wideShared_fields :
    le16 wideShared 8 = 65535 ∧ le16 wideShared 10 = 1 ∧ le16 wideShared 12 = 1 ∧
    le32 wideShared 14 = 2 ^ 31 ∧ le16 wideShared 18 = 0 ∧
    wideShared.drop 20 = List.replicate (2 ^ 31) 0 ∧ wideShared.length = 20 + 2 ^ 31 := by
  obtain ⟨f1, f2, f3, f4, f5, f6, f7⟩ := rShared_fields 1 1 65535 1 1 (2 ^ 31) 0
    (List.replicate (2 ^ 31) 0) (by norm_num) (by norm_num) (by norm_num) (by norm_num)
    (by norm_num) (by norm_num) (by norm_num)
  rw [List.length_replicate] at f7
  exact ⟨f1, f2, f3, f4, f5, f6, f7⟩

/-- C21, as stated, fails.  The payload `testShared2` of `TestDecodeRWithPool` and the pool
`testPool32` meet the conditions, and for `rows = cols = 2^32 - 1` `decodeRWithPool` does not
succeed: `rows*cols` is negative as an `int` and `make([]float32, need)` panics.  The payload
`wideShared` (`d = 65535`, `m = 1`, `k = 1`, `n = 2^31` codes `0`) and the pool `widePool` meet
the conditions too, and for `rows = cols = 1` `decodeRWithPool` does not succeed: `n*d` is above
the length `make([]float32, n*d)` allocates. -/
theorem decodeRWithPool_counterexample :
    (1 ≤ le16 testShared2 10 ∧ le16 testShared2 10 ∣ le16 testShared2 8 ∧
      testShared2.length = 20 + le32 testShared2 14 * le16 testShared2 10 ∧
      (∀ c ∈ testShared2.drop 20, c < le16 testShared2 12) ∧
      (testPool32.find (le16 testShared2 18)).map (fun e => (e.Data.length, e.M, e.K, e.D))
        = some (le16 testShared2 10 * le16 testShared2 12
            * (le16 testShared2 8 / le16 testShared2 10),
          le16 testShared2 10, le16 testShared2 12, le16 testShared2 8)) ∧
    decodeRWithPool (2 ^ 32 - 1) (2 ^ 32 - 1) testShared2 testPool32
      = .error (.panic "makeslice: len out of range") ∧
    (1 ≤ le16 wideShared 10 ∧ le16 wideShared 10 ∣ le16 wideShared 8 ∧
      wideShared.length = 20 + le32 wideShared 14 * le16 wideShared 10 ∧
      (∀ c ∈ wideShared.drop 20, c < le16 wideShared 12) ∧
      (widePool.find (le16 wideShared 18)).map (fun e => (e.Data.length, e.M, e.K, e.D))
        = some (le16 wideShared 10 * le16 wideShared 12
            * (le16 wideShared 8 / le16 wideShared 10),
          le16 wideShared 10, le16 wideShared 12, le16 wideShared 8)) ∧
    decodeRWithPool 1 1 wideShared widePool
      = .error (.panic "makeslice: len out of range") := by
  obtain ⟨f1, f2, f3, f4, f5, f6, f7⟩ := wideShared_fields
  have hfind : widePool.find (le16 wideShared 18) = some wideEntry := by rw [f5]; rfl
  refine ⟨by decide, by decide, ⟨?_, ?_, ?_, ?_, ?_⟩, ?_⟩
  · rw [f2]
  · rw [f1, f2]; exact one_dvd _
  · rw [f7, f4, f2, Nat.mul_one]
  · intro c hc
    rw [f6] at hc
    rw [f3, (List.mem_replicate.mp hc).2]
    exact Nat.one_pos
  · rw [hfind, f1, f2, f3]
    show some ((List.replicate 65535 (0 : F32)).length, 1, 1, 65535) = _
    rw [List.length_replicate]
  · exact decodeRWithPool_wide wideShared widePool wideEntry 1 1 (by rw [f2])
      (by rw [f1, f2]; exact one_dvd _) (by rw [f7, f4, f2, Nat.mul_one]) hfind (by rw [f2]; rfl)
      (by rw [f3]; rfl) (by rw [f1]; rfl) (by rw [f4, f1]; unfold maxLenF32; norm_num)
      (by rw [f4, f1]; norm_num)

/-- C21, amended: for every shared R payload with `m >= 1` dividing `d`, `n*m` code bytes each
below `k`, and a pool entry for `cb_id` holding `m*k*(d/m)` values with matching `m`, `k`, `d`,
and for `rows*cols <= 2^46` and `n*d <= 2^46` (the length `make` allocates),
`decodeRWithPool(rows, cols, payload, pool)` returns an array of length `rows*cols` whose
entry at `flat = r*d + i*(d/m) + j` (`r < n, i < m, j < d/m, flat < rows*cols`) is
`entry.Data[(i*k + codes[r*m+i])*(d/m) + j]`, and whose entries at `flat >= n*d` are zero. -/
theorem decodeRWithPool_spec {α : Type} [Zero α] (payload : Bytes) (pool : CodebookPool α)
    (entry : CodebookEntry α) (rows cols : Nat)
    (hm : 1 ≤ le16 payload 10) (hdvd : le16 payload 10 ∣ le16 payload 8)
    (hlen : payload.length = 20 + le32 payload 14 * le16 payload 10)
    (hcodes : ∀ c ∈ payload.drop 20, c < le16 payload 12)
    (hfind : pool.find (le16 payload 18) = some entry)
    (hdata : entry.Data.length
      = le16 payload 10 * le16 payload 12 * (le16 payload 8 / le16 payload 10))
    (hM : entry.M = le16 payload 10) (hK : entry.K = le16 payload 12)
    (hD : entry.D = le16 payload 8)
    (hcap : rows * cols ≤ maxLenF32) (hblk : le32 payload 14 * le16 payload 8 ≤ maxLenF32) :
    ∃ M, decodeRWithPool rows cols payload pool = .ok M ∧ M.length = rows * cols ∧
      (∀ r i j, r < le32 payload 14 → i < le16 payload 10 →
        j < le16 payload 8 / le16 payload 10 →
        r * le16 payload 8 + i * (le16 payload 8 / le16 payload 10) + j < rows * cols →
        M.getD (r * le16 payload 8 + i * (le16 payload 8 / le16 payload 10) + j) 0
          = entry.Data.getD
              ((i * le16 payload 12 + byteAt (payload.drop 20) (r * le16 payload 10 + i))
                * (le16 payload 8 / le16 payload 10) + j) 0) ∧
      ∀ flat, le32 payload 14 * le16 payload 8 ≤ flat → M.getD flat 0 = 0 := by
  generalize hd : le16 payload 8 = d at *
  generalize hmm : le16 payload 10 = m at *
  generalize hk : le16 payload 12 = k at *
  generalize hn : le32 payload 14 = n at *
  obtain ⟨dsub, rfl⟩ := hdvd
  have hds : m * dsub / m = dsub := Nat.mul_div_cancel_left _ (by omega)
  rw [hds] at hdata ⊢
  have hcl : (payload.drop 20).length = n * m := by rw [List.length_drop, hlen]; omega
  have hidx := code_index_lt m k n dsub (payload.drop 20) hcl hcodes
  rw [← hdata] at hidx
  obtain ⟨blocks, hb1, hb2, hb3⟩ :=
    decodeBlocksPool_spec m k n dsub entry.Data (payload.drop 20) hblk hidx
  refine ⟨copyInto (rows * cols) blocks, ?_, length_copyInto _ _, ?_, ?_⟩
  · unfold decodeRWithPool
    rw [if_neg (by omega)]
    simp only [hd, hmm, hk, hn, hfind, hds]
    rw [if_neg (by simp [hcl]), if_neg (by omega), if_neg (by omega), if_neg (by omega),
      if_neg (by rw [hD, hds]; omega)]
    simp only [hb1]
    exact finishPool_small _ _ _ hcap
  · intro r i j hr hi hj hflat
    have hq : r * (m * dsub) + i * dsub + j < n * (m * dsub) := flat_lt n m dsub r i j hr hi hj
    rw [getD_copyInto, if_pos hflat, hb3 _ hq, blockVal_flat m k dsub _ _ r i j hi hj]
  · intro flat hflat
    rw [getD_copyInto]
    split
    · exact List.getD_eq_default _ _ (by rw [hb2]; omega)
    · rfl

/-- C21, amended, on the payload and the pool of `TestDecodeRWithPool`. -/
theorem decodeRWithPool_spec_witness :
    decodeRWithPool 2 2 testShared2 testPool32 = .ok [one32, 0, 0, one32] ∧
    ∃ M, decodeRWithPool 2 2 testShared2 testPool32 = .ok M ∧ M.length = 2 * 2 ∧
      (∀ r i j, r < le32 testShared2 14 → i < le16 testShared2 10 →
        j < le16 testShared2 8 / le16 testShared2 10 →
        r * le16 testShared2 8 + i * (le16 testShared2 8 / le16 testShared2 10) + j < 2 * 2 →
        M.getD (r * le16 testShared2 8 + i * (le16 testShared2 8 / le16 testShared2 10) + j) 0
          = ([one32, 0, 0, one32] : List F32).getD
              ((i * le16 testShared2 12
                  + byteAt (testShared2.drop 20) (r * le16 testShared2 10 + i))
                * (le16 testShared2 8 / le16 testShared2 10) + j) 0) ∧
      ∀ flat, le32 testShared2 14 * le16 testShared2 8 ≤ flat → M.getD flat 0 = 0 :=
  ⟨by decide, decodeRWithPool_spec testShared2 testPool32
    { ID := 0, D := 2, M := 1, K := 2, Data := [one32, 0, 0, one32] } 2 2
    (by decide) (by decide) (by decide) (by decide) rfl (by decide) (by decide) (by decide)
    (by decide) (by decide) (by decide)⟩

/-! ## Claims on the route command -/

/-- C22: with `k = 0`, no budget, one shard of cost 1 and id 5 ranked first, the selection loop
of the route command accepts that shard: it tests `len(selected) >= k` only after appending,
so one shard is accepted although `k = 0`. -/
theorem selectShards_zero :
    selectShards (0 : Int) (0 : Int) [1] [5] [0] = .ok ([5], 1) := by
  decide

/-- C23, as stated, fails: for the costs `1.0` and `2^-60`, the ranking `[0, 1]`, `k = 5` and
the budget `1.0 > 0` both shards are accepted, although their total cost `1 + 2^-60` exceeds
the budget: the running total of the loop is the float64 sum, and `1.0 + 2^-60` rounds to
`1.0`.  The second shard has a positive cost. -/
theorem route_greedy_counterexample :
    (0 : F64) < one64 ∧
    selectShards 5 one64 tinyCosts [10, 11] [0, 1] = .ok ([10, 11], one64) ∧
    one64.v < (tinyCosts.getD 0 0).v + (tinyCosts.getD 1 0).v ∧
    (0 : F64) < tinyCosts.getD 1 0 := by
  decide

/-- C23, amended: for every ranking `order` whose indices are in range, every cost vector and
budget (no NaN) and `0 <= k <= 2^45` (the capacities `make` grants), the selection loop stops
after a prefix `visited` of the ranking (all of it, or once `k` shards are accepted) and returns
the shard ids of the indices the greedy rule accepts on `visited` together with their running
total, the float64 sum accumulated in ranked order.  The accepted indices are a subsequence of
the ranking; with `budget > 0` their running total is at most `budget`, and an index of
`visited` is skipped only if the running total plus its cost, in float64, exceeds the budget;
with `budget <= 0` no index of `visited` is skipped. -/
theorem route_greedy {α : Type} [LinearOrder α] [Zero α] [Add α] (k : Int) (budget : α)
    (costs : List α) (shardIDs : List Nat) (order : List Nat) (hk : 0 ≤ k) (hk2 : k ≤ 2 ^ 45)
    (hr : ∀ i ∈ order, i < costs.length ∧ i < shardIDs.length) :
    ∃ visited rest, order = visited ++ rest ∧
      selectShards k budget costs shardIDs order
        = .ok ((greedyAccepted budget costs visited).map (fun i => shardIDs.getD i 0),
            costOf costs (greedyAccepted budget costs visited)) ∧
      (rest = [] ∨ ((greedyAccepted budget costs visited).length : Int) ≥ k) ∧
      (greedyAccepted budget costs visited).Sublist order ∧
      (0 < budget → costOf costs (greedyAccepted budget costs visited) ≤ budget) ∧
      (0 < budget → ∀ pre idx post, visited = pre ++ idx :: post →
        greedyAccepted budget costs (pre ++ [idx]) = greedyAccepted budget costs pre →
        costOf costs (greedyAccepted budget costs pre) + costs.getD idx 0 > budget) ∧
      (budget ≤ 0 → greedyAccepted budget costs visited = visited) := by
  obtain ⟨vis2, rest2, h1, h2, h3⟩ := routeLoop_spec k budget costs shardIDs order hr []
    (Or.inr rfl)
  rw [List.nil_append] at h2 h3
  refine ⟨vis2, rest2, h1, ?_, h3, ?_, fun hb => greedyAccepted_budget budget costs hb vis2, ?_,
    fun hb => greedyAccepted_all budget costs hb vis2⟩
  · unfold selectShards
    rw [if_neg (by omega)]
    exact h2
  · rw [h1]
    exact (greedyAccepted_sublist budget costs vis2).trans (List.sublist_append_left _ _)
  · intro _ pre idx post _ heq
    rw [greedyAccepted_snoc] at heq
    by_contra hc
    rw [if_neg (fun h => hc h.2)] at heq
    have := congrArg List.length heq
    simp at this

/-- C23, amended, on the costs `1.0` and `2^-60` with the budget `1.0`. -/
theorem route_greedy_witness :
    ∃ visited rest, [0, 1] = visited ++ rest ∧
      selectShards 5 one64 tinyCosts [10, 11] [0, 1]
        = .ok ((greedyAccepted one64 tinyCosts visited).map (fun i => [10, 11].getD i 0),
            costOf tinyCosts (greedyAccepted one64 tinyCosts visited)) ∧
      (rest = [] ∨ ((greedyAccepted one64 tinyCosts visited).length : Int) ≥ 5) ∧
      (greedyAccepted one64 tinyCosts visited).Sublist [0, 1] ∧
      (0 < one64 → costOf tinyCosts (greedyAccepted one64 tinyCosts visited) ≤ one64) ∧
      (0 < one64 → ∀ pre idx post, visited = pre ++ idx :: post →
        greedyAccepted one64 tinyCosts (pre ++ [idx]) = greedyAccepted one64 tinyCosts pre →
        costOf tinyCosts (greedyAccepted one64 tinyCosts pre) + tinyCosts.getD idx 0 > one64) ∧
      (one64 ≤ 0 → greedyAccepted one64 tinyCosts visited = visited) :=
  route_greedy 5 one64 tinyCosts [10, 11] [0, 1] (by decide) (by decide) (by decide)

/-! ## Claims on ranking -/

/-- C24, as stated, fails: for the keys `[1, 0]` and `[1, 2^-60]` and the query `[1, 1]`
`rankByCosine` returns `[0, 1]`, although the dot product of key 1 and the query, `1 + 2^-60`,
is larger than that of key 0: the similarity of key 1 is the float64 sum, and `1.0 + 2^-60`
rounds to `1.0`, the similarity of key 0. -/
theorem rankByCosine_counterexample :
    (∀ key ∈ tieKeys, key.length = [one64, one64].length) ∧
    rankByCosine tieKeys [one64, one64] = .ok [0, 1] ∧
    exactDot (tieKeys.getD 0 []) [one64, one64] < exactDot (tieKeys.getD 1 []) [one64, one64] ∧
    dotOf (tieKeys.getD 0 []) [one64, one64] = dotOf (tieKeys.getD 1 []) [one64, one64] := by
  decide

/-- C24, amended: for every list of `n` keys and every query of the same dimension (no NaN),
`rankByCosine` returns a permutation of `0..n-1` along which the similarity it computes (the
float64 sum of the products `key[j]*q[j]`, accumulated in column order) is non-increasing, and
its first element is the lowest index among the keys of maximal computed similarity: every key
has a similarity at most that of the first element, and every key with a lower index a strictly
smaller one. -/
theorem rankByCosine_spec {α : Type} [LinearOrder α] [Zero α] [Add α] [Mul α] (keys : List (List α))
    (q : List α) (hdim : ∀ key ∈ keys, key.length = q.length) :
    ∃ order, rankByCosine keys q = .ok order ∧ order.Perm (List.range keys.length) ∧
      (∀ a b, a ≤ b → b < keys.length →
        dotOf (keys.getD (order.getD b 0) []) q ≤ dotOf (keys.getD (order.getD a 0) []) q) ∧
      ∀ t, t < keys.length →
        dotOf (keys.getD t []) q ≤ dotOf (keys.getD (order.getD 0 0) []) q ∧
        (t < order.getD 0 0 →
          dotOf (keys.getD t []) q < dotOf (keys.getD (order.getD 0 0) []) q) := by
  set n := keys.length with hn
  set sims := keys.map (fun key => dotOf key q) with hsims
  have hs : simsOf keys q = .ok sims := simsOf_eq keys q (fun k hk => by rw [hdim k hk])
  have hperm0 : IsPermN n (List.range n) := by
    refine ⟨List.length_range _, ?_, ?_⟩
    · intro r hr
      rw [List.getD_eq_getElem _ _ (by simpa using hr)]
      simpa using hr
    · intro r1 r2 h1 h2 he
      rw [List.getD_eq_getElem _ _ (by simpa using h1),
        List.getD_eq_getElem _ _ (by simpa using h2)] at he
      simpa using he
  obtain ⟨hP, hsorted⟩ := selSort_spec sims n n 0 (List.range n) (by omega) hperm0
    (fun p r hp _ _ => by omega)
  have hsim : ∀ t, t < n → sims.getD t 0 = dotOf (keys.getD t []) q := by
    intro t ht
    rw [hsims, List.getD_eq_getElem _ _ (by simpa using ht), List.getElem_map,
      List.getD_eq_getElem _ _ ht]
  have hlt : ∀ r, r < n → (selSort sims n 0 (List.range n)).getD r 0 < n := hP.2.1
  refine ⟨selSort sims n 0 (List.range n), ?_, hP.perm, ?_, ?_⟩
  · unfold rankByCosine
    rw [hs]
    rfl
  · intro a b hab hb
    rw [← hsim _ (hlt b hb), ← hsim _ (hlt a (by omega))]
    exact hsorted a b hab hb
  · intro t ht
    -- the first step puts the first index of maximal similarity in front
    obtain ⟨c, hc⟩ : ∃ c, n = c + 1 := ⟨n - 1, by omega⟩
    have hstep : selSort sims n 0 (List.range n)
        = selSort sims c 1 (swapAt (List.range n) 0
            (argBest sims (List.range n) ((List.range n).length - (0 + 1)) (0 + 1) 0)) := by
      rw [hc]; rfl
    obtain ⟨b1, b2, b3⟩ := argBest_spec sims (List.range n) 0 ((List.range n).length - (0 + 1))
      (0 + 1) 0 (le_refl _) (by omega) (by
        intro p hp1 hp2
        have : p = 0 := by omega
        subst this
        exact ⟨le_refl _, fun hh => absurd hh (lt_irrefl _)⟩)
    generalize argBest sims (List.range n) ((List.range n).length - (0 + 1)) (0 + 1) 0 = b
      at hstep b2 b3
    have hbn : b < n := by simp at b2; omega
    have hr : ∀ p, p < n → (List.range n).getD p 0 = p := by
      intro p hp
      rw [List.getD_eq_getElem _ _ (by simpa using hp)]
      simp
    have hhead : (selSort sims n 0 (List.range n)).getD 0 0 = b := by
      rw [hstep, selSort_head sims c 1 _ (le_refl _) (by rw [length_swapAt]; simp; omega),
        swapAt_getD _ _ _ _ (by simp; omega) (by simpa using hbn)]
      by_cases h0 : 0 = b
      · rw [if_pos h0, hr 0 (by omega), h0]
      · rw [if_neg h0, if_pos rfl, hr b hbn]
    rw [hhead, ← hsim t ht, ← hsim b hbn]
    have := b3 t (Nat.zero_le _) (by simp; omega)
    rw [hr t ht, hr b hbn] at this
    exact this

/-- C24, amended, on the keys `[1,0]`, `[0,1]` and the query `[1,0]` of
`TestRankByCosineOrder`. -/
theorem rankByCosine_spec_witness :
    rankByCosine testKeys64 [one64, 0] = .ok [0, 1] ∧
    ∃ order, rankByCosine testKeys64 [one64, 0] = .ok order ∧
      order.Perm (List.range testKeys64.length) ∧
      (∀ a b, a ≤ b → b < testKeys64.length →
        dotOf (testKeys64.getD (order.getD b 0) []) [one64, 0]
          ≤ dotOf (testKeys64.getD (order.getD a 0) []) [one64, 0]) ∧
      ∀ t, t < testKeys64.length →
        dotOf (testKeys64.getD t []) [one64, 0]
          ≤ dotOf (testKeys64.getD (order.getD 0 0) []) [one64, 0] ∧
        (t < order.getD 0 0 →
          dotOf (testKeys64.getD t []) [one64, 0]
            < dotOf (testKeys64.getD (order.getD 0 0) []) [one64, 0]) :=
  ⟨by decide, rankByCosine_spec testKeys64 [one64, 0] (by decide)⟩

/-! ## Claims on the routing section -/

/-- C25: for every bank with fewer than `2^32` records, `buildRoutingFromBank(bank)` is a
routing section of exactly `6 + 8*n + 4*64*n` bytes with `dim = 64` and `n` the number of
records `IndexShardBank(bank)` returns, whose shard ids are `0, 1, ..., n-1` in that order;
`parseRouting` of it succeeds and returns that `dim`, `n` and id list (with the costs and keys
the section holds). -/
theorem routing_roundtrip {α : Type} (F : Nat → α) (normKey : List α → List α)
    (costBits : Nat → Nat) (keyBits : Nat → Nat → Nat) (bank : Bytes) (recs : List BankRec)
    (hidx : IndexShardBank bank = .ok recs) (hn : recs.length < 2 ^ 32) :
    (buildRoutingFromBank costBits keyBits bank).length
      = 6 + 8 * recs.length + 4 * 64 * recs.length ∧
    le16 (buildRoutingFromBank costBits keyBits bank) 0 = 64 ∧
    le32 (buildRoutingFromBank costBits keyBits bank) 2 = recs.length ∧
    readU32s (buildRoutingFromBank costBits keyBits bank) 6 recs.length 0
      = .ok (List.range recs.length) ∧
    parseRouting F normKey (buildRoutingFromBank costBits keyBits bank)
      = .ok (64, recs.length, List.range recs.length,
          recs.map (fun r => F (costBits r.Hdr.Usize % 2 ^ 32)),
          (List.range recs.length).map (fun i =>
            normKey ((List.range 64).map (fun j => F (keyBits i j % 2 ^ 32))))) := by
  have hrecs : indexLoop bank (bank.length + 1) 0 = recs := by
    unfold IndexShardBank at hidx
    cases hidx; rfl
  set n := recs.length with hndef
  -- the three blocks of values
  set ids : List Nat := List.range n with hids
  set cs : List Nat := recs.map (fun r => costBits r.Hdr.Usize % 2 ^ 32) with hcs
  set ks : List (List Nat) :=
    (List.range n).map (fun i => (List.range 64).map (fun j => keyBits i j % 2 ^ 32)) with hks
  have hform : buildRoutingFromBank costBits keyBits bank
      = (putU16 64 ++ putU32 n) ++ ((ids.map putU32).flatten
          ++ ((cs.map putU32).flatten
            ++ ((ks.map (fun r => (r.map putU32).flatten)).flatten ++ []))) := by
    unfold buildRoutingFromBank
    simp only [hrecs]
    rw [Nat.mod_eq_of_lt hn, List.append_nil]
    have e1 : (List.range recs.length).map (fun i => putU32 (i % 2 ^ 32)) = ids.map putU32 := by
      rw [hids]
      apply List.map_congr_left
      intro i hi
      rw [List.mem_range] at hi
      rw [Nat.mod_eq_of_lt (by omega)]
    have e2 : recs.map (fun r => putU32 (costBits r.Hdr.Usize % 2 ^ 32)) = cs.map putU32 := by
      rw [hcs, List.map_map]; rfl
    have e3 : (List.range recs.length).map (fun i =>
          ((List.range 64).map (fun j => putU32 (keyBits i j % 2 ^ 32))).flatten)
        = ks.map (fun r => (r.map putU32).flatten) := by
      rw [hks, List.map_map]
      apply List.map_congr_left
      intro i _
      simp only [Function.comp, List.map_map]
      rfl
    rw [e1, e2, e3]
    simp only [List.append_assoc]
    rfl
  have hidl : ids.length = n := by simp [hids]
  have hcl : cs.length = n := by simp [hcs, hndef]
  have hkl : ks.length = n := by simp [hks]
  have hidv : ∀ v ∈ ids, v < 2 ^ 32 := by
    intro v hv; rw [hids, List.mem_range] at hv; omega
  have hcv : ∀ v ∈ cs, v < 2 ^ 32 := by
    intro v hv
    obtain ⟨r, _, rfl⟩ := List.mem_map.mp hv
    exact Nat.mod_lt _ (by norm_num)
  have hkv : ∀ r ∈ ks, r.length = 64 ∧ ∀ v ∈ r, v < 2 ^ 32 := by
    intro r hr
    obtain ⟨i, _, rfl⟩ := List.mem_map.mp hr
    refine ⟨by simp, ?_⟩
    intro v hv
    obtain ⟨j, _, rfl⟩ := List.mem_map.mp hv
    exact Nat.mod_lt _ (by norm_num)
  have hkbl : ((ks.map (fun r => (r.map putU32).flatten)).flatten).length = 4 * 64 * n := by
    have : ∀ (l : List (List Nat)), (∀ r ∈ l, r.length = 64) →
        ((l.map (fun r => (r.map putU32).flatten)).flatten).length = 4 * 64 * l.length := by
      intro l
      induction l with
      | nil => intro _; rfl
      | cons r rest ih =>
        intro h
        simp only [List.map_cons, List.flatten_cons, List.length_append, length_flatten_putU32,
          h r (List.mem_cons_self _ _), ih (fun x hx => h x (List.mem_cons_of_mem _ hx)),
          List.length_cons]
        omega
    rw [this ks (fun r hr => (hkv r hr).1), hkl]
  have hh : (putU16 64 ++ putU32 n).length = 6 := rfl
  have hlen : (buildRoutingFromBank costBits keyBits bank).length = 6 + 8 * n + 4 * 64 * n := by
    rw [hform]
    simp only [List.length_append, hh, length_flatten_putU32, hidl, hcl, hkbl, List.length_nil]
    omega
  have hdim : le16 (buildRoutingFromBank costBits keyBits bank) 0 = 64 := by
    rw [hform]; rfl
  have hnn : le32 (buildRoutingFromBank costBits keyBits bank) 2 = n := by
    rw [hform]
    have := le32_append_right (putU16 64) (putU32 n ++ ((ids.map putU32).flatten
      ++ ((cs.map putU32).flatten
        ++ ((ks.map (fun r => (r.map putU32).flatten)).flatten ++ [])))) 0
    rw [List.append_assoc]
    rw [show (putU16 64).length + 0 = 2 from rfl] at this
    rw [this]
    exact le32_putU32 n _ hn
  have hid := readU32s_flat (putU16 64 ++ putU32 n) ids
    ((cs.map putU32).flatten ++ ((ks.map (fun r => (r.map putU32).flatten)).flatten ++ []))
    hidv n 0 (by omega)
  rw [hh, ← hform] at hid
  have hco := readU32s_flat ((putU16 64 ++ putU32 n) ++ (ids.map putU32).flatten) cs
    ((ks.map (fun r => (r.map putU32).flatten)).flatten ++ []) hcv n 0 (by omega)
  rw [List.length_append, hh, length_flatten_putU32, hidl, List.append_assoc, ← hform] at hco
  have hke := parseKeys_flat F normKey 64 ks hkv
    (((putU16 64 ++ putU32 n) ++ (ids.map putU32).flatten) ++ (cs.map putU32).flatten) []
  rw [List.length_append, List.length_append, hh, length_flatten_putU32, length_flatten_putU32,
    hidl, hcl, hkl, List.append_assoc, List.append_assoc, ← hform] at hke
  refine ⟨hlen, hdim, hnn, by rw [hid]; rfl, ?_⟩
  unfold parseRouting
  rw [if_neg (by rw [hlen]; omega)]
  simp only [hdim, hnn, hid, hco, hke, bind, Except.bind, pure, Except.pure, List.drop_zero]
  rw [hcs, hks]
  simp only [List.map_map]
  rfl

theorem routing_roundtrip_witness :
    (buildRoutingFromBank (fun u => u) (fun i j => i + j) testBank).length
      = 6 + 8 * (indexLoop testBank (testBank.length + 1) 0).length
        + 4 * 64 * (indexLoop testBank (testBank.length + 1) 0).length ∧
    le16 (buildRoutingFromBank (fun u => u) (fun i j => i + j) testBank) 0 = 64 ∧
    le32 (buildRoutingFromBank (fun u => u) (fun i j => i + j) testBank) 2
      = (indexLoop testBank (testBank.length + 1) 0).length ∧
    readU32s (buildRoutingFromBank (fun u => u) (fun i j => i + j) testBank) 6
        (indexLoop testBank (testBank.length + 1) 0).length 0
      = .ok (List.range (indexLoop testBank (testBank.length + 1) 0).length) ∧
    parseRouting f32fix id (buildRoutingFromBank (fun u => u) (fun i j => i + j) testBank)
      = .ok (64, (indexLoop testBank (testBank.length + 1) 0).length,
          List.range (indexLoop testBank (testBank.length + 1) 0).length,
          (indexLoop testBank (testBank.length + 1) 0).map
            (fun r => f32fix (r.Hdr.Usize % 2 ^ 32)),
          (List.range (indexLoop testBank (testBank.length + 1) 0).length).map (fun i =>
            id ((List.range 64).map (fun j => f32fix ((i + j) % 2 ^ 32))))) :=
  routing_roundtrip f32fix id (fun u => u) (fun i j => i + j) testBank
    (indexLoop testBank (testBank.length + 1) 0) rfl (by decide)

/-! ## Claims on the checksum index -/

/-- C26: for every byte string `data`, every chunk size `> 0` and every hash with `uint64`
values, `rollXXH3(data, chunk)` returns `ceil(len(data)/chunk)` hashes, the `i`-th being the
hash of `data[i*chunk : min((i+1)*chunk, len(data))]`, `rollingXXH3Index(data, chunk)` returns
their 16-digit lowercase hexadecimal texts, and `parseHashes` applied to these texts gives the
hashes of `rollXXH3` back, element for element. -/
theorem checksum_roundtrip (hash : Bytes → Nat) (data : Bytes) (chunk : Nat)
    (hc : 0 < chunk) (hh : ∀ b, hash b < 2 ^ 64) :
    ∃ hashes hex, rollXXH3 hash data chunk = .ok hashes ∧
      rollingXXH3Index hash data chunk = some hex ∧
      hex = hashes.map toHex16 ∧
      parseHashes hex = hashes ∧
      hashes = (List.range ((data.length + chunk - 1) / chunk)).map (fun i =>
        hash (slice data (i * chunk)
          (if i * chunk + chunk > data.length then data.length else i * chunk + chunk))) := by
  have h := rollLoop_spec hash data chunk hc data.length 0 (by omega)
  rw [Nat.zero_mul, Nat.sub_zero, ← List.range_eq_range'] at h
  refine ⟨_, _, ?_, ?_, rfl, ?_, rfl⟩
  · unfold rollXXH3
    rw [if_neg (by omega), h]
  · unfold rollingXXH3Index
    by_cases h0 : data.length = 0
    · rw [if_pos h0, h0]
      have : (0 + chunk - 1) / chunk = 0 := by
        rw [Nat.zero_add]
        exact Nat.div_eq_of_lt (by omega)
      rw [this]
      rfl
    · rw [if_neg h0, h]
      rfl
  · unfold parseHashes
    rw [List.map_map]
    conv_rhs => rw [← List.map_id (List.map _ _)]
    apply List.map_congr_left
    intro x hx
    obtain ⟨i, _, rfl⟩ := List.mem_map.mp hx
    exact scanHex_toHex16 _ (hh _)

theorem checksum_roundtrip_witness :
    ∃ hashes hex, rollXXH3 testHash [1, 2, 3, 4, 5] 2 = .ok hashes ∧
      rollingXXH3Index testHash [1, 2, 3, 4, 5] 2 = some hex ∧
      hex = hashes.map toHex16 ∧
      parseHashes hex = hashes ∧
      hashes = (List.range ((([1, 2, 3, 4, 5] : Bytes).length + 2 - 1) / 2)).map (fun i =>
        testHash (slice [1, 2, 3, 4, 5] (i * 2)
          (if i * 2 + 2 > ([1, 2, 3, 4, 5] : Bytes).length then ([1, 2, 3, 4, 5] : Bytes).length
            else i * 2 + 2))) :=
  checksum_roundtrip testHash [1, 2, 3, 4, 5] 2 (by decide)
    (fun b => Nat.mod_lt _ (by norm_num))

/-! ## Claims on the product quantiser -/

/-- C27, as stated, fails.  The quantiser `farPQ32` has `K = 2` centroids `2^51` and `2^50` in
its one sub-codebook of `K*Dsub = 2` values, and for the vector `[0]` of dimension `M*Dsub = 1`
`Encode` returns the code `0`, although centroid `1` is strictly nearer than centroid `0`: both
squared distances are at least the initial `bestd = float32(1e30)`, so no centroid is ever
taken.  The quantiser `tiePQ` has the centroids `(4097, 0)` and `(4096, 90.5078125)`, and for
the vector `(0, 0)` `Encode` returns the code `0`, although centroid `1` is strictly nearer in
squared Euclidean distance: the float32 sums that `l2Flat` computes for the two centroids are
equal. -/
theorem encode_counterexample :
    (1 ≤ farPQ32.K ∧ farPQ32.K ≤ 256 ∧ farPQ32.Codebooks.length = farPQ32.M ∧
      (∀ cb ∈ farPQ32.Codebooks, cb.length = farPQ32.K * farPQ32.Dsub) ∧
      ∀ vec ∈ [[(0 : F32)]], vec.length = farPQ32.M * farPQ32.Dsub) ∧
    PQ.Encode big32F farPQ32 [[0]] = .ok [[0]] ∧
    exactSq [0] (subVec (farPQ32.Codebooks.getD 0 []) 1 1)
      < exactSq [0] (subVec (farPQ32.Codebooks.getD 0 []) 0 1) ∧
    big32F ≤ centDist farPQ32 [0] 0 1 ∧ big32F ≤ centDist farPQ32 [0] 0 0 ∧
    (1 ≤ tiePQ.K ∧ tiePQ.K ≤ 256 ∧ tiePQ.Codebooks.length = tiePQ.M ∧
      (∀ cb ∈ tiePQ.Codebooks, cb.length = tiePQ.K * tiePQ.Dsub) ∧
      ∀ vec ∈ [[(0 : F32), 0]], vec.length = tiePQ.M * tiePQ.Dsub) ∧
    PQ.Encode big32F tiePQ [[0, 0]] = .ok [[0]] ∧
    exactSq [0, 0] (subVec (tiePQ.Codebooks.getD 0 []) 1 2)
      < exactSq [0, 0] (subVec (tiePQ.Codebooks.getD 0 []) 0 2) ∧
    centDist tiePQ [0, 0] 0 0 = centDist tiePQ [0, 0] 0 1 := by
  decide

/-- C27, amended: for every product quantiser with `K ≤ 256` and `M` codebooks of `K*Dsub`
values each, and every non-empty list of vectors of dimension `M*Dsub` (no NaN) such that every
sub-vector has some centroid of its sub-codebook at a computed distance below the initial
`bestd = float32(1e30)` (`big`), `Encode` returns one code row of exactly `M` bytes per vector,
each byte `c < K`, such that no centroid of that sub-codebook has a strictly smaller computed
distance to the vector's sub-vector than centroid `c`, and every centroid of lower index has a
strictly larger one.  The computed distance is the float32 sum of `l2Flat`: `s += d*d` with
`d = a[i] - b[i]`, accumulated in index order. -/
theorem encode_nearest {α : Type} [LinearOrder α] [Zero α] [Add α] [Sub α] [Mul α] (big : α)
    (pq : PQ α) (data : List (List α)) (hK : pq.K ≤ 256) (hM : pq.Codebooks.length = pq.M)
    (hcb : ∀ cb ∈ pq.Codebooks, cb.length = pq.K * pq.Dsub) (hne : data ≠ [])
    (hdim : ∀ vec ∈ data, vec.length = pq.M * pq.Dsub)
    (hnear : ∀ vec ∈ data, ∀ i, i < pq.M → ∃ t, t < pq.K ∧ centDist pq vec i t < big) :
    ∃ codes, PQ.Encode big pq data = .ok codes ∧ codes.length = data.length ∧
      ∀ n, n < data.length → (codes.getD n []).length = pq.M ∧
        ∀ i, i < pq.M → (codes.getD n []).getD i 0 < pq.K ∧
          ∀ j, j < pq.K →
            centDist pq (data.getD n []) i ((codes.getD n []).getD i 0)
                ≤ centDist pq (data.getD n []) i j ∧
            (j < (codes.getD n []).getD i 0 →
              centDist pq (data.getD n []) i ((codes.getD n []).getD i 0)
                < centDist pq (data.getD n []) i j) := by
  obtain ⟨codes, hc, hlen, hrows, hgood⟩ := encode_spec big pq data hK hM hcb hne hdim hnear
  refine ⟨codes, hc, hlen, fun n hn => ⟨hrows n hn, fun i hi => ?_⟩⟩
  exact hgood n hn i hi (Or.inl hi)

/-- C27, amended, on the quantiser `nearPQ32` and three vectors of dimension `2`. -/
theorem encode_nearest_witness :
    nearPQ32.K ≤ 256 ∧ PQ.Encode big32F nearPQ32 nearData = .ok [[1, 0], [0, 0], [0, 0]] ∧
    ∃ codes, PQ.Encode big32F nearPQ32 nearData = .ok codes ∧ codes.length = nearData.length ∧
      ∀ n, n < nearData.length → (codes.getD n []).length = nearPQ32.M ∧
        ∀ i, i < nearPQ32.M → (codes.getD n []).getD i 0 < nearPQ32.K ∧
          ∀ j, j < nearPQ32.K →
            centDist nearPQ32 (nearData.getD n []) i ((codes.getD n []).getD i 0)
              ≤ centDist nearPQ32 (nearData.getD n []) i j ∧
            (j < (codes.getD n []).getD i 0 →
              centDist nearPQ32 (nearData.getD n []) i ((codes.getD n []).getD i 0)
                < centDist nearPQ32 (nearData.getD n []) i j) :=
  ⟨by decide, by decide,
    encode_nearest big32F nearPQ32 nearData (by decide) (by decide) (by decide)
      (by decide) (by decide) (by decide)⟩

/-! ## Claims on the errors of the streaming matvec -/

theorem shape_fold_none (bank : Bytes) (scope : Nat) (st : Nat × Nat × Bool) :
    ∀ recs : List BankRec, (∀ rec ∈ recs, rec.Hdr.Scope ≠ scope) →
      recs.foldlM (shapeStep bank scope) st = .ok st := by
  intro recs
  induction recs with
  | nil => intro _; rfl
  | cons rec recs ih =>
    intro h
    rw [List.foldlM_cons]
    have h1 : shapeStep bank scope st rec = .ok st := by
      unfold shapeStep
      rw [if_pos (h rec (List.mem_cons_self _ _))]
    rw [h1, ok_bind]
    exact ih (fun r hr => h r (List.mem_cons_of_mem _ hr))

/-- C28: for every bank, scope and `x` (and hooks that leave the length of `y` alone):
`MultiplyScopeWithPool` returns the error "scope not found" when no shard in the bank carries
the scope, and returns an error when `len(x)` differs from the `cols` the scope's shards declare
(the `cols` of the last shard of the scope, which is the one the code keeps); whenever it
succeeds the returned `y` has exactly `rows` entries and the returned `cols` equals `len(x)`. -/
theorem multiply_shape {α : Type} [Zero α] [Add α] [Mul α] (F : Nat → α) (gpu : Gpu α)
    (useCUDA : Bool) (bank : Bytes) (pool : Option (CodebookPool α)) (scope : Nat) (x : List α)
    (hgpu : gpu.KeepsLength) :
    ((∀ rec ∈ indexLoop bank (bank.length + 1) 0, rec.Hdr.Scope ≠ scope) →
      MultiplyScopeWithPool F gpu useCUDA bank pool scope x
        = .error (.error "scope not found")) ∧
    (∀ rec, (scopeRecs bank scope).getLast? = some rec →
      x.length ≠ (declaredShape (recPayload bank rec)).2 →
      ∃ msg, MultiplyScopeWithPool F gpu useCUDA bank pool scope x = .error (.error msg)) ∧
    ∀ y rows cols, MultiplyScopeWithPool F gpu useCUDA bank pool scope x = .ok (y, rows, cols) →
      y.length = rows ∧ cols = x.length := by
  refine ⟨?_, ?_, ?_⟩
  · intro h
    unfold MultiplyScopeWithPool IndexShardBank
    rw [ok_bind, shape_fold_none bank scope _ _ h, ok_bind]
    rfl
  · intro rec hlast hx
    unfold MultiplyScopeWithPool IndexShardBank
    rw [ok_bind]
    rcases shape_fold bank scope (0, 0, false) (indexLoop bank (bank.length + 1) 0)
      with ⟨msg, he⟩ | hok
    · exact ⟨msg, by rw [he]; rfl⟩
    · unfold scopeRecs at hlast
      rw [hok, hlast, ok_bind]
      simp only []
      rw [if_neg (by simp), if_pos hx]
      exact ⟨_, rfl⟩
  · intro y rows cols h
    unfold MultiplyScopeWithPool IndexShardBank at h
    rw [ok_bind] at h
    obtain ⟨shape, _, h2⟩ := bind_eq_ok _ _ _ h
    simp only [] at h2
    split at h2
    · cases h2
    · split at h2
      · cases h2
      · rename_i hx
        obtain ⟨acc, hacc, h2b⟩ := bind_eq_ok _ _ _ h2
        obtain ⟨y2, hy2, h3⟩ := bind_eq_ok _ _ _ h2b
        cases h3
        refine ⟨?_, (not_not.mp hx).symm⟩
        have := foldlM_ok_pres (fun s : List α => s.length = shape.1) _
          (fun s b t hs ht =>
            (applyStep_length F gpu hgpu _ _ _ _ _ _ _ _ _ _ _ ht).trans hs)
          _ _ _ ((cudaBlock_length F gpu hgpu _ _ _ _ _ _ _ _ acc hacc).trans
            (List.length_replicate _ _))
          hy2
        exact this

set_option maxRecDepth 100000 in
/-- C28 on the bank of `TestReconstructSmall_L_D_S` (one scope `0`, shape `2 x 3`): scope `1`
is not found, an `x` of two entries is refused, and for an `x` of three entries the result has
two entries. -/
theorem multiply_shape_witness :
    (Gpu.off : Gpu Int).KeepsLength ∧
    MultiplyScopeWithPool f32fix Gpu.off false testBank none 1 [0, 1, 0]
      = .error (.error "scope not found") ∧
    MultiplyScopeWithPool f32fix Gpu.off false testBank none 0 [0, 1]
      = .error (.error "input length != cols") ∧
    (((∀ rec ∈ indexLoop testBank (testBank.length + 1) 0, rec.Hdr.Scope ≠ 0) →
      MultiplyScopeWithPool f32fix Gpu.off false testBank none 0 [0, 1, 0]
        = .error (.error "scope not found")) ∧
    (∀ rec, (scopeRecs testBank 0).getLast? = some rec →
      ([0, 1, 0] : List Int).length ≠ (declaredShape (recPayload testBank rec)).2 →
      ∃ msg, MultiplyScopeWithPool f32fix Gpu.off false testBank none 0 [0, 1, 0]
        = .error (.error msg)) ∧
    ∀ y rows cols,
      MultiplyScopeWithPool f32fix Gpu.off false testBank none 0 [0, 1, 0] = .ok (y, rows, cols) →
      y.length = rows ∧ cols = ([0, 1, 0] : List Int).length) :=
  ⟨⟨fun _ _ _ _ _ => rfl, fun _ _ _ _ _ _ _ _ => rfl, fun _ _ _ _ _ _ _ => rfl⟩,
    by decide, by decide,
    multiply_shape f32fix Gpu.off false testBank none 0 [0, 1, 0]
      ⟨fun _ _ _ _ _ => rfl, fun _ _ _ _ _ _ _ _ => rfl, fun _ _ _ _ _ _ _ => rfl⟩⟩

/-! ## Short payloads and disagreeing shapes -/

set_option maxRecDepth 100000 in
/-- C29: the banks `shortL`, `shortD` and `shortS` hold one shard each whose payload is shorter
than its declared shape requires (14 bytes instead of 20 for L and D, 32 instead of 36 for S).
`MultiplyScopeWithPool` returns a result for each of them, no error: `matvecFP16Add` stops at
the end of the data after row 0 (`y[0] = (1+2+3) * 2^150` in units of `2^-150`, `y[1] = 0`),
and `applySAddOptimized` returns without applying any triplet.  `ReconstructForScope` reports
the same payloads as short. -/
theorem multiply_short_payload :
    (indexLoop shortL (shortL.length + 1) 0).map
        (fun r => (r.Hdr.Typ, r.Hdr.Scope, (recPayload shortL r).length,
          declaredShape (recPayload shortL r))) = [(0, 0, 14, (2, 3))] ∧
    MultiplyScopeWithPool f32fix Gpu.off false shortL none 0 [1, 1, 1]
      = .ok ([6 * 2 ^ 150, 0], 2, 3) ∧
    ReconstructForScope f32fix Codec.store shortL 0 = .error (.error "short fp16 data") ∧
    (indexLoop shortD (shortD.length + 1) 0).map
        (fun r => (r.Hdr.Typ, r.Hdr.Scope, (recPayload shortD r).length,
          declaredShape (recPayload shortD r))) = [(3, 0, 14, (2, 3))] ∧
    MultiplyScopeWithPool f32fix Gpu.off false shortD none 0 [1, 1, 1]
      = .ok ([6 * 2 ^ 150, 0], 2, 3) ∧
    ReconstructForScope f32fix Codec.store shortD 0 = .error (.error "short fp16 data") ∧
    (indexLoop shortS (shortS.length + 1) 0).map
        (fun r => (r.Hdr.Typ, r.Hdr.Scope, (recPayload shortS r).length,
          declaredShape (recPayload shortS r), le32 (recPayload shortS r) 8))
      = [(2, 0, 32, (2, 3), 2)] ∧
    MultiplyScopeWithPool f32fix Gpu.off false shortS none 0 [1, 1, 1] = .ok ([0, 0], 2, 3) ∧
    ReconstructForScope f32fix Codec.store shortS 0 = .error (.error "short S values") :=
  ⟨by decide, by decide, by decide, by decide, by decide, by decide, by decide, by decide,
    by decide⟩

/-! ## Disagreeing shapes -/

set_option maxRecDepth 100000 in
/-- C30, as stated, fails: in `mixedBank` the L shard of scope 0 declares `2 x 3` and the D
shard of the same scope declares `3 x 2`; `ReconstructForScope` (no pool) and
`MultiplyScopeWithPool` both return a result of shape `3 x 2`, no error. -/
theorem shape_mismatch_counterexample :
    (indexLoop mixedBank (mixedBank.length + 1) 0).map
        (fun r => (r.Hdr.Typ, r.Hdr.Scope, declaredShape (recPayload mixedBank r)))
      = [(0, 0, (2, 3)), (3, 0, (3, 2))] ∧
    ReconstructForScopeWithPool f32fix Codec.store mixedBank none 0
      = .ok (3, 2, [3 * 2 ^ 149, 2 * 2 ^ 150, 3 * 2 ^ 150, 4 * 2 ^ 150, 21 * 2 ^ 148,
          6 * 2 ^ 150]) ∧
    MultiplyScopeWithPool f32fix Gpu.off false mixedBank none 0 [1, 1]
      = .ok ([7 * 2 ^ 149, 7 * 2 ^ 150, 45 * 2 ^ 148], 3, 2) :=
  ⟨by decide, by decide, by decide⟩

/-- C30, amended: for every bank, in particular one in which two shards of the same scope
declare different `(rows, cols)`, neither function compares the declared shapes: whenever
`ReconstructForScopeWithPool` returns a result, its `(rows, cols)` are those at the head of the
decompressed payload of the last shard of the scope, and whenever `MultiplyScopeWithPool`
returns a result, its `(rows, cols)` are those at the head of the payload of the last shard of
the scope. -/
theorem shape_of_last_shard {α : Type} [Zero α] [Add α] [Mul α] (F : Nat → α) (c : Codec)
    (gpu : Gpu α) (useCUDA : Bool) (bank : Bytes) (pool : Option (CodebookPool α))
    (scope : Nat) (x : List α) :
    (∀ rows cols data, ReconstructForScopeWithPool F c bank pool scope = .ok (rows, cols, data) →
      ∃ rec payload, (scopeRecs bank scope).getLast? = some rec ∧
        decompressShard c rec.Hdr.Comp (recPayload bank rec) = .ok payload ∧
        (rows, cols) = declaredShape payload) ∧
    ∀ y rows cols, MultiplyScopeWithPool F gpu useCUDA bank pool scope x = .ok (y, rows, cols) →
      ∃ rec, (scopeRecs bank scope).getLast? = some rec ∧
        (rows, cols) = declaredShape (recPayload bank rec) := by
  constructor
  · intro rows cols data h
    unfold ReconstructForScopeWithPool IndexShardBank at h
    rw [ok_bind] at h
    obtain ⟨st, hst, h2⟩ := bind_eq_ok _ _ _ h
    have hf := recon_shape_fold F c bank pool scope _ _ st hst
    unfold reconAssemble at h2
    split at h2
    · cases h2
    · rename_i hnz
      obtain ⟨n0, _, h2a⟩ := bind_eq_ok _ _ _ h2
      obtain ⟨d1, _, h3⟩ := bind_eq_ok _ _ _ h2a
      obtain ⟨d2, _, h4⟩ := bind_eq_ok _ _ _ h3
      obtain ⟨d3, _, h5⟩ := bind_eq_ok _ _ _ h4
      obtain ⟨d4, _, h6⟩ := bind_eq_ok _ _ _ h5
      cases h6
      unfold scopeRecs
      cases hl : (scopeRecsOf scope (indexLoop bank (bank.length + 1) 0)).getLast? with
      | none =>
        rw [hl] at hf
        exact absurd (Or.inl hf.1) hnz
      | some rec =>
        rw [hl] at hf
        obtain ⟨payload, hp, hsh | hz⟩ := hf
        · exact ⟨rec, payload, rfl, hp, hsh⟩
        · exact absurd (Or.inl hz.1) hnz
  · intro y rows cols h
    unfold MultiplyScopeWithPool IndexShardBank at h
    rw [ok_bind] at h
    obtain ⟨shape, hsh, h2⟩ := bind_eq_ok _ _ _ h
    simp only [] at h2
    split at h2
    · cases h2
    · rename_i hhave
      split at h2
      · cases h2
      · obtain ⟨acc, _, h2b⟩ := bind_eq_ok _ _ _ h2
        obtain ⟨y2, _, h3⟩ := bind_eq_ok _ _ _ h2b
        cases h3
        rcases shape_fold bank scope (0, 0, false) (indexLoop bank (bank.length + 1) 0)
          with ⟨msg, he⟩ | hok
        · rw [he] at hsh; cases hsh
        · rw [hok] at hsh
          unfold scopeRecs
          cases hl : (scopeRecsOf scope (indexLoop bank (bank.length + 1) 0)).getLast? with
          | none =>
            rw [hl] at hsh
            cases hsh
            exact absurd rfl hhave
          | some rec =>
            rw [hl] at hsh
            cases hsh
            exact ⟨rec, rfl, rfl⟩

set_option maxRecDepth 100000 in
/-- C30, amended, on `mixedBank`: both functions return the shape `3 x 2` of the D shard, the
last shard of scope 0. -/
theorem shape_of_last_shard_witness :
    (scopeRecs mixedBank 0).map (fun r => declaredShape (recPayload mixedBank r))
      = [(2, 3), (3, 2)] ∧
    ((∀ rows cols data,
      ReconstructForScopeWithPool f32fix Codec.store mixedBank none 0 = .ok (rows, cols, data) →
      ∃ rec payload, (scopeRecs mixedBank 0).getLast? = some rec ∧
        decompressShard Codec.store rec.Hdr.Comp (recPayload mixedBank rec) = .ok payload ∧
        (rows, cols) = declaredShape payload) ∧
    ∀ y rows cols,
      MultiplyScopeWithPool f32fix Gpu.off false mixedBank none 0 [1, 1] = .ok (y, rows, cols) →
      ∃ rec, (scopeRecs mixedBank 0).getLast? = some rec ∧
        (rows, cols) = declaredShape (recPayload mixedBank rec)) :=
  ⟨by decide, shape_of_last_shard f32fix Codec.store Gpu.off false mixedBank none 0 [1, 1]⟩

/-! ## Claims on the decomposition -/

/-- C13, as stated, fails.  `bigData` is a matrix of `2^31 + 1` rows and 2 columns with
`W[0,0] = 2` and `W[2^31,1] = 1`, and `bigL` is its rank-1 part (`L[0,0] = 2`); all values and
their differences are exact in float32.  At the position `(2^31, 1)` the residual `W - L` is 1,
but `D`, the S triplets with index `(2^31, 1)` and `R` are all zero there: the outlier found at
that position is stored under the index `int32(2^31) = -2^31`.  And for the `1 x 1` input
`W = [2^24]` with the low-rank part `L = [-1]` the outputs are `D = [2^24]`, no triplet and
`R = [0]`, while `W - L` is `2^24 + 1`: the residual of the code is the float32 difference, which
rounds `2^24 + 1` to `2^24`. -/
theorem decompose_partition_counterexample :
    (bigData.length = (2 ^ 31 + 1) * 2 ∧ bigL.length = (2 ^ 31 + 1) * 2 ∧
    ∃ dec, decomposeNDSQ (lowRankConst bigL) (2 ^ 31 + 1) 2 bigData 1 1 2 = .ok dec ∧
      dec.L = bigL ∧
      dec.D.getD (2 ^ 31 * 2 + 1) 0 + tripletAt dec.Sind dec.Sval (2 ^ 31) 1
          + dec.R.getD (2 ^ 31 * 2 + 1) 0 = 0 ∧
      bigData.getD (2 ^ 31 * 2 + 1) 0 - bigL.getD (2 ^ 31 * 2 + 1) 0 = 1) ∧
    (decomposeNDSQ (lowRankConst roundL) 1 1 roundW 1 1 2).map
        (fun d => (d.D, d.Sind, d.Sval, d.R)) = .ok (roundW, [], [], [0]) ∧
    (roundW.getD 0 0).v + (0 : F32).v + (0 : F32).v
      ≠ (roundW.getD 0 0).v - (roundL.getD 0 0).v := by
  refine ⟨?_, by decide, by decide⟩
  obtain ⟨th, dec, hdec, hLd, hth, _, _, hD, hR, hSi, _⟩ :=
    decompose_spec (lowRankConst bigL) (2 ^ 31 + 1) 2 bigData bigL 1 1 2 bigData_length rfl
      bigL_length
  refine ⟨bigData_length, bigL_length, dec, hdec, hLd, ?_, ?_⟩
  · have hmem := big_last_mem th hth
    have hS : tripletAt dec.Sind dec.Sval (2 ^ 31) 1 = 0 := by
      apply tripletAt_none
      rw [hSi, List.mem_map]
      rintro ⟨p, _, hp⟩
      exact posIndex_ne_big 2 p hp
    rw [hS, hD _ (by omega), hR _ (by omega), if_pos hmem, if_neg (by omega)]
    rfl
  · rw [big_resid _ (by omega), if_pos rfl]

/-- C13, amended: for every `rows x cols` input with `rows, cols <= 2^31` (no NaN) and every
low-rank part `L` that the SVD step yields, `decomposeNDSQ` returns, and its outputs `D`, `S`,
`R` partition the residual `resid = W - L`, the float32 difference the code computes: at every
position `(i, j)`, with `p = i*cols + j`, one of `D[p]`, the S triplet at `(i, j)` and `R[p]` is
`resid[p]` and the other two are zero, so that at most one of the three is nonzero; `D` is
nonzero only where `i = j`, and `R` is zero on the diagonal and at every S position. -/
theorem decompose_partition {α : Type} [LinearOrder α] [Zero α] [Sub α] [Neg α]
    (lowRank : Nat → Nat → List α → Int → Res (List α)) (rows cols : Nat) (data L0 : List α)
    (rank : Int) (qnum : Int) (qden : Nat) (hrows : rows ≤ 2 ^ 31) (hcols : cols ≤ 2 ^ 31)
    (hdata : data.length = rows * cols) (hL : lowRank rows cols data rank = .ok L0)
    (hLlen : L0.length = rows * cols) :
    ∃ dec, decomposeNDSQ lowRank rows cols data rank qnum qden = .ok dec ∧ dec.L = L0 ∧
      ∀ i j, i < rows → j < cols →
        ((dec.D.getD (i * cols + j) 0 = data.getD (i * cols + j) 0 - L0.getD (i * cols + j) 0 ∧
            tripletAt dec.Sind dec.Sval i j = 0 ∧ dec.R.getD (i * cols + j) 0 = 0) ∨
          (dec.D.getD (i * cols + j) 0 = 0 ∧
            tripletAt dec.Sind dec.Sval i j
              = data.getD (i * cols + j) 0 - L0.getD (i * cols + j) 0 ∧
            dec.R.getD (i * cols + j) 0 = 0) ∨
          (dec.D.getD (i * cols + j) 0 = 0 ∧ tripletAt dec.Sind dec.Sval i j = 0 ∧
            dec.R.getD (i * cols + j) 0
              = data.getD (i * cols + j) 0 - L0.getD (i * cols + j) 0)) ∧
        (dec.D.getD (i * cols + j) 0 = 0 ∨ tripletAt dec.Sind dec.Sval i j = 0) ∧
        (dec.D.getD (i * cols + j) 0 = 0 ∨ dec.R.getD (i * cols + j) 0 = 0) ∧
        (tripletAt dec.Sind dec.Sval i j = 0 ∨ dec.R.getD (i * cols + j) 0 = 0) ∧
        (dec.D.getD (i * cols + j) 0 ≠ 0 → i = j) ∧
        (i = j → dec.R.getD (i * cols + j) 0 = 0) ∧
        (((i : Int), (j : Int)) ∈ dec.Sind → dec.R.getD (i * cols + j) 0 = 0) := by
  obtain ⟨th, dec, hdec, hLd, _, _, _, hD, hR, hSi, hSv⟩ :=
    decompose_spec lowRank rows cols data L0 rank qnum qden hdata hL hLlen
  refine ⟨dec, hdec, hLd, ?_⟩
  intro i j hi hj
  have hp : i * cols + j < rows * cols := by
    calc i * cols + j < i * cols + cols := by omega
      _ = (i + 1) * cols := by ring
      _ ≤ rows * cols := Nat.mul_le_mul_right _ (by omega)
  obtain ⟨hq, hm⟩ := flat_index cols i j hj
  have hSi2 : dec.Sind = (outlierPositions cols (rows * cols) data L0 th).map
      (fun p => (((p / cols : Nat) : Int), ((p % cols : Nat) : Int))) := by
    rw [hSi]
    apply List.map_congr_left
    intro p hp2
    exact posIndex_small rows cols p hrows hcols ((mem_outlierPositions _ _ _ _ _ _).mp hp2).1
  have hS : tripletAt dec.Sind dec.Sval i j
      = if i * cols + j ∈ outlierPositions cols (rows * cols) data L0 th
        then residOff cols data L0 (i * cols + j) else 0 := by
    rw [hSi2, hSv]
    exact tripletAt_map _ _ i j (i * cols + j) _ (outlierPositions_nodup _ _ _ _ _)
      (fun p _ => pos_eq_iff cols p i j hj)
  have hmemS : ((i : Int), (j : Int)) ∈ dec.Sind
      → i * cols + j ∈ outlierPositions cols (rows * cols) data L0 th := by
    intro h
    rw [hSi2, List.mem_map] at h
    obtain ⟨p, hp1, hp2⟩ := h
    rw [← (pos_eq_iff cols p i j hj).mp hp2]
    exact hp1
  have hRO : residOff cols data L0 (i * cols + j)
      = if i = j then 0 else data.getD (i * cols + j) 0 - L0.getD (i * cols + j) 0 := by
    unfold residOff
    rw [hq, hm]
  rw [hS, hD _ hp, hR _ hp, hq, hm, hRO]
  by_cases hij : i = j
  · have hnot : i * cols + j ∉ outlierPositions cols (rows * cols) data L0 th := by
      intro h
      have := ne_zero_of_absF _ ((mem_outlierPositions _ _ _ _ _ _).mp h).2.2
      rw [hRO, if_pos hij] at this
      exact this rfl
    rw [if_pos hij, if_neg hnot, if_neg hnot, if_pos hij]
    exact ⟨Or.inl ⟨rfl, rfl, rfl⟩, Or.inr rfl, Or.inr rfl, Or.inl rfl, fun _ => hij,
      fun _ => rfl, fun _ => rfl⟩
  · by_cases hmem : i * cols + j ∈ outlierPositions cols (rows * cols) data L0 th
    · rw [if_neg hij, if_pos hmem, if_pos hmem, if_neg hij]
      exact ⟨Or.inr (Or.inl ⟨rfl, rfl, rfl⟩), Or.inl rfl, Or.inl rfl, Or.inr rfl,
        fun h => absurd rfl h, fun h => absurd h hij, fun _ => rfl⟩
    · rw [if_neg hij, if_neg hmem, if_neg hmem, if_neg hij]
      exact ⟨Or.inr (Or.inr ⟨rfl, rfl, rfl⟩), Or.inl rfl, Or.inl rfl, Or.inl rfl,
        fun h => absurd rfl h, fun h => absurd h hij, fun h => absurd (hmemS h) hmem⟩

/-- C13, amended, on the `2 x 3` input `[[5, -7, 1], [0, 3, 9]]` with `L` all ones and the
quantile `1/2`: `D = [4, 0, 0, 0, 2, 0]`, the triplets are `-8`, `-1` and `8`, and `R` is
zero. -/
theorem decompose_partition_witness :
    (decomposeNDSQ (lowRankConst smallL32) 2 3 smallData32 1 1 2).map
        (fun d => (d.D, d.R, d.Sind, d.Sval))
      = .ok ([F32.ofBits 0x40800000, 0, 0, 0, F32.ofBits 0x40000000, 0], [0, 0, 0, 0, 0, 0],
          [(0, 1), (1, 0), (1, 2)],
          [F32.ofBits 0xC1000000, F32.ofBits 0xBF800000, F32.ofBits 0x41000000]) ∧
    ∃ dec, decomposeNDSQ (lowRankConst smallL32) 2 3 smallData32 1 1 2 = .ok dec ∧
      dec.L = smallL32 ∧
      ∀ i j, i < 2 → j < 3 →
        ((dec.D.getD (i * 3 + j) 0
              = smallData32.getD (i * 3 + j) 0 - smallL32.getD (i * 3 + j) 0 ∧
            tripletAt dec.Sind dec.Sval i j = 0 ∧ dec.R.getD (i * 3 + j) 0 = 0) ∨
          (dec.D.getD (i * 3 + j) 0 = 0 ∧
            tripletAt dec.Sind dec.Sval i j
              = smallData32.getD (i * 3 + j) 0 - smallL32.getD (i * 3 + j) 0 ∧
            dec.R.getD (i * 3 + j) 0 = 0) ∨
          (dec.D.getD (i * 3 + j) 0 = 0 ∧ tripletAt dec.Sind dec.Sval i j = 0 ∧
            dec.R.getD (i * 3 + j) 0
              = smallData32.getD (i * 3 + j) 0 - smallL32.getD (i * 3 + j) 0)) ∧
        (dec.D.getD (i * 3 + j) 0 = 0 ∨ tripletAt dec.Sind dec.Sval i j = 0) ∧
        (dec.D.getD (i * 3 + j) 0 = 0 ∨ dec.R.getD (i * 3 + j) 0 = 0) ∧
        (tripletAt dec.Sind dec.Sval i j = 0 ∨ dec.R.getD (i * 3 + j) 0 = 0) ∧
        (dec.D.getD (i * 3 + j) 0 ≠ 0 → i = j) ∧
        (i = j → dec.R.getD (i * 3 + j) 0 = 0) ∧
        (((i : Int), (j : Int)) ∈ dec.Sind → dec.R.getD (i * 3 + j) 0 = 0) :=
  ⟨by decide, decompose_partition (lowRankConst smallL32) 2 3 smallData32 smallL32 1 1 2
    (by decide) (by decide) (by decide) rfl (by decide)⟩

/-! ## Claims on the outliers -/

/-- C14, as stated, fails.  For the matrix `bigData` of `2^31 + 1` rows and 2 columns and its
rank-1 part `bigL`, quantile `1/2`, the position `(2^31, 1)` has a nonzero residual of absolute
value at least `θ`, but no triplet is listed for it: the triplets hold the pair
`(int32(2^31), 1) = (-2^31, 1)`, which is no position of the matrix.  And for the `11 x 1` input
`0, 1, ..., 10` with `L = 0` and the quantile `q07num / 2^53`, the float64 nearest to `0.7`, the
threshold of the specification is `sorted[⌊10·q⌋] = sorted[6] = 6`, but the code takes
`sorted[7] = 7`, because the float64 product `10 * q` rounds to `7.0`: the position `(6, 0)`
has the residual `6 >= θ` and is not listed. -/
theorem outliers_counterexample :
    (bigData.length = (2 ^ 31 + 1) * 2 ∧ bigL.length = (2 ^ 31 + 1) * 2 ∧
    ∃ dec, decomposeNDSQ (lowRankConst bigL) (2 ^ 31 + 1) 2 bigData 1 1 2 = .ok dec ∧
      specTheta 2 ((2 ^ 31 + 1) * 2) bigData bigL 1 2
        ≤ absF (residOff 2 bigData bigL (2 ^ 31 * 2 + 1)) ∧
      residOff 2 bigData bigL (2 ^ 31 * 2 + 1) ≠ 0 ∧
      (((2 ^ 31 : Nat) : Int), ((1 : Nat) : Int)) ∉ dec.Sind ∧
      (-(2 ^ 31), 1) ∈ dec.Sind) ∧
    (0 ≤ q07num ∧ q07num ≤ ((2 ^ 53 : Nat) : Int)) ∧
    (10 * q07num.toNat / 2 ^ 53 = 6 ∧ quantileIndex 11 q07num (2 ^ 53) = 7) ∧
    (decomposeNDSQ (lowRankConst quantL) 11 1 quantData 1 q07num (2 ^ 53)).map
        (fun d => d.Sind) = .ok [(7, 0), (8, 0), (9, 0), (10, 0)] ∧
    specTheta 1 11 quantData quantL q07num (2 ^ 53) = F32.ofBits 0x40C00000 ∧
    specTheta 1 11 quantData quantL q07num (2 ^ 53) ≤ absF (residOff 1 quantData quantL 6) ∧
    residOff 1 quantData quantL 6 ≠ 0 := by
  refine ⟨?_, by decide, by decide, by decide, by decide, by decide, by decide⟩
  obtain ⟨th, dec, hdec, _, hth, _, _, _, _, hSi, _⟩ :=
    decompose_spec (lowRankConst bigL) (2 ^ 31 + 1) 2 bigData bigL 1 1 2 bigData_length rfl
      bigL_length
  have hmem := big_last_mem th hth
  have hm2 := (mem_outlierPositions _ _ _ _ _ _).mp hmem
  refine ⟨bigData_length, bigL_length, dec, hdec, ?_, ne_zero_of_absF _ hm2.2.2, ?_, ?_⟩
  · have h1 := big_specTheta_le 1 2
    have h2 : absF (residOff 2 bigData bigL (2 ^ 31 * 2 + 1)) = 1 := by
      rw [big_residOff _ (by omega), if_pos rfl]
      rfl
    rw [h2]
    exact h1
  · rw [hSi, List.mem_map]
    rintro ⟨p, _, hp⟩
    exact posIndex_ne_big 2 p hp
  · rw [hSi, List.mem_map]
    exact ⟨_, hmem, posIndex_big⟩

/-- C14, amended: for every input with `rows, cols <= 2^31` (no NaN) and every quantile
`q = qnum/qden` in `[0, 1]`, with `θ = sorted[int(float64(N-1) * q)]` over the absolute values of
the diagonal-zeroed residual (`codeTheta`: the index is the float64 product, truncated), the S
triplets returned by `decomposeNDSQ` are exactly the positions `p = i*cols + j` with
`|resid[p]| >= θ` and `|resid[p]| != 0`, each listed once with its residual value, in strictly
increasing row-major order; no triplet has value zero. -/
theorem outliers_spec {α : Type} [LinearOrder α] [Zero α] [Sub α] [Neg α]
    (lowRank : Nat → Nat → List α → Int → Res (List α)) (rows cols : Nat) (data L0 : List α)
    (rank : Int) (qnum : Int) (qden : Nat) (hrows : rows ≤ 2 ^ 31) (hcols : cols ≤ 2 ^ 31)
    (hdata : data.length = rows * cols) (hL : lowRank rows cols data rank = .ok L0)
    (hLlen : L0.length = rows * cols) (_hq0 : 0 ≤ qnum) (_hq1 : qnum ≤ qden) (_hqd : 0 < qden) :
    ∃ (dec : Decomp α) (ps : List Nat),
      decomposeNDSQ lowRank rows cols data rank qnum qden = .ok dec ∧
      dec.Sind = ps.map (fun p => (((p / cols : Nat) : Int), ((p % cols : Nat) : Int))) ∧
      dec.Sval = ps.map (residOff cols data L0) ∧
      ps.Pairwise (fun a b => a < b) ∧
      (∀ p, p ∈ ps ↔ p < rows * cols ∧
        codeTheta cols (rows * cols) data L0 qnum qden ≤ absF (residOff cols data L0 p) ∧
        absF (residOff cols data L0 p) ≠ 0) ∧
      ∀ v ∈ dec.Sval, v ≠ 0 := by
  obtain ⟨th, dec, hdec, _, hth, _, _, _, _, hSi, hSv⟩ :=
    decompose_spec lowRank rows cols data L0 rank qnum qden hdata hL hLlen
  have hθ := threshold_codeTheta cols (rows * cols) data L0 qnum qden th hth
  refine ⟨dec, outlierPositions cols (rows * cols) data L0 th, hdec, ?_, hSv,
    outlierPositions_sorted _ _ _ _ _, ?_, ?_⟩
  · rw [hSi]
    apply List.map_congr_left
    intro p hp
    exact posIndex_small rows cols p hrows hcols ((mem_outlierPositions _ _ _ _ _ _).mp hp).1
  · intro p
    rw [mem_outlierPositions, hθ]
  · intro v hv
    rw [hSv, List.mem_map] at hv
    obtain ⟨p, hp, rfl⟩ := hv
    exact ne_zero_of_absF _ ((mem_outlierPositions _ _ _ _ _ _).mp hp).2.2

/-- C14, amended, on the `11 x 1` input `0, 1, ..., 10` with the quantile `q07num / 2^53`: the
threshold is `sorted[7] = 7`, and the triplets are the four positions that reach it. -/
theorem outliers_spec_witness :
    (decomposeNDSQ (lowRankConst quantL) 11 1 quantData 1 q07num (2 ^ 53)).map
        (fun d => (d.Sind, d.Sval))
      = .ok ([(7, 0), (8, 0), (9, 0), (10, 0)],
          [F32.ofBits 0x40E00000, F32.ofBits 0x41000000, F32.ofBits 0x41100000,
            F32.ofBits 0x41200000]) ∧
    codeTheta 1 (11 * 1) quantData quantL q07num (2 ^ 53) = F32.ofBits 0x40E00000 ∧
    ∃ (dec : Decomp F32) (ps : List Nat),
      decomposeNDSQ (lowRankConst quantL) 11 1 quantData 1 q07num (2 ^ 53) = .ok dec ∧
      dec.Sind = ps.map (fun p => (((p / 1 : Nat) : Int), ((p % 1 : Nat) : Int))) ∧
      dec.Sval = ps.map (residOff 1 quantData quantL) ∧
      ps.Pairwise (fun a b => a < b) ∧
      (∀ p, p ∈ ps ↔ p < 11 * 1 ∧
        codeTheta 1 (11 * 1) quantData quantL q07num (2 ^ 53)
          ≤ absF (residOff 1 quantData quantL p) ∧
        absF (residOff 1 quantData quantL p) ≠ 0) ∧
      ∀ v ∈ dec.Sval, v ≠ 0 :=
  ⟨by decide, by decide,
    outliers_spec (lowRankConst quantL) 11 1 quantData quantL 1 q07num (2 ^ 53) (by decide)
      (by decide) (by decide) rfl (by decide) (by decide) (by decide) (by decide)⟩

/-! ## Claims on `ConvertLayer` -/

/-- C15, as stated, fails: for the all-zero layer `wideSpec` of `2^32` rows and one column
`ConvertLayer` succeeds, and every payload begins with the rows field `uint32(2^32) = 0`, not
with `spec.Rows = 2^32`. -/
theorem convertLayer_shards_counterexample :
    wideSpec.Rows = 2 ^ 32 ∧ wideSpec.Data.length = wideSpec.Rows * wideSpec.Cols ∧
    ∃ shards, ConvertLayer lowRankFull tableBits identPerm big32Q wideSpec cfg16 = .ok shards ∧
      shards.length = 4 ∧ ∀ x ∈ shards, le32 x.Data 0 = 0 := by
  have hlen : wideSpec.Data.length = wideSpec.Rows * wideSpec.Cols := by
    show (List.replicate (2 ^ 32) (0 : ℚ)).length = 2 ^ 32 * 1
    rw [List.length_replicate, Nat.mul_one]
  obtain ⟨dec, cb, codes, h, _⟩ := ConvertLayer_total lowRankFull tableBits identPerm big32Q
    wideSpec cfg16 wideSpec.Data hlen
    (by show 1 ≤ 2 ^ 32 * 1
        norm_num) rfl hlen
    (by show 1 ≤ 16
        norm_num) identPerm_ok
  refine ⟨rfl, hlen, _, h, rfl, ?_⟩
  have h0 : wideSpec.Rows % 2 ^ 32 = 0 := by
    show 2 ^ 32 % 2 ^ 32 = 0
    norm_num
  rw [h0]
  intro x hx
  simp only [List.mem_cons, List.mem_singleton, List.not_mem_nil, or_false] at hx
  rcases hx with rfl | rfl | rfl | rfl
  · simp only [List.append_assoc]
    exact le32_putU32 0 _ (by norm_num)
  · simp only [List.append_assoc]
    exact le32_putU32 0 _ (by norm_num)
  · simp only [List.append_assoc]
    exact le32_putU32 0 _ (by norm_num)
  · simp only [List.append_assoc]
    exact le32_putU32 0 _ (by norm_num)

/-- C15, amended: whenever `ConvertLayer` succeeds on a layer spec with `Rows < 2^32` and
`Cols < 2^32` it returns exactly four shards, of the types D (3), L (0), R (1), S (2), all
carrying the spec's scope and `comp = 0`, and every payload begins with the same
`(rows, cols) = (spec.Rows, spec.Cols)`; the L and D payloads are exactly `8 + 2*rows*cols`
bytes long. -/
theorem convertLayer_shards {α : Type} [LinearOrder α] [Zero α] [One α] [Add α] [Sub α] [Mul α]
    [Neg α] [Div α] [NatCast α]
    (lowRank : Nat → Nat → List α → Int → Res (List α)) (bitsOf : α → Nat)
    (perm : Nat → Nat → List Nat) (big : α) (spec : LayerSpec α) (cfg : Config)
    (shards : List ShardOut) (h : ConvertLayer lowRank bitsOf perm big spec cfg = .ok shards)
    (hr : spec.Rows < 2 ^ 32) (hc : spec.Cols < 2 ^ 32) :
    ∃ d l r s : ShardOut, shards = [d, l, r, s] ∧
      d.Typ = 3 ∧ l.Typ = 0 ∧ r.Typ = 1 ∧ s.Typ = 2 ∧
      (∀ x ∈ shards, x.Scope = spec.Scope ∧ x.Comp = 0 ∧
        le32 x.Data 0 = spec.Rows ∧ le32 x.Data 4 = spec.Cols) ∧
      l.Data.length = 8 + 2 * (spec.Rows * spec.Cols) ∧
      d.Data.length = 8 + 2 * (spec.Rows * spec.Cols) := by
  obtain ⟨dec, rtail, stail, hdec, hsh⟩ := ConvertLayer_ok lowRank bitsOf perm big spec cfg
    shards h
  obtain ⟨hD, hL⟩ := decompose_lengths lowRank spec.Rows spec.Cols spec.Data cfg.Rank cfg.Qnum
    cfg.Qden dec hdec
  refine ⟨_, _, _, _, hsh, rfl, rfl, rfl, rfl, ?_, ?_, ?_⟩
  · intro x hx
    rw [hsh] at hx
    simp only [List.mem_cons, List.mem_singleton, List.not_mem_nil, or_false] at hx
    rcases hx with rfl | rfl | rfl | rfl
    · exact ⟨rfl, rfl, shape_head _ _ _ hr hc⟩
    · exact ⟨rfl, rfl, shape_head _ _ _ hr hc⟩
    · exact ⟨rfl, rfl, shape_head _ _ _ hr hc⟩
    · exact ⟨rfl, rfl, shape_head _ _ _ hr hc⟩
  · show (putU32 _ ++ putU32 _ ++ fp16bytes bitsOf dec.L).length = _
    rw [List.length_append, List.length_append, length_putU32, length_putU32,
      length_fp16bytes, hL]
  · show (putU32 _ ++ putU32 _ ++ fp16bytes bitsOf dec.D).length = _
    rw [List.length_append, List.length_append, length_putU32, length_putU32,
      length_fp16bytes, hD]

/-- C15, amended, on the `2 x 3` layer `rankOneSpec`, which `ConvertLayer` converts. -/
theorem convertLayer_shards_witness :
    rankOneSpec.Rows < 2 ^ 32 ∧ rankOneSpec.Cols < 2 ^ 32 ∧
    ∃ shards, ConvertLayer lowRankFull tableBits identPerm big32Q rankOneSpec cfg16 = .ok shards ∧
      ∃ d l r s : ShardOut, shards = [d, l, r, s] ∧
        d.Typ = 3 ∧ l.Typ = 0 ∧ r.Typ = 1 ∧ s.Typ = 2 ∧
        (∀ x ∈ shards, x.Scope = rankOneSpec.Scope ∧ x.Comp = 0 ∧
          le32 x.Data 0 = rankOneSpec.Rows ∧ le32 x.Data 4 = rankOneSpec.Cols) ∧
        l.Data.length = 8 + 2 * (rankOneSpec.Rows * rankOneSpec.Cols) ∧
        d.Data.length = 8 + 2 * (rankOneSpec.Rows * rankOneSpec.Cols) := by
  obtain ⟨dec, cb, codes, h, _⟩ := ConvertLayer_total lowRankFull tableBits identPerm big32Q
    rankOneSpec cfg16 rankOneSpec.Data rfl (by decide) rfl rfl (by decide) identPerm_ok
  exact ⟨by decide, by decide, _, h,
    convertLayer_shards lowRankFull tableBits identPerm big32Q rankOneSpec cfg16 _ h
      (by decide) (by decide)⟩

/-! ## Claims on the R payload of `ConvertLayer` -/

theorem layerM_eq (PQm : Nat) :
    (if 128 % PQm ≠ 0 then 128 / 8 else PQm) = if PQm ∣ 128 then PQm else 16 := by
  by_cases h : PQm ∣ 128
  · rw [if_pos h, if_neg (by rw [not_not]; exact Nat.mod_eq_zero_of_dvd h)]
  · rw [if_neg h, if_pos (fun hh => h (Nat.dvd_of_mod_eq_zero hh))]

/-- C16, as stated, fails: for the all-zero layer `manySpec` of `2^23` rows and one column
(`rows*cols >= 1`) and the configuration `PQm = 16`, `PQk = 65536`, `ConvertLayer` succeeds with
`n = 65536` vectors, so `min(PQk, n) = 65536`, and the R payload it writes has `m = 16`,
`n = 65536` and the field `k = uint16(65536) = 0`. -/
theorem convertLayer_rpayload_counterexample :
    1 ≤ manySpec.Rows * manySpec.Cols ∧ 1 ≤ cfgManyK.PQm ∧ 1 ≤ cfgManyK.PQk ∧
    min cfgManyK.PQk ((manySpec.Rows * manySpec.Cols + 127) / 128) = 65536 ∧
    ∃ (d l s : ShardOut) (rb : Bytes),
      ConvertLayer lowRankFull tableBits identPerm big32Q manySpec cfgManyK
        = .ok [d, l, ShardOut.mk 1 manySpec.Scope 0 rb, s] ∧
      le16 rb 8 = 128 ∧ le16 rb 10 = 16 ∧ le16 rb 12 = 0 ∧ le32 rb 14 = 65536 := by
  have hlen : manySpec.Data.length = manySpec.Rows * manySpec.Cols := by
    show (List.replicate (2 ^ 23) (0 : ℚ)).length = 2 ^ 23 * 1
    rw [List.length_replicate, Nat.mul_one]
  obtain ⟨dec, cb, codes, h, _⟩ := ConvertLayer_total lowRankFull tableBits identPerm big32Q
    manySpec cfgManyK manySpec.Data hlen
    (by show 1 ≤ 2 ^ 23 * 1
        norm_num) rfl hlen
    (by show 1 ≤ 16
        norm_num) identPerm_ok
  have hn : (manySpec.Rows * manySpec.Cols + 127) / 128 = 65536 := by
    show (2 ^ 23 * 1 + 127) / 128 = 65536
    norm_num
  have hm : (if 128 % cfgManyK.PQm ≠ 0 then 128 / 8 else cfgManyK.PQm) = 16 := by
    show (if 128 % 16 ≠ 0 then 128 / 8 else 16) = 16
    norm_num
  have hk : cfgManyK.PQk = 65536 := rfl
  rw [hn, hm, hk] at h
  have hk0 : max 1 (min 65536 65536) % 2 ^ 16 = 0 := by norm_num
  rw [hk0] at h
  obtain ⟨_, h8, h10, h12, h14⟩ := r_head (manySpec.Rows % 2 ^ 32) (manySpec.Cols % 2 ^ 32)
    (128 % 2 ^ 16) (16 % 2 ^ 16) 0 (65536 % 2 ^ 32) (by norm_num) (by norm_num) (by norm_num)
    (by norm_num)
  refine ⟨by show 1 ≤ 2 ^ 23 * 1
             norm_num, by show 1 ≤ 16
                          norm_num, by show 1 ≤ 65536
                                       norm_num, by rw [hn, hk]; rfl, _, _, _, _, h, ?_, ?_, ?_, ?_⟩
  · rw [List.append_assoc, le16_append_left _ _ 8 (by decide), h8]
    norm_num
  · rw [List.append_assoc, le16_append_left _ _ 10 (by decide), h10]
    norm_num
  · rw [List.append_assoc, le16_append_left _ _ 12 (by decide), h12]
  · rw [List.append_assoc, le32_append_left _ _ 14 (by decide), h14]
    norm_num

/-- C16, amended: for every layer with `rows*cols >= 1` and every configuration with
`PQm >= 1` and `PQk >= 1` such that `min(PQk, n) < 2^16` and `n < 2^32` for
`n = ceil(rows*cols / 128)`, when the SVD step returns a low-rank part of `rows*cols` values
(and `rng.Perm` returns permutations), `ConvertLayer` returns, and the R payload it writes is an
18-byte head with `d = 128`, `m` a divisor of 128 (`PQm` when `PQm` divides 128, otherwise 16),
`k = min(PQk, n)` and that `n`, followed by exactly `4*m*k*(d/m)` codebook bytes and exactly
`n*m` code bytes. -/
theorem convertLayer_rpayload {α : Type} [LinearOrder α] [Zero α] [One α] [Add α] [Sub α] [Mul α]
    [Neg α] [Div α] [NatCast α]
    (lowRank : Nat → Nat → List α → Int → Res (List α)) (bitsOf : α → Nat)
    (perm : Nat → Nat → List Nat) (big : α) (spec : LayerSpec α) (cfg : Config) (L0 : List α)
    (hdata : spec.Data.length = spec.Rows * spec.Cols) (hne : 1 ≤ spec.Rows * spec.Cols)
    (hL : lowRank spec.Rows spec.Cols spec.Data cfg.Rank = .ok L0)
    (hLlen : L0.length = spec.Rows * spec.Cols) (hm : 1 ≤ cfg.PQm) (hk : 1 ≤ cfg.PQk)
    (hperm : ∀ i N, (perm i N).length = N ∧ ∀ x ∈ perm i N, x < N)
    (hkb : min cfg.PQk ((spec.Rows * spec.Cols + 127) / 128) < 2 ^ 16)
    (hnb : (spec.Rows * spec.Cols + 127) / 128 < 2 ^ 32) :
    ∃ (d l s : ShardOut) (head cb codes : Bytes),
      ConvertLayer lowRank bitsOf perm big spec cfg
        = .ok [d, l, ShardOut.mk 1 spec.Scope 0 (head ++ cb ++ codes), s] ∧
      head.length = 18 ∧ le16 head 8 = 128 ∧
      le16 head 10 = (if cfg.PQm ∣ 128 then cfg.PQm else 16) ∧
      (if cfg.PQm ∣ 128 then cfg.PQm else 16) ∣ 128 ∧
      le16 head 12 = min cfg.PQk ((spec.Rows * spec.Cols + 127) / 128) ∧
      le32 head 14 = (spec.Rows * spec.Cols + 127) / 128 ∧
      cb.length = 4 * (if cfg.PQm ∣ 128 then cfg.PQm else 16)
        * min cfg.PQk ((spec.Rows * spec.Cols + 127) / 128)
        * (128 / (if cfg.PQm ∣ 128 then cfg.PQm else 16)) ∧
      codes.length = (spec.Rows * spec.Cols + 127) / 128
        * (if cfg.PQm ∣ 128 then cfg.PQm else 16) := by
  obtain ⟨dec, cb, codes, h, _, _, _, hcb, hcodes, _⟩ := ConvertLayer_total lowRank bitsOf perm
    big spec cfg L0 hdata hne hL hLlen hm hperm
  obtain ⟨hm1, hmd, hm128⟩ := layerM_dvd cfg.PQm hm
  rw [layerM_eq] at h hcb hcodes hmd hm128
  generalize (if cfg.PQm ∣ 128 then cfg.PQm else 16) = m at *
  generalize hn : (spec.Rows * spec.Cols + 127) / 128 = n at *
  have hn1 : 1 ≤ n := by omega
  have hK : max 1 (min cfg.PQk n) = min cfg.PQk n := by omega
  rw [hK] at h hcb
  obtain ⟨h18, h8, h10, h12, h14⟩ := r_head (spec.Rows % 2 ^ 32) (spec.Cols % 2 ^ 32)
    (128 % 2 ^ 16) (m % 2 ^ 16) (min cfg.PQk n % 2 ^ 16) (n % 2 ^ 32)
    (Nat.mod_lt _ (by norm_num)) (Nat.mod_lt _ (by norm_num)) (Nat.mod_lt _ (by norm_num))
    (Nat.mod_lt _ (by norm_num))
  refine ⟨_, _, _, _, cb, codes, h, h18, ?_, ?_, hmd, ?_, ?_, ?_, hcodes⟩
  · rw [h8]
    norm_num
  · rw [h10, Nat.mod_eq_of_lt (by omega)]
  · rw [h12, Nat.mod_eq_of_lt hkb]
  · rw [h14, Nat.mod_eq_of_lt hnb]
  · rw [hcb]; ring

/-- C16, amended, on the `2 x 3` layer `rankOneSpec`: one vector, `m = 16`, `k = 1`, 512
codebook bytes and 16 code bytes. -/
theorem convertLayer_rpayload_witness :
    1 ≤ rankOneSpec.Rows * rankOneSpec.Cols ∧ 1 ≤ cfg16.PQm ∧ 1 ≤ cfg16.PQk ∧
    ∃ (d l s : ShardOut) (head cb codes : Bytes),
      ConvertLayer lowRankFull tableBits identPerm big32Q rankOneSpec cfg16
        = .ok [d, l, ShardOut.mk 1 rankOneSpec.Scope 0 (head ++ cb ++ codes), s] ∧
      head.length = 18 ∧ le16 head 8 = 128 ∧
      le16 head 10 = (if cfg16.PQm ∣ 128 then cfg16.PQm else 16) ∧
      (if cfg16.PQm ∣ 128 then cfg16.PQm else 16) ∣ 128 ∧
      le16 head 12 = min cfg16.PQk ((rankOneSpec.Rows * rankOneSpec.Cols + 127) / 128) ∧
      le32 head 14 = (rankOneSpec.Rows * rankOneSpec.Cols + 127) / 128 ∧
      cb.length = 4 * (if cfg16.PQm ∣ 128 then cfg16.PQm else 16)
        * min cfg16.PQk ((rankOneSpec.Rows * rankOneSpec.Cols + 127) / 128)
        * (128 / (if cfg16.PQm ∣ 128 then cfg16.PQm else 16)) ∧
      codes.length = (rankOneSpec.Rows * rankOneSpec.Cols + 127) / 128
        * (if cfg16.PQm ∣ 128 then cfg16.PQm else 16) :=
  ⟨by decide, by decide, by decide,
    convertLayer_rpayload lowRankFull tableBits identPerm big32Q rankOneSpec cfg16
      rankOneSpec.Data rfl (by decide) rfl rfl (by decide) (by decide) identPerm_ok
      (by decide) (by decide)⟩

/-! ## Claims on malformed R payloads -/

set_option maxRecDepth 100000 in
/-- C31, as stated, fails.  The payloads `oddPayload` (embedded) and `oddShared` (shared) have
`d = 3`, `m = 2`: `decodeR`, `decodeRWithPool` and `applyRAddOptimized` return a result for
them, decoded with `dsub = 3/2 = 1` (values in units of `2^-150`).  The payloads `zeroMPayload`
and `zeroMShared` have `m = 0`: the three functions stop with a division by zero, they do not
return an error. -/
theorem divisibility_counterexample :
    le16 oddPayload 8 = 3 ∧ le16 oddPayload 10 = 2 ∧ le16 oddShared 8 = 3 ∧
    le16 oddShared 10 = 2 ∧
    decodeR f32fix oddPayload = (1, 3, .ok [2 ^ 150, 2 ^ 151, 0]) ∧
    decodeRWithPool 1 3 oddShared oddPool = .ok [2 ^ 150, 2 ^ 151, 0] ∧
    applyRAddOptimized f32fix Gpu.off [0] 1 3 oddPayload [1, 1, 1] none = .ok [3 * 2 ^ 150] ∧
    le16 zeroMPayload 10 = 0 ∧ le16 zeroMShared 10 = 0 ∧
    decodeR f32fix zeroMPayload = (0, 0, .error (.panic "integer divide by zero")) ∧
    decodeRWithPool 1 1 zeroMShared openPool = .error (.panic "integer divide by zero") ∧
    applyRAddOptimized f32fix Gpu.off [0] 1 1 zeroMPayload [1] none
      = .error (.panic "integer divide by zero") :=
  ⟨by decide, by decide, by decide, by decide, by decide, by decide, by decide, by decide,
    by decide, by decide, by decide, by decide⟩

/-- C31, amended: for every R payload whose header has `m = 0`, `decodeR`, `decodeRWithPool`
and `applyRAddOptimized` return no result: each returns an error or stops with a division by
zero, and `decodeR` and `applyRAddOptimized` stop with the division by zero whenever the payload
has at least its 18 head bytes. -/
theorem zero_m_no_result {α : Type} [Zero α] [Add α] [Mul α] (F : Nat → α) (gpu : Gpu α)
    (p : Bytes) (hm : le16 p 10 = 0) :
    (∀ mat, (decodeR F p).2.2 ≠ .ok mat) ∧
    (∀ rows cols pool mat, decodeRWithPool rows cols p pool ≠ (.ok mat : Res (List α))) ∧
    (∀ y rows cols x pool y2, applyRAddOptimized F gpu y rows cols p x pool ≠ .ok y2) ∧
    (18 ≤ p.length →
      (decodeR F p).2.2 = .error (.panic "integer divide by zero") ∧
      ∀ y rows cols x pool,
        applyRAddOptimized F gpu y rows cols p x pool
          = .error (.panic "integer divide by zero")) := by
  have hR : ∀ mat, (decodeR F p).2.2 ≠ .ok mat := by
    intro mat h
    unfold decodeR at h
    split at h
    · cases h
    · simp only [hm] at h
      split at h
      · cases h
      · cases h
  have hA : ∀ y rows cols x pool y2,
      applyRAddOptimized F gpu y rows cols p x pool ≠ .ok y2 := by
    intro y rows cols x pool y2 h
    unfold applyRAddOptimized at h
    split at h
    · cases h
    · simp only [hm] at h
      cases h
  refine ⟨hR, ?_, hA, ?_⟩
  · intro rows cols pool mat h
    unfold decodeRWithPool at h
    split at h
    · cases h
    · simp only [hm] at h
      split at h
      · cases h
      · split at h
        · cases h
        · split at h
          · cases h
          · split at h
            · cases h
            · cases h
  · intro h18
    constructor
    · unfold decodeR
      rw [if_neg (by omega)]
      simp only [hm]
      rw [if_neg (by omega)]
      rfl
    · intro y rows cols x pool
      unfold applyRAddOptimized
      rw [if_neg (by omega)]
      simp only [hm]
      rfl

/-- C31, amended, on the 18-byte payload `zeroMPayload`. -/
theorem zero_m_no_result_witness :
    le16 zeroMPayload 10 = 0 ∧ 18 ≤ zeroMPayload.length ∧
    (∀ mat, (decodeR f32fix zeroMPayload).2.2 ≠ .ok mat) ∧
    (∀ rows cols pool mat,
      decodeRWithPool rows cols zeroMPayload pool ≠ (.ok mat : Res (List Int))) ∧
    (∀ y rows cols x pool y2,
      applyRAddOptimized f32fix Gpu.off y rows cols zeroMPayload x pool ≠ .ok y2) ∧
    (18 ≤ zeroMPayload.length →
      (decodeR f32fix zeroMPayload).2.2 = .error (.panic "integer divide by zero") ∧
      ∀ y rows cols x pool,
        applyRAddOptimized f32fix Gpu.off y rows cols zeroMPayload x pool
          = .error (.panic "integer divide by zero")) :=
  ⟨by decide, by decide, zero_m_no_result f32fix Gpu.off zeroMPayload (by decide)⟩

/-- C32: the payload `shortHead` has 16 bytes, two less than the 18-byte head.  `decodeR`
accepts it as long enough (`len(p) < 8+8` is false) and then reads `p[14:18]`: the read runs
past the end of the payload, which is a panic for a slice of that capacity, not a returned
error.  A payload of 15 bytes is refused with "short R payload". -/
theorem decodeR_shortHead :
    shortHead.length = 16 ∧
    decodeR f32fix shortHead = (0, 0, .error (.panic "slice bounds out of range")) ∧
    decodeR f32fix (shortHead.take 15) = (0, 0, .error (.error "short R payload")) ∧
    applyRAddOptimized f32fix Gpu.off [0] 1 1 shortHead [1] none
      = .error (.error "short R payload") :=
  ⟨by decide, by decide, by decide, by decide⟩

/-- C33: the routing sections `headRouting` (6 bytes, declares `n = 1`, so 14 bytes) and
`shortRouting` (14 bytes, declares `dim = 2` and `n = 1`, so 22 bytes) are shorter than their
headers declare.  `parseRouting` checks the 6 header bytes only and then slices `data` at the
declared positions: both calls end in a panic, not in a returned error.  A section of 5 bytes
is refused with "routing: short header". -/
theorem parseRouting_short :
    headRouting.length = 6 ∧ 6 + 8 * le32 headRouting 2 + 4 * le32 headRouting 2
      * le16 headRouting 0 = 14 ∧
    parseRouting f32fix id headRouting = .error (.panic "slice bounds out of range") ∧
    shortRouting.length = 14 ∧ 6 + 8 * le32 shortRouting 2 + 4 * le32 shortRouting 2
      * le16 shortRouting 0 = 22 ∧
    parseRouting f32fix id shortRouting = .error (.panic "slice bounds out of range") ∧
    parseRouting f32fix id (headRouting.take 5) = .error (.error "routing: short header") :=
  ⟨by decide, by decide, rfl, by decide, by decide, rfl, rfl⟩

/-! ## Claims on partial acceleration, the route report and S triplets out of range -/

set_option maxRecDepth 100000 in
/-- C36: the bank `denseBank` holds the L shard `testL` and the D shard `testD` of scope 0, and
the backend `halfGpu` handles the dense call for `testL` and reports the call for `testD` as not
handled, leaving `y` alone.  With the acceleration flag set `MultiplyScopeWithPool` returns
`L*x = [6, 15]` (in units of `2^-150`): `gpuMatVec` folds both reports into one flag, both
shards count as handled, and the D shard is applied by nobody.  Without the flag the result is
`(L+D)*x = [6.5, 15.25]`. -/
theorem multiply_partial_gpu :
    (halfGpu.MatVecF32 [0, 0] (testL.map f32fix) 2 3 [1, 1, 1]).1 = true ∧
    halfGpu.MatVecF32 [0, 0] (testD.map f32fix) 2 3 [1, 1, 1] = (false, [0, 0]) ∧
    MultiplyScopeWithPool f32fix halfGpu true denseBank none 0 [1, 1, 1]
      = .ok ([6 * 2 ^ 150, 15 * 2 ^ 150], 2, 3) ∧
    MultiplyScopeWithPool f32fix halfGpu false denseBank none 0 [1, 1, 1]
      = .ok ([13 * 2 ^ 149, 61 * 2 ^ 148], 2, 3) ∧
    MultiplyScopeWithPool f32fix Gpu.off true denseBank none 0 [1, 1, 1]
      = .ok ([13 * 2 ^ 149, 61 * 2 ^ 148], 2, 3) :=
  ⟨by decide, by decide, by decide, by decide, by decide⟩

/-- C37: with costs `[5, 1]`, shard ids `[20, 21]`, ranking `[0, 1]`, `k = 2` and budget 2 the
selection skips the first-ranked shard 20 (cost 5) and accepts shard 21, whose cost is 1.  The
report prints `costs[order[i]]` next to `selected[i]`: its only line is `shard_id=21 cost=5`,
the cost of the skipped shard.  With budget 0 nothing is skipped and the costs fit. -/
theorem routeReport_skipped :
    selectShards (2 : Int) (2 : Int) [5, 1] [20, 21] [0, 1] = .ok ([21], 1) ∧
    routeReport (2 : Int) (2 : Int) [5, 1] [20, 21] [0, 1] = .ok [(0, 21, 5)] ∧
    routeReport (2 : Int) (0 : Int) [5, 1] [20, 21] [0, 1] = .ok [(0, 20, 5), (1, 21, 1)] :=
  ⟨by decide, by decide, by decide⟩

set_option maxRecDepth 100000 in
/-- C38: the bank `sBank r c` holds one S shard of shape `2 x 3` with the triplet `(r, c, 1.0)`.
`ReconstructForScope` adds the value at `data[r*3 + c]` without a test of `r` and `c`: the
triplet `(0, 3)` lands in cell `(1, 0)`, the triplet `(1, -1)` in cell `(0, 2)`, and the triplets
`(1, 3)` and `(-1, 0)` are an access out of range.  The streaming product skips the triplet
`(0, 3)`. -/
theorem reconstruct_triplet_range :
    ReconstructForScope f32fix Codec.store (sBank 0 3) 0 = .ok (2, 3, [0, 0, 0, 2 ^ 150, 0, 0]) ∧
    ReconstructForScope f32fix Codec.store (sBank 1 (-1)) 0
      = .ok (2, 3, [0, 0, 2 ^ 150, 0, 0, 0]) ∧
    ReconstructForScope f32fix Codec.store (sBank 1 3) 0
      = .error (.panic "index out of range") ∧
    ReconstructForScope f32fix Codec.store (sBank (-1) 0) 0
      = .error (.panic "index out of range") ∧
    MultiplyScopeWithPool f32fix Gpu.off false (sBank 0 3) none 0 [1, 1, 1]
      = .ok ([0, 0], 2, 3) :=
  ⟨by decide, by decide, by decide, by decide, by decide⟩

/-! ## Claims on the bank scan and on opening a container -/

/-- C39: for every byte string `bank`, `IndexShardBank` returns records without error, and the
scan does not depend on the iteration bound of the model.  Every record has `Offset >= 12`,
`Offset + Csize <= len(bank)` and the header decoded from the 12 bytes before `Offset`; the
first record has `Offset = 12`, each next record has
`Offset = previous Offset + previous Csize + 12`, and at the end of the last payload either no
12-byte header fits or the payload it declares runs past the end of the bank. -/
theorem indexShardBank_scan (bank : Bytes) :
    ∃ recs, IndexShardBank bank = .ok recs ∧
      (∀ fuel, bank.length + 1 ≤ fuel → indexLoop bank fuel 0 = recs) ∧
      (∀ r ∈ recs,
        12 ≤ r.Offset ∧ r.Offset + r.Hdr.Csize ≤ bank.length ∧
        r.Hdr = { Typ := byteAt bank (r.Offset - 12)
                  Scope := (byteAt bank (r.Offset - 11) ||| (byteAt bank (r.Offset - 10) <<< 8))
                    % 2 ^ 16
                  Comp := byteAt bank (r.Offset - 9)
                  Usize := le32 bank (r.Offset - 8)
                  Csize := le32 bank (r.Offset - 4) }) ∧
      (∀ r, recs.head? = some r → r.Offset = 12) ∧
      List.Chain' (fun a b : BankRec => b.Offset = a.Offset + a.Hdr.Csize + 12) recs ∧
      (bank.length < scanEnd 0 recs + 12 ∨
        bank.length < scanEnd 0 recs + 12 + le32 bank (scanEnd 0 recs + 8)) := by
  obtain ⟨hm, hh, hc, hs⟩ := indexLoop_chain bank (bank.length + 1) 0
  refine ⟨indexLoop bank (bank.length + 1) 0, rfl, indexLoop_stable bank, ?_, ?_, hc,
    hs (by omega)⟩
  · intro r hr
    obtain ⟨h1, h2, h3⟩ := hm r hr
    exact ⟨by omega, h2, h3⟩
  · intro r hr
    have := hh r hr
    omega

/-- C35: for every file content, `OpenCAWSF` fails exactly when the first 8 bytes are not the
magic or the file is shorter than `20 + 24*num` bytes, `num` being the `u32` at offset 12;
otherwise it succeeds with a TOC of `num` entries, entry `i` decoded little-endian from the 24
bytes at `20 + 24*i` as `(type:u32, offset:u64, size:u64, flags:u32)`.  (The allocation
`make([]tocEntry, num)` is taken to succeed.) -/
theorem openCAWSF_spec (file : Bytes) :
    ((∃ e, OpenCAWSF file = .error e) ↔
      (slice file 0 8 ≠ magic ∨ file.length < 20 + 24 * le32 file 12)) ∧
    (OpenCAWSF file = .ok
        { file := file
          TOC := (List.range (le32 file 12)).map (fun i =>
            TocEntry.mk (le32 file (20 + 24 * i)) (le64 file (20 + 24 * i + 4))
              (le64 file (20 + 24 * i + 12)) (le32 file (20 + 24 * i + 20))) } ↔
      ¬ (slice file 0 8 ≠ magic ∨ file.length < 20 + 24 * le32 file 12)) ∧
    (∀ r, OpenCAWSF file = .ok r → r.TOC.length = le32 file 12) := by
  have hshort : file.length < 8 → slice file 0 8 ≠ magic := by
    intro h8 he
    have hl : (slice file 0 8).length = 8 := by rw [he]; rfl
    unfold slice at hl
    rw [List.length_take, List.length_drop] at hl
    omega
  by_cases hbad : slice file 0 8 ≠ magic ∨ file.length < 20 + 24 * le32 file 12
  · have herr : ∃ e, OpenCAWSF file = .error e := by
      unfold OpenCAWSF
      by_cases h8 : file.length < 8
      · rw [if_pos h8]; exact ⟨_, rfl⟩
      · rw [if_neg h8]
        by_cases hmg : slice file 0 8 ≠ magic
        · rw [if_pos hmg]; exact ⟨_, rfl⟩
        · rw [if_neg hmg]
          by_cases h20 : file.length < 20
          · rw [if_pos h20]; exact ⟨_, rfl⟩
          · rw [if_neg h20]
            have hlen : file.length < 20 + 24 * le32 file 12 := by
              rcases hbad with h | h
              · exact absurd h hmg
              · exact h
            simp only []
            rw [readToc_short file _ 20 (by omega) hlen]
            exact ⟨_, rfl⟩
    obtain ⟨e, he⟩ := herr
    refine ⟨⟨fun _ => hbad, fun _ => ⟨e, he⟩⟩, ⟨?_, fun h => absurd hbad h⟩, ?_⟩
    · intro h
      rw [he] at h
      cases h
    · intro r h
      rw [he] at h
      cases h
  · have hmg : ¬ slice file 0 8 ≠ magic := fun h => hbad (Or.inl h)
    have hlen : 20 + 24 * le32 file 12 ≤ file.length := by
      by_contra h
      exact hbad (Or.inr (by omega))
    have hok : OpenCAWSF file = .ok
        { file := file
          TOC := (List.range (le32 file 12)).map (fun i =>
            TocEntry.mk (le32 file (20 + 24 * i)) (le64 file (20 + 24 * i + 4))
              (le64 file (20 + 24 * i + 12)) (le32 file (20 + 24 * i + 20))) } := by
      unfold OpenCAWSF
      rw [if_neg (by omega), if_neg hmg, if_neg (by omega)]
      simp only []
      rw [readToc_ok file _ 20 hlen]
      rfl
    refine ⟨⟨?_, fun h => absurd h hbad⟩, ⟨fun _ => hbad, fun _ => hok⟩, ?_⟩
    · rintro ⟨e, he⟩
      rw [hok] at he
      cases he
    · intro r h
      rw [hok] at h
      cases h
      rw [List.length_map, List.length_range]

/-- C39 on the bank `testBank` and on the same bank without its last byte, where the scan
stops before the third shard. -/
theorem indexShardBank_scan_witness :
    (∃ recs, IndexShardBank testBank = .ok recs ∧ recs.length = 3 ∧
      ∀ r ∈ recs, 12 ≤ r.Offset ∧ r.Offset + r.Hdr.Csize ≤ testBank.length) ∧
    (∃ recs, IndexShardBank (testBank.dropLast) = .ok recs ∧ recs.length = 2 ∧
      ∀ r ∈ recs, 12 ≤ r.Offset ∧ r.Offset + r.Hdr.Csize ≤ testBank.dropLast.length) := by
  obtain ⟨recs, h1, h2, h3, _⟩ := indexShardBank_scan testBank
  obtain ⟨recs2, k1, k2, k3, _⟩ := indexShardBank_scan testBank.dropLast
  refine ⟨⟨recs, h1, ?_, fun r hr => ⟨(h3 r hr).1, (h3 r hr).2.1⟩⟩,
    ⟨recs2, k1, ?_, fun r hr => ⟨(k3 r hr).1, (k3 r hr).2.1⟩⟩⟩
  · rw [← h2 (testBank.length + 1) (le_refl _)]
    decide
  · rw [← k2 (testBank.dropLast.length + 1) (le_refl _)]
    decide

/-- C35 on the 44-byte file `tinyFile`: it opens with its one TOC entry; without its last byte
and with a wrong first byte it does not open. -/
theorem openCAWSF_spec_witness :
    OpenCAWSF tinyFile = .ok { file := tinyFile, TOC := [TocEntry.mk 3 4096 5 2] } ∧
    (∃ e, OpenCAWSF tinyFile.dropLast = .error e) ∧
    (∃ e, OpenCAWSF (0 :: tinyFile.tail) = .error e) := by
  refine ⟨?_, (openCAWSF_spec tinyFile.dropLast).1.mpr (by decide),
    (openCAWSF_spec (0 :: tinyFile.tail)).1.mpr (by decide)⟩
  rw [(openCAWSF_spec tinyFile).2.1.mpr (by decide)]
  decide

/-! ## Claim on the codebook table -/

/-- C34: `ParseCodebookPool` returns the empty pool for the empty byte string.  For every byte
string `b` it returns an error exactly when `b` is not empty and has fewer than 2 bytes or one
of the `count` declared entries is malformed (its 12-byte header or its `size` data bytes run
past the end of `b`, or `size` is not a multiple of 4); otherwise it returns the pool of the
declared entries, the latest first, and every entry found in the pool under an id is a declared
entry with that id, its `d, m, k` and its `size/4` values read as little-endian `f32`. -/
theorem parseCodebookPool_spec {α : Type} (F : Nat → α) (b : Bytes) :
    ParseCodebookPool F [] = .ok { Entries := [] } ∧
    ((∃ e, ParseCodebookPool F b = .error e) ↔
      b ≠ [] ∧ (b.length < 2 ∨ ∃ i, i < le16 b 0 ∧ entryBad b (entryOffset b 2 i))) ∧
    ((∃ e, ParseCodebookPool F b = .error e) ∨
      ParseCodebookPool F b = .ok
        { Entries := ((List.range (le16 b 0)).map (fun i =>
            entryAt F b (entryOffset b 2 i))).reverse }) ∧
    (∀ (pool : CodebookPool α) (id : Nat) (e : CodebookEntry α),
      ParseCodebookPool F b = .ok pool → pool.find id = some e →
      ∃ i, i < le16 b 0 ∧ entryAt F b (entryOffset b 2 i) = (id, e) ∧ e.ID = id ∧
        e.D = le16 b (entryOffset b 2 i + 2) ∧ e.M = le16 b (entryOffset b 2 i + 4) ∧
        e.K = le16 b (entryOffset b 2 i + 6) ∧
        e.Data = (List.range (le32 b (entryOffset b 2 i + 8) / 4)).map
          (fun j => F (le32 b (entryOffset b 2 i + 12 + 4 * j)))) := by
  have hgood : ¬ (b ≠ [] ∧ (b.length < 2 ∨ ∃ i, i < le16 b 0 ∧ entryBad b (entryOffset b 2 i))) →
      ParseCodebookPool F b = .ok
        { Entries := ((List.range (le16 b 0)).map (fun i =>
            entryAt F b (entryOffset b 2 i))).reverse } := by
    intro hg
    by_cases hb : b = []
    · rw [hb]; rfl
    · have hl : b.length ≠ 0 := fun h => hb (List.length_eq_zero.mp h)
      have h2 : ¬ (b.length < 2 ∨ ∃ i, i < le16 b 0 ∧ entryBad b (entryOffset b 2 i)) :=
        fun h => hg ⟨hb, h⟩
      push_neg at h2
      unfold ParseCodebookPool
      rw [if_neg hl, if_neg (by omega), parseEntries_ok F b _ 2 _ h2.2, List.append_nil]
  have hbad : (b ≠ [] ∧ (b.length < 2 ∨ ∃ i, i < le16 b 0 ∧ entryBad b (entryOffset b 2 i))) →
      ∃ e, ParseCodebookPool F b = .error e := by
    rintro ⟨hb, h⟩
    have hl : b.length ≠ 0 := fun h => hb (List.length_eq_zero.mp h)
    unfold ParseCodebookPool
    rw [if_neg hl]
    by_cases h2 : b.length < 2
    · rw [if_pos h2]; exact ⟨_, rfl⟩
    · rw [if_neg h2]
      rcases h with h | h
      · exact absurd h h2
      · exact parseEntries_err F b _ 2 _ h
  refine ⟨rfl, ⟨?_, hbad⟩, ?_, ?_⟩
  · rintro ⟨e, he⟩
    by_contra hg
    rw [hgood hg] at he
    cases he
  · by_cases hg : b ≠ [] ∧ (b.length < 2 ∨ ∃ i, i < le16 b 0 ∧ entryBad b (entryOffset b 2 i))
    · exact Or.inl (hbad hg)
    · exact Or.inr (hgood hg)
  · intro pool id e hp hf
    have hg : ¬ (b ≠ [] ∧ (b.length < 2 ∨ ∃ i, i < le16 b 0 ∧ entryBad b (entryOffset b 2 i))) := by
      intro hg
      obtain ⟨e2, he2⟩ := hbad hg
      rw [he2] at hp
      cases hp
    rw [hgood hg] at hp
    cases hp
    have hmem := mem_of_lookup _ id e hf
    rw [List.mem_reverse, List.mem_map] at hmem
    obtain ⟨i, hi, hie⟩ := hmem
    refine ⟨i, List.mem_range.mp hi, hie, ?_⟩
    unfold entryAt at hie
    cases hie
    exact ⟨rfl, rfl, rfl, rfl, rfl⟩

set_option maxRecDepth 100000 in
/-- C34 on the table `twoTable`, which declares the entries 7 and 9: the pool holds both, and a
table cut inside the data of its second entry is refused. -/
theorem parseCodebookPool_spec_witness :
    (ParseCodebookPool f32fix twoTable).map (fun pool => pool.Entries.map (fun x => (x.1, x.2.Data)))
      = .ok [(9, [2 ^ 151]), (7, [2 ^ 150, 2 ^ 151])] ∧
    ∃ e, ParseCodebookPool f32fix (twoTable.take 36) = .error e := by
  have h := parseCodebookPool_spec f32fix twoTable
  have h2 := parseCodebookPool_spec f32fix (twoTable.take 36)
  constructor
  · rcases h.2.2.1 with ⟨e, he⟩ | hok
    · exact absurd (h.2.1.mp ⟨e, he⟩) (by decide)
    · rw [hok]
      decide
  · exact h2.2.1.mpr (by decide)

/-! ## Claim on `PQ.Decode` and the packed R payload -/

theorem wide_facts :
    Rect widePQ.M (widePQ.K * widePQ.Dsub) widePQ.Codebooks ∧
    Rect wideCodes.length widePQ.M wideCodes ∧ (∀ row ∈ wideCodes, ∀ c ∈ row, c < widePQ.K) ∧
    wideCodes.length = 2 ^ 31 := by
  have hl : wideCodes.length = 2 ^ 31 := List.length_replicate _ _
  refine ⟨⟨rfl, ?_⟩, ⟨rfl, ?_⟩, ?_, hl⟩
  · intro r hr
    have : r = 0 := by
      have h1 : r < 1 := hr
      omega
    subst this
    show (List.replicate 65535 (0 : Int)).length = 1 * 65535
    rw [List.length_replicate]
  · intro r hr
    unfold wideCodes at hr ⊢
    rw [List.length_replicate] at hr
    rw [List.getD_eq_getElem _ _ (by rw [List.length_replicate]; exact hr),
      List.getElem_replicate]
    rfl
  · intro row hrow c hc
    unfold wideCodes at hrow
    rw [(List.mem_replicate.mp hrow).2] at hc
    rw [List.mem_singleton.mp hc]
    exact Nat.one_pos

set_option maxRecDepth 100000 in
/-- C40, as stated, fails.  For the quantiser `pqTwo` (`M = 2`, `K = 1`) and the code row
`[1, 0]`, whose first code is not below `K`, `Decode` stops with a panic while `decodeR` returns
`[2.0, 2.0]` for the packed payload.  For `pqOne` (`M = 1`, `K = 2`) and two rows of two codes
`Decode` returns `[[1.0], [1.0]]` while `decodeR` returns the error "codes size mismatch".  For
`pqOne`, the code row `[1]` and `rows = 2^32`, `cols = 1` the head holds `rows = 0` and `decodeR`
returns no value at all.  For `pqOne`, the code row `[1]` and `rows = cols = 2^32 - 1`
`decodeR` does not return: `rows*cols` is negative as an `int`.  For `widePQ` (one sub-vector of
65535 values, one centroid) and the `2^31` code rows of `wideCodes` `Decode` returns, and
`decodeR` does not: `n*d` is above the length `make([]float32, n*d)` allocates. -/
theorem decode_counterexample :
    ((1 ≤ pqTwo.M ∧ pqTwo.K ≤ 256 ∧ ∀ cb ∈ pqTwo.Codebooks, cb.length = pqTwo.K * pqTwo.Dsub) ∧
    PQ.Decode pqTwo [[1, 0]] = .error (.panic "slice bounds out of range") ∧
    (packR fixBits 1 2 pqTwo [[1, 0]]).map (fun p => decodeR f32fix p)
      = .ok (1, 2, .ok [2 ^ 151, 2 ^ 151]) ∧
    (1 ≤ pqOne.M ∧ pqOne.K ≤ 256 ∧ ∀ cb ∈ pqOne.Codebooks, cb.length = pqOne.K * pqOne.Dsub) ∧
    PQ.Decode pqOne [[0, 1], [0, 0]] = .ok [[2 ^ 150], [2 ^ 150]] ∧
    (packR fixBits 1 2 pqOne [[0, 1], [0, 0]]).map (fun p => decodeR f32fix p)
      = .ok (0, 0, .error (.error "codes size mismatch")) ∧
    PQ.Decode pqOne [[1]] = .ok [[2 ^ 151]] ∧
    (packR fixBits (2 ^ 32) 1 pqOne [[1]]).map (fun p => decodeR f32fix p)
      = .ok (0, 1, .ok []) ∧
    (packR fixBits (2 ^ 32 - 1) (2 ^ 32 - 1) pqOne [[1]]).map (fun p => decodeR f32fix p)
      = .ok (0, 0, .error (.panic "slice bounds out of range"))) ∧
    (1 ≤ widePQ.M ∧ widePQ.K ≤ 256 ∧
      (∀ cb ∈ widePQ.Codebooks, cb.length = widePQ.K * widePQ.Dsub) ∧
      (∀ row ∈ wideCodes, row.length = widePQ.M ∧ ∀ c ∈ row, c < widePQ.K) ∧
      wideCodes.length = 2 ^ 31) ∧
    ∃ payload out, packR fixBits 1 1 widePQ wideCodes = .ok payload ∧
      PQ.Decode widePQ wideCodes = .ok out ∧
      decodeR f32fix payload = (0, 0, .error (.panic "makeslice: len out of range")) := by
  obtain ⟨w1, w2, w3, w4⟩ := wide_facts
  refine ⟨⟨by decide, by decide, by decide, by decide, by decide, by decide, by decide,
    by decide, by decide⟩, ⟨by decide, by decide, ?_, ?_, w4⟩, ?_⟩
  · intro cb hcb
    rw [List.mem_singleton.mp hcb]
    exact List.length_replicate _ _
  · intro row hrow
    refine ⟨?_, w3 row hrow⟩
    unfold wideCodes at hrow
    rw [(List.mem_replicate.mp hrow).2]
    rfl
  · exact decodeR_packed_wide f32fix fixBits widePQ wideCodes 1 1 (by decide) (by decide) w1 w2
      w3 (by decide) (by decide) (by rw [w4]; norm_num) (by norm_num) (by norm_num)
      (by rw [w4]; unfold maxLenF32; norm_num [widePQ])

/-- C40, amended: for every trained quantizer `pq` (`M >= 1`, `K <= 256`, `M` codebooks of
`K*Dsub` values whose bit patterns read back as the values) and every code list of `n` rows of
`M` codes each, every code below `K`, with `M*Dsub` and `M` below `2^16`, `n`, `rows` and
`cols` below `2^32` and `rows*cols` and `n*d` at most `2^46` (the length `make` allocates): the
payload is packed, `pq.Decode(codes)` returns, and `decodeR` applied to the payload returns the
first `rows*cols` values of the row-by-row concatenation of `pq.Decode(codes)`, zero-filled if
`rows*cols` exceeds `n*d`. -/
theorem decodeR_decode {α : Type} [Zero α] (F : Nat → α) (bitsOf : α → Nat) (pq : PQ α)
    (codes : List (List Nat)) (rows cols : Nat)
    (hM : 1 ≤ pq.M) (hK : pq.K ≤ 256)
    (hcbs : Rect pq.M (pq.K * pq.Dsub) pq.Codebooks)
    (hbits : ∀ cb ∈ pq.Codebooks, ∀ v ∈ cb, F (bitsOf v) = v ∧ bitsOf v < 2 ^ 32)
    (hcodes : Rect codes.length pq.M codes)
    (hlt : ∀ row ∈ codes, ∀ c ∈ row, c < pq.K)
    (hd : pq.M * pq.Dsub < 2 ^ 16) (hm : pq.M < 2 ^ 16) (hn : codes.length < 2 ^ 32)
    (hr : rows < 2 ^ 32) (hc : cols < 2 ^ 32) (hcap : rows * cols ≤ maxLenF32)
    (hblk : codes.length * (pq.M * pq.Dsub) ≤ maxLenF32) :
    ∃ payload out, packR bitsOf rows cols pq codes = .ok payload ∧
      PQ.Decode pq codes = .ok out ∧
      decodeR F payload = (rows, cols, .ok (copyInto (rows * cols) out.flatten)) :=
  decodeR_packed F bitsOf pq codes rows cols hM hK hcbs hbits hcodes hlt hd hm hn hr hc hcap hblk

set_option maxRecDepth 100000 in
/-- C40, amended, on the quantiser `pqOne`, the code rows `[1], [0]` and the shape `1 x 3`:
`Decode` returns `[[2.0], [1.0]]` and `decodeR` returns `[2.0, 1.0, 0]`. -/
theorem decodeR_decode_witness :
    PQ.Decode pqOne [[1], [0]] = .ok [[2 ^ 151], [2 ^ 150]] ∧
    (packR fixBits 1 3 pqOne [[1], [0]]).map (fun p => decodeR f32fix p)
      = .ok (1, 3, .ok [2 ^ 151, 2 ^ 150, 0]) ∧
    ∃ payload out, packR fixBits 1 3 pqOne [[1], [0]] = .ok payload ∧
      PQ.Decode pqOne [[1], [0]] = .ok out ∧
      decodeR f32fix payload = (1, 3, .ok (copyInto (1 * 3) out.flatten)) :=
  ⟨by decide, by decide,
    decodeR_decode f32fix fixBits pqOne [[1], [0]] 1 3 (by decide) (by decide)
      (by unfold Rect; decide) (by decide) (by unfold Rect; decide) (by decide) (by decide)
      (by decide) (by decide) (by decide) (by decide) (by decide) (by decide)⟩

end Crow
